import Mathlib

/-!
# FACT / Furlow VM: scope tables, number arrays and the linearizer

A shallow embedding of `FACT_num.c` (variable tables of a scope, number arrays) and of
`FACT_comp.c` (the intermediate tree and its linearization), followed by the properties
proved about them.

Conventions of the embedding.

* A C string is a `List Char` (the characters before the terminating NUL).
* A C array that travels with its element count (`elems`/`dims`, `num_stack`/`num_stack_size`,
  `children`/`num_children`) is a `List`; the count is its length.
* A nullable pointer is an `Option`.
* A function that may call `FACT_throw_error` returns a `Result`.
-/

set_option autoImplicit false

namespace FACT

/-! ## Strings -/

/-- The C library's `strcmp`: the sign of the first differing character (compared as
unsigned values), a proper prefix being smaller. Only the sign of the result is specified
by C, the model returns -1, 0 or 1. -/
def strcmp : List Char → List Char → Int
  | [], [] => 0
  | [], _ :: _ => -1
  | _ :: _, [] => 1
  | a :: as, b :: bs =>
    if a.toNat < b.toNat then -1
    else if b.toNat < a.toNat then 1
    else strcmp as bs

/-! ## Errors -/

/-- One variadic argument of a `FACT_throw_error` call. -/
inductive err_arg where
  | str (s : List Char)
  | ulong (n : Nat)
deriving DecidableEq, Repr

/-- The error raised by a call `FACT_throw_error (scope, fmt, ...)`: the format string and
its arguments, as written at the call site. -/
structure FACT_error where
  fmt : String
  args : List err_arg
deriving DecidableEq, Repr

/-- Outcome of a C function that may throw: it returns (`ok`), it calls `FACT_throw_error`,
which does not return (`thrown`), or its outcome is not determined by the sources modelled
(`undef`): a read outside an object, or a failure inside a function that is not among the
sources. -/
inductive Result (α : Type) where
  | ok (a : α)
  | thrown (e : FACT_error)
  | undef
deriving DecidableEq, Repr

/-- Whether the call threw. -/
def Result.throws {α : Type} : Result α → Bool
  | .thrown _ => true
  | _ => false

/-! ## Numbers -/

/-- The unified numeric value of `FACT_mpc.c`: the `fp` flag selects between the integer
(`intv`) and the floating point (`fltv`) member. -/
inductive mpc_t where
  | intv (v : Int)
  | fltv (v : Rat)
deriving DecidableEq, Repr

/-- A `struct FACT_num`: name, value, `array_size` and the nullable `array_up` array of the
next dimension. -/
inductive FACT_num where
  | mk (name : List Char) (value : mpc_t) (array_size : Nat)
      (array_up : Option (List FACT_num))
deriving Repr

/-- Field `name`. -/
def FACT_num.name : FACT_num → List Char
  | .mk n _ _ _ => n

/-- Field `value`. -/
def FACT_num.value : FACT_num → mpc_t
  | .mk _ v _ _ => v

/-- Field `array_size`. -/
def FACT_num.array_size : FACT_num → Nat
  | .mk _ _ s _ => s

/-- Field `array_up`. -/
def FACT_num.array_up : FACT_num → Option (List FACT_num)
  | .mk _ _ _ u => u

/-- Assignment to the field `name`. -/
def FACT_num.set_name : FACT_num → List Char → FACT_num
  | .mk _ v s u, n => .mk n v s u

/-- Assignment to the field `array_size`. -/
def FACT_num.set_array_size : FACT_num → Nat → FACT_num
  | .mk n v _ u, s => .mk n v s u

/-- Assignment to the field `array_up`. -/
def FACT_num.set_array_up : FACT_num → Option (List FACT_num) → FACT_num
  | .mk n v s _, u => .mk n v s u

/-- Modelled from the spec: `FACT_alloc_num` (the allocator is not among the sources). A
fresh Number is a scalar: integer zero (`mpc_init`), `array_size = 0`, no `array_up`, and
no name yet (the empty name in this model). -/
def FACT_alloc_num : FACT_num :=
  .mk [] (.intv 0) 0 none

/-! ## Scopes -/

/-- Modelled from the spec: an entry of `scope_stack` (`FACT_types.h` is not among the
sources). Scopes are shared and refer to each other through `up`, so a child is kept as
its name and its address. -/
structure scope_ref where
  name : List Char
  addr : Nat
deriving DecidableEq, Repr

/-- Modelled from the spec: `struct FACT_scope` (`FACT_types.h` is not among the sources):
name, code address, the table `num_stack` of Numbers and the table `scope_stack` of child
scopes. `num_stack_size` is the length of `num_stack`. -/
structure FACT_scope where
  name : List Char
  code : Nat
  num_stack : List FACT_num
  scope_stack : List scope_ref

/-- The element count `*curr->num_stack_size`. -/
def FACT_scope.num_stack_size (curr : FACT_scope) : Nat :=
  curr.num_stack.length

/-- The loop of `FACT_get_local_num`: `low` and `high` are kept as indices into the stack,
`high` never exceeds the element count. -/
def FACT_get_local_num.search (stack : List FACT_num) (name : List Char)
    (low high : Nat) (hh : high ≤ stack.length) : Option FACT_num :=
  if h : low < high then
    let mid := low + (high - low) / 2
    have hm : mid < stack.length := by omega
    let res := strcmp name (stack.get ⟨mid, hm⟩).name
    if res < 0 then
      FACT_get_local_num.search stack name low mid (by omega)
    else if res > 0 then
      FACT_get_local_num.search stack name (mid + 1) high hh
    else
      some (stack.get ⟨mid, hm⟩)
  else
    none
termination_by high - low
decreasing_by all_goals simp_wf; all_goals omega

/-- The function `FACT_get_local_num (curr, name)`: binary search of `num_stack`; `none` is NULL. -/
def FACT_get_local_num (curr : FACT_scope) (name : List Char) : Option FACT_num :=
  FACT_get_local_num.search curr.num_stack name 0 curr.num_stack.length (Nat.le_refl _)

/-- Modelled from the spec: `FACT_get_local_scope` (`FACT_scope.c` is not among the
sources): the entry of the mapping `scope_stack` with the given name, NULL if there is
none. -/
def FACT_get_local_scope (curr : FACT_scope) (name : List Char) : Option scope_ref :=
  curr.scope_stack.find? (fun s => s.name = name)

/-- The loop "Move the var back to the correct place" of `FACT_add_num`, entered with the
index `i` of the new element: the element is swapped with its left neighbour while that
neighbour's name is greater than `name`. Returns the stack and the final `i`. -/
def FACT_add_num.move (name : List Char) : Nat → List FACT_num → List FACT_num × Nat
  | 0, stack => (stack, 0)
  | i + 1, stack =>
    match stack[i]?, stack[i + 1]? with
    | some prev, some hold =>
      if strcmp prev.name name > 0 then
        FACT_add_num.move name i ((stack.set i hold).set (i + 1) prev)
      else
        (stack, i + 1)
    | _, _ => (stack, i + 1)

/-- The function `FACT_add_num (curr, name)`: the scope after the call and the outcome (the Number
returned). The scope is written only after both checks, so it is the scope of the call when
the function throws. -/
def FACT_add_num (curr : FACT_scope) (name : List Char) : FACT_scope × Result FACT_num :=
  if (FACT_get_local_num curr name).isSome then
    (curr, .thrown ⟨"local variable %s already exists; use \"del\" before redefining",
      [.str name]⟩)
  else if (FACT_get_local_scope curr name).isSome then
    (curr, .thrown ⟨"local scope %s already exists; use \"del\" before redefining",
      [.str name]⟩)
  else
    let stack := curr.num_stack ++ [FACT_alloc_num.set_name name]
    let moved := FACT_add_num.move name curr.num_stack_size stack
    match moved.1[moved.2]? with
    | some n => ({ curr with num_stack := moved.1 }, .ok n)
    | none => ({ curr with num_stack := moved.1 }, .undef)

/-- The table is strictly increasing by name, in `strcmp` order. -/
def num_stack_sorted (stack : List FACT_num) : Prop :=
  stack.Pairwise (fun a b => strcmp a.name b.name < 0)

instance (stack : List FACT_num) : Decidable (num_stack_sorted stack) := by
  unfold num_stack_sorted; infer_instance

/-- A left-to-right linear scan of `num_stack` by name equality. -/
def linear_scan (curr : FACT_scope) (name : List Char) : Option FACT_num :=
  curr.num_stack.find? (fun n => n.name = name)

/-- A sequence of `FACT_add_num` calls; a call that throws leaves the scope as it was and
the sequence goes on. -/
def add_nums (curr : FACT_scope) : List (List Char) → FACT_scope
  | [] => curr
  | name :: rest => add_nums (FACT_add_num curr name).1 rest

/-- A scope with the Numbers `a`, `b`, `x` and the child scope `up`. -/
def example_scope : FACT_scope :=
  ⟨"main".toList, 0,
    [FACT_alloc_num.set_name "a".toList, FACT_alloc_num.set_name "b".toList,
      FACT_alloc_num.set_name "x".toList],
    [⟨"up".toList, 0⟩]⟩

/-! ## The parse tree and the intermediate tree (`FACT_comp.c`) -/

/-- Modelled from the spec: the token and node ids `FACT_nterm_t` (`FACT_lexer.h` is not
among the sources); these are the ids the parser and the compiler name. -/
inductive FACT_nterm_t where
  | E_VAR | E_NUM | E_STR_CONST | E_NEG
  | E_ADD | E_SUB | E_MUL | E_DIV | E_MOD
  | E_ADD_AS | E_SUB_AS | E_MUL_AS | E_DIV_AS | E_MOD_AS
  | E_BIT_AND_AS | E_BIT_IOR_AS | E_BIT_XOR_AS
  | E_NE | E_EQ | E_MT | E_ME | E_LT | E_LE
  | E_AND | E_OR | E_ARRAY_ELEM | E_IN | E_FUNC_CALL | E_FUNC_DEF | E_DEFUNC
  | E_RETURN | E_GIVE | E_BREAK | E_SET | E_IMP_DEF | E_CONST
  | E_NUM_DEF | E_SCOPE_DEF | E_LOCAL_CHECK | E_GLOBAL_CHECK
  | E_IF | E_ELSE | E_WHILE | E_FOR | E_CATCH | E_HANDLE | E_THREAD
  | E_OP_CURL | E_CL_CURL | E_OP_PAREN | E_CL_PAREN | E_OP_BRACK | E_CL_BRACK
  | E_COMMA | E_SEMI | E_DQ | E_SQ | E_END
deriving DecidableEq, Repr

/-- Modelled from the spec: a node `struct FACT_tree` of the parser's tree (its declaration
is not among the sources): the token (`id.id`, `id.lexem`), four nullable children and the
nullable `next` sibling. -/
inductive FACT_tree where
  | mk (id : FACT_nterm_t) (lexem : List Char)
      (children0 children1 children2 children3 : Option FACT_tree)
      (next : Option FACT_tree)
deriving Repr

/-- Modelled from the spec: `enum Furlow_opcode` (its declaration is not among the sources);
these are the opcodes of the instruction table that the compiler emits. -/
inductive Furlow_opcode where
  | ADD | SUB | MUL | DIV | MOD | NEG
  | CEQ | CNE | CLT | CLE | CMT | CME
  | CONST | VAR | THIS | REF | SWAP | DROP
  | JMP | JIF | JIT
  | NEW_S | DEF_N | DEF_S | STO | ELEM | SET_F | SET_C
  | USE | EXIT | CALL | RET
deriving DecidableEq, Repr

/-- Register `R_POP` of `FACT_vm.h`. -/
def R_POP : Nat := 0
/-- Register `R_TOP` of `FACT_vm.h`. -/
def R_TOP : Nat := 1
/-- Register `R_TID` of `FACT_vm.h`. -/
def R_TID : Nat := 2
/-- Register `R_I` of `FACT_vm.h`. -/
def R_I : Nat := 3
/-- Register `R_J` of `FACT_vm.h`. -/
def R_J : Nat := 4
/-- Register `R_K` of `FACT_vm.h`. -/
def R_K : Nat := 5
/-- Register `R_A` of `FACT_vm.h`. -/
def R_A : Nat := 6
/-- Register `R_X` of `FACT_vm.h`. -/
def R_X : Nat := 7

/-- One argument slot of an instruction node: `arg_type` with the member of `arg_val` that
it selects. -/
inductive arg_t where
  | NO_ARG
  | REG_VAL (reg : Nat)
  | ADDR_VAL (addr : Nat)
  | LABEL (label : List Char)
deriving DecidableEq, Repr

/-- The `inst` member of `struct inter_node`: opcode and the four argument slots. -/
structure inst_t where
  inst_val : Furlow_opcode
  args0 : arg_t
  args1 : arg_t
  args2 : arg_t
  args3 : arg_t
deriving DecidableEq, Repr

/-- An instruction of a node made by `create_node` (all slots `NO_ARG`, from the `memset`)
in which the opcode and the leading argument slots have then been assigned. -/
def mk_inst (op : Furlow_opcode) (args : List arg_t) : inst_t :=
  ⟨op, args.getD 0 .NO_ARG, args.getD 1 .NO_ARG, args.getD 2 .NO_ARG, args.getD 3 .NO_ARG⟩

/-- The four argument slots in order. -/
def inst_t.args (i : inst_t) : List arg_t :=
  [i.args0, i.args1, i.args2, i.args3]

/-- A `struct inter_node`: a single instruction or a grouping of nullable children, both
with the nullable `next` link. -/
inductive inter_node where
  | instruction (inst : inst_t) (next : Option inter_node)
  | grouping (children : List (Option inter_node)) (next : Option inter_node)
deriving Repr

/-- The assignment `res->next = n`. -/
def inter_node.set_next : inter_node → Option inter_node → inter_node
  | .instruction i _, n => .instruction i n
  | .grouping c _, n => .grouping c n

/-- A fresh instruction node (no `next`) as a child pointer. -/
def inode (op : Furlow_opcode) (args : List arg_t) : Option inter_node :=
  some (.instruction (mk_inst op args) none)

/-- The C library's `isdigit` in the C locale. -/
def isdigit (c : Char) : Bool :=
  '0'.toNat ≤ c.toNat ∧ c.toNat ≤ '9'.toNat

/-- The C library's `tolower` in the C locale. -/
def tolower (c : Char) : Char :=
  if 'A'.toNat ≤ c.toNat ∧ c.toNat ≤ 'Z'.toNat then Char.ofNat (c.toNat + 32) else c

/-- The character `tok[i]`, the terminating NUL included. -/
def char_at (tok : List Char) (i : Nat) : Char :=
  tok.getD i (Char.ofNat 0)

/-- The `for` loop of `is_num`, over the characters from index `i` on; `none` when the loop
runs to the end of the string, `some false` when it returns false. -/
def is_num.loop (hex : Bool) : List Char → Bool → Option Bool
  | [], _ => none
  | c :: rest, flp =>
    if c = '.' then
      if flp || rest.isEmpty then some false
      else is_num.loop hex rest true
    else if !isdigit c then
      if !hex || (tolower c).toNat < 'a'.toNat || (tolower c).toNat > 'f'.toNat then some false
      else is_num.loop hex rest flp
    else is_num.loop hex rest flp

/-- The function `is_num (tok)`: whether a token is a valid number. -/
def is_num (tok : List Char) : Bool :=
  let hex : Bool := char_at tok 0 = '0' ∧ tolower (char_at tok 1) = 'x'
  match is_num.loop hex (tok.drop (if hex then 2 else 0)) false with
  | some b => b
  | none => if hex ∧ char_at tok 2 = Char.ofNat 0 then false else true

/-- The `lookup_table` of `compile_tree`; `none` for the ids it has no entry for. -/
def lookup_table : FACT_nterm_t → Option Furlow_opcode
  | .E_ADD => some .ADD
  | .E_SUB => some .SUB
  | .E_MUL => some .MUL
  | .E_DIV => some .DIV
  | .E_MOD => some .MOD
  | .E_ADD_AS => some .ADD
  | .E_SUB_AS => some .SUB
  | .E_MUL_AS => some .MUL
  | .E_DIV_AS => some .DIV
  | .E_MOD_AS => some .MOD
  | .E_NE => some .CNE
  | .E_EQ => some .CEQ
  | .E_MT => some .CMT
  | .E_ME => some .CME
  | .E_LT => some .CLT
  | .E_LE => some .CLE
  | _ => none

/-- The loop `for (n = curr->children[0]; n != NULL; n = n->next) dims++`. -/
def count_dims : Option FACT_tree → Nat
  | none => 0
  | some (.mk _ _ _ _ _ _ next) => count_dims next + 1

/-- The `do ... while ((dims /= 10) > 0)` loop of `compile_tree`: the decimal digits of
`dims`, least significant first. -/
def dims_str.digits (dims : Nat) : List Char :=
  Char.ofNat (dims % 10 + '0'.toNat) ::
    (if dims / 10 > 0 then dims_str.digits (dims / 10) else [])
termination_by dims
decreasing_by omega

/-- The label `dims_str` of `compile_tree`: the digits, then reversed in place. -/
def dims_str (dims : Nat) : List Char :=
  (dims_str.digits dims).reverse

/-- The function `begin_temp_scope ()`. -/
def begin_temp_scope : Option inter_node :=
  some (.grouping
    [inode .THIS [],
     inode .REF [.REG_VAL R_POP, .REG_VAL R_A],
     inode .CONST [.LABEL "0".toList],
     inode .NEW_S [.REG_VAL R_TOP],
     inode .USE [.REG_VAL R_POP],
     inode .DEF_S [.REG_VAL R_POP, .LABEL "up".toList],
     inode .STO [.REG_VAL R_A, .REG_VAL R_POP]] none)

/-- The function `end_temp_scope ()`. -/
def end_temp_scope : Option inter_node :=
  some (.grouping [inode .EXIT []] none)

/-- The function `set_return_val ()`. -/
def set_return_val : Option inter_node :=
  inode .REF [.REG_VAL R_POP, .REG_VAL R_X]

/-- The function `compile_args (curr)` on a nullable tree: outer `none` when the C code dereferences a
NULL `children[0]`, inner `none` for the NULL result. -/
def compile_args : Option FACT_tree → Option (Option inter_node)
  | none => some none
  | some (.mk id _ c0 c1 _ _ _) =>
    match c0 with
    | none => none
    | some (.mk _ lexem0 _ _ _ _ _) =>
      match compile_args c1 with
      | none => none
      | some nx =>
        some (some (.grouping
          [inode .CONST [.LABEL "0".toList],
           inode (if id = .E_NUM_DEF then .DEF_N else .DEF_S)
             [.REG_VAL R_POP, .LABEL lexem0],
           inode .SWAP [],
           inode .STO [.REG_VAL R_POP, .REG_VAL R_POP]] nx))

mutual
/-- The function `compile_tree (curr)` on a node: `none` when the C code reaches `abort ()` or
dereferences a NULL child. -/
def compile_tree : FACT_tree → Option inter_node
  | .mk id lexem c0 c1 c2 c3 next =>
    let res : Option inter_node := (match id with
      | .E_VAR =>
        if strcmp lexem "this".toList = 0 then
          some (.instruction (mk_inst .THIS []) none)
        else
          some (.instruction
            (mk_inst (if is_num lexem then .CONST else .VAR) [.LABEL lexem]) none)
      | .E_NEG => do
        let k0 ← compile_tree_opt c0
        some (.grouping [k0, inode .NEG [.REG_VAL R_TOP]] none)
      | .E_ADD | .E_SUB | .E_MUL | .E_DIV | .E_MOD
      | .E_NE | .E_EQ | .E_MT | .E_ME | .E_LT | .E_LE => do
        let k1 ← compile_tree_opt c1
        let k2 ← compile_tree_opt c0
        let op ← lookup_table id
        some (.grouping
          [inode .CONST [.LABEL "0".toList], k1, k2,
           inode op [.REG_VAL R_POP, .REG_VAL R_POP, .REG_VAL R_TOP]] none)
      | .E_ADD_AS | .E_SUB_AS | .E_MUL_AS | .E_DIV_AS | .E_MOD_AS => do
        let k0 ← compile_tree_opt c1
        let k1 ← compile_tree_opt c0
        let op ← lookup_table id
        some (.grouping
          [k0, k1,
           inode .REF [.REG_VAL R_TOP, .REG_VAL R_A],
           inode .SWAP [],
           inode op [.REG_VAL R_A, .REG_VAL R_POP, .REG_VAL R_TOP]] none)
      | .E_AND => do
        let k1 ← compile_tree_opt c0
        let k3 ← compile_tree_opt c1
        some (.grouping
          [inode .CONST [.LABEL "0".toList], k1,
           inode .JIF [.REG_VAL R_POP, .ADDR_VAL 6], k3,
           inode .JIF [.REG_VAL R_POP, .ADDR_VAL 6],
           inode .DROP [],
           inode .CONST [.LABEL "1".toList]] none)
      | .E_OR => do
        let k1 ← compile_tree_opt c0
        let k3 ← compile_tree_opt c1
        some (.grouping
          [inode .CONST [.LABEL "1".toList], k1,
           inode .JIT [.REG_VAL R_POP, .ADDR_VAL 6], k3,
           inode .JIT [.REG_VAL R_POP, .ADDR_VAL 6],
           inode .DROP [],
           inode .CONST [.LABEL "0".toList]] none)
      | .E_ARRAY_ELEM => do
        let k0 ← compile_tree_opt c0
        let k2 ← compile_tree_opt c1
        some (.grouping
          [k0, inode .CONST [.LABEL "1".toList], k2,
           inode .ELEM [.REG_VAL R_POP, .REG_VAL R_POP]] none)
      | .E_IN => do
        let k0 ← compile_tree_opt c0
        let k2 ← compile_tree_opt c1
        some (.grouping
          [k0, inode .USE [.REG_VAL R_POP], k2, inode .EXIT [], inode .DROP []] none)
      | .E_FUNC_CALL => do
        let k0 ← compile_tree_opt c0
        let k3 ← compile_tree_opt c1
        some (.grouping
          [k0,
           inode .CONST [.LABEL "0".toList],
           inode .NEW_S [.REG_VAL R_POP],
           k3,
           inode .REF [.REG_VAL R_POP, .REG_VAL R_A],
           inode .USE [.REG_VAL R_POP],
           inode .CONST [.LABEL "0".toList],
           inode .DEF_S [.REG_VAL R_POP, .LABEL "up".toList],
           inode .STO [.REG_VAL R_A, .REG_VAL R_POP],
           inode .EXIT [],
           -- children[10]: `node_type` keeps the 0 of `memset`, which is INSTRUCTION
           inode .SET_F [.REG_VAL R_A, .REG_VAL R_TOP],
           inode .CALL [.REG_VAL R_POP]] none)
      | .E_FUNC_DEF => do
        let k1 ← compile_args c1
        let k2 ← compile_tree_opt c2
        let k5 ← compile_tree_opt c0
        some (.grouping
          [inode .JMP [.ADDR_VAL 4], k1, k2,
           inode .CONST [.LABEL "0".toList],
           inode .RET [],
           k5,
           inode .SET_C [.REG_VAL R_TOP, .ADDR_VAL 1]] none)
      | .E_RETURN => do
        let k0 ← compile_tree_opt c0
        some (.grouping [k0, inode .RET []] none)
      | .E_SET => do
        let k0 ← compile_tree_opt c0
        let k1 ← compile_tree_opt c1
        some (.grouping [k0, k1, inode .STO [.REG_VAL R_POP, .REG_VAL R_TOP]] none)
      | .E_NUM_DEF | .E_SCOPE_DEF =>
        match c1 with
        | none => none
        | some (.mk _ lexem1 _ _ _ _ _) =>
          if count_dims c0 = 0 then
            some (.grouping
              [inode .CONST [.LABEL "0".toList],
               inode (if id = .E_NUM_DEF then .DEF_N else .DEF_S)
                 [.REG_VAL R_POP, .LABEL lexem1]] none)
          else do
            let k0 ← compile_tree_opt c0
            some (.grouping
              [k0,
               inode .CONST [.LABEL (dims_str (count_dims c0))],
               inode (if id = .E_NUM_DEF then .DEF_N else .DEF_S)
                 [.REG_VAL R_POP, .LABEL lexem1]] none)
      | .E_IF =>
        if c2.isSome then do
          let k0 ← compile_tree_opt c0
          let k2 ← compile_tree_opt c1
          let k4 ← compile_tree_opt c2
          some (.grouping
            [k0, inode .JIF [.REG_VAL R_POP, .ADDR_VAL 3], k2,
             inode .JMP [.ADDR_VAL 4], k4] none)
        else do
          let k0 ← compile_tree_opt c0
          let k2 ← compile_tree_opt c1
          some (.grouping [k0, inode .JIF [.REG_VAL R_POP, .ADDR_VAL 2], k2] none)
      | .E_WHILE => do
        let k0 ← compile_tree_opt c0
        let k2 ← compile_tree_opt c1
        some (.grouping
          [k0, inode .JIF [.REG_VAL R_POP, .ADDR_VAL 3], k2, inode .JMP [.ADDR_VAL 0]] none)
      | .E_FOR => do
        let k1 ← compile_tree_opt c0
        let k2 ← compile_tree_opt c1
        let k4 ← (match c3 with
          | none => none
          | some (.mk .E_OP_CURL _ c30 _ _ _ _) => compile_tree_opt c30
          | some t3 => (compile_tree t3).bind (fun n => some (some n)))
        let k5 ← compile_tree_opt c2
        some (.grouping
          [begin_temp_scope, k1, k2,
           (if c1.isSome then inode .JIF [.REG_VAL R_POP, .ADDR_VAL 7] else none),
           k4, k5,
           inode .DROP [],
           inode .JMP [.ADDR_VAL 2],
           end_temp_scope,
           set_return_val] none)
      | .E_OP_CURL => do
        let k1 ← compile_tree_opt c0
        some (.grouping [begin_temp_scope, k1, end_temp_scope] none)
      | .E_END | .E_SEMI | .E_CL_CURL =>
        some (.instruction (mk_inst .REF [.REG_VAL R_POP, .REG_VAL R_X]) none)
      | _ => none)
    match res, compile_tree_opt next with
    | some r, some nx => some (r.set_next nx)
    | _, _ => none
/-- The function `compile_tree (curr)` on a nullable tree: the inner `none` is the NULL result for a
NULL tree. -/
def compile_tree_opt : Option FACT_tree → Option (Option inter_node)
  | none => some none
  | some t =>
    match compile_tree t with
    | none => none
    | some n => some (some n)
end

/-! ## Linearization (`load`, `weight`, `spread`) -/

mutual
/-- The function `weight (curr)` on a node: the instruction count of the node, of its descendants and of
its `next` chain. -/
def weight : inter_node → Nat
  | .instruction _ next => 1 + weight_opt next
  | .grouping children next => weight_children children + weight_opt next
/-- The function `weight (curr)` on a nullable node: 0 for NULL. -/
def weight_opt : Option inter_node → Nat
  | none => 0
  | some n => weight n
/-- The loop of `weight` over the children of a grouping. -/
def weight_children : List (Option inter_node) → Nat
  | [] => 0
  | c :: cs => weight_opt c + weight_children cs
end

/-- The function `spread (rop, op)`: the four bytes written at `rop`. -/
def spread (op : Nat) : List Nat :=
  [(op >>> 24) &&& 0xFF, (op >>> 16) &&& 0xFF, (op >>> 8) &&& 0xFF, op &&& 0xFF]

/-- The encoded instruction `fmt` handed to `Furlow_add_instruction`: the opcode stored in
`fmt[0]` and the bytes that follow it. -/
structure fmt_t where
  inst_val : Furlow_opcode
  operands : List Nat
deriving DecidableEq, Repr

/-- Modelled from the spec: `Furlow_offset` (`FACT_vm.c` is not among the sources). The
program store is the sequence of the instructions added so far and the offset is the
address at which the next added instruction is stored. -/
def Furlow_offset (prog : List fmt_t) : Nat :=
  prog.length

/-- Modelled from the spec: `Furlow_add_instruction` (`FACT_vm.c` is not among the
sources): the program store is append-only. -/
def Furlow_add_instruction (prog : List fmt_t) (fmt : fmt_t) : List fmt_t :=
  prog ++ [fmt]

/-- The loop `for (k = ...; ...; k++) addr += weight (children[k])` of `load`, with `n`
iterations left; `size_t` arithmetic is modulo 2^64. `none` when `children[k]` is read
outside the array. -/
def load.add_loop (children : List (Option inter_node)) : Nat → Nat → Nat → Option Nat
  | _, 0, addr => some addr
  | k, n + 1, addr =>
    match children[k]? with
    | none => none
    | some c => load.add_loop children (k + 1) n ((addr + weight_opt c) % 2 ^ 64)

/-- The loop `for (k = ...; ...; k++) addr -= weight (children[k])` of `load`, with `n`
iterations left; `size_t` arithmetic is modulo 2^64. -/
def load.sub_loop (children : List (Option inter_node)) : Nat → Nat → Nat → Option Nat
  | _, 0, addr => some addr
  | k, n + 1, addr =>
    match children[k]? with
    | none => none
    | some c =>
      load.sub_loop children (k + 1) n ((addr + (2 ^ 64 - weight_opt c % 2 ^ 64)) % 2 ^ 64)

/-- The address computed in the `ADDR_VAL` case of `load` for the child at index `j` of a
grouping with the given children, the operand naming the child index `target`, when
`Furlow_offset ()` is `off`: `k` runs over `j..target` when `j < target` and over
`target..j-1` otherwise. -/
def load.resolve (children : List (Option inter_node)) (off j target : Nat) : Option Nat :=
  if j < target then
    load.add_loop children j (target + 1 - j) off
  else
    load.sub_loop children target (j - target) off

/-- The loop of `load` over the argument slots, `fmt` being the bytes after the opcode
written so far. `up` is the grouping whose child is being loaded, given by its children and
the index `j` at which the instruction is found in them (the nodes of a tree are distinct
objects, so the pointer search stops at the index of the child being loaded). `none` when
the code reaches `abort ()`, fails its assertion or reads outside `children`. -/
def load.args (up : Option (List (Option inter_node) × Nat)) (off : Nat) :
    List arg_t → List Nat → Option (List Nat)
  | [], fmt => some fmt
  | .REG_VAL reg :: rest, fmt => load.args up off rest (fmt ++ [reg])
  | .ADDR_VAL addr :: rest, fmt =>
    match up with
    | none => none
    | some (children, j) =>
      if addr = j then none
      else
        match load.resolve children off j addr with
        | none => none
        | some a => load.args up off rest (fmt ++ spread a)
  | .LABEL label :: _, fmt => some (fmt ++ label.map Char.toNat ++ [0])
  | .NO_ARG :: _, fmt => some fmt

/-- The encoding of one instruction node by `load`. -/
def load.inst (inst : inst_t) (up : Option (List (Option inter_node) × Nat)) (off : Nat) :
    Option fmt_t :=
  match load.args up off inst.args [] with
  | none => none
  | some bytes => some ⟨inst.inst_val, bytes⟩

mutual
/-- The function `load (curr, up)` on a node, from the program `prog`: the program after the call,
`none` when the code aborts. -/
def load : inter_node → Option (List (Option inter_node) × Nat) → List fmt_t →
    Option (List fmt_t)
  | .instruction inst next, up, prog =>
    match load.inst inst up (Furlow_offset prog) with
    | none => none
    | some fmt => load_opt next none (Furlow_add_instruction prog fmt)
  | .grouping children next, _, prog =>
    match load_children children children 0 prog with
    | none => none
    | some prog1 => load_opt next none prog1
/-- The function `load (curr, up)` on a nullable node: nothing is done for NULL. -/
def load_opt : Option inter_node → Option (List (Option inter_node) × Nat) → List fmt_t →
    Option (List fmt_t)
  | none, _, prog => some prog
  | some n, up, prog => load n up prog
/-- The loop `for (i = 0; i < num_children; i++) load (children[i], curr)` from index `i`
on, `all` being the children of `curr`. -/
def load_children (all : List (Option inter_node)) :
    List (Option inter_node) → Nat → List fmt_t → Option (List fmt_t)
  | [], _, prog => some prog
  | c :: cs, i, prog =>
    match load_opt c (some (all, i)) prog with
    | none => none
    | some prog1 => load_children all cs (i + 1) prog1
end

/-- The function `FACT_compile (tree)`: compile and load. -/
def FACT_compile (tree : Option FACT_tree) (prog : List fmt_t) : Option (List fmt_t) :=
  match compile_tree_opt tree with
  | none => none
  | some node => load_opt node none prog

/-- A variable or literal leaf of the parse tree. -/
def tree_var (lexem : String) : FACT_tree :=
  .mk .E_VAR lexem.toList none none none none none

/-- The parse tree of `x and y`. -/
def example_and : FACT_tree :=
  .mk .E_AND "and".toList (some (tree_var "x")) (some (tree_var "y")) none none none

/-- The parse tree of `if (x) y`. -/
def example_if : FACT_tree :=
  .mk .E_IF "if".toList (some (tree_var "x")) (some (tree_var "y")) none none none

/-- The sum of `weight (children[k])` for `k` in the half-open range `[lo, hi)`. -/
def weight_sum (children : List (Option inter_node)) (lo hi : Nat) : Nat :=
  ((List.range' lo (hi - lo)).map (fun k => weight_opt (children.getD k none))).sum

/-- The children of the grouping that `compile_tree` builds for `if (x) y`. -/
def example_if_children : List (Option inter_node) :=
  [inode .VAR [.LABEL "x".toList],
   inode .JIF [.REG_VAL R_POP, .ADDR_VAL 2],
   inode .VAR [.LABEL "y".toList]]

/-- The children of the grouping that `compile_tree` builds for `while (x) y`. -/
def example_while_children : List (Option inter_node) :=
  [inode .VAR [.LABEL "x".toList],
   inode .JIF [.REG_VAL R_POP, .ADDR_VAL 3],
   inode .VAR [.LABEL "y".toList],
   inode .JMP [.ADDR_VAL 0]]

/-- The first child `children[0]` of a parse tree node. -/
def FACT_tree.children0 : FACT_tree → Option FACT_tree
  | .mk _ _ c0 _ _ _ _ => c0

/-- Whether an argument slot holds an address. -/
def arg_t.is_addr : arg_t → Bool
  | .ADDR_VAL _ => true
  | _ => false

/-- A nullable node that `load` accepts under every parent and from every program. -/
def loads (o : Option inter_node) : Prop :=
  ∀ up prog, (load_opt o up prog).isSome = true

/-! ## The part of the virtual machine that the modelled functions touch -/

/-- The sign returned by a GMP comparison: negative, zero or positive. -/
def cmp_sign (d : Int) : Int :=
  if d < 0 then -1 else if d = 0 then 0 else 1

/-- The function `mpc_cmp_ui (op1, op2)` of `FACT_mpc.c`: `mpf_cmp_ui` on a float, `mpz_cmp_ui` on an
integer. -/
def mpc_cmp_ui (op1 : mpc_t) (op2 : Nat) : Int :=
  match op1 with
  | .fltv q => if q < (op2 : Rat) then -1 else if q = (op2 : Rat) then 0 else 1
  | .intv v => cmp_sign (v - (op2 : Int))

/-- The function `mpc_get_ui (op)` of `FACT_mpc.c`: `mpz_get_ui` yields the least significant bits of the
absolute value that fit an `unsigned long`, `mpf_get_ui` truncates the fraction first. -/
def mpc_get_ui (op : mpc_t) : Nat :=
  match op with
  | .fltv q => (q.num.natAbs / q.den) % 2 ^ 64
  | .intv v => v.natAbs % 2 ^ 64

/-- The sign test `mpz_sgn (elem_value->value)` of `FACT_num.c`: the sign of the numeric
value. -/
def mpc_sgn (op : mpc_t) : Int :=
  match op with
  | .fltv q => if q < 0 then -1 else if q = 0 then 0 else 1
  | .intv v => cmp_sign v

/-- The constant `ULONG_MAX` (64-bit `unsigned long`). -/
def ULONG_MAX : Nat := 2 ^ 64 - 1

/-- Modelled from the spec: the unified value `FACT_t` (its declaration is not among the
sources): a tagged reference to a Number or to a Scope. -/
inductive FACT_t where
  | num (n : FACT_num)
  | scope (s : scope_ref)

/-- Modelled from the spec: the part of `struct FACT_thread` that the modelled functions
use: the value stack (top first), the scratch registers, and the `ip` and `this` of the top
call-stack frame. -/
structure FACT_thread where
  vstack : List FACT_t
  registers : Nat → Option FACT_t
  ip : Nat
  this : FACT_scope

/-- Modelled from the spec: `push_v` (`FACT_vm.c` is not among the sources): push a value on
the value stack. -/
def push_v (t : FACT_thread) (v : FACT_t) : FACT_thread :=
  { t with vstack := v :: t.vstack }

/-- Modelled from the spec: `Furlow_reg_val (reg, NUM_TYPE)` (`FACT_vm.c` is not among the
sources): register `R_POP` pops the value stack and yields that value, `R_TOP` yields the
top of the value stack, any other index yields the register of that index. `none` where
the spec does not say what happens: an empty stack, an unset register, a value that is not
a Number. -/
def Furlow_reg_val (t : FACT_thread) (reg : Nat) : Option (FACT_num × FACT_thread) :=
  if reg = R_POP then
    match t.vstack with
    | .num n :: rest => some (n, { t with vstack := rest })
    | _ => none
  else if reg = R_TOP then
    match t.vstack with
    | .num n :: _ => some (n, t)
    | _ => none
  else
    match t.registers reg with
    | some (.num n) => some (n, t)
    | _ => none

/-- Modelled from the spec: the address that the virtual machine reads from a four-byte
big-endian address operand. -/
def decode_addr : List Nat → Option Nat
  | [b0, b1, b2, b3] => some (b0 * 2 ^ 24 + b1 * 2 ^ 16 + b2 * 2 ^ 8 + b3)
  | _ => none

/-- Modelled from the spec: one tick on a conditional jump `JIF r addr` (jump when the
Number read through `r` is zero) or `JIT r addr` (jump when it is not zero); without the
jump the instruction pointer advances to the next instruction. `none` for another opcode,
malformed operands, or a register read the spec does not describe. -/
def Furlow_run_jump (i : fmt_t) (t : FACT_thread) : Option FACT_thread :=
  match i.operands with
  | reg :: addr =>
    match Furlow_reg_val t reg, decode_addr addr with
    | some (v, t1), some a =>
      let zero : Bool := mpc_cmp_ui v.value 0 = 0
      if i.inst_val = .JIF then
        some { t1 with ip := if zero then a else t.ip + 1 }
      else if i.inst_val = .JIT then
        some { t1 with ip := if zero then t.ip + 1 else a }
      else none
    | _, _ => none
  | [] => none

/-- What is claimed of the code emitted for a short-circuit operator whose operands are the
parse trees `l` and `r`, compiled to the node `n` and loaded from the program `prog`
(`op` is `JIF` with labels "0", "1" for `and`, `JIT` with labels "1", "0" for `or`):
the code is `CONST la`, the code of `l`, `op R_POP E`, the code of `r`, `op R_POP E`,
`DROP`, `CONST lb`, followed by the code of the `next` chain, where `E` is the address of
the instruction that follows the final `CONST lb`; and a thread that executes the first
jump with the value of `l` on top of the stack, when that jump is taken (the value is zero
for `JIF`, not zero for `JIT`), continues at `E`, past every instruction emitted for `r`,
with the value popped and what was below it (the default `CONST la`) on top. -/
def short_circuit_emitted (op : Furlow_opcode) (la lb : List Char)
    (l r next : Option FACT_tree) (n : inter_node) (prog : List fmt_t) : Prop :=
  ∃ (kl kr knext : Option inter_node) (children : List (Option inter_node))
    (code_l code_r code_next : List fmt_t) (E : Nat),
    compile_tree_opt l = some kl ∧ compile_tree_opt r = some kr ∧
    compile_tree_opt next = some knext ∧ n = .grouping children knext ∧
    load_opt kl (some (children, 1)) (prog ++ [⟨.CONST, la.map Char.toNat ++ [0]⟩])
      = some (prog ++ [⟨.CONST, la.map Char.toNat ++ [0]⟩] ++ code_l) ∧
    load_opt kr (some (children, 3))
        (prog ++ [⟨.CONST, la.map Char.toNat ++ [0]⟩] ++ code_l ++ [⟨op, R_POP :: spread E⟩])
      = some (prog ++ [⟨.CONST, la.map Char.toNat ++ [0]⟩] ++ code_l
          ++ [⟨op, R_POP :: spread E⟩] ++ code_r) ∧
    load n none prog
      = some (prog ++ [⟨.CONST, la.map Char.toNat ++ [0]⟩] ++ code_l
          ++ [⟨op, R_POP :: spread E⟩] ++ code_r
          ++ [⟨op, R_POP :: spread E⟩, ⟨.DROP, []⟩, ⟨.CONST, lb.map Char.toNat ++ [0]⟩]
          ++ code_next) ∧
    E = @List.length fmt_t (prog ++ [⟨.CONST, la.map Char.toNat ++ [0]⟩] ++ code_l
          ++ [⟨op, R_POP :: spread E⟩] ++ code_r
          ++ [⟨op, R_POP :: spread E⟩, ⟨.DROP, []⟩,
              ⟨.CONST, lb.map Char.toNat ++ [0]⟩]) ∧
    (E < 2 ^ 32 → ∀ (t : FACT_thread) (v : FACT_num) (d : FACT_t) (rest : List FACT_t),
      t.vstack = .num v :: d :: rest →
      ((op = .JIF ∧ mpc_cmp_ui v.value 0 = 0) ∨ (op = .JIT ∧ mpc_cmp_ui v.value 0 ≠ 0)) →
      Furlow_run_jump ⟨op, R_POP :: spread E⟩ t
        = some { t with vstack := d :: rest, ip := E })

/-! ## Number arrays (`FACT_num.c`) -/

/-- Modelled from the spec: `FACT_alloc_num_array (n)` (the allocator is not among the
sources): an array of `n` fresh Numbers. -/
def FACT_alloc_num_array (n : Nat) : List FACT_num :=
  List.replicate n FACT_alloc_num

/-- The function `make_num_array (name, dims, dim_sizes, curr_dim)`, `dims` being the length of
`dim_sizes`; `none` is the NULL result. `dim_sizes[curr_dim + 1]` is read only after the
recursive result was found not to be NULL, that is for `curr_dim + 1 < dims`. -/
def make_num_array (name : List Char) (dim_sizes : List Nat) (curr_dim : Nat) :
    Option (List FACT_num) :=
  if h : curr_dim ≥ dim_sizes.length then none
  else
    let root := FACT_alloc_num_array (dim_sizes.get ⟨curr_dim, by omega⟩)
    some (root.map fun r =>
      let up := make_num_array name dim_sizes (curr_dim + 1)
      let r1 := (r.set_name name).set_array_up up
      if up.isSome then r1.set_array_size (dim_sizes.getD (curr_dim + 1) 0) else r1)
termination_by dim_sizes.length - curr_dim

/-- The function `get_element (base, dims, elems, curr_dim)`, `dims` being the length of `elems`.
`undef` when `array_up` is NULL or shorter than the index read from it. -/
def get_element (base : FACT_num) (elems : List Nat) (curr_dim : Nat) : Result FACT_num :=
  if h : curr_dim ≥ elems.length then .ok base
  else
    let e := elems.get ⟨curr_dim, by omega⟩
    if base.array_size ≤ e then
      .thrown ⟨"out of bounds error; expected value in [0, %lu), but value is %lu",
        [.ulong base.array_size, .ulong e]⟩
    else if base.array_size = 1 then
      if curr_dim + 1 ≠ elems.length then
        .thrown ⟨"out of bounds error; unexpected dimensions", []⟩
      else .ok base
    else
      match base.array_up with
      | none => .undef
      | some up =>
        match up[e]? with
        | none => .undef
        | some b => get_element b elems (curr_dim + 1)
termination_by elems.length - curr_dim

/-- The loop of `FACT_def_num` that pops the dimension sizes, with `n` iterations left and
the sizes popped so far. -/
def FACT_def_num.pop_sizes : Nat → FACT_thread → List Nat → FACT_thread × Result (List Nat)
  | 0, t, dim_sizes => (t, .ok dim_sizes)
  | n + 1, t, dim_sizes =>
    match Furlow_reg_val t R_POP with
    | none => (t, .undef)
    | some (v, t1) =>
      if mpc_cmp_ui v.value ULONG_MAX > 0 ∨ mpc_sgn v.value < 0 then
        (t1, .thrown ⟨"out of bounds error", []⟩)
      else if mpc_get_ui v.value ≤ 1 then
        (t1, .thrown ⟨"dimension size must be larger than 1", []⟩)
      else
        FACT_def_num.pop_sizes n t1 (dim_sizes ++ [mpc_get_ui v.value])

/-- The index in `num_stack` of the Number that `FACT_add_num` returns. -/
def FACT_add_num.slot (curr : FACT_scope) (name : List Char) : Nat :=
  (FACT_add_num.move name curr.num_stack_size
    (curr.num_stack ++ [FACT_alloc_num.set_name name])).2

/-- The function `FACT_def_num (args, anonymous)`: `args0` is the register `args[0]`, `name` the string
`args + 1`. Returns the thread after the call and the outcome. The new Number is written
through the pointer `push_val.ap`: for a named variable this is the Number standing in
`num_stack`, which is updated with it. -/
def FACT_def_num (t : FACT_thread) (args0 : Nat) (name : List Char) (anonymous : Bool) :
    FACT_thread × Result Unit :=
  match Furlow_reg_val t args0 with
  | none => (t, .undef)
  | some (cnt, t1) =>
    let dimensions := mpc_get_ui cnt.value
    let added : FACT_scope × Result FACT_num :=
      if anonymous then (t1.this, .ok FACT_alloc_num) else FACT_add_num t1.this name
    let t2 : FACT_thread := { t1 with this := added.1 }
    match added.2 with
    | .thrown e => (t2, .thrown e)
    | .undef => (t2, .undef)
    | .ok num =>
      if dimensions = 0 then
        (push_v t2 (.num num), .ok ())
      else
        match FACT_def_num.pop_sizes dimensions t2 [] with
        | (t3, .thrown e) => (t3, .thrown e)
        | (t3, .undef) => (t3, .undef)
        | (t3, .ok dim_sizes) =>
          let arr := (num.set_array_up (make_num_array num.name dim_sizes 0)).set_array_size
            (dim_sizes.getD 0 0)
          let this3 : FACT_scope :=
            if anonymous then t3.this
            else { t3.this with
              num_stack := t3.this.num_stack.set (FACT_add_num.slot t1.this name) arr }
          (push_v { t3 with this := this3 } (.num arr), .ok ())

/-- The loop of `FACT_get_num_elem` that pops the element indices, with `n` iterations left
and the indices popped so far. -/
def FACT_get_num_elem.pop_elems : Nat → FACT_thread → List Nat →
    FACT_thread × Result (List Nat)
  | 0, t, elems => (t, .ok elems)
  | n + 1, t, elems =>
    match Furlow_reg_val t R_POP with
    | none => (t, .undef)
    | some (v, t1) =>
      if mpc_cmp_ui v.value ULONG_MAX > 0 ∨ mpc_sgn v.value < 0 then
        (t1, .thrown ⟨"out of bounds error", []⟩)
      else
        FACT_get_num_elem.pop_elems n t1 (elems ++ [mpc_get_ui v.value])

/-- The function `FACT_get_num_elem (base, args)`: `args0` is the register `args[0]`. Returns the thread
after the call and the outcome. -/
def FACT_get_num_elem (t : FACT_thread) (base : FACT_num) (args0 : Nat) :
    FACT_thread × Result Unit :=
  match Furlow_reg_val t args0 with
  | none => (t, .undef)
  | some (cnt, t1) =>
    match FACT_get_num_elem.pop_elems (mpc_get_ui cnt.value) t1 [] with
    | (t2, .thrown e) => (t2, .thrown e)
    | (t2, .undef) => (t2, .undef)
    | (t2, .ok elems) =>
      match get_element base elems 0 with
      | .thrown e => (t2, .thrown e)
      | .undef => (t2, .undef)
      | .ok el => (push_v t2 (.num el), .ok ())

/-- A Number is a rectangular array of the given dimension sizes: at depth `k` every node
has `array_size` equal to the size of dimension `k + 1` and exactly that many children;
past the last dimension every node is a leaf, with `array_size = 0` and no `array_up`. -/
def is_rect : List Nat → FACT_num → Prop
  | [], x => x.array_size = 0 ∧ x.array_up = none
  | d :: ds, x =>
    x.array_size = d ∧ ∃ l, x.array_up = some l ∧ l.length = d ∧ ∀ c ∈ l, is_rect ds c

/-- The node reached from `base` by following `array_up[e]` for each index `e` of the list
in turn; `none` when there is no such node. -/
def follow : FACT_num → List Nat → Option FACT_num
  | base, [] => some base
  | base, e :: es =>
    match base.array_up with
    | none => none
    | some up =>
      match up[e]? with
      | none => none
      | some b => follow b es

/-- The text a `printf`-style formatter produces from a format and its arguments, for the
conversions `%lu` and `%s` that the modelled messages use. -/
def printf_format : List Char → List err_arg → List Char
  | [], _ => []
  | '%' :: 'l' :: 'u' :: rest, .ulong n :: args => (Nat.repr n).toList ++ printf_format rest args
  | '%' :: 's' :: rest, .str s :: args => s ++ printf_format rest args
  | c :: rest, args => c :: printf_format rest args

/-- The message of an error: its format filled with its arguments. -/
def FACT_error.message (e : FACT_error) : String :=
  String.mk (printf_format e.fmt.toList e.args)

/-- A Number holding the integer `n`. -/
def num_of_nat (n : Nat) : FACT_num :=
  .mk [] (.intv n) 0 none

/-- The array of `num a[3][2]`. -/
def example_array : FACT_num :=
  (FACT_alloc_num.set_array_up (make_num_array "a".toList [3, 2] 0)).set_array_size 3

/-- A thread in `example_scope` about to execute `DEF_N R_POP "k"` for `num k[3][2]`: the
dimension count 2 is on top of the value stack, above the sizes 3 and 2. -/
def example_thread : FACT_thread :=
  ⟨[.num (num_of_nat 2), .num (num_of_nat 3), .num (num_of_nat 2)], fun _ => none, 0,
    example_scope⟩

/-- The recursion of `get_element` read on the indices that are still to be consumed (the
list is `elems` from `curr_dim` on); `get_element_drop` proves it equal to `get_element`. -/
def get_element.walk : FACT_num → List Nat → Result FACT_num
  | base, [] => .ok base
  | base, e :: es =>
    if base.array_size ≤ e then
      .thrown ⟨"out of bounds error; expected value in [0, %lu), but value is %lu",
        [.ulong base.array_size, .ulong e]⟩
    else if base.array_size = 1 then
      if es ≠ [] then .thrown ⟨"out of bounds error; unexpected dimensions", []⟩
      else .ok base
    else
      match base.array_up with
      | none => .undef
      | some up =>
        match up[e]? with
        | none => .undef
        | some b => get_element.walk b es

/-- A thread about to execute `ELEM` with one index: the dimension count 1 is on top of the
value stack, above the index 1. -/
def example_elem_thread : FACT_thread :=
  ⟨[.num (num_of_nat 1), .num (num_of_nat 1)], fun _ => none, 0, example_scope⟩

/-- A thread in `example_scope` about to execute `DEF_N R_POP "k"` for `num k[3][1]`: the
dimension count 2 is on top of the value stack, above the sizes 3 and 1. -/
def example_small_thread : FACT_thread :=
  ⟨[.num (num_of_nat 2), .num (num_of_nat 3), .num (num_of_nat 1)], fun _ => none, 0,
    example_scope⟩

/-! ## The encoding of an instruction, as the specification words it -/

/-- The address that `load` computes for an address operand naming the child index `t`:
there is one when the instruction is a child, at index `j`, of a grouping and `t` is not
`j`; otherwise `load` aborts. -/
def load.addr (up : Option (List (Option inter_node) × Nat)) (off t : Nat) : Option Nat :=
  match up with
  | none => none
  | some (children, j) => if t = j then none else load.resolve children off j t

/-- The bytes of one operand as the specification describes them: one byte for a register,
the four bytes of the resolved address, most significant first, for an address, the bytes
of the label and a terminating NUL for a label; an empty slot has no bytes. -/
def encode_operand (up : Option (List (Option inter_node) × Nat)) (off : Nat) :
    arg_t → Option (List Nat)
  | .NO_ARG => some []
  | .REG_VAL reg => some [reg]
  | .ADDR_VAL t => (load.addr up off t).map spread
  | .LABEL label => some (label.map Char.toNat ++ [0])

/-- The bytes of a sequence of operands: those of each operand, in order. -/
def encode_operands (up : Option (List (Option inter_node) × Nat)) (off : Nat) :
    List arg_t → Option (List Nat)
  | [] => some []
  | a :: rest =>
    match encode_operand up off a, encode_operands up off rest with
    | some b, some bs => some (b ++ bs)
    | _, _ => none

/-- The arguments "up to the first empty argument slot". -/
def upto_empty : List arg_t → List arg_t
  | [] => []
  | .NO_ARG :: _ => []
  | .REG_VAL reg :: rest => .REG_VAL reg :: upto_empty rest
  | .ADDR_VAL t :: rest => .ADDR_VAL t :: upto_empty rest
  | .LABEL label :: rest => .LABEL label :: upto_empty rest

/-- The arguments up to the first empty argument slot and not beyond the first label. -/
def upto_label : List arg_t → List arg_t
  | [] => []
  | .NO_ARG :: _ => []
  | .REG_VAL reg :: rest => .REG_VAL reg :: upto_label rest
  | .ADDR_VAL t :: rest => .ADDR_VAL t :: upto_label rest
  | .LABEL label :: _ => [.LABEL label]

/-- Whether, among the arguments up to the first empty slot, no argument follows a label. -/
def label_last : List arg_t → Bool
  | [] => true
  | .NO_ARG :: _ => true
  | .REG_VAL _ :: rest => label_last rest
  | .ADDR_VAL _ :: rest => label_last rest
  | .LABEL _ :: rest => (upto_empty rest).isEmpty

/-- The length in bytes that the specification gives to an operand. -/
def operand_length : arg_t → Nat
  | .NO_ARG => 0
  | .REG_VAL _ => 1
  | .ADDR_VAL _ => 4
  | .LABEL label => label.length + 1

/-- The encoded length of an instruction with the given operands: one byte for the opcode,
one for each register operand, four for each address operand, and the length of a label
plus one. -/
def encoded_length (args : List arg_t) : Nat :=
  1 + (args.map operand_length).sum

/-- An instruction node whose label comes before a register operand. -/
def example_label_first : inst_t :=
  mk_inst .DEF_N [.LABEL "x".toList, .REG_VAL R_POP]

/-- The instructions that `load (node, NULL)` appends when the program is `prog`: the code of
the node at that place of the program. Empty when `load` aborts. -/
def code_at (o : Option inter_node) (prog : List fmt_t) : List fmt_t :=
  match load_opt o none prog with
  | some prog1 => prog1.drop prog.length
  | none => []

/-- The code of a parse tree at a place of the program: the instructions that
`load (compile_tree (tree), NULL)` appends when the program is `prog`. Empty for an absent
tree, and when the compiler aborts. -/
def code (tree : Option FACT_tree) (prog : List fmt_t) : List fmt_t :=
  match compile_tree_opt tree with
  | some node => code_at node prog
  | none => []

/-- The code of a parameter list at a place of the program: the instructions that
`load (compile_args (tree), NULL)` appends when the program is `prog`. -/
def args_code (tree : Option FACT_tree) (prog : List fmt_t) : List fmt_t :=
  match compile_args tree with
  | some node => code_at node prog
  | none => []

/-- A node that `load` treats the same under every parent: a grouping, or an instruction
without address operand. -/
def up_free : inter_node → Prop
  | .instruction inst _ => inst.args.all (fun a => !a.is_addr) = true
  | .grouping _ _ => True

/-! ## The nodes that `opt_pb` builds (`FACT_parser.c`) -/

/-- The node that `accept` makes for the token it accepts: the token, and from the `memset`
no child and no `next`. -/
def accept.node (id : FACT_nterm_t) (lexem : List Char) : FACT_tree :=
  .mk id lexem none none none none none

/-- The `switch` in the loop of `opt_pb`: `pn` is the node accepted for `(`, `[` or `in`,
`ln` the tree parsed so far and `e` what the case parses next (`arg_list`, `assignment` or
`unary`). The result is the new `ln`. -/
def opt_pb.node (pn ln : FACT_tree) (e : Option FACT_tree) : FACT_tree :=
  match pn with
  | .mk id lexem _ _ c2 c3 next =>
    match id with
    | .E_OP_PAREN => .mk .E_FUNC_CALL lexem e (some ln) c2 c3 next
    | .E_OP_BRACK => .mk .E_ARRAY_ELEM lexem e (some ln) c2 c3 next
    | _ => .mk id lexem (some ln) e c2 c3 next

/-- The tree that `opt_pb` returns for `a [ i ]`. -/
def example_elem : FACT_tree :=
  opt_pb.node (accept.node .E_OP_BRACK "[".toList) (tree_var "a") (some (tree_var "i"))

/-- The parse tree of `if (x) y else z`. -/
def example_if_else : FACT_tree :=
  .mk .E_IF "if".toList (some (tree_var "x")) (some (tree_var "y")) (some (tree_var "z"))
    none none

/-- The parse tree of `while (x) y`. -/
def example_while : FACT_tree :=
  .mk .E_WHILE "while".toList (some (tree_var "x")) (some (tree_var "y")) none none none

/-- The parse tree of the function definition `f (num x) { y }` (without the terminator
that `stmt` chains to it): the target `f`, the parameter `num x` and the body `y`. -/
def example_func_def : FACT_tree :=
  .mk .E_FUNC_DEF "@".toList (some (tree_var "f"))
    (some (.mk .E_NUM_DEF "num".toList (some (tree_var "x")) none none none none))
    (some (tree_var "y")) none none

/-- The seven instructions that `load` emits for `begin_temp_scope ()`: they open a
temporary scope. -/
def begin_temp_scope_code : List fmt_t :=
  [⟨.THIS, []⟩, ⟨.REF, [R_POP, R_A]⟩, ⟨.CONST, [48, 0]⟩, ⟨.NEW_S, [R_TOP]⟩,
   ⟨.USE, [R_POP]⟩, ⟨.DEF_S, [R_POP, 117, 112, 0]⟩, ⟨.STO, [R_A, R_POP]⟩]

/-- The tree that the `E_FOR` case of `compile_tree` compiles for the body `children[3]`: the
statements `children[3]->children[0]` of a braced block, the body itself otherwise. -/
def for_body : FACT_tree → Option FACT_tree
  | .mk .E_OP_CURL _ c30 _ _ _ _ => c30
  | t => some t

/-- The parse tree of `for (; x; ) { y }` before the terminators are chained. -/
def example_for : FACT_tree :=
  .mk .E_FOR "for".toList none (some (tree_var "x")) none
    (some (.mk .E_OP_CURL "\x7b".toList (some (tree_var "y")) none none none none)) none

/-! ## Function call: what the emitted sequence moves where -/

/-- Modelled from the spec: the values that the value stack, the registers and the call stack
hold, kept symbolic (the virtual machine is not among the sources): a value that was there
before the sequence runs, the anonymous Number pushed by a `CONST`, the anonymous scope
created by the `k`-th `NEW_S`, the variable that a `DEF_S` adds to a scope. -/
inductive sym_val where
  | given (k : Nat)
  | number (label : List Char)
  | anonymous (k : Nat)
  | variable (owner : sym_val) (name : List Char)
deriving DecidableEq, Repr

/-- Modelled from the spec: the part of a thread that the sequence touches: the value stack
(top first), the registers, the `this` of the call stack frames (top first), the number of
anonymous scopes created, and the copies made by `STO` so far, each as the pair of the
destination and the source, the latest first. -/
structure sym_state where
  vstack : List sym_val
  registers : Nat → Option sym_val
  cstack : List sym_val
  created : Nat
  stored : List (sym_val × sym_val)

/-- Modelled from the spec: a read through a register operand: `R_POP` pops the value stack
and yields that value, `R_TOP` yields the top of the value stack, another index yields the
register. -/
def sym_read (s : sym_state) (reg : Nat) : Option (sym_val × sym_state) :=
  if reg = R_POP then
    match s.vstack with
    | v :: rest => some (v, { s with vstack := rest })
    | [] => none
  else if reg = R_TOP then
    match s.vstack with
    | v :: _ => some (v, s)
    | [] => none
  else
    match s.registers reg with
    | some v => some (v, s)
    | none => none

/-- Modelled from the spec: a write through a register operand: `R_POP` produces a new stack
top, `R_TOP` replaces the top of the value stack, another index sets the register. -/
def sym_write (s : sym_state) (reg : Nat) (v : sym_val) : Option sym_state :=
  if reg = R_POP then some { s with vstack := v :: s.vstack }
  else if reg = R_TOP then
    match s.vstack with
    | _ :: rest => some { s with vstack := v :: rest }
    | [] => none
  else some { s with registers := fun r => if r = reg then some v else s.registers r }

/-- Modelled from the spec: the effect of one instruction, for the instructions of the
scope-entering sequences, as the instruction table gives it. `THIS` pushes the current
`this`; `REF src dst` copies the value read through `src` to `dst`; `CONST` pushes an
anonymous Number; `NEW_S r` reads the dimension count through `r` and pushes a new
anonymous scope; `USE r` pushes the scope read through `r` onto the call stack; `DEF_S r
label` reads the dimension count through `r`, adds the variable `label` to the current
`this` and pushes it; `STO a b` copies the value read through `a` into the variable read
through `b` (`x = e` is lowered to target, value, `STO R_POP R_TOP`; the comment of
`begin_temp_scope` reads "Set the up variable to the A register: sto,$A,$pop"); `EXIT` pops
the call stack. `none` for another instruction or an empty stack. -/
def sym_step (i : inst_t) (s : sym_state) : Option sym_state :=
  match i.inst_val, i.args0, i.args1 with
  | .THIS, _, _ =>
    match s.cstack with
    | t :: _ => some { s with vstack := t :: s.vstack }
    | [] => none
  | .REF, .REG_VAL src, .REG_VAL dst =>
    match sym_read s src with
    | some (v, s1) => sym_write s1 dst v
    | none => none
  | .CONST, .LABEL label, _ => some { s with vstack := .number label :: s.vstack }
  | .NEW_S, .REG_VAL r, _ =>
    match sym_read s r with
    | some (_, s1) =>
      some { s1 with vstack := .anonymous s1.created :: s1.vstack, created := s1.created + 1 }
    | none => none
  | .USE, .REG_VAL r, _ =>
    match sym_read s r with
    | some (v, s1) => some { s1 with cstack := v :: s1.cstack }
    | none => none
  | .DEF_S, .REG_VAL r, .LABEL label =>
    match sym_read s r with
    | some (_, s1) =>
      match s1.cstack with
      | t :: _ => some { s1 with vstack := .variable t label :: s1.vstack }
      | [] => none
    | none => none
  | .STO, .REG_VAL a, .REG_VAL b =>
    match sym_read s a with
    | some (src, s1) =>
      match sym_read s1 b with
      | some (dst, s2) => some { s2 with stored := (dst, src) :: s2.stored }
      | none => none
    | none => none
  | .EXIT, _, _ =>
    match s.cstack with
    | _ :: rest => some { s with cstack := rest }
    | [] => none
  | _, _, _ => none

/-- Modelled from the spec: the instructions of a sequence, one after the other. -/
def sym_run : List inst_t → sym_state → Option sym_state
  | [], s => some s
  | i :: rest, s =>
    match sym_step i s with
    | some s1 => sym_run rest s1
    | none => none

/-- The instructions that the `E_FUNC_CALL` case of `compile_tree` puts after the code of the
function being called, up to the `EXIT`: `children[4]` to `children[9]`. -/
def call_binding : List inst_t :=
  [mk_inst .REF [.REG_VAL R_POP, .REG_VAL R_A],
   mk_inst .USE [.REG_VAL R_POP],
   mk_inst .CONST [.LABEL "0".toList],
   mk_inst .DEF_S [.REG_VAL R_POP, .LABEL "up".toList],
   mk_inst .STO [.REG_VAL R_A, .REG_VAL R_POP],
   mk_inst .EXIT []]

/-- The instructions of `begin_temp_scope ()`. -/
def temp_scope_binding : List inst_t :=
  [mk_inst .THIS [],
   mk_inst .REF [.REG_VAL R_POP, .REG_VAL R_A],
   mk_inst .CONST [.LABEL "0".toList],
   mk_inst .NEW_S [.REG_VAL R_TOP],
   mk_inst .USE [.REG_VAL R_POP],
   mk_inst .DEF_S [.REG_VAL R_POP, .LABEL "up".toList],
   mk_inst .STO [.REG_VAL R_A, .REG_VAL R_POP]]

/-- The encoding by `load` of an instruction node without address operand. -/
def plain_code (i : inst_t) : fmt_t :=
  ⟨i.inst_val, (load.args none 0 i.args []).getD []⟩

/-- The tree that `opt_pb` returns for `f ( x )`. -/
def example_call : FACT_tree :=
  opt_pb.node (accept.node .E_OP_PAREN "(".toList) (tree_var "f") (some (tree_var "x"))

/-- A state at the point where the code of `f` has just run in a call `f (x)`: the value of
`f` (`given 2`) is on top of the value stack, above the lambda scope (`given 1`) and the
argument (`given 3`); the caller's `this` is `given 0`. -/
def example_call_state : sym_state :=
  ⟨[.given 2, .given 1, .given 3], fun _ => none, [.given 0], 0, []⟩

/-! ## Numbers as cells of a heap (`FACT_set_num`, `copy_num`, `free_num`) -/

/-- A pointer to a Number as an `array_up` block holds it: NULL, the address of a cell, or
the indeterminate content of memory that was allocated and not yet written. -/
inductive ptr where
  | null
  | addr (a : Nat)
  | indet
deriving DecidableEq, Repr

/-- A `struct FACT_num` in memory. The block that `array_up` points to is owned by the
cell and kept with it, as the list of the pointers it holds; `none` is the NULL block. -/
structure num_cell where
  name : List Char
  value : mpc_t
  array_size : Nat
  array_up : Option (List ptr)
deriving DecidableEq, Repr

/-- The memory that holds the Numbers: the cell at each address, `none` at an address whose
cell has been freed. -/
abbrev num_heap := List (Option num_cell)

/-- The outcome of a function that follows pointers: it returns (`done`), its behaviour is
undefined (`undef`: it reads, writes or frees through a pointer that is NULL, indeterminate,
out of its block, or that points to a freed cell), or the recursion depth allowed to it does
not suffice (`more`). -/
inductive Run (α : Type) where
  | done (a : α)
  | undef
  | more
deriving DecidableEq, Repr

/-- The live cell at an address. -/
def num_heap.cell (h : num_heap) (a : Nat) : Option num_cell :=
  match h[a]? with
  | some c => c
  | none => none

/-- The read `root->array_up[i]`, `root` being the cell at address `a`; `none` when the
behaviour is undefined. -/
def read_entry (h : num_heap) (a i : Nat) : Option ptr :=
  match h.cell a with
  | some c =>
    match c.array_up with
    | some block => block[i]?
    | none => none
  | none => none

/-- The write `root->array_up[i] = p`, `root` being the cell at address `a`; `none` when the
behaviour is undefined. -/
def write_entry (h : num_heap) (a i : Nat) (p : ptr) : Option num_heap :=
  match h.cell a with
  | some c =>
    match c.array_up with
    | some block =>
      if i < block.length then some (h.set a (some { c with array_up := some (block.set i p) }))
      else none
    | none => none
  | none => none

/-- The function `mpc_set (rop, op)` of `FACT_mpc.c`: the value of `rop` after the call. The tag
and the value are those of `op`, whatever `rop` held. -/
def mpc_set (rop op : mpc_t) : mpc_t :=
  match op with
  | .fltv q =>
    match rop with
    | .fltv _ => .fltv q
    | .intv _ => .fltv q
  | .intv v =>
    match rop with
    | .fltv _ => .intv v
    | .intv _ => .intv v

/-- Modelled from the spec: `FACT_malloc` of a block of `n` pointers (the allocator is not
among the sources): the content of the new block is indeterminate. -/
def FACT_malloc (n : Nat) : List ptr :=
  List.replicate n .indet

/-- Modelled from the spec: `FACT_realloc` of a block to `n` pointers (the allocator is not
among the sources): the pointers of the old block are kept as far as the new size goes, the
rest of the new block is indeterminate; a NULL block is allocated anew. -/
def FACT_realloc (block : Option (List ptr)) (n : Nat) : List ptr :=
  match block with
  | some old => old.take n ++ List.replicate (n - old.length) .indet
  | none => FACT_malloc n

/-- Modelled from the spec: the cell that `FACT_alloc_num` allocates (the allocator is not
among the sources): integer zero, `array_size = 0`, no `array_up`, no name yet. The new
cell gets an address that is not in use: the next one. -/
def FACT_alloc_num.cell : num_cell :=
  ⟨FACT_alloc_num.name, FACT_alloc_num.value, FACT_alloc_num.array_size, none⟩

/-- The loop `for (i = 0; i < root->array_size; i++) free_num (root->array_up[i])`, from the
index `i` on with `n` iterations left; `root` is the cell at address `a` and `f` the
function called on each pointer. -/
def free_loop (f : num_heap → ptr → Run num_heap) (a : Nat) : Nat → Nat → num_heap → Run num_heap
  | 0, _, h => .done h
  | n + 1, i, h =>
    match read_entry h a i with
    | none => .undef
    | some q =>
      match f h q with
      | .done h1 => free_loop f a n (i + 1) h1
      | .undef => .undef
      | .more => .more

/-- The function `free_num (root)`, with the recursion depth allowed to it: the heap after the call.
The cell is read before the loop and must still be live when it is freed after it. -/
def free_num : Nat → num_heap → ptr → Run num_heap
  | 0, _, _ => .more
  | _ + 1, h, .null => .done h
  | _ + 1, _, .indet => .undef
  | fuel + 1, h, .addr a =>
    match h.cell a with
    | none => .undef
    | some root =>
      match free_loop (free_num fuel) a root.array_size 0 h with
      | .done h1 =>
        match h1.cell a with
        | some _ => .done (h1.set a none)
        | none => .undef
      | .undef => .undef
      | .more => .more

/-- The loop `for (i = 0; i < n; i++) dst->array_up[i] = copy_num (src->array_up[i])`, from
the index `i` on with `n` iterations left; `src` and `dst` are the cells at these addresses
and `f` the function called on each pointer. -/
def copy_loop (f : num_heap → ptr → Run (num_heap × ptr)) (src dst : Nat) :
    Nat → Nat → num_heap → Run num_heap
  | 0, _, h => .done h
  | n + 1, i, h =>
    match read_entry h src i with
    | none => .undef
    | some q =>
      match f h q with
      | .done (h1, r) =>
        match write_entry h1 dst i r with
        | some h2 => copy_loop f src dst n (i + 1) h2
        | none => .undef
      | .undef => .undef
      | .more => .more

/-- The function `copy_num (root)`, with the recursion depth allowed to it: the heap after the call and
the pointer returned. -/
def copy_num : Nat → num_heap → ptr → Run (num_heap × ptr)
  | 0, _, _ => .more
  | _ + 1, h, .null => .done (h, .null)
  | _ + 1, _, .indet => .undef
  | fuel + 1, h, .addr a =>
    match h.cell a with
    | none => .undef
    | some root =>
      let res : num_cell :=
        { FACT_alloc_num.cell with
          array_size := root.array_size,
          array_up := if root.array_up.isSome then some (FACT_malloc root.array_size) else none,
          value := mpc_set FACT_alloc_num.cell.value root.value }
      match copy_loop (copy_num fuel) a h.length root.array_size 0 (h ++ [some res]) with
      | .done h1 => .done (h1, .addr h.length)
      | .undef => .undef
      | .more => .more

/-- The function `FACT_set_num (rop, op)` on the cells at the addresses `rop` and `op`, with the
recursion depth allowed to `free_num` and `copy_num`: the heap after the call. -/
def FACT_set_num (fuel : Nat) (h : num_heap) (rop op : Nat) : Run num_heap :=
  match h.cell rop with
  | none => .undef
  | some r0 =>
    match free_loop (free_num fuel) rop r0.array_size 0 h with
    | .undef => .undef
    | .more => .more
    | .done h1 =>
      match h1.cell rop, h1.cell op with
      | none, _ => .undef
      | some _, none => .undef
      | some r1, some o1 =>
        let r2 : num_cell :=
          { r1 with value := mpc_set r1.value o1.value, array_size := o1.array_size }
        if o1.array_size ≠ 0 then
          copy_loop (copy_num fuel) op rop o1.array_size 0
            (h1.set rop (some { r2 with array_up := some (FACT_realloc r1.array_up o1.array_size) }))
        else
          .done (h1.set rop (some { r2 with array_up := none }))

/-- A scalar cell holding the integer `v`. -/
def scalar_cell (name : String) (v : Int) : num_cell :=
  ⟨name.toList, .intv v, 0, none⟩

/-- The memory after `num a[2]; num b[3]; num c;` with values stored: `a` at address 0 with
its cells at 1 and 2, `b` at address 3 with its cells at 4, 5 and 6, the scalar `c` at 7. -/
def example_heap : num_heap :=
  [some ⟨"a".toList, .intv 0, 2, some [.addr 1, .addr 2]⟩,
   some (scalar_cell "a" 5), some (scalar_cell "a" 6),
   some ⟨"b".toList, .intv 0, 3, some [.addr 4, .addr 5, .addr 6]⟩,
   some (scalar_cell "b" 7), some (scalar_cell "b" 8), some (scalar_cell "b" 9),
   some (scalar_cell "c" 1)]

mutual
/-- The Number `T` of the value model stands in the heap `h` at the pointer `p`: `p` is the
address of a live cell with the name, value and `array_size` of `T`, whose block holds
pointers at which the Numbers of `T.array_up` stand. `fp` lists the addresses of the cells
of `T`, the root first. -/
def tree_at (h : num_heap) : FACT_num → ptr → List Nat → Prop
  | .mk name value size up, p, fp =>
    ∃ a c fp1, p = .addr a ∧ fp = a :: fp1 ∧ h.cell a = some c ∧ c.name = name ∧
      c.value = value ∧ c.array_size = size ∧ block_at h up c.array_up fp1
/-- The Numbers of an `array_up` of the value model stand at the pointers of a block. -/
def block_at (h : num_heap) : Option (List FACT_num) → Option (List ptr) → List Nat → Prop
  | none, block, fp => block = none ∧ fp = []
  | some l, block, fp => ∃ ps, block = some ps ∧ trees_at h l ps fp
/-- The Numbers of a list stand at the pointers of a list, one by one. -/
def trees_at (h : num_heap) : List FACT_num → List ptr → List Nat → Prop
  | [], ps, fp => ps = [] ∧ fp = []
  | t :: ts, ps, fp =>
    ∃ p ps1 f1 f2, ps = p :: ps1 ∧ fp = f1 ++ f2 ∧ tree_at h t p f1 ∧ trees_at h ts ps1 f2
end

mutual
/-- A Number whose `array_size` is the number of Numbers in its `array_up` block, at every
level: 0 without a block, and not 0 with one. -/
def well_formed : FACT_num → Prop
  | .mk _ _ size up => well_formed.block size up
/-- The condition `well_formed` on `array_size` and `array_up`. -/
def well_formed.block (size : Nat) : Option (List FACT_num) → Prop
  | none => size = 0
  | some l => l.length = size ∧ size ≠ 0 ∧ well_formed.list l
/-- The condition `well_formed` on every Number of a list. -/
def well_formed.list : List FACT_num → Prop
  | [] => True
  | t :: ts => well_formed t ∧ well_formed.list ts
end

mutual
/-- The number of levels of a Number: 1 for a scalar. -/
def depth : FACT_num → Nat
  | .mk _ _ _ up => depth.block up + 1
/-- The number of levels below a Number. -/
def depth.block : Option (List FACT_num) → Nat
  | none => 0
  | some l => depth.list l
/-- The greatest number of levels among the Numbers of a list. -/
def depth.list : List FACT_num → Nat
  | [] => 0
  | t :: ts => max (depth t) (depth.list ts)
end

mutual
/-- The Number that `copy_num` builds from a Number, in the value model: the same value,
`array_size` and, recursively, `array_up`; the name is that of a fresh Number (`copy_num`
does not assign `name`). -/
def copy_num.tree : FACT_num → FACT_num
  | .mk _ value size up => .mk FACT_alloc_num.name value size (copy_num.block up)
/-- The block that `copy_num` builds. -/
def copy_num.block : Option (List FACT_num) → Option (List FACT_num)
  | none => none
  | some l => some (copy_num.list l)
/-- The Numbers that `copy_num` builds from the Numbers of a block. -/
def copy_num.list : List FACT_num → List FACT_num
  | [] => []
  | t :: ts => copy_num.tree t :: copy_num.list ts
end

/-! ## Groupings without address operands; the nodes of the operator productions -/

/-- The instructions that the loop of `load` over the children of a grouping appends when
the program is `p`: the code of each child at the place the children before it have brought
the program to. -/
def children_code : List (Option inter_node) → List fmt_t → List fmt_t
  | [], _ => []
  | c :: cs, p => code_at c p ++ children_code cs (p ++ code_at c p)

/-- The assignments `pn->children[0] = ln; pn->children[1] = ...` in the loops of `term`,
`expression`, `comparison`, `equality`, `land` and `lor` and in `assignment`: `pn` is the
node accepted for the operator, `ln` the tree parsed before it (the left operand) and `rn`
the tree parsed after it (the right operand). -/
def term.node (pn ln rn : FACT_tree) : FACT_tree :=
  match pn with
  | .mk id lexem _ _ c2 c3 next => .mk id lexem (some ln) (some rn) c2 c3 next

/-- The tree that `expression` returns for `a - b`. -/
def example_sub : FACT_tree :=
  term.node (accept.node .E_SUB "-".toList) (tree_var "a") (tree_var "b")

/-- The tree that `assignment` returns for `x += e`. -/
def example_add_as : FACT_tree :=
  term.node (accept.node .E_ADD_AS "+=".toList) (tree_var "x") (tree_var "e")

/-- Modelled from the spec: the symbolic state of a thread together with the arithmetic
operations done so far (the virtual machine is not among the sources), each as the opcode
with the values read through its first and its second operand and the destination read
through its third, the latest first. -/
structure sym_arith where
  state : sym_state
  computed : List (Furlow_opcode × sym_val × sym_val × sym_val)

/-- Modelled from the spec: the effect of one instruction as the instruction table gives
it, for `SWAP` (exchanges the top two stack slots), `DEF_N r label` (reads the dimension
count through `r`, adds the Number `label` to the current `this` and pushes it, as `DEF_S`
does for a scope) and the arithmetic `ADD/SUB/MUL/DIV/MOD a b dst` (reads through `a`, then
through `b`, and writes the result to the destination read through `dst`); the other
instructions as in `sym_step`. -/
def sym_exec (i : inst_t) (s : sym_arith) : Option sym_arith :=
  match i.inst_val, i.args0, i.args1, i.args2 with
  | .SWAP, _, _, _ =>
    match s.state.vstack with
    | a :: b :: rest => some { s with state := { s.state with vstack := b :: a :: rest } }
    | _ => none
  | .DEF_N, .REG_VAL r, .LABEL label, _ =>
    match sym_read s.state r with
    | some (_, s1) =>
      match s1.cstack with
      | t :: _ => some { s with state := { s1 with vstack := .variable t label :: s1.vstack } }
      | [] => none
    | none => none
  | op, .REG_VAL a, .REG_VAL b, .REG_VAL dst =>
    if op ∈ [Furlow_opcode.ADD, .SUB, .MUL, .DIV, .MOD] then
      match sym_read s.state a with
      | some (va, s1) =>
        match sym_read s1 b with
        | some (vb, s2) =>
          match sym_read s2 dst with
          | some (vd, s3) => some { state := s3, computed := (op, va, vb, vd) :: s.computed }
          | none => none
        | none => none
      | none => none
    else (sym_step i s.state).map (fun st => { s with state := st })
  | _, _, _, _ => (sym_step i s.state).map (fun st => { s with state := st })

/-- Modelled from the spec: the instructions of a sequence, one after the other. -/
def sym_exec_run : List inst_t → sym_arith → Option sym_arith
  | [], s => some s
  | i :: rest, s =>
    match sym_exec i s with
    | some s1 => sym_exec_run rest s1
    | none => none

/-- The three instructions that the compound assignment case of `compile_tree` puts after
the code of the value and the code of the target: `children[2]` to `children[4]`. -/
def compound_tail (op : Furlow_opcode) : List inst_t :=
  [mk_inst .REF [.REG_VAL R_TOP, .REG_VAL R_A],
   mk_inst .SWAP [],
   mk_inst op [.REG_VAL R_A, .REG_VAL R_POP, .REG_VAL R_TOP]]

/-! ## Chains of trees linked by `next`; declarations -/

/-- Field `next`. -/
def FACT_tree.next : FACT_tree → Option FACT_tree
  | .mk _ _ _ _ _ _ next => next

/-- The assignment `t->next = n`. -/
def FACT_tree.set_next : FACT_tree → Option FACT_tree → FACT_tree
  | .mk id lexem c0 c1 c2 c3 _, n => .mk id lexem c0 c1 c2 c3 n

/-- Field `id.lexem`. -/
def FACT_tree.lexem : FACT_tree → List Char
  | .mk _ lexem _ _ _ _ _ => lexem

/-- The chain of the given trees, each linked to the one after it by `next`. -/
def link : List FACT_tree → Option FACT_tree
  | [] => none
  | e :: rest => some (e.set_next (link rest))

/-- The code of the given trees, one after the other, from the program `prog`. -/
def codes : List FACT_tree → List fmt_t → List fmt_t
  | [], _ => []
  | e :: rest, prog => code (some e) prog ++ codes rest (prog ++ code (some e) prog)

/-- The assignments `pn->children[0] = def_scalar (set); pn->children[1] = expect (set,
E_VAR)` of `factor`: `pn` is the node accepted for `num` or `scope`, `dims` the chain of
dimension expressions and `name` the node of the declared name. -/
def factor.node (pn : FACT_tree) (dims : Option FACT_tree) (name : FACT_tree) : FACT_tree :=
  match pn with
  | .mk id lexem _ _ c2 c3 next => .mk id lexem dims (some name) c2 c3 next

/-- The tree of the declaration `num [3][2] a`, its dimension expressions chained as `2`,
`3`. -/
def example_decl : FACT_tree :=
  factor.node (accept.node .E_NUM_DEF "num".toList) (link [tree_var "2", tree_var "3"])
    (tree_var "a")

/-! ## Numeric literals, as the specification words them -/

/-- Whether a lexeme starts with `0x` or `0X`. -/
def is_hex_prefixed : List Char → Bool
  | c0 :: c1 :: _ => c0 = '0' && (c1 = 'x' || c1 = 'X')
  | _ => false

/-- Whether a character is one of `a`-`f` or `A`-`F`. -/
def is_hex_letter (c : Char) : Bool :=
  ('a'.toNat ≤ c.toNat && c.toNat ≤ 'f'.toNat) || ('A'.toNat ≤ c.toNat && c.toNat ≤ 'F'.toNat)

/-- The numeric literals in the words of the specification: after an optional `0x`/`0X`
prefix the lexeme consists only of decimal digits (and of `a`-`f`/`A`-`F` when prefixed),
with at most one `.`, which is not the last character, and at least one character after a
prefix. -/
def is_num_spec (L : List Char) : Bool :=
  let body := if is_hex_prefixed L then L.drop 2 else L
  body.all (fun c => isdigit c || c = '.' || (is_hex_prefixed L && is_hex_letter c))
    && decide (body.count '.' ≤ 1)
    && decide (body.getLast? ≠ some '.')
    && (!is_hex_prefixed L || !body.isEmpty)

/-! ## The parameter list of a function definition (`func_dec`, `compile_args`) -/

/-- Field `id.id`. -/
def FACT_tree.id : FACT_tree → FACT_nterm_t
  | .mk id _ _ _ _ _ _ => id

/-- The chain that the parameter list of `func_dec` builds, as a fold over the parameters:
`params` are the parameters still to be read, in declaration order, each as the node `an`
accepted for `num`, `scope` or `?` and the node of its name; `hold` is the chain built so far
(NULL before the first parameter). Each step does `an->children[0] = expect (set, E_VAR);
an->children[1] = hold; hold = an`. The result is what `pn->children[1] = an` stores;
`func_dec_params_chain` proves that `func_dec.params` returns it on the tokens of the
parameters. -/
def func_dec.args : List (FACT_tree × FACT_tree) → Option FACT_tree → Option FACT_tree
  | [], hold => hold
  | (.mk id lexem _ _ c2 c3 next, name) :: rest, hold =>
    func_dec.args rest (some (.mk id lexem (some name) hold c2 c3 next))

/-- The four instructions that bind one parameter: `CONST "0"`, `DEF_N` (for a parameter
declared `num`) or `DEF_S` on `R_POP` with the parameter's name, `SWAP`,
`STO R_POP R_POP`. -/
def binding_block (p : FACT_tree × FACT_tree) : List inst_t :=
  [mk_inst .CONST [.LABEL "0".toList],
   mk_inst (if p.1.id = .E_NUM_DEF then .DEF_N else .DEF_S)
     [.REG_VAL R_POP, .LABEL p.2.lexem],
   mk_inst .SWAP [],
   mk_inst .STO [.REG_VAL R_POP, .REG_VAL R_POP]]

/-- The binding blocks of the given parameters, one after the other. -/
def binding_blocks : List (FACT_tree × FACT_tree) → List inst_t
  | [] => []
  | p :: rest => binding_block p ++ binding_blocks rest

/-! ## The unified numeric value (`FACT_mpc.c`) -/

/-- The flag `fp`: whether the value holds the floating point member. -/
def mpc_t.fp : mpc_t → Bool
  | .fltv _ => true
  | .intv _ => false

/-- The block `if (!rop->fp) { rop->fp = true; mpz_clear (rop->intv); mpf_init
(rop->fltv); }`: an integer becomes the float that `mpf_init` makes, which is 0. -/
def mpc_t.make_float (rop : mpc_t) : mpc_t :=
  if !rop.fp then .fltv 0 else rop

/-- The block `if (rop->fp) { rop->fp = false; mpf_clear (rop->fltv); mpz_init
(rop->intv); }`: a float becomes the integer that `mpz_init` makes, which is 0. -/
def mpc_t.make_int (rop : mpc_t) : mpc_t :=
  if rop.fp then .intv 0 else rop

/-- A GMP call whose destination is `rop->fltv`: the float member becomes `f` of what it
was and the flag is not touched. On a value whose flag selects the integer member (which no
function of this file does) the sources do not determine what is read back; the model
leaves such a value as it is. -/
def mpc_t.on_fltv (rop : mpc_t) (f : Rat → Rat) : mpc_t :=
  match rop with
  | .fltv q => .fltv (f q)
  | .intv v => .intv v

/-- A GMP call whose destination is `rop->intv`: the integer member becomes `f` of what it
was and the flag is not touched. On a value whose flag selects the float member (which no
function of this file does) the sources do not determine what is read back; the model
leaves such a value as it is. -/
def mpc_t.on_intv (rop : mpc_t) (f : Int → Int) : mpc_t :=
  match rop with
  | .intv v => .intv (f v)
  | .fltv q => .fltv q

/-- The read `op->intv` that `mpc_mod`, `mpc_and`, `mpc_ior` and `mpc_xor` make without
looking at the flag. For an integer it is its value. A float has given its integer member
back (`mpz_clear (rop->intv)` in every block that sets `fp`), so GMP is handed a cleared
`mpz_t`: the behaviour is undefined, `none`. -/
def mpc_t.get_intv : mpc_t → Option Int
  | .intv v => some v
  | .fltv _ => none

/-- Modelled from the spec: `mpf_set_z` of GMP (GMP is not among the sources): the float of
an integer. The floats are modelled as rationals; the limited precision of `mpf_t` is left
out. -/
def mpf_set_z (z : Int) : Rat := (z : Rat)

/-- Modelled from the spec: `mpf_add` of GMP (GMP is not among the sources). -/
def mpf_add (a b : Rat) : Rat := a + b

/-- Modelled from the spec: `mpf_sub` of GMP (GMP is not among the sources). -/
def mpf_sub (a b : Rat) : Rat := a - b

/-- Modelled from the spec: `mpf_mul` of GMP (GMP is not among the sources). -/
def mpf_mul (a b : Rat) : Rat := a * b

/-- Modelled from the spec: `mpf_neg` of GMP (GMP is not among the sources). -/
def mpf_neg (a : Rat) : Rat := -a

/-- Modelled from the spec: `mpf_div` of GMP (GMP is not among the sources): `none` for the
division by zero, on which GMP stops the program. -/
def mpf_div (a b : Rat) : Option Rat :=
  if b = 0 then none else some (a / b)

/-- Modelled from the spec: `mpz_tdiv_q` of GMP (GMP is not among the sources): the
quotient rounded towards zero ("div (truncating for integer/integer)"); `none` for the
division by zero, on which GMP stops the program. -/
def mpz_tdiv_q (n d : Int) : Option Int :=
  if d = 0 then none else some (Int.tdiv n d)

/-- Modelled from the spec: `mpz_mod` of GMP (GMP is not among the sources): the remainder,
which is never negative, the sign of the divisor being ignored; `none` for the division by
zero, on which GMP stops the program. -/
def mpz_mod (n d : Int) : Option Int :=
  if d = 0 then none else some (Int.emod n d)

/-- The function `mpc_set_ui (rop, op)`: the value of `rop` after the call. -/
def mpc_set_ui (rop : mpc_t) (op : Nat) : mpc_t :=
  rop.make_int.on_intv (fun _ => (op : Int))

/-- The function `mpc_set_si (rop, op)`: the value of `rop` after the call. -/
def mpc_set_si (rop : mpc_t) (op : Int) : mpc_t :=
  rop.make_int.on_intv (fun _ => op)

/-- The function `mpc_set_str (rop, str, base)`: the value of `rop` after the call. The two
GMP functions that read the digits are parameters: each gives the new value of the member
from the old one, the string and the base. `strchr (str, '.') != NULL` is the membership
of `.` in the string. -/
def mpc_set_str (mpz_set_str : Int → List Char → Int → Int)
    (mpf_set_str : Rat → List Char → Int → Rat)
    (rop : mpc_t) (str : List Char) (base : Int) : mpc_t :=
  if base < 0 ∨ '.' ∈ str then
    rop.make_float.on_fltv (fun old => mpf_set_str old str base)
  else
    rop.make_int.on_intv (fun old => mpz_set_str old str base)

/-- The functions `mpc_add`, `mpc_sub` and `mpc_mul`, which differ only in the GMP
functions they call, here `fop` on floats and `zop` on integers: the value of `rop` after
the call. In the mixed branches the result is computed in the temporary `t` before `rop` is
written, so `rop` may be one of the operands. -/
def mpc_arith (fop : Rat → Rat → Rat) (zop : Int → Int → Int) (rop op1 op2 : mpc_t) : mpc_t :=
  match op1 with
  | .fltv f1 =>
    match op2 with
    | .fltv f2 => rop.make_float.on_fltv (fun _ => fop f1 f2)
    | .intv z2 =>
      let t := fop f1 (mpf_set_z z2)
      rop.make_float.on_fltv (fun _ => t)
  | .intv z1 =>
    match op2 with
    | .intv z2 => rop.make_int.on_intv (fun _ => zop z1 z2)
    | .fltv f2 =>
      let t := fop (mpf_set_z z1) f2
      rop.make_float.on_fltv (fun _ => t)

/-- The function `mpc_add (rop, op1, op2)`: the value of `rop` after the call. -/
def mpc_add (rop op1 op2 : mpc_t) : mpc_t :=
  mpc_arith mpf_add (fun a b => a + b) rop op1 op2

/-- The function `mpc_sub (rop, op1, op2)`: the value of `rop` after the call. -/
def mpc_sub (rop op1 op2 : mpc_t) : mpc_t :=
  mpc_arith mpf_sub (fun a b => a - b) rop op1 op2

/-- The function `mpc_mul (rop, op1, op2)`: the value of `rop` after the call. -/
def mpc_mul (rop op1 op2 : mpc_t) : mpc_t :=
  mpc_arith mpf_mul (fun a b => a * b) rop op1 op2

/-- The function `mpc_neg (rop, op)`: the value of `rop` after the call. -/
def mpc_neg (rop op : mpc_t) : mpc_t :=
  match op with
  | .fltv f => rop.make_float.on_fltv (fun _ => mpf_neg f)
  | .intv z => rop.make_int.on_intv (fun _ => -z)

/-- The function `mpc_div (rop, op1, op2)`: the value of `rop` after the call, `none` when GMP
stops the program on a division by zero. -/
def mpc_div (rop op1 op2 : mpc_t) : Option mpc_t :=
  match op1 with
  | .fltv f1 =>
    match op2 with
    | .fltv f2 => (mpf_div f1 f2).map (fun q => rop.make_float.on_fltv (fun _ => q))
    | .intv z2 =>
      (mpf_div f1 (mpf_set_z z2)).map (fun t => rop.make_float.on_fltv (fun _ => t))
  | .intv z1 =>
    match op2 with
    | .intv z2 => (mpz_tdiv_q z1 z2).map (fun q => rop.make_int.on_intv (fun _ => q))
    | .fltv f2 =>
      (mpf_div (mpf_set_z z1) f2).map (fun t => rop.make_float.on_fltv (fun _ => t))

/-- The functions `mpc_and`, `mpc_ior` and `mpc_xor`, which differ only in the GMP function
they call, here `zop`: the value of `rop` after the call. `rop` is made an integer first,
then `op1->intv` and `op2->intv` are read whatever the flags of the operands are: `none` when
an operand is a float (`mpc_t.get_intv`). The operands are objects of their own: a float
operand that is `rop` itself has been made an integer by the first block. -/
def mpc_bitwise (zop : Int → Int → Int) (rop op1 op2 : mpc_t) : Option mpc_t :=
  match op1.get_intv, op2.get_intv with
  | some z1, some z2 => some (rop.make_int.on_intv (fun _ => zop z1 z2))
  | _, _ => none

/-- The function `mpc_mod (rop, op1, op2)`: the value of `rop` after the call. `rop` is made
an integer first, then `op1->intv` and `op2->intv` are read whatever the flags of the
operands are: `none` when an operand is a float (`mpc_t.get_intv`), and when GMP stops the
program on a division by zero. -/
def mpc_mod (rop op1 op2 : mpc_t) : Option mpc_t :=
  match op1.get_intv, op2.get_intv with
  | some z1, some z2 => (mpz_mod z1 z2).map (fun r => rop.make_int.on_intv (fun _ => r))
  | _, _ => none

/-- The function `mpc_and (rop, op1, op2)`: the value of `rop` after the call. -/
def mpc_and (rop op1 op2 : mpc_t) : Option mpc_t :=
  mpc_bitwise Int.land rop op1 op2

/-- The function `mpc_ior (rop, op1, op2)`: the value of `rop` after the call. -/
def mpc_ior (rop op1 op2 : mpc_t) : Option mpc_t :=
  mpc_bitwise Int.lor rop op1 op2

/-- The function `mpc_xor (rop, op1, op2)`: the value of `rop` after the call. -/
def mpc_xor (rop op1 op2 : mpc_t) : Option mpc_t :=
  mpc_bitwise Int.xor rop op1 op2

/-! ## The decimal string of a float (`mpc_get_str`) -/

/-- A block of `char`: a byte that has been written, or `none` for a byte of a new block that
has not been written yet. -/
abbrev chars := List (Option Char)

/-- The terminating NUL of a C string. -/
def NUL : Char := Char.ofNat 0

/-- The block that holds the C string `s`: its characters and the terminating NUL. -/
def c_string (s : List Char) : chars :=
  s.map some ++ [some NUL]

/-- The scan of the C library's `strlen` over the bytes from the pointer on: `none` when it
reads a byte that has not been written or leaves the block before it meets a NUL. -/
def strlen.scan : chars → Option Nat
  | [] => none
  | none :: _ => none
  | some c :: rest => if c = NUL then some 0 else (strlen.scan rest).map (fun n => n + 1)

/-- The C library's `strlen (p + off)` for a pointer into the block `p`. -/
def strlen (p : chars) (off : Nat) : Option Nat :=
  strlen.scan (p.drop off)

/-- The C string read from `p + off`: its characters up to the NUL. -/
def read_string (p : chars) (off : Nat) : Option (List Char) :=
  (strlen p off).map (fun n => ((p.drop off).take n).filterMap (fun c => c))

/-- Modelled from the spec: `FACT_malloc (n)` for a block of `char` (the allocator is not
among the sources): `n` bytes, none of them written. -/
def FACT_malloc.chars (n : Nat) : chars :=
  List.replicate n none

/-- Modelled from the spec: `FACT_realloc (p, n)` for a block of `char` (the allocator is not
among the sources): the bytes of `p` that fit, and unwritten bytes beyond them. -/
def FACT_realloc.chars (p : chars) (n : Nat) : chars :=
  p.take n ++ List.replicate (n - p.length) none

/-- The assignment `p[i] = c`: `none` when `i` is outside the block. -/
def store (p : chars) (i : Nat) (c : Char) : Option chars :=
  if i < p.length then some (p.set i (some c)) else none

/-- The C library's `memset (p + off, c, n)`: `none` when it leaves the block. -/
def memset (p : chars) (off : Nat) (c : Char) (n : Nat) : Option chars :=
  if off + n ≤ p.length then
    some (p.take off ++ List.replicate n (some c) ++ p.drop (off + n))
  else none

/-- The C library's `memcpy (dst + doff, src + soff, n)`: `none` when it leaves a block. -/
def memcpy (dst : chars) (doff : Nat) (src : chars) (soff n : Nat) : Option chars :=
  if doff + n ≤ dst.length ∧ soff + n ≤ src.length then
    some (dst.take doff ++ (src.drop soff).take n ++ dst.drop (doff + n))
  else none

/-- The C library's `strcat (dst, src + soff)`: `none` when one of the two is not a string or
the result leaves the block `dst`. -/
def strcat (dst : chars) (src : chars) (soff : Nat) : Option chars :=
  match strlen dst 0, strlen src soff with
  | some n, some m =>
    if n + m + 1 ≤ dst.length then
      some (dst.take n ++ (src.drop soff).take (m + 1) ++ dst.drop (n + m + 1))
    else none
  | _, _ => none

/-- The end of `mpc_get_str`: `ls = FACT_realloc (ls - neg, strlen (ls - neg) + strlen (rs)
+ 1); strcat (ls, rs); return ls;` with `ls - neg` the start of the block `ls` and `rs` a
pointer into the block `rs` at `rs_off`. The result is the string returned. -/
def mpc_get_str.join (ls rs : chars) (rs_off : Nat) : Option (List Char) :=
  match strlen ls 0, strlen rs rs_off with
  | some a, some b =>
    match strcat (FACT_realloc.chars ls (a + b + 1)) rs rs_off with
    | some r => read_string r 0
    | none => none
  | _, _ => none

/-- The block `if (neg) ls[0] = '-', ls++;`: the block after it; `ls` then points at the
offset `neg`. -/
def mpc_get_str.sign (neg : Bool) (ls : chars) : Option chars :=
  if neg then store ls 0 '-' else some ls

/-- The float branch of `mpc_get_str (op)`: the string returned, `none` where the behaviour
is not defined. `mpf_get_str` (GMP is not among the sources) reports the value as the
string `str` (`-` when the value is negative, then the digits `D`) and the exponent `exp`;
`neg` is `mpf_sgn (op->fltv) < 0`. -/
def mpc_get_str.fltv (neg : Bool) (D : List Char) (exp : Int) : Option (List Char) :=
  let n : Nat := if neg then 1 else 0
  let str : chars := c_string ((if neg then ['-'] else []) ++ D)
  if exp = 0 then read_string str 0
  else
    match strlen str 0 with
    | none => none
    | some l =>
      let len := l - n
      if exp > 0 then
        let e := exp.toNat
        if e > len then
          match memset (FACT_malloc.chars (e - len)) 0 '0' (e - len) with
          | none => none
          | some rs0 =>
            match store rs0 (e - len) NUL with
            | none => none
            | some rs => mpc_get_str.join str rs 0
        else if e < len then
          match mpc_get_str.sign neg (FACT_malloc.chars (e + 2 + n)) with
          | none => none
          | some ls0 =>
            match memcpy ls0 n str n e with
            | none => none
            | some ls1 =>
              match store ls1 (n + e) '.' with
              | none => none
              | some ls2 =>
                match store ls2 (n + e + 1) NUL with
                | none => none
                | some ls =>
                  match memcpy (FACT_malloc.chars (len - e + 1)) 0 str (n + e) (len - e) with
                  | none => none
                  | some rs0 =>
                    match store rs0 (len - e) NUL with
                    | none => none
                    | some rs => mpc_get_str.join ls rs 0
        else read_string str 0
      else
        let m := (-exp).toNat
        match mpc_get_str.sign neg (FACT_malloc.chars (n + len + m + 2)) with
        | none => none
        | some ls0 =>
          match store ls0 n '0' with
          | none => none
          | some ls1 =>
            match store ls1 (n + 1) '.' with
            | none => none
            | some ls2 =>
              match memset ls2 (n + 2) '0' m with
              | none => none
              | some ls => mpc_get_str.join ls str n

/-- The positional decimal expansion of `0.D * 10^e` with its sign, as the specification
gives it: for `e ≤ 0` an optional `-`, then `0.`, then `-e` zeros, then `D`; for `0 < e <
len (D)` the first `e` digits, `.`, then the remaining digits; for `e ≥ len (D)` the digits
followed by `e - len (D)` zeros. -/
def decimal_expansion (neg : Bool) (D : List Char) (e : Int) : List Char :=
  (if neg then ['-'] else []) ++
    (if e ≤ 0 then ['0', '.'] ++ List.replicate (-e).toNat '0' ++ D
     else if e.toNat < D.length then D.take e.toNat ++ ['.'] ++ D.drop e.toNat
     else D ++ List.replicate (e.toNat - D.length) '0')

/-! ## The depth of the value stack along the control paths of emitted code -/

/-- Modelled from the spec: the number of leading register operands of the instructions
that the stack discipline reads, from the instruction table (`ADD/SUB/MUL/DIV/MOD a b dst`,
`CEQ/... a b dst`, `REF src dst`, `STO dst src`, `NEG r`, `JIF r addr`, `JIT r addr`,
`DEF_N r label`, `DEF_S r label`); 0 for the instructions without register operand. -/
def reg_operands : Furlow_opcode → Nat
  | .ADD | .SUB | .MUL | .DIV | .MOD => 3
  | .CEQ | .CNE | .CLT | .CLE | .CMT | .CME => 3
  | .REF | .STO => 2
  | .NEG | .JIF | .JIT | .DEF_N | .DEF_S => 1
  | _ => 0

/-- Modelled from the spec: the depth of the value stack after an instruction executed at
depth `d`, reading the instructions as the instruction table does: `CONST`, `VAR` and `THIS`
push one value; each `R_POP` operand pops one; an `R_TOP` operand needs a value on the stack
and leaves the depth unchanged, as a scratch register does; `DEF_N` (and `DEF_S`) pops its
dimension count through its operand and pushes the new variable; `SWAP` keeps the depth;
`DROP` pops one. `none` when the stack is not deep enough, and for the instructions that
this reading does not cover. -/
def depth_effect (i : fmt_t) (d : Nat) : Option Nat :=
  let regs := i.operands.take (reg_operands i.inst_val)
  let pops := regs.count R_POP
  let top := if R_TOP ∈ regs then 1 else 0
  match i.inst_val with
  | .CONST | .VAR | .THIS => some (d + 1)
  | .DEF_N | .DEF_S => if pops ≤ d then some (d - pops + 1) else none
  | .SWAP => if 2 ≤ d then some d else none
  | .DROP => if 1 ≤ d then some (d - 1) else none
  | .JMP => some d
  | .ADD | .SUB | .MUL | .DIV | .MOD | .CEQ | .CNE | .CLT | .CLE | .CMT | .CME
  | .NEG | .REF | .STO | .JIF | .JIT =>
    if pops + top ≤ d then some (d - pops) else none
  | _ => none

/-- Modelled from the spec: the places at which execution can continue after the instruction
at address `pc` of the program `P`, executed at depth `d`, each with the depth there: the
next instruction; for `JMP addr` the address; for `JIF r addr` and `JIT r addr` both the
address and the next instruction. `none` when there is no instruction at `pc` or
`depth_effect` gives none. -/
def depth_step (P : List fmt_t) (pc d : Nat) : Option (List (Nat × Nat)) :=
  match P[pc]? with
  | none => none
  | some i =>
    match depth_effect i d with
    | none => none
    | some d1 =>
      match i.inst_val with
      | .JMP => (decode_addr i.operands).map (fun a => [(a, d1)])
      | .JIF | .JIT =>
        (decode_addr (i.operands.drop 1)).map (fun a => [(a, d1), (pc + 1, d1)])
      | _ => some [(pc + 1, d1)]

/-- Whether every control path from the address `pc` at depth `d` comes, within `fuel`
instructions, to the address `stop` at depth `dstop`: a path that is there has arrived; any
other path must be able to take a step, and all the paths after the step must arrive. -/
def all_paths (P : List fmt_t) (stop dstop : Nat) : Nat → Nat → Nat → Bool
  | 0, pc, d => decide (pc = stop ∧ d = dstop)
  | fuel + 1, pc, d =>
    if pc = stop ∧ d = dstop then true
    else
      match depth_step P pc d with
      | none => false
      | some next => next.all (fun s => all_paths P stop dstop fuel s.1 s.2)

/-- The expressions of the stack discipline: variables, literals and `this`; scalar
declarations; unary minus; binary arithmetic and comparison; assignment; compound
assignment; `and` and `or`. Each is the tree of an expression, without `next`. -/
inductive plain_expr : FACT_tree → Prop
  | var (lexem : List Char) (c0 c1 c2 c3 : Option FACT_tree) :
    plain_expr (.mk .E_VAR lexem c0 c1 c2 c3 none)
  | decl (id : FACT_nterm_t) (op : Furlow_opcode)
    (hid : (id, op) ∈ [(FACT_nterm_t.E_NUM_DEF, Furlow_opcode.DEF_N), (.E_SCOPE_DEF, .DEF_S)])
    (lexem : List Char) (name : FACT_tree) (c2 c3 : Option FACT_tree) :
    plain_expr (.mk id lexem none (some name) c2 c3 none)
  | neg (lexem : List Char) (e : FACT_tree) (c1 c2 c3 : Option FACT_tree) :
    plain_expr e → plain_expr (.mk .E_NEG lexem (some e) c1 c2 c3 none)
  | binary (id : FACT_nterm_t) (op : Furlow_opcode)
    (hid : (id, op) ∈ [(FACT_nterm_t.E_ADD, Furlow_opcode.ADD), (.E_SUB, .SUB), (.E_MUL, .MUL),
      (.E_DIV, .DIV), (.E_MOD, .MOD), (.E_NE, .CNE), (.E_EQ, .CEQ), (.E_MT, .CMT),
      (.E_ME, .CME), (.E_LT, .CLT), (.E_LE, .CLE)])
    (lexem : List Char) (l r : FACT_tree) (c2 c3 : Option FACT_tree) :
    plain_expr l → plain_expr r → plain_expr (.mk id lexem (some l) (some r) c2 c3 none)
  | set (lexem : List Char) (x e : FACT_tree) (c2 c3 : Option FACT_tree) :
    plain_expr x → plain_expr e → plain_expr (.mk .E_SET lexem (some x) (some e) c2 c3 none)
  | compound (id : FACT_nterm_t) (op : Furlow_opcode)
    (hid : (id, op) ∈ [(FACT_nterm_t.E_ADD_AS, Furlow_opcode.ADD), (.E_SUB_AS, .SUB),
      (.E_MUL_AS, .MUL), (.E_DIV_AS, .DIV), (.E_MOD_AS, .MOD)])
    (lexem : List Char) (x e : FACT_tree) (c2 c3 : Option FACT_tree) :
    plain_expr x → plain_expr e → plain_expr (.mk id lexem (some x) (some e) c2 c3 none)
  | and (lexem : List Char) (l r : FACT_tree) (c2 c3 : Option FACT_tree) :
    plain_expr l → plain_expr r → plain_expr (.mk .E_AND lexem (some l) (some r) c2 c3 none)
  | or (lexem : List Char) (l r : FACT_tree) (c2 c3 : Option FACT_tree) :
    plain_expr l → plain_expr r → plain_expr (.mk .E_OR lexem (some l) (some r) c2 c3 none)

/-- The tree that `stmt` returns for an expression statement `e;`, as `stmt_list` leaves it:
`pn = assignment (set); pn->next = expect (set, E_SEMI)`, and the statements that follow hang
at `pn->next->next`. -/
def stmt.node (e : FACT_tree) (semi : List Char) (following : Option FACT_tree) : FACT_tree :=
  e.set_next (some ((accept.node .E_SEMI semi).set_next following))

/-- The parse tree of the statement `x = a - b and c;`, the last of its list. -/
def example_stmt : FACT_tree :=
  stmt.node
    (.mk .E_SET "=".toList (some (tree_var "x"))
      (some (.mk .E_AND "and".toList
        (some (.mk .E_SUB "-".toList (some (tree_var "a")) (some (tree_var "b")) none none none))
        (some (tree_var "c")) none none none))
      none none none)
    ";".toList none

/-- The intermediate tree that `compile_tree` builds for `if (x) y`. -/
def example_if_node : inter_node :=
  .grouping example_if_children none

/-! ## The parser's check of a numeric constant (`is_num_valid`, `FACT_parser.c`) -/

/-- The condition `!isdigit (*num) && (tolower (*num) < 'a' || tolower (*num) > 'f')` of
`is_num_valid`, negated: the character is a hexadecimal digit. -/
def is_num_valid.hex_digit (c : Char) : Bool :=
  !(!isdigit c && ((tolower c).toNat < 'a'.toNat || (tolower c).toNat > 'f'.toNat))

/-- The loop `for (num++; *num != '\0'; num++)` of the hexadecimal branch of `is_num_valid`,
over the characters that are left. -/
def is_num_valid.hex_loop : List Char → Bool
  | [] => true
  | c :: rest => if !is_num_valid.hex_digit c then false else is_num_valid.hex_loop rest

/-- The last loop `for (num++; *num != '\0'; num++)` of `is_num_valid`, over the characters
that are left, with the flag `decimal`. -/
def is_num_valid.loop : List Char → Bool → Bool
  | [], _ => true
  | c :: rest, decimal =>
    if c = '.' then
      if decimal then false else is_num_valid.loop rest true
    else if !isdigit c then false
    else is_num_valid.loop rest decimal

/-- The function `is_num_valid (num)` of the parser. -/
def is_num_valid (num : List Char) : Bool :=
  if !isdigit (char_at num 0) && char_at num 0 ≠ '.' then false
  else if char_at num 0 = '0' ∧ tolower (char_at num 1) = 'x' then
    if !is_num_valid.hex_digit (char_at num 2) then false
    else is_num_valid.hex_loop (num.drop 3)
  else if char_at num 0 = '.' ∧ !isdigit (char_at num 1) then false
  else is_num_valid.loop (num.drop 1) (char_at num 0 = '.')

/-! ## Where the address operands of an intermediate tree stand -/

/-- Whether an argument slot is in order for an instruction whose parent is `up`: the number
of children of the grouping it is a child of and its own index among them, `none` for a
node that `load` is given without grouping (the top of the tree, and every node reached
through `next`). A slot without address is in order; an address operand is in order when the
instruction is a child of a grouping and the operand is a valid child index of that
grouping, different from the instruction's own index. -/
def arg_t.addressed (up : Option (Nat × Nat)) : arg_t → Bool
  | .ADDR_VAL addr =>
    match up with
    | none => false
    | some (num_children, j) => decide (addr < num_children) && decide (addr ≠ j)
  | _ => true

mutual
/-- Whether every address operand of an intermediate tree is in order (`arg_t.addressed`),
the tree being handed to `load` with the parent `up`: the children of a grouping have that
grouping as parent, the `next` chain has none. -/
def addressed : inter_node → Option (Nat × Nat) → Bool
  | .instruction inst next, up =>
    inst.args.all (arg_t.addressed up) && addressed_opt next none
  | .grouping children next, _ =>
    addressed_children children.length children 0 && addressed_opt next none
/-- The same for a nullable node. -/
def addressed_opt : Option inter_node → Option (Nat × Nat) → Bool
  | none, _ => true
  | some n, up => addressed n up
/-- The same for the children of a grouping of `num_children` children, from index `i` on. -/
def addressed_children (num_children : Nat) : List (Option inter_node) → Nat → Bool
  | [], _ => true
  | c :: cs, i =>
    addressed_opt c (some (num_children, i)) && addressed_children num_children cs (i + 1)
end

/-- A tree in which a jump stands at the top, outside any grouping. -/
def example_stray_jump : inter_node :=
  .instruction (mk_inst .JMP [.ADDR_VAL 0]) none

/-! ## The parser (`FACT_parser.c`) -/

/-- Modelled from the spec: a token of the lexer (`FACT_lexer.h` is not among the sources):
its id and its lexeme; the line count of a token is left out. -/
structure FACT_token where
  id : FACT_nterm_t
  lexem : List Char
deriving DecidableEq, Repr

/-- The message of a call `error (set, fmt, ...)`: the format string with its arguments, the
lexemes given as such and the ids given through `FACT_get_lexem` (which is not among the
sources). -/
structure parse_error where
  fmt : String
  lexems : List (List Char)
  ids : List FACT_nterm_t
deriving DecidableEq, Repr

/-- The outcome of a function of the parser on the tokens from `set->curr` on: it returns
(`ok`, with the tokens that are left), it calls `error`, which does not return (`error`), it
reads a token after the last one (`undef`), or the recursion depth allowed to it does not
suffice (`more`). -/
inductive parsed (α : Type) where
  | ok (res : α) (set : List FACT_token)
  | error (err : parse_error)
  | undef
  | more
deriving Repr

/-- Sequencing: what follows a call that returns, on its result and the tokens left. -/
def parsed.bind {α β : Type} (p : parsed α) (f : α → List FACT_token → parsed β) :
    parsed β :=
  match p with
  | .ok res set => f res set
  | .error err => .error err
  | .undef => .undef
  | .more => .more

/-- The C library's `isalpha` in the C locale. -/
def isalpha (c : Char) : Bool :=
  ('a'.toNat ≤ c.toNat && c.toNat ≤ 'z'.toNat) || ('A'.toNat ≤ c.toNat && c.toNat ≤ 'Z'.toNat)

/-- The function `is_ident_valid (ident)`: a letter or `_`, then letters, `_` and digits. -/
def is_ident_valid (ident : List Char) : Bool :=
  if !isalpha (char_at ident 0) && char_at ident 0 ≠ '_' then false
  else (ident.drop 1).all (fun c => !(!isalpha c && c ≠ '_' && !isdigit c))

/-- The function `check (set, id)`: whether the current token has the id. -/
def check (set : List FACT_token) (id : FACT_nterm_t) : parsed Bool :=
  match set with
  | [] => .undef
  | tok :: _ => .ok (tok.id = id) set

/-- The function `check_forward (set, id, i)`: whether the token `i` places after the current
one has the id. -/
def check_forward (set : List FACT_token) (id : FACT_nterm_t) (i : Nat) : parsed Bool :=
  match set[i]? with
  | none => .undef
  | some tok => .ok (tok.id = id) set

/-- The function `accept (set, id)`: when the current token has the id (or `id` is
`E_STR_CONST`) a new node holding the token is returned and, unless `id` is `E_END`, the
parser moves over the token; otherwise NULL is returned. An `E_VAR` token must be a valid
identifier and an `E_NUM` token a valid number. -/
def accept (set : List FACT_token) (id : FACT_nterm_t) : parsed (Option FACT_tree) :=
  match set with
  | [] => .undef
  | tok :: rest =>
    if tok.id = id ∨ id = .E_STR_CONST then
      if id ≠ .E_STR_CONST ∧ id = .E_VAR ∧ is_ident_valid tok.lexem = false then
        .error ⟨"invalid identifier `%s'", [tok.lexem], []⟩
      else if id ≠ .E_STR_CONST ∧ id = .E_NUM ∧ is_num_valid tok.lexem = false then
        .error ⟨"invalid numerical constant `%s'", [tok.lexem], []⟩
      else .ok (some (accept.node tok.id tok.lexem)) (if id ≠ .E_END then rest else set)
    else .ok none set

/-- The function `expect (set, id)`: `accept`, and an error when it returns NULL. -/
def expect (set : List FACT_token) (id : FACT_nterm_t) : parsed FACT_tree :=
  (accept set id).bind fun res set1 =>
    match res with
    | some res => .ok res set1
    | none =>
      match set1 with
      | [] => .undef
      | tok :: _ => .error ⟨"expected %s before %s", [], [id, tok.id]⟩

/-- A condition `(pn = accept (set, id1)) != NULL || (pn = accept (set, id2)) != NULL || ...`:
the node of the first `accept` that does not return NULL, NULL when all do. -/
def accept.first (set : List FACT_token) : List FACT_nterm_t → parsed (Option FACT_tree)
  | [] => .ok none set
  | id :: ids =>
    match accept set id with
    | .ok none _ => accept.first set ids
    | other => other

/-- Assignment to `id.id`. -/
def FACT_tree.set_id : FACT_tree → FACT_nterm_t → FACT_tree
  | .mk _ lexem c0 c1 c2 c3 next, id => .mk id lexem c0 c1 c2 c3 next

/-- Assignment to `children[0]`. -/
def FACT_tree.set_children0 : FACT_tree → Option FACT_tree → FACT_tree
  | .mk id lexem _ c1 c2 c3 next, c => .mk id lexem c c1 c2 c3 next

/-- Assignment to `children[1]`. -/
def FACT_tree.set_children1 : FACT_tree → Option FACT_tree → FACT_tree
  | .mk id lexem c0 _ c2 c3 next, c => .mk id lexem c0 c c2 c3 next

/-- Assignment to `children[2]`. -/
def FACT_tree.set_children2 : FACT_tree → Option FACT_tree → FACT_tree
  | .mk id lexem c0 c1 _ c3 next, c => .mk id lexem c0 c1 c c3 next

/-- Assignment to `children[3]`. -/
def FACT_tree.set_children3 : FACT_tree → Option FACT_tree → FACT_tree
  | .mk id lexem c0 c1 c2 _ next, c => .mk id lexem c0 c1 c2 c next

/-- The node that `stmt` and `top_stmt_list` allocate as terminator after a function
definition: `memset` to zero, then `id.id = E_SEMI`. -/
def fresh_semi : FACT_tree :=
  accept.node .E_SEMI []

/-- The statement `if (pn->next != NULL) pn->next->next = rest; else pn->next = rest;` of
`stmt_list` and `top_stmt_list`. -/
def FACT_tree.chain (pn rest : FACT_tree) : FACT_tree :=
  match pn.next with
  | some nx => pn.set_next (some (nx.set_next (some rest)))
  | none => pn.set_next (some rest)

/-- One turn of the loop of `term`, `expression`, `comparison`, `equality`, `land` and `lor`,
which is the same in the six functions but for the operators `ops` and the function
`operand` that parses an operand: `if ((pn = accept (set, op1)) != NULL || ...) do {
pn->children[0] = ln; pn->children[1] = operand (set); ln = pn; } while (...)`. When an
operator is accepted the right operand is parsed and the loop goes on (`again`) with the new
node as `ln`; otherwise `ln` is returned. -/
def binary_step (ops : List FACT_nterm_t) (operand : List FACT_token → parsed FACT_tree)
    (again : FACT_tree → List FACT_token → parsed FACT_tree)
    (ln : FACT_tree) (set : List FACT_token) : parsed FACT_tree :=
  (accept.first set ops).bind fun pn set1 =>
    match pn with
    | none => .ok ln set1
    | some pn => (operand set1).bind fun rn set2 => again (term.node pn ln rn) set2

/-- The loop over the parameters after the first in `func_dec` and `top_stmt_list`, with the
number of turns allowed: `while (accept (set, E_COMMA) != NULL) { ...; an->children[0] =
expect (set, E_VAR); an->children[1] = hold; hold = an; }`. The result is the last `an`. -/
def func_dec.loop : Nat → FACT_tree → List FACT_token → parsed FACT_tree
  | 0, _, _ => .more
  | n + 1, hold, set =>
    (accept set .E_COMMA).bind fun c set =>
      match c with
      | none => .ok hold set
      | some _ =>
        (accept.first set [.E_NUM_DEF, .E_SCOPE_DEF, .E_LOCAL_CHECK]).bind fun an set =>
          match an with
          | none => .error ⟨"expected num, scope, or ? token after comma", [], []⟩
          | some an =>
            (expect set .E_VAR).bind fun v set =>
              func_dec.loop n ((an.set_children0 (some v)).set_children1 (some hold)) set

/-- The parameter list of `func_dec` and `top_stmt_list`: the first parameter, if there is
one, and the loop over the others. The result is `an`, NULL without parameter. -/
def func_dec.params (n : Nat) (set : List FACT_token) : parsed (Option FACT_tree) :=
  (accept.first set [.E_NUM_DEF, .E_SCOPE_DEF, .E_LOCAL_CHECK]).bind fun an set =>
    match an with
    | none => .ok none set
    | some an =>
      (expect set .E_VAR).bind fun v set =>
        (func_dec.loop n (an.set_children0 (some v)) set).bind fun an set => .ok (some an) set

mutual
/-- The function `stmt (set)`, with the recursion depth allowed to it. The chain `if ((pn =
accept (set, E_OP_CURL)) != NULL) ... else if ((pn = accept (set, E_IF)) != NULL) ...` is
read as the first `accept` that does not return NULL, followed by the branch of the id
accepted. -/
def stmt : Nat → List FACT_token → parsed FACT_tree
  | 0, _ => .more
  | n + 1, set =>
    (accept.first set [.E_OP_CURL, .E_IF, .E_WHILE, .E_FOR, .E_CATCH, .E_RETURN, .E_GIVE,
      .E_BREAK, .E_DEFUNC]).bind fun pn set =>
    match pn with
    | some pn =>
      match pn.id with
      | .E_OP_CURL =>
        (stmt_list n set).bind fun body set =>
        (expect set .E_CL_CURL).bind fun cl set =>
        .ok ((pn.set_children0 (some body)).set_next (some cl)) set
      | .E_IF =>
        (expect set .E_OP_PAREN).bind fun _ set =>
        (assignment n set).bind fun c set =>
        (expect set .E_CL_PAREN).bind fun _ set =>
        (stmt n set).bind fun t set =>
        (accept set .E_ELSE).bind fun el set =>
        match el with
        | some _ =>
          (stmt n set).bind fun e set =>
          .ok (((pn.set_children0 (some c)).set_children1 (some t)).set_children2 (some e)) set
        | none => .ok ((pn.set_children0 (some c)).set_children1 (some t)) set
      | .E_WHILE =>
        (expect set .E_OP_PAREN).bind fun _ set =>
        (accept set .E_CL_PAREN).bind fun cl set =>
        (match cl with
          | some _ => parsed.ok (none : Option FACT_tree) set
          | none =>
            (assignment n set).bind fun c set =>
            (expect set .E_CL_PAREN).bind fun _ set => .ok (some c) set).bind fun c set =>
        (accept set .E_SEMI).bind fun semi set =>
        (match semi with
          | some _ => parsed.ok (none : Option FACT_tree) set
          | none => (stmt n set).bind fun b set => .ok (some b) set).bind fun b set =>
        .ok ((pn.set_children0 c).set_children1 b) set
      | .E_FOR =>
        (expect set .E_OP_PAREN).bind fun _ set =>
        (accept set .E_SEMI).bind fun semi set =>
        (match semi with
          | some _ => parsed.ok (none : Option FACT_tree) set
          | none =>
            (assignment n set).bind fun e set =>
            (expect set .E_SEMI).bind fun s set =>
            .ok (some (e.set_next (some s))) set).bind fun c0 set =>
        (accept set .E_SEMI).bind fun semi set =>
        (match semi with
          | some _ => parsed.ok (none : Option FACT_tree) set
          | none =>
            (assignment n set).bind fun e set =>
            (expect set .E_SEMI).bind fun _ set => .ok (some e) set).bind fun c1 set =>
        (accept set .E_CL_PAREN).bind fun cl set =>
        (match cl with
          | some _ => parsed.ok (none : Option FACT_tree) set
          | none =>
            (assignment n set).bind fun e set =>
            (expect set .E_CL_PAREN).bind fun _ set => .ok (some e) set).bind fun c2 set =>
        (accept set .E_SEMI).bind fun semi set =>
        (match semi with
          | some _ => parsed.ok (none : Option FACT_tree) set
          | none => (stmt n set).bind fun b set => .ok (some b) set).bind fun c3 set =>
        .ok ((((pn.set_children0 c0).set_children1 c1).set_children2 c2).set_children3 c3) set
      | .E_CATCH =>
        (stmt n set).bind fun t set =>
        (expect set .E_HANDLE).bind fun _ set =>
        (stmt n set).bind fun h set =>
        .ok ((pn.set_children0 (some t)).set_children1 (some h)) set
      | .E_RETURN | .E_GIVE =>
        (assignment n set).bind fun e set =>
        (expect set .E_SEMI).bind fun _ set => .ok (pn.set_children0 (some e)) set
      | .E_BREAK =>
        (expect set .E_SEMI).bind fun _ set => .ok pn set
      | _ =>
        (func_dec n set true).bind fun en set =>
        .ok ((pn.set_children0 (some en)).set_next (some fresh_semi)) set
    | none =>
      (check set .E_VAR).bind fun is_var set =>
      ((if is_var then check_forward set .E_IMP_DEF 1 else .ok false set)).bind
        fun is_imp set =>
      if is_imp then
        (accept set .E_VAR).bind fun en set =>
        (accept set .E_IMP_DEF).bind fun pn set =>
        match pn with
        | none => .undef
        | some pn =>
          (assignment n set).bind fun e set =>
          (expect set .E_SEMI).bind fun semi set =>
          .ok (((pn.set_children0 en).set_children1 (some e)).set_next (some semi)) set
      else
        (assignment n set).bind fun pn set =>
        (check set .E_FUNC_DEF).bind fun is_def set =>
        if is_def then
          (func_dec n set false).bind fun en set =>
          .ok ((en.set_children0 (some pn)).set_next (some fresh_semi)) set
        else
          (expect set .E_SEMI).bind fun semi set => .ok (pn.set_next (some semi)) set
/-- The function `stmt_list (set)`, with the recursion depth allowed to it. -/
def stmt_list : Nat → List FACT_token → parsed FACT_tree
  | 0, _ => .more
  | n + 1, set =>
    (stmt n set).bind fun pn set =>
    (check set .E_END).bind fun at_end set =>
    (check set .E_CL_CURL).bind fun at_curl set =>
    if !at_end && !at_curl then
      (stmt_list n set).bind fun rest set => .ok (pn.chain rest) set
    else .ok pn set
/-- The function `top_stmt_list (set)`, with the recursion depth allowed to it. -/
def top_stmt_list : Nat → List FACT_token → parsed FACT_tree
  | 0, _ => .more
  | n + 1, set =>
    (accept set .E_CONST).bind fun pn set =>
    (match pn with
      | some pn =>
        (expect set .E_VAR).bind fun v set =>
        (check set .E_OP_PAREN).bind fun is_paren set =>
        (check set .E_SET).bind fun is_set set =>
        if !is_paren && !is_set then
          .error ⟨"expected \"=\" or \"(\" after constant declaration", [], []⟩
        else
          (accept set .E_SET).bind fun s set =>
          match s with
          | some s =>
            (assignment n set).bind fun e set =>
            (expect set .E_SEMI).bind fun semi set =>
            .ok ((((pn.set_children0 (some v)).set_children1 (some s)).set_children2
              (some e)).set_next (some semi)) set
          | none =>
            (expect set .E_OP_PAREN).bind fun _ set =>
            (func_dec.params n set).bind fun an set =>
            (expect set .E_CL_PAREN).bind fun _ set =>
            (expect set .E_OP_CURL).bind fun _ set =>
            (check set .E_CL_CURL).bind fun is_curl set =>
            (if !is_curl then (stmt_list n set).bind fun b set => .ok (some b) set
              else .ok none set).bind fun body set =>
            (expect set .E_CL_CURL).bind fun _ set =>
            .ok ((((pn.set_children0 (some v)).set_children1 an).set_children2
              body).set_next (some fresh_semi)) set
      | none => stmt n set).bind fun pn set =>
    (check set .E_END).bind fun at_end set =>
    (check set .E_CL_CURL).bind fun at_curl set =>
    if !at_end && !at_curl then
      (top_stmt_list n set).bind fun rest set => .ok (pn.chain rest) set
    else .ok pn set
/-- The function `func_dec (set, imp_scope_dec)`, with the recursion depth allowed to it. -/
def func_dec : Nat → List FACT_token → Bool → parsed FACT_tree
  | 0, _, _ => .more
  | n + 1, set, imp_scope_dec =>
    (expect set (if imp_scope_dec then .E_VAR else .E_FUNC_DEF)).bind fun pn set =>
    (expect set .E_OP_PAREN).bind fun _ set =>
    (func_dec.params n set).bind fun an set =>
    (expect set .E_CL_PAREN).bind fun _ set =>
    (expect set .E_OP_CURL).bind fun _ set =>
    (check set .E_CL_CURL).bind fun is_curl set =>
    (if !is_curl then (stmt_list n set).bind fun b set => .ok (some b) set
      else .ok none set).bind fun body set =>
    (expect set .E_CL_CURL).bind fun _ set =>
    .ok ((pn.set_children1 an).set_children2 body) set
/-- The function `def_scalar (set)`, with the recursion depth allowed to it. -/
def def_scalar : Nat → List FACT_token → parsed (Option FACT_tree)
  | 0, _ => .more
  | n + 1, set =>
    (accept set .E_OP_BRACK).bind fun an set =>
    match an with
    | none => .ok none set
    | some _ =>
      (assignment n set).bind fun an set =>
      (expect set .E_CL_BRACK).bind fun _ set =>
      (def_scalar.loop n an set).bind fun an set => .ok (some an) set
/-- The loop `while (accept (set, E_OP_BRACK) != NULL) { n = assignment (set); expect (set,
E_CL_BRACK); n->next = an; an = n; }` of `def_scalar`. -/
def def_scalar.loop : Nat → FACT_tree → List FACT_token → parsed FACT_tree
  | 0, _, _ => .more
  | n + 1, an, set =>
    (accept set .E_OP_BRACK).bind fun b set =>
    match b with
    | none => .ok an set
    | some _ =>
      (assignment n set).bind fun e set =>
      (expect set .E_CL_BRACK).bind fun _ set =>
      def_scalar.loop n (e.set_next (some an)) set
/-- The function `paren (set)`, with the recursion depth allowed to it. -/
def paren : Nat → List FACT_token → parsed FACT_tree
  | 0, _ => .more
  | n + 1, set =>
    (accept set .E_OP_CURL).bind fun pn set =>
    (match pn with
      | some pn =>
        (stmt_list n set).bind fun body set =>
        (expect set .E_CL_CURL).bind fun _ set => .ok (pn.set_children0 (some body)) set
      | none => assignment n set).bind fun pn set =>
    (check set .E_FUNC_DEF).bind fun is_def set =>
    (if is_def then
        (func_dec n set false).bind fun en set => .ok (en.set_children0 (some pn)) set
      else .ok pn set).bind fun pn set =>
    (expect set .E_CL_PAREN).bind fun _ set => .ok pn set
/-- The function `arg_list (set)`, with the recursion depth allowed to it. -/
def arg_list : Nat → List FACT_token → parsed (Option FACT_tree)
  | 0, _ => .more
  | n + 1, set =>
    (accept set .E_CL_PAREN).bind fun cl set =>
    match cl with
    | some _ => .ok none set
    | none =>
      (assignment n set).bind fun pn set =>
      (arg_list.loop n set).bind fun rest set => .ok (some (pn.set_next rest)) set
/-- The loop `while (accept (set, E_CL_PAREN) == NULL) { expect (set, E_COMMA); an->next =
assignment (set); an = an->next; }` of `arg_list`: the chain that `an->next` becomes. -/
def arg_list.loop : Nat → List FACT_token → parsed (Option FACT_tree)
  | 0, _ => .more
  | n + 1, set =>
    (accept set .E_CL_PAREN).bind fun cl set =>
    match cl with
    | some _ => .ok none set
    | none =>
      (expect set .E_COMMA).bind fun _ set =>
      (assignment n set).bind fun an set =>
      (arg_list.loop n set).bind fun rest set => .ok (some (an.set_next rest)) set
/-- The function `factor (set)`, with the recursion depth allowed to it; the chain of
`accept` is read as in `stmt`. Which of the two formats of the last error is used depends on
the order of the ids in `FACT_lexer.h`, which is not among the sources. -/
def factor : Nat → List FACT_token → parsed FACT_tree
  | 0, _ => .more
  | n + 1, set =>
    (accept.first set [.E_OP_PAREN, .E_THREAD, .E_DQ, .E_SQ, .E_OP_BRACK, .E_VAR, .E_NUM,
      .E_NUM_DEF, .E_SCOPE_DEF]).bind fun pn set =>
    match pn with
    | none =>
      match set with
      | [] => .undef
      | tok :: _ => .error ⟨"unexpected %s", [], [tok.id]⟩
    | some pn =>
      match pn.id with
      | .E_OP_PAREN => paren n set
      | .E_THREAD =>
        (accept set .E_OP_CURL).bind fun c set =>
        match c with
        | some c =>
          (stmt_list n set).bind fun body set =>
          (expect set .E_CL_CURL).bind fun cl set =>
          .ok (pn.set_children0
            (some ((c.set_children0 (some body)).set_next (some cl)))) set
        | none =>
          (assignment n set).bind fun e set => .ok (pn.set_children0 (some e)) set
      | .E_DQ =>
        (accept set .E_STR_CONST).bind fun s set =>
        (expect set .E_DQ).bind fun _ set => .ok (pn.set_children0 s) set
      | .E_SQ =>
        (accept set .E_STR_CONST).bind fun s set =>
        (expect set .E_SQ).bind fun _ set => .ok (pn.set_children0 s) set
      | .E_OP_BRACK =>
        (assignment n set).bind fun e set =>
        (factor.loop n set).bind fun rest set =>
        (expect set .E_CL_BRACK).bind fun _ set =>
        .ok ((pn.set_children0 (some e)).set_children1 rest) set
      | .E_VAR =>
        (accept.first set [.E_LOCAL_CHECK, .E_GLOBAL_CHECK]).bind fun en set =>
        match en with
        | some en => .ok (en.set_children0 (some pn)) set
        | none => .ok pn set
      | .E_NUM => .ok pn set
      | _ =>
        (def_scalar n set).bind fun dims set =>
        (expect set .E_VAR).bind fun name set => .ok (factor.node pn dims name) set
/-- The loop `while ((en->children[1] = accept (set, E_COMMA)) != NULL) { en =
en->children[1]; en->children[0] = assignment (set); }` of the anonymous array in `factor`:
what `en->children[1]` becomes. -/
def factor.loop : Nat → List FACT_token → parsed (Option FACT_tree)
  | 0, _ => .more
  | n + 1, set =>
    (accept set .E_COMMA).bind fun en set =>
    match en with
    | none => .ok none set
    | some en =>
      (assignment n set).bind fun e set =>
      (factor.loop n set).bind fun rest set =>
      .ok (some ((en.set_children0 (some e)).set_children1 rest)) set
/-- The function `unary (set)`, with the recursion depth allowed to it. -/
def unary : Nat → List FACT_token → parsed FACT_tree
  | 0, _ => .more
  | n + 1, set =>
    (accept set .E_ADD).bind fun plus set =>
    match plus with
    | some _ => unary n set
    | none =>
      (accept set .E_SUB).bind fun pn set =>
      match pn with
      | some pn =>
        (unary n set).bind fun e set =>
        .ok ((pn.set_id .E_NEG).set_children0 (some e)) set
      | none => factor n set
/-- The function `opt_pb (set)`, with the recursion depth allowed to it. -/
def opt_pb : Nat → List FACT_token → parsed FACT_tree
  | 0, _ => .more
  | n + 1, set => (unary n set).bind fun ln set => opt_pb.loop n ln set
/-- The loop of `opt_pb` over the tokens `(`, `[` and `in` that follow. -/
def opt_pb.loop : Nat → FACT_tree → List FACT_token → parsed FACT_tree
  | 0, _, _ => .more
  | n + 1, ln, set =>
    (accept.first set [.E_OP_PAREN, .E_OP_BRACK, .E_IN]).bind fun pn set =>
    match pn with
    | none => .ok ln set
    | some pn =>
      match pn.id with
      | .E_OP_PAREN =>
        (arg_list n set).bind fun args set => opt_pb.loop n (opt_pb.node pn ln args) set
      | .E_OP_BRACK =>
        (assignment n set).bind fun e set =>
        (expect set .E_CL_BRACK).bind fun _ set =>
        opt_pb.loop n (opt_pb.node pn ln (some e)) set
      | _ =>
        (unary n set).bind fun e set => opt_pb.loop n (opt_pb.node pn ln (some e)) set
/-- The function `term (set)`, with the recursion depth allowed to it. -/
def term : Nat → List FACT_token → parsed FACT_tree
  | 0, _ => .more
  | n + 1, set => (opt_pb n set).bind fun ln set => term.loop n ln set
/-- The loop of `term`. -/
def term.loop : Nat → FACT_tree → List FACT_token → parsed FACT_tree
  | 0, _, _ => .more
  | n + 1, ln, set => binary_step [.E_MUL, .E_DIV, .E_MOD] (opt_pb n) (term.loop n) ln set
/-- The function `expression (set)`, with the recursion depth allowed to it. -/
def expression : Nat → List FACT_token → parsed FACT_tree
  | 0, _ => .more
  | n + 1, set => (term n set).bind fun ln set => expression.loop n ln set
/-- The loop of `expression`. -/
def expression.loop : Nat → FACT_tree → List FACT_token → parsed FACT_tree
  | 0, _, _ => .more
  | n + 1, ln, set => binary_step [.E_ADD, .E_SUB] (term n) (expression.loop n) ln set
/-- The function `comparison (set)`, with the recursion depth allowed to it. -/
def comparison : Nat → List FACT_token → parsed FACT_tree
  | 0, _ => .more
  | n + 1, set => (expression n set).bind fun ln set => comparison.loop n ln set
/-- The loop of `comparison`. -/
def comparison.loop : Nat → FACT_tree → List FACT_token → parsed FACT_tree
  | 0, _, _ => .more
  | n + 1, ln, set =>
    binary_step [.E_LT, .E_LE, .E_MT, .E_ME] (expression n) (comparison.loop n) ln set
/-- The function `equality (set)`, with the recursion depth allowed to it. -/
def equality : Nat → List FACT_token → parsed FACT_tree
  | 0, _ => .more
  | n + 1, set => (comparison n set).bind fun ln set => equality.loop n ln set
/-- The loop of `equality`. -/
def equality.loop : Nat → FACT_tree → List FACT_token → parsed FACT_tree
  | 0, _, _ => .more
  | n + 1, ln, set => binary_step [.E_EQ, .E_NE] (comparison n) (equality.loop n) ln set
/-- The function `land (set)`, with the recursion depth allowed to it. -/
def land : Nat → List FACT_token → parsed FACT_tree
  | 0, _ => .more
  | n + 1, set => (equality n set).bind fun ln set => land.loop n ln set
/-- The loop of `land`. -/
def land.loop : Nat → FACT_tree → List FACT_token → parsed FACT_tree
  | 0, _, _ => .more
  | n + 1, ln, set => binary_step [.E_AND] (equality n) (land.loop n) ln set
/-- The function `lor (set)`, with the recursion depth allowed to it. -/
def lor : Nat → List FACT_token → parsed FACT_tree
  | 0, _ => .more
  | n + 1, set => (land n set).bind fun ln set => lor.loop n ln set
/-- The loop of `lor`. -/
def lor.loop : Nat → FACT_tree → List FACT_token → parsed FACT_tree
  | 0, _, _ => .more
  | n + 1, ln, set => binary_step [.E_OR] (land n) (lor.loop n) ln set
/-- The function `assignment (set)`, with the recursion depth allowed to it. -/
def assignment : Nat → List FACT_token → parsed FACT_tree
  | 0, _ => .more
  | n + 1, set =>
    (lor n set).bind fun ln set =>
    (accept.first set [.E_SET, .E_MOD_AS, .E_BIT_AND_AS, .E_MUL_AS, .E_ADD_AS, .E_SUB_AS,
      .E_DIV_AS, .E_BIT_XOR_AS, .E_BIT_IOR_AS]).bind fun pn set =>
    match pn with
    | some pn => (assignment n set).bind fun rn set => .ok (term.node pn ln rn) set
    | none => .ok ln set
end

/-- The function `FACT_parse (tokens)`: "just an alias for `top_stmt_list`". -/
def FACT_parse (fuel : Nat) (tokens : List FACT_token) : parsed FACT_tree :=
  top_stmt_list fuel tokens

/-! ## Chains of operators, as the parser reads them -/

/-- A token with the given id and lexeme. -/
def tok (id : FACT_nterm_t) (lexem : String) : FACT_token :=
  ⟨id, lexem.toList⟩

/-- The token of the identifier `name`. -/
def var_tok (name : String) : FACT_token :=
  ⟨.E_VAR, name.toList⟩

/-- The token that ends the token array. -/
def end_tok : FACT_token :=
  ⟨.E_END, []⟩

/-- The tokens after the first operand of a chain `op1 r1 op2 r2 ...` of operators of one
level: each step is an operator token of `ops` followed by tokens from which `operand`
parses the tree `r` of the step, whatever recursion depth of at least `F` it is given; the
chain starts at `set` and leaves the tokens `rest`. -/
def operator_chain (operand : Nat → List FACT_token → parsed FACT_tree)
    (ops : List FACT_nterm_t) (F : Nat) :
    List (FACT_token × FACT_tree) → List FACT_token → List FACT_token → Prop
  | [], set, rest => set = rest
  | (op, r) :: steps, set, rest =>
    ∃ set1 set2, set = op :: set1 ∧ op.id ∈ ops ∧
      (∀ k, operand (k + F) set1 = .ok r set2) ∧
      operator_chain operand ops F steps set2 rest

/-- The left-nested tree of a chain: the node of each operator has the tree of everything
before it as `children[0]` and its right operand as `children[1]`. -/
def left_nested (l0 : FACT_tree) (steps : List (FACT_token × FACT_tree)) : FACT_tree :=
  steps.foldl (fun ln s => term.node (accept.node s.1.id s.1.lexem) ln s.2) l0

/-- A function `level` of the parser reads every chain of the operators `ops` left-nested,
its operands being what `operand` parses: the first operand `l0`, then the chain, up to a
token `stop` that is not one of the operators. -/
def parses_left_nested (level operand : Nat → List FACT_token → parsed FACT_tree)
    (ops : List FACT_nterm_t) : Prop :=
  ∀ (F : Nat) (l0 : FACT_tree) (steps : List (FACT_token × FACT_tree))
    (set0 set1 : List FACT_token) (stop : FACT_token) (rest : List FACT_token),
    (∀ k, operand (k + F) set0 = .ok l0 set1) →
    operator_chain operand ops F steps set1 (stop :: rest) →
    stop.id ∉ ops →
    ∀ k, level (k + F + steps.length + 2) set0 = .ok (left_nested l0 steps) (stop :: rest)

/-- The assignment operators that `assignment` accepts. -/
def assignment_ops : List FACT_nterm_t :=
  [.E_SET, .E_MOD_AS, .E_BIT_AND_AS, .E_MUL_AS, .E_ADD_AS, .E_SUB_AS, .E_DIV_AS,
   .E_BIT_XOR_AS, .E_BIT_IOR_AS]

/-- The tokens of a chain `l1 op1 l2 op2 ...` of assignments before its last operand: each
step is tokens from which `lor` parses the tree `l` of the step, followed by an assignment
operator; the chain starts at `set` and the last operand starts at `last`. -/
def assignment_chain (F : Nat) :
    List (FACT_tree × FACT_token) → List FACT_token → List FACT_token → Prop
  | [], set, last => set = last
  | (l, op) :: steps, set, last =>
    ∃ set1, (∀ k, lor (k + F) set = .ok l (op :: set1)) ∧ op.id ∈ assignment_ops ∧
      assignment_chain F steps set1 last

/-- The right-nested tree of a chain of assignments: the node of each operator has its left
operand as `children[0]` and the tree of everything after it as `children[1]`. -/
def right_nested (steps : List (FACT_tree × FACT_token)) (last : FACT_tree) : FACT_tree :=
  steps.foldr (fun s rn => term.node (accept.node s.2.id s.2.lexem) s.1 rn) last

/-! ## Examples for the parser -/

/-- The tokens of `for (i = a; i < n; i = i + d) ;`, a loop without body. -/
def example_for_tokens : List FACT_token :=
  [tok .E_FOR "for", tok .E_OP_PAREN "(", var_tok "i", tok .E_SET "=", var_tok "a",
   tok .E_SEMI ";", var_tok "i", tok .E_LT "<", var_tok "n", tok .E_SEMI ";", var_tok "i",
   tok .E_SET "=", var_tok "i", tok .E_ADD "+", var_tok "d", tok .E_CL_PAREN ")",
   tok .E_SEMI ";", end_tok]

/-- The tree that the parser returns for `for (i = a; i < n; i = i + d) ;`: `children[3]`, the
body, is NULL. -/
def example_for_no_body : FACT_tree :=
  .mk .E_FOR "for".toList
    (some (.mk .E_SET "=".toList (some (tree_var "i")) (some (tree_var "a")) none none
      (some (accept.node .E_SEMI ";".toList))))
    (some (.mk .E_LT "<".toList (some (tree_var "i")) (some (tree_var "n")) none none none))
    (some (.mk .E_SET "=".toList (some (tree_var "i"))
      (some (.mk .E_ADD "+".toList (some (tree_var "i")) (some (tree_var "d"))
        none none none))
      none none none))
    none none

/-- The tokens of `while (x) ;`, a loop without body. -/
def example_while_tokens : List FACT_token :=
  [tok .E_WHILE "while", tok .E_OP_PAREN "(", var_tok "x", tok .E_CL_PAREN ")",
   tok .E_SEMI ";", end_tok]

/-- The tree that the parser returns for `while (x) ;`: `children[1]`, the body, is NULL. -/
def example_while_no_body : FACT_tree :=
  .mk .E_WHILE "while".toList (some (tree_var "x")) none none none none

/-! ## The dimensions of a declaration, from the tokens to the array -/

/-- The tokens `[ e1 ] [ e2 ] ...` of the dimensions of a declaration: each dimension is a
`[`, tokens from which `assignment` parses the tree of the dimension, whatever recursion
depth of at least `F` it is given, and a `]`; the dimensions start at `set` and leave the
tokens `rest`. -/
def bracket_chain (F : Nat) : List FACT_tree → List FACT_token → List FACT_token → Prop
  | [], set, rest => set = rest
  | e :: es, set, rest =>
    ∃ opening closing set1 set2, set = opening :: set1 ∧ opening.id = .E_OP_BRACK ∧
      (∀ k, assignment (k + F) set1 = .ok e (closing :: set2)) ∧ closing.id = .E_CL_BRACK ∧
      bracket_chain F es set2 rest

/-- The value stack after the values are pushed, the first of the list first. -/
def push_all (values : List FACT_t) (vstack : List FACT_t) : List FACT_t :=
  values.foldl (fun st v => v :: st) vstack

/-- The tokens of `num [p][q] k`. -/
def example_decl_tokens : List FACT_token :=
  [tok .E_NUM_DEF "num", tok .E_OP_BRACK "[", var_tok "p", tok .E_CL_BRACK "]",
   tok .E_OP_BRACK "[", var_tok "q", tok .E_CL_BRACK "]", var_tok "k", end_tok]

mutual
/-- The instruction nodes of an intermediate tree, in the order in which `load` encodes
them: the node itself or the children of the grouping, then the `next` chain. -/
def inter_node.insts : inter_node → List inst_t
  | .instruction inst next => inst :: inter_node.insts_opt next
  | .grouping children next =>
    inter_node.insts_children children ++ inter_node.insts_opt next
/-- The same for a nullable node. -/
def inter_node.insts_opt : Option inter_node → List inst_t
  | none => []
  | some n => inter_node.insts n
/-- The same for the children of a grouping. -/
def inter_node.insts_children : List (Option inter_node) → List inst_t
  | [] => []
  | c :: cs => inter_node.insts_opt c ++ inter_node.insts_children cs
end

mutual
/-- Whether in every instruction node of an intermediate tree no argument follows a label
(`label_last`). -/
def labels_last : inter_node → Bool
  | .instruction inst next => label_last inst.args && labels_last_opt next
  | .grouping children next => labels_last_children children && labels_last_opt next
/-- The same for a nullable node. -/
def labels_last_opt : Option inter_node → Bool
  | none => true
  | some n => labels_last n
/-- The same for the children of a grouping. -/
def labels_last_children : List (Option inter_node) → Bool
  | [] => true
  | c :: cs => labels_last_opt c && labels_last_children cs
end

/-- The tokens of the parameters after the first: each is a comma, the token `num`, `scope`
or `?` and the token of the name. -/
def more_param_tokens (comma : FACT_token) : List (FACT_token × FACT_token) → List FACT_token
  | [] => []
  | p :: rest => comma :: p.1 :: p.2 :: more_param_tokens comma rest

/-- The tokens of a parameter list: the parameters, each the token `num`, `scope` or `?` and
the token of the name, with a comma between two of them. -/
def param_tokens (comma : FACT_token) : List (FACT_token × FACT_token) → List FACT_token
  | [] => []
  | p :: rest => p.1 :: p.2 :: more_param_tokens comma rest

/-- The nodes that `accept` and `expect (set, E_VAR)` make of the tokens of the parameters. -/
def param_nodes (ps : List (FACT_token × FACT_token)) : List (FACT_tree × FACT_tree) :=
  ps.map fun p => (accept.node p.1.id p.1.lexem, accept.node .E_VAR p.2.lexem)

/-- The tokens of `@ (num a, scope b) { }`, the function definition that follows its target. -/
def example_func_tokens : List FACT_token :=
  [tok .E_FUNC_DEF "@", tok .E_OP_PAREN "(", tok .E_NUM_DEF "num", var_tok "a",
   tok .E_COMMA ",", tok .E_SCOPE_DEF "scope", var_tok "b", tok .E_CL_PAREN ")",
   tok .E_OP_CURL "\x7b", tok .E_CL_CURL "\x7d", end_tok]

/-- The tokens of `num k [p][q]`, the name before the brackets. -/
def example_name_first_tokens : List FACT_token :=
  [tok .E_NUM_DEF "num", var_tok "k", tok .E_OP_BRACK "[", var_tok "p", tok .E_CL_BRACK "]",
   tok .E_OP_BRACK "[", var_tok "q", tok .E_CL_BRACK "]", end_tok]

/-- The tree that the parser returns for `num k [p][q]`: two element accesses on the
declaration of `k`, which has no dimension. -/
def example_name_first : FACT_tree :=
  .mk .E_ARRAY_ELEM "[".toList (some (tree_var "q"))
    (some (.mk .E_ARRAY_ELEM "[".toList (some (tree_var "p"))
      (some (.mk .E_NUM_DEF "num".toList none (some (tree_var "k")) none none none))
      none none none))
    none none none

end FACT

/-! # Properties -/

namespace FACT

/-! ## `strcmp` is a strict total order on names -/

theorem char_eq_of_toNat {a b : Char} (h1 : ¬ a.toNat < b.toNat) (h2 : ¬ b.toNat < a.toNat) :
    a = b := by
  have h : a.toNat = b.toNat := by omega
  rw [← Char.ofNat_toNat a, ← Char.ofNat_toNat b, h]

theorem strcmp_self (a : List Char) : strcmp a a = 0 := by
  induction a with
  | nil => rfl
  | cons x xs ih => simp [strcmp, ih]

theorem strcmp_eq_zero_iff (a b : List Char) : strcmp a b = 0 ↔ a = b := by
  constructor
  · intro h
    induction a generalizing b with
    | nil => cases b with
      | nil => rfl
      | cons y ys => simp [strcmp] at h
    | cons x xs ih => cases b with
      | nil => simp [strcmp] at h
      | cons y ys =>
        simp only [strcmp] at h
        split_ifs at h with h1 h2
        · exact absurd h (by decide)
        · rw [char_eq_of_toNat h1 h2, ih ys h]
  · rintro rfl
    exact strcmp_self a

theorem strcmp_neg_iff_pos (a b : List Char) : strcmp a b < 0 ↔ 0 < strcmp b a := by
  induction a generalizing b with
  | nil => cases b <;> simp [strcmp]
  | cons x xs ih => cases b with
    | nil => simp [strcmp]
    | cons y ys =>
      simp only [strcmp]
      split_ifs <;> first | omega | simp | exact ih ys

theorem strcmp_trans {a b c : List Char} (h1 : strcmp a b < 0) (h2 : strcmp b c < 0) :
    strcmp a c < 0 := by
  induction a generalizing b c with
  | nil => cases c with
    | nil => cases b <;> simp [strcmp] at h1 h2
    | cons z zs => simp [strcmp]
  | cons x xs ih => cases b with
    | nil => simp [strcmp] at h1
    | cons y ys => cases c with
      | nil => simp [strcmp] at h2
      | cons z zs =>
        simp only [strcmp] at h1 h2 ⊢
        split_ifs at h1 h2 ⊢ <;> first | omega | simp at h1 | simp at h2 | exact ih h1 h2

theorem strcmp_total (a b : List Char) : strcmp a b < 0 ∨ strcmp a b = 0 ∨ 0 < strcmp a b := by
  omega

/-! ## Binary search and linear scan -/

theorem sorted_get_lt {stack : List FACT_num} (hs : num_stack_sorted stack) {i j : Nat}
    (hi : i < stack.length) (hj : j < stack.length) (hij : i < j) :
    strcmp (stack.get ⟨i, hi⟩).name (stack.get ⟨j, hj⟩).name < 0 := by
  have := (List.pairwise_iff_get.mp hs) ⟨i, hi⟩ ⟨j, hj⟩ hij
  exact this

theorem find_of_sorted {stack : List FACT_num} (hs : num_stack_sorted stack) {x : FACT_num}
    (hx : x ∈ stack) : stack.find? (fun n => n.name = x.name) = some x := by
  induction stack with
  | nil => cases hx
  | cons a t ih =>
    rw [List.find?_cons]
    have hs' := List.pairwise_cons.mp hs
    rcases List.mem_cons.mp hx with rfl | hxt
    · simp
    · have hlt := hs'.1 x hxt
      have hne : a.name ≠ x.name := by
        intro he
        rw [he, strcmp_self] at hlt
        exact absurd hlt (by decide)
      simp [hne]
      exact ih hs'.2 hxt

theorem search_eq_find (stack : List FACT_num) (name : List Char)
    (hs : num_stack_sorted stack) :
    ∀ (n low high : Nat) (hh : high ≤ stack.length), high - low = n →
      (∀ i (hi : i < stack.length), i < low → 0 < strcmp name (stack.get ⟨i, hi⟩).name) →
      (∀ i (hi : i < stack.length), high ≤ i → strcmp name (stack.get ⟨i, hi⟩).name < 0) →
      FACT_get_local_num.search stack name low high hh
        = stack.find? (fun n => n.name = name) := by
  intro n
  induction n using Nat.strong_induction_on with
  | _ n ih =>
    intro low high hh hn hlo hhi
    rw [FACT_get_local_num.search]
    split_ifs with h
    · have hm : low + (high - low) / 2 < stack.length := by omega
      simp only
      split_ifs with h1 h2
      · refine ih (low + (high - low) / 2 - low) (by omega) low _ _ rfl hlo ?_
        intro i hi hge
        rcases Nat.eq_or_lt_of_le hge with he | hlt
        · subst he; exact h1
        · exact strcmp_trans h1 (sorted_get_lt hs hm hi hlt)
      · refine ih (high - (low + (high - low) / 2 + 1)) (by omega) _ high hh rfl ?_ hhi
        intro i hi hlt
        rw [← strcmp_neg_iff_pos]
        rcases Nat.eq_or_lt_of_le (Nat.lt_succ_iff.mp hlt) with he | hlt'
        · subst he; exact (strcmp_neg_iff_pos _ _).mpr h2
        · exact strcmp_trans (sorted_get_lt hs hi hm hlt') ((strcmp_neg_iff_pos _ _).mpr h2)
      · have h0 : strcmp name (stack.get ⟨low + (high - low) / 2, hm⟩).name = 0 := by omega
        have hname := (strcmp_eq_zero_iff _ _).mp h0
        have := find_of_sorted hs (List.get_mem stack _ hm)
        rw [← hname] at this
        exact this.symm
    · symm
      rw [List.find?_eq_none]
      intro x hx
      obtain ⟨i, hi, rfl⟩ := List.getElem_of_mem hx
      simp only [decide_eq_true_eq]
      intro he
      have h0 : strcmp name stack[i].name = 0 := by rw [he]; exact strcmp_self _
      by_cases hil : i < low
      · have := hlo i hi hil
        simp only [List.get_eq_getElem] at this
        omega
      · have := hhi i hi (by omega)
        simp only [List.get_eq_getElem] at this
        omega

/-! ## `FACT_add_num` -/

theorem getElem?_append_cons_length {α : Type} (l : List α) (a : α) (r : List α) :
    (l ++ a :: r)[l.length]? = some a := by
  rw [List.getElem?_append_right (Nat.le_refl _)]
  simp

theorem isSome_false_iff {α : Type} (o : Option α) : o.isSome = false ↔ o = none := by
  cases o <;> simp

theorem move_spec (name : List Char) (x : FACT_num) (l₁ l₂ : List FACT_num) :
    ∃ pre post, l₁ = pre ++ post ∧ (∀ b ∈ post, 0 < strcmp b.name name) ∧
      (∀ a, pre.getLast? = some a → ¬ 0 < strcmp a.name name) ∧
      FACT_add_num.move name l₁.length (l₁ ++ x :: l₂)
        = (pre ++ x :: (post ++ l₂), pre.length) := by
  induction l₁ using List.reverseRecOn generalizing l₂ with
  | nil => exact ⟨[], [], rfl, by simp, by simp, by simp [FACT_add_num.move]⟩
  | append_singleton l a ih =>
    have e1 : (l ++ [a] ++ x :: l₂)[l.length]? = some a := by
      rw [List.append_assoc]
      exact getElem?_append_cons_length l a _
    have e2 : (l ++ [a] ++ x :: l₂)[l.length + 1]? = some x := by
      rw [List.append_assoc, List.getElem?_append_right (by omega)]
      simp
    have hlen : (l ++ [a]).length = l.length + 1 := by simp
    rw [hlen]
    simp only [FACT_add_num.move, e1, e2]
    split_ifs with h
    · obtain ⟨pre, post, hl, hpost, hpre, hmove⟩ := ih (a :: l₂)
      refine ⟨pre, post ++ [a], by rw [hl, List.append_assoc], ?_, hpre, ?_⟩
      · intro b hb
        rcases List.mem_append.mp hb with hb | hb
        · exact hpost b hb
        · rw [List.mem_singleton.mp hb]; exact h
      · have hset : ((l ++ [a] ++ x :: l₂).set l.length x).set (l.length + 1) a
            = l ++ x :: a :: l₂ := by
          rw [List.append_assoc]
          simp [List.set_append]
        rw [hset, hmove]
        simp
    · refine ⟨l ++ [a], [], by simp, by simp, ?_, by simp⟩
      intro a' ha'
      simp at ha'
      subst ha'
      exact h

theorem pre_lt_of_sorted {name : List Char} {pre post : List FACT_num}
    (hs : num_stack_sorted (pre ++ post))
    (hne : ∀ x ∈ pre ++ post, x.name ≠ name)
    (hpre : ∀ a, pre.getLast? = some a → ¬ 0 < strcmp a.name name) :
    ∀ a ∈ pre, strcmp a.name name < 0 := by
  induction pre using List.reverseRecOn with
  | nil => intro a ha; cases ha
  | append_singleton l z _ =>
    have hz : strcmp z.name name < 0 := by
      have h1 := hpre z (by simp)
      have h2 : strcmp z.name name ≠ 0 := by
        intro h0
        exact hne z (by simp) ((strcmp_eq_zero_iff _ _).mp h0)
      omega
    intro a ha
    rcases List.mem_append.mp ha with hal | haz
    · have hs1 : num_stack_sorted (l ++ [z]) := (List.pairwise_append.mp hs).1
      have := (List.pairwise_append.mp hs1).2.2 a hal z (by simp)
      exact strcmp_trans this hz
    · rw [List.mem_singleton.mp haz]; exact hz

theorem sorted_insert {name : List Char} {x : FACT_num} (hx : x.name = name)
    {pre post : List FACT_num} (hs : num_stack_sorted (pre ++ post))
    (hpre : ∀ a ∈ pre, strcmp a.name name < 0)
    (hpost : ∀ b ∈ post, 0 < strcmp b.name name) :
    num_stack_sorted (pre ++ x :: post) := by
  have hs' := List.pairwise_append.mp hs
  refine List.pairwise_append.mpr ⟨hs'.1, List.pairwise_cons.mpr ⟨?_, hs'.2.1⟩, ?_⟩
  · intro b hb
    rw [hx]
    exact (strcmp_neg_iff_pos _ _).mpr (hpost b hb)
  · intro a ha b hb
    rcases List.mem_cons.mp hb with rfl | hb
    · rw [hx]; exact hpre a ha
    · exact hs'.2.2 a ha b hb

theorem get_local_num_none_iff (curr : FACT_scope) (name : List Char)
    (hs : num_stack_sorted curr.num_stack) :
    (FACT_get_local_num curr name).isSome = false ↔ ∀ x ∈ curr.num_stack, x.name ≠ name := by
  unfold FACT_get_local_num
  rw [search_eq_find curr.num_stack name hs _ 0 _ _ rfl (fun i _ h => absurd h (by omega))
    (fun i hi h => absurd h (by omega))]
  rw [isSome_false_iff, List.find?_eq_none]
  simp

theorem add_num_ok (curr : FACT_scope) (name : List Char)
    (hs : num_stack_sorted curr.num_stack)
    (h1 : (FACT_get_local_num curr name).isSome = false)
    (h2 : (FACT_get_local_scope curr name).isSome = false) :
    ∃ pre post, curr.num_stack = pre ++ post ∧
      (∀ a ∈ pre, strcmp a.name name < 0) ∧ (∀ b ∈ post, strcmp name b.name < 0) ∧
      FACT_add_num curr name
        = ({ curr with num_stack := pre ++ FACT_alloc_num.set_name name :: post },
           .ok (FACT_alloc_num.set_name name)) := by
  obtain ⟨pre, post, hl, hpost, hpre, hmove⟩ :=
    move_spec name (FACT_alloc_num.set_name name) curr.num_stack []
  have hne := (get_local_num_none_iff curr name hs).mp h1
  have hpre' := pre_lt_of_sorted (hl ▸ hs) (hl ▸ hne) hpre
  refine ⟨pre, post, hl, hpre', fun b hb => (strcmp_neg_iff_pos _ _).mpr (hpost b hb), ?_⟩
  unfold FACT_add_num
  simp only [h1, h2, Bool.false_eq_true, if_false, FACT_scope.num_stack_size]
  rw [hmove]
  simp only [List.append_nil, getElem?_append_cons_length]

/-! ## Claims on the variable table -/

/-- C1: in a scope whose `num_stack` is strictly increasing by name, `FACT_get_local_num`
returns what a left-to-right linear scan by name equality returns: the element with that
name when there is one, NULL when there is none. -/
theorem get_local_num_eq_linear_scan (curr : FACT_scope) (name : List Char)
    (hs : num_stack_sorted curr.num_stack) :
    FACT_get_local_num curr name = linear_scan curr name ∧
    (∀ x ∈ curr.num_stack, x.name = name → FACT_get_local_num curr name = some x) ∧
    ((∀ x ∈ curr.num_stack, x.name ≠ name) → FACT_get_local_num curr name = none) := by
  have heq : FACT_get_local_num curr name = linear_scan curr name := by
    unfold FACT_get_local_num linear_scan
    exact search_eq_find curr.num_stack name hs _ 0 _ _ rfl (fun i _ h => absurd h (by omega))
      (fun i hi h => absurd h (by omega))
  refine ⟨heq, ?_, ?_⟩
  · intro x hx hn
    rw [heq, linear_scan, ← hn]
    exact find_of_sorted hs hx
  · intro hne
    rw [heq, linear_scan, List.find?_eq_none]
    intro x hx
    simpa using hne x hx

theorem get_local_num_eq_linear_scan_witness :
    num_stack_sorted example_scope.num_stack ∧
    FACT_get_local_num example_scope "b".toList = linear_scan example_scope "b".toList :=
  ⟨by decide, (get_local_num_eq_linear_scan example_scope "b".toList (by decide)).1⟩

theorem sorted_names_nodup {stack : List FACT_num} (hs : num_stack_sorted stack) :
    (stack.map FACT_num.name).Nodup := by
  unfold List.Nodup
  rw [List.pairwise_map]
  refine List.Pairwise.imp ?_ hs
  intro a b hlt he
  rw [he, strcmp_self] at hlt
  exact absurd hlt (by decide)

theorem add_num_sorted (curr : FACT_scope) (name : List Char)
    (hs : num_stack_sorted curr.num_stack) :
    num_stack_sorted (FACT_add_num curr name).1.num_stack := by
  by_cases h1 : (FACT_get_local_num curr name).isSome = true
  · simpa [FACT_add_num, h1] using hs
  · by_cases h2 : (FACT_get_local_scope curr name).isSome = true
    · simpa [FACT_add_num, h1, h2] using hs
    · simp only [Bool.not_eq_true] at h1 h2
      obtain ⟨pre, post, hl, hpre, hpost, hadd⟩ := add_num_ok curr name hs h1 h2
      rw [hadd]
      refine sorted_insert (by simp [FACT_alloc_num, FACT_num.set_name, FACT_num.name])
        (hl ▸ hs) hpre ?_
      intro b hb
      exact (strcmp_neg_iff_pos _ _).mp (hpost b hb)

theorem add_nums_sorted (names : List (List Char)) :
    ∀ curr : FACT_scope, num_stack_sorted curr.num_stack →
      num_stack_sorted (add_nums curr names).num_stack := by
  induction names with
  | nil => intro curr hs; exact hs
  | cons n rest ih => intro curr hs; exact ih _ (add_num_sorted curr n hs)

/-- C2: strict sortedness of `num_stack` is preserved by `FACT_add_num`, whether the call
returns or throws; so after any sequence of calls that starts from a scope with an empty
`num_stack` the table is strictly sorted and no name occurs twice. -/
theorem add_num_keeps_sorted (curr : FACT_scope) (name : List Char)
    (hs : num_stack_sorted curr.num_stack) :
    num_stack_sorted (FACT_add_num curr name).1.num_stack ∧
    ∀ (nm : List Char) (code : Nat) (ss : List scope_ref) (names : List (List Char)),
      num_stack_sorted (add_nums ⟨nm, code, [], ss⟩ names).num_stack ∧
      ((add_nums ⟨nm, code, [], ss⟩ names).num_stack.map FACT_num.name).Nodup := by
  refine ⟨add_num_sorted curr name hs, ?_⟩
  intro nm code ss names
  have h := add_nums_sorted names ⟨nm, code, [], ss⟩ List.Pairwise.nil
  exact ⟨h, sorted_names_nodup h⟩

theorem add_num_keeps_sorted_witness :
    num_stack_sorted example_scope.num_stack ∧
    num_stack_sorted (FACT_add_num example_scope "k".toList).1.num_stack :=
  ⟨by decide, (add_num_keeps_sorted example_scope "k".toList (by decide)).1⟩

theorem get_local_scope_some_iff (curr : FACT_scope) (name : List Char) :
    (FACT_get_local_scope curr name).isSome = true ↔ ∃ s ∈ curr.scope_stack, s.name = name := by
  unfold FACT_get_local_scope
  rw [List.find?_isSome]
  simp

theorem get_local_num_some_iff (curr : FACT_scope) (name : List Char)
    (hs : num_stack_sorted curr.num_stack) :
    (FACT_get_local_num curr name).isSome = true ↔ ∃ x ∈ curr.num_stack, x.name = name := by
  have h := get_local_num_none_iff curr name hs
  constructor
  · intro h1
    by_contra hne
    have : (FACT_get_local_num curr name).isSome = false :=
      h.mpr (fun x hx he => hne ⟨x, hx, he⟩)
    rw [h1] at this
    exact absurd this (by decide)
  · rintro ⟨x, hx, he⟩
    by_contra h1
    exact h.mp (by simpa using h1) x hx he

/-- C3: on a scope with a strictly sorted `num_stack`, `FACT_add_num (scope, name)` throws
exactly when `name` is already in `num_stack` (error "local variable %s already exists")
or in `scope_stack` (error "local scope %s already exists"); when it throws the scope,
hence `num_stack` and its size, is unchanged; when it returns, the new Number stands at its
sorted position: after the elements with smaller names, before those with greater names. -/
theorem add_num_throws_iff (curr : FACT_scope) (name : List Char)
    (hs : num_stack_sorted curr.num_stack) :
    ((FACT_add_num curr name).2.throws = true ↔
      (∃ x ∈ curr.num_stack, x.name = name) ∨ (∃ s ∈ curr.scope_stack, s.name = name)) ∧
    ((∃ x ∈ curr.num_stack, x.name = name) → (FACT_add_num curr name).2 = .thrown
      ⟨"local variable %s already exists; use \"del\" before redefining", [.str name]⟩) ∧
    ((∀ x ∈ curr.num_stack, x.name ≠ name) → (∃ s ∈ curr.scope_stack, s.name = name) →
      (FACT_add_num curr name).2 = .thrown
        ⟨"local scope %s already exists; use \"del\" before redefining", [.str name]⟩) ∧
    ((FACT_add_num curr name).2.throws = true →
      (FACT_add_num curr name).1 = curr ∧
      (FACT_add_num curr name).1.num_stack = curr.num_stack ∧
      (FACT_add_num curr name).1.num_stack_size = curr.num_stack_size) ∧
    ((FACT_add_num curr name).2.throws = false →
      ∃ pre post, curr.num_stack = pre ++ post ∧
        (∀ a ∈ pre, strcmp a.name name < 0) ∧ (∀ b ∈ post, strcmp name b.name < 0) ∧
        (FACT_add_num curr name).1.num_stack = pre ++ FACT_alloc_num.set_name name :: post ∧
        (FACT_add_num curr name).1.num_stack_size = curr.num_stack_size + 1 ∧
        (FACT_add_num curr name).2 = .ok (FACT_alloc_num.set_name name)) := by
  have hn := get_local_num_some_iff curr name hs
  have hsc := get_local_scope_some_iff curr name
  by_cases h1 : (FACT_get_local_num curr name).isSome = true
  · have e : FACT_add_num curr name = (curr, .thrown
        ⟨"local variable %s already exists; use \"del\" before redefining", [.str name]⟩) := by
      simp [FACT_add_num, h1]
    rw [e]
    refine ⟨?_, fun _ => rfl, ?_, fun _ => ⟨rfl, rfl, rfl⟩, ?_⟩
    · simp only [Result.throws, true_iff]; exact Or.inl (hn.mp h1)
    · intro hne; obtain ⟨x, hx, he⟩ := hn.mp h1; exact absurd he (hne x hx)
    · intro h; simp [Result.throws] at h
  · have hne : ¬ ∃ x ∈ curr.num_stack, x.name = name := fun h => h1 (hn.mpr h)
    by_cases h2 : (FACT_get_local_scope curr name).isSome = true
    · have e : FACT_add_num curr name = (curr, .thrown
          ⟨"local scope %s already exists; use \"del\" before redefining", [.str name]⟩) := by
        simp [FACT_add_num, h1, h2]
      rw [e]
      refine ⟨?_, fun h => absurd h hne, fun _ _ => rfl, fun _ => ⟨rfl, rfl, rfl⟩, ?_⟩
      · simp only [Result.throws, true_iff]; exact Or.inr (hsc.mp h2)
      · intro h; simp [Result.throws] at h
    · have hnsc : ¬ ∃ s ∈ curr.scope_stack, s.name = name := fun h => h2 (hsc.mpr h)
      simp only [Bool.not_eq_true] at h1 h2
      obtain ⟨pre, post, hl, hpre, hpost, hadd⟩ := add_num_ok curr name hs h1 h2
      rw [hadd]
      refine ⟨?_, fun h => absurd h hne, fun _ h => absurd h hnsc, ?_, ?_⟩
      · simp only [Result.throws, Bool.false_eq_true, false_iff]
        rintro (h | h)
        · exact hne h
        · exact hnsc h
      · intro h; simp [Result.throws] at h
      · intro _
        refine ⟨pre, post, hl, hpre, hpost, rfl, ?_, rfl⟩
        simp [FACT_scope.num_stack_size, hl]
        omega

theorem add_num_throws_iff_witness :
    num_stack_sorted example_scope.num_stack ∧
    ((FACT_add_num example_scope "up".toList).2.throws = true ↔
      (∃ x ∈ example_scope.num_stack, x.name = "up".toList) ∨
      (∃ s ∈ example_scope.scope_stack, s.name = "up".toList)) :=
  ⟨by decide, (add_num_throws_iff example_scope "up".toList (by decide)).1⟩

/-! ## Address resolution in `load` -/

theorem weight_sum_self (children : List (Option inter_node)) (lo : Nat) :
    weight_sum children lo lo = 0 := by
  simp [weight_sum]

theorem weight_sum_succ_left (children : List (Option inter_node)) {lo hi : Nat}
    (h : lo < hi) :
    weight_sum children lo hi
      = weight_opt (children.getD lo none) + weight_sum children (lo + 1) hi := by
  unfold weight_sum
  have e : hi - lo = (hi - (lo + 1)) + 1 := by omega
  rw [e, List.range'_succ]
  simp

theorem add_loop_spec (children : List (Option inter_node)) :
    ∀ (n k addr : Nat), k + n ≤ children.length →
      ∃ a, load.add_loop children k n addr = some a ∧
        a % 2 ^ 64 = (addr + weight_sum children k (k + n)) % 2 ^ 64 ∧ (0 < n → a < 2 ^ 64) := by
  intro n
  induction n with
  | zero =>
    intro k addr _
    exact ⟨addr, rfl, by simp [weight_sum_self], fun h => absurd h (by omega)⟩
  | succ n ih =>
    intro k addr hk
    have hlt : k < children.length := by omega
    have hget : children[k]? = some (children.getD k none) := by
      rw [List.getD_eq_getElem?_getD, List.getElem?_eq_getElem hlt]
      simp
    obtain ⟨a, ha, hmod, hpos⟩ :=
      ih (k + 1) ((addr + weight_opt (children.getD k none)) % 2 ^ 64) (by omega)
    refine ⟨a, ?_, ?_, ?_⟩
    · simp only [load.add_loop, hget]
      exact ha
    · rw [hmod, weight_sum_succ_left children (show k < k + (n + 1) by omega)]
      have e : k + 1 + n = k + (n + 1) := by omega
      rw [e]
      omega
    · intro _
      rcases Nat.eq_zero_or_pos n with h0 | h0
      · subst h0
        simp only [load.add_loop] at ha
        have := Option.some.inj ha
        rw [← this]
        exact Nat.mod_lt _ (by norm_num)
      · exact hpos h0

theorem sub_loop_spec (children : List (Option inter_node)) :
    ∀ (n k addr : Nat), k + n ≤ children.length →
      ∃ a, load.sub_loop children k n addr = some a ∧
        (a + weight_sum children k (k + n)) % 2 ^ 64 = addr % 2 ^ 64 ∧
        (0 < n → a < 2 ^ 64) := by
  intro n
  induction n with
  | zero =>
    intro k addr _
    exact ⟨addr, rfl, by simp [weight_sum_self], fun h => absurd h (by omega)⟩
  | succ n ih =>
    intro k addr hk
    have hlt : k < children.length := by omega
    have hget : children[k]? = some (children.getD k none) := by
      rw [List.getD_eq_getElem?_getD, List.getElem?_eq_getElem hlt]
      simp
    obtain ⟨a, ha, hmod, hpos⟩ :=
      ih (k + 1) ((addr + (2 ^ 64 - weight_opt (children.getD k none) % 2 ^ 64)) % 2 ^ 64)
        (by omega)
    refine ⟨a, ?_, ?_, ?_⟩
    · simp only [load.sub_loop, hget]
      exact ha
    · rw [weight_sum_succ_left children (show k < k + (n + 1) by omega)]
      have e : k + 1 + n = k + (n + 1) := by omega
      rw [e] at hmod
      omega
    · intro _
      rcases Nat.eq_zero_or_pos n with h0 | h0
      · subst h0
        simp only [load.sub_loop] at ha
        have := Option.some.inj ha
        rw [← this]
        exact Nat.mod_lt _ (by norm_num)
      · exact hpos h0

/-- The address `load` computes for an operand naming a later child: the offset plus the
weights of the children `j..target`, both ends included. -/
theorem resolve_forward (children : List (Option inter_node)) (off j target : Nat)
    (hlt : j < target) (ht : target < children.length) :
    load.resolve children off j target
      = some ((off + weight_sum children j (target + 1)) % 2 ^ 64) := by
  obtain ⟨a, ha, hmod, hpos⟩ := add_loop_spec children (target + 1 - j) j off (by omega)
  have e : j + (target + 1 - j) = target + 1 := by omega
  rw [e] at hmod
  have hlt64 := hpos (by omega)
  simp only [load.resolve, hlt, if_true, ha]
  congr 1
  omega

/-- The address `load` computes for an operand naming an earlier child: the offset minus
the weights of the children `target..j-1`. -/
theorem resolve_backward (children : List (Option inter_node)) (off j target : Nat)
    (hlt : target < j) (hj : j < children.length) :
    ∃ a, load.resolve children off j target = some a ∧ a < 2 ^ 64 ∧
      (a : Int) = ((off : Int) - (weight_sum children target j : Int)) % 2 ^ 64 := by
  obtain ⟨a, ha, hmod, hpos⟩ := sub_loop_spec children (j - target) target off (by omega)
  have e : target + (j - target) = j := by omega
  rw [e] at hmod
  have hlt64 := hpos (by omega)
  refine ⟨a, ?_, hlt64, ?_⟩
  · simp only [load.resolve, show ¬ j < target by omega, if_false, ha]
  · omega

theorem load_args_regs (up : Option (List (Option inter_node) × Nat)) (off : Nat)
    (regs : List Nat) (rest : List arg_t) (fmt : List Nat) :
    load.args up off (regs.map .REG_VAL ++ rest) fmt = load.args up off rest (fmt ++ regs) := by
  induction regs generalizing fmt with
  | nil => simp
  | cons r rs ih =>
    rw [List.map_cons, List.cons_append, load.args, ih]
    simp

theorem weight_sum_succ_right (children : List (Option inter_node)) {lo hi : Nat}
    (h : lo ≤ hi) :
    weight_sum children lo (hi + 1)
      = weight_sum children lo hi + weight_opt (children.getD hi none) := by
  unfold weight_sum
  have e : hi + 1 - lo = (hi - lo) + 1 := by omega
  have e2 : lo + (hi - lo) = hi := by omega
  rw [e, List.range'_concat]
  simp [e2]

theorem getD_of_getElem? {children : List (Option inter_node)} {i : Nat}
    {c : Option inter_node} (h : children[i]? = some c) : children.getD i none = c := by
  rw [List.getD_eq_getElem?_getD, h]
  rfl

theorem load_args_addr (children : List (Option inter_node)) (off i j a : Nat)
    (regs : List Nat) (rest : List arg_t) (hij : i ≠ j)
    (ha : load.resolve children off i j = some a) :
    load.args (some (children, i)) off (regs.map .REG_VAL ++ .ADDR_VAL j :: rest) []
      = load.args (some (children, i)) off rest (regs ++ spread a) := by
  rw [load_args_regs, load.args]
  simp only [List.nil_append, ha, if_neg (Ne.symm hij)]

/-- C4: address resolution. For an instruction at child index `i` of a grouping, with no
next sibling, whose address operand (after its register operands) names the child index
`j`, `load` emits the four bytes `spread a` of the address `a` with: for `j > i`,
`a = (off + 1) + Σ weight (child[k])` over `k` in `[i+1..j]`; for `j < i`,
`a = (off + 1) - Σ weight (child[k])` over `k` in `[j..i]`; `off` being the program offset
read when the instruction is encoded. The arithmetic is that of `size_t` (modulo 2^64) and
is exact when the value is in range. -/
theorem address_resolution (children : List (Option inter_node)) (inst : inst_t)
    (regs : List Nat) (rest : List arg_t) (off i j : Nat)
    (hi : children[i]? = some (some (.instruction inst none)))
    (hargs : inst.args = regs.map .REG_VAL ++ .ADDR_VAL j :: rest)
    (hj : j < children.length) (hij : i ≠ j) :
    ∃ a, load.resolve children off i j = some a ∧
      load.args (some (children, i)) off inst.args []
        = load.args (some (children, i)) off rest (regs ++ spread a) ∧
      (i < j →
        a = (off + 1 + weight_sum children (i + 1) (j + 1)) % 2 ^ 64 ∧
        (off + 1 + weight_sum children (i + 1) (j + 1) < 2 ^ 64 →
          a = off + 1 + weight_sum children (i + 1) (j + 1))) ∧
      (j < i →
        (a : Int) = ((off : Int) + 1 - (weight_sum children j (i + 1) : Int)) % 2 ^ 64 ∧
        (off < 2 ^ 64 → weight_sum children j (i + 1) ≤ off + 1 →
          a + weight_sum children j (i + 1) = off + 1)) := by
  have hil : i < children.length := by
    by_contra hge
    rw [List.getElem?_eq_none (by omega)] at hi
    cases hi
  have hw : weight_opt (children.getD i none) = 1 := by
    rw [getD_of_getElem? hi]
    simp [weight_opt, weight]
  rcases Nat.lt_or_gt_of_ne hij with hlt | hgt
  · refine ⟨_, resolve_forward children off i j hlt hj, ?_, ?_, fun h => absurd h (by omega)⟩
    · rw [hargs]
      exact load_args_addr children off i j _ regs rest hij
        (resolve_forward children off i j hlt hj)
    · intro _
      have e : weight_sum children i (j + 1) = 1 + weight_sum children (i + 1) (j + 1) := by
        rw [weight_sum_succ_left children (show i < j + 1 by omega), hw]
      rw [e]
      constructor
      · congr 1; omega
      · intro hb
        rw [← Nat.mod_eq_of_lt hb]
        congr 1; omega
  · obtain ⟨a, ha, ha64, hint⟩ := resolve_backward children off i j hgt hil
    refine ⟨a, ha, ?_, fun h => absurd h (by omega), ?_⟩
    · rw [hargs]
      exact load_args_addr children off i j a regs rest hij ha
    · intro _
      have e : weight_sum children j (i + 1) = weight_sum children j i + 1 := by
        rw [weight_sum_succ_right children (show j ≤ i by omega), hw]
      rw [e]
      constructor
      · rw [hint]; congr 1; push_cast; ring
      · intro ho hle
        omega

theorem address_resolution_witness :
    ∃ a, load.resolve example_while_children 3 3 0 = some a ∧
      load.args (some (example_while_children, 3)) 3 (mk_inst .JMP [.ADDR_VAL 0]).args []
        = load.args (some (example_while_children, 3)) 3
            [.NO_ARG, .NO_ARG, .NO_ARG] ([] ++ spread a) ∧
      (3 < 0 →
        a = (3 + 1 + weight_sum example_while_children (3 + 1) (0 + 1)) % 2 ^ 64 ∧
        (3 + 1 + weight_sum example_while_children (3 + 1) (0 + 1) < 2 ^ 64 →
          a = 3 + 1 + weight_sum example_while_children (3 + 1) (0 + 1))) ∧
      (0 < 3 →
        (a : Int)
          = (((3 : Nat) : Int) + 1 - (weight_sum example_while_children 0 (3 + 1) : Int))
            % 2 ^ 64 ∧
        (3 < 2 ^ 64 → weight_sum example_while_children 0 (3 + 1) ≤ 3 + 1 →
          a + weight_sum example_while_children 0 (3 + 1) = 3 + 1)) :=
  address_resolution example_while_children (mk_inst .JMP [.ADDR_VAL 0]) []
    [.NO_ARG, .NO_ARG, .NO_ARG] 3 3 0 rfl rfl (by decide) (by decide)

/-- C5 (counterexample): for `if (x) y` the `JIF` is child 1 and names child 2; encoded at
offset 1 it gets the address 3 (past the body `y`), whereas the offset plus the weights of
the half-open range `[1, 2)` is 2: the weight of `children[2]` is included. -/
theorem linearization_range_counterexample :
    compile_tree example_if = some (.grouping example_if_children none) ∧
    FACT_compile (some example_if) []
      = some [⟨.VAR, [120, 0]⟩, ⟨.JIF, [0, 0, 0, 0, 3]⟩, ⟨.VAR, [121, 0]⟩] ∧
    load.resolve example_if_children 1 1 2 = some 3 ∧
    1 + weight_sum example_if_children (min 1 2) (max 1 2) = 2 ∧
    load.resolve example_if_children 1 1 2
      ≠ some (1 + weight_sum example_if_children (min 1 2) (max 1 2)) :=
  ⟨rfl, by decide, by decide, by decide, by decide⟩

/-- C5 (amended): linearization range. For an instruction at child index `i` of a grouping
whose address operand (after its register operands) names the child index `j ≠ i`, `load`
emits the four bytes `spread a` of the address `a` with: for `j > i`, `a` is the offset
plus the weights of the children in the closed range `[i, j]` (the weight of `children[j]`
is included: the target is the instruction after `children[j]`); for `j < i`, `a` is the
offset minus the weights of the children in the half-open range `[j, i)` (the target is
the first instruction of `children[j]`). Arithmetic is that of `size_t`, modulo 2^64. -/
theorem linearization_range (children : List (Option inter_node)) (inst : inst_t)
    (next : Option inter_node) (regs : List Nat) (rest : List arg_t) (off i j : Nat)
    (hi : children[i]? = some (some (.instruction inst next)))
    (hargs : inst.args = regs.map .REG_VAL ++ .ADDR_VAL j :: rest)
    (hj : j < children.length) (hij : i ≠ j) :
    ∃ a, load.resolve children off i j = some a ∧
      load.args (some (children, i)) off inst.args []
        = load.args (some (children, i)) off rest (regs ++ spread a) ∧
      (i < j → a = (off + weight_sum children i (j + 1)) % 2 ^ 64) ∧
      (j < i → (a : Int) = ((off : Int) - (weight_sum children j i : Int)) % 2 ^ 64) := by
  have hil : i < children.length := by
    by_contra hge
    rw [List.getElem?_eq_none (by omega)] at hi
    cases hi
  rcases Nat.lt_or_gt_of_ne hij with hlt | hgt
  · refine ⟨_, resolve_forward children off i j hlt hj, ?_, fun _ => rfl,
      fun h => absurd h (by omega)⟩
    rw [hargs]
    exact load_args_addr children off i j _ regs rest hij
      (resolve_forward children off i j hlt hj)
  · obtain ⟨a, ha, _, hint⟩ := resolve_backward children off i j hgt hil
    refine ⟨a, ha, ?_, fun h => absurd h (by omega), fun _ => hint⟩
    rw [hargs]
    exact load_args_addr children off i j a regs rest hij ha

theorem linearization_range_witness :
    ∃ a, load.resolve example_if_children 1 1 2 = some a ∧
      load.args (some (example_if_children, 1)) 1
          (mk_inst .JIF [.REG_VAL R_POP, .ADDR_VAL 2]).args []
        = load.args (some (example_if_children, 1)) 1 [.NO_ARG, .NO_ARG]
            ([R_POP] ++ spread a) ∧
      (1 < 2 → a = (1 + weight_sum example_if_children 1 (2 + 1)) % 2 ^ 64) ∧
      (2 < 1 →
        (a : Int) = (((1 : Nat) : Int) - (weight_sum example_if_children 2 1 : Int)) % 2 ^ 64) :=
  linearization_range example_if_children (mk_inst .JIF [.REG_VAL R_POP, .ADDR_VAL 2]) none
    [R_POP] [.NO_ARG, .NO_ARG] 1 1 2 rfl rfl (by decide) (by decide)

/-! ## `load` appends `weight` instructions -/

theorem inter_node_induction {P : inter_node → Prop} {Q : Option inter_node → Prop}
    {R : List (Option inter_node) → Prop}
    (h1 : ∀ inst next, Q next → P (.instruction inst next))
    (h2 : ∀ children next, R children → Q next → P (.grouping children next))
    (h3 : Q none) (h4 : ∀ n, P n → Q (some n))
    (h5 : R []) (h6 : ∀ c cs, Q c → R cs → R (c :: cs)) :
    (∀ n, P n) ∧ (∀ o, Q o) ∧ (∀ l, R l) := by
  have hp : ∀ n, P n := fun n => @inter_node.rec P Q R h1 h2 h3 h4 h5 h6 n
  have hq : ∀ o, Q o := by
    intro o
    cases o with
    | none => exact h3
    | some n => exact h4 n (hp n)
  refine ⟨hp, hq, ?_⟩
  intro l
  induction l with
  | nil => exact h5
  | cons c cs ih => exact h6 c cs (hq c) ih

theorem load_appends :
    (∀ (n : inter_node) up prog prog1, load n up prog = some prog1 →
      ∃ code, prog1 = prog ++ code ∧ code.length = weight n) ∧
    (∀ (o : Option inter_node) up prog prog1, load_opt o up prog = some prog1 →
      ∃ code, prog1 = prog ++ code ∧ code.length = weight_opt o) ∧
    (∀ (l : List (Option inter_node)) all i prog prog1,
      load_children all l i prog = some prog1 →
      ∃ code, prog1 = prog ++ code ∧ code.length = weight_children l) := by
  apply inter_node_induction
  · intro inst next ih up prog prog1 h
    rw [load] at h
    cases hf : load.inst inst up (Furlow_offset prog) with
    | none => rw [hf] at h; cases h
    | some fmt =>
      rw [hf] at h
      obtain ⟨code, hc, hl⟩ := ih none _ _ h
      refine ⟨fmt :: code, ?_, ?_⟩
      · rw [hc, Furlow_add_instruction]; simp
      · rw [weight, List.length_cons, hl]; omega
  · intro children next ihc ihn up prog prog1 h
    rw [load] at h
    cases hf : load_children children children 0 prog with
    | none => rw [hf] at h; cases h
    | some p =>
      rw [hf] at h
      obtain ⟨code1, hc1, hl1⟩ := ihc children 0 prog p hf
      obtain ⟨code2, hc2, hl2⟩ := ihn none _ _ h
      refine ⟨code1 ++ code2, ?_, ?_⟩
      · rw [hc2, hc1]; simp
      · rw [weight, List.length_append, hl1, hl2]
  · intro up prog prog1 h
    rw [load_opt] at h
    exact ⟨[], by simpa using (Option.some.inj h).symm, rfl⟩
  · intro n ih up prog prog1 h
    rw [load_opt] at h
    rw [weight_opt]
    exact ih up prog prog1 h
  · intro all i prog prog1 h
    rw [load_children] at h
    exact ⟨[], by simpa using (Option.some.inj h).symm, rfl⟩
  · intro c cs ihc ihcs all i prog prog1 h
    rw [load_children] at h
    cases hf : load_opt c (some (all, i)) prog with
    | none => rw [hf] at h; cases h
    | some p =>
      rw [hf] at h
      obtain ⟨code1, hc1, hl1⟩ := ihc _ _ _ hf
      obtain ⟨code2, hc2, hl2⟩ := ihcs _ _ _ _ h
      refine ⟨code1 ++ code2, ?_, ?_⟩
      · rw [hc2, hc1]; simp
      · rw [weight_children, List.length_append, hl1, hl2]

theorem load_opt_appends {o : Option inter_node} {up : Option (List (Option inter_node) × Nat)}
    {prog prog1 : List fmt_t} (h : load_opt o up prog = some prog1) :
    ∃ code, prog1 = prog ++ code ∧ code.length = weight_opt o :=
  load_appends.2.1 o up prog prog1 h

/-! ## Every tree that `compile_tree` returns is accepted by `load` -/

theorem loads_none : loads none := by
  intro up prog; rfl

theorem load_children_cons_isSome {all : List (Option inter_node)} {c : Option inter_node}
    {cs : List (Option inter_node)} {i : Nat}
    (hc : ∀ prog, (load_opt c (some (all, i)) prog).isSome = true)
    (hcs : ∀ prog, (load_children all cs (i + 1) prog).isSome = true) :
    ∀ prog, (load_children all (c :: cs) i prog).isSome = true := by
  intro prog
  rw [load_children]
  cases h : load_opt c (some (all, i)) prog with
  | none => have := hc prog; rw [h] at this; cases this
  | some p => exact hcs p

theorem load_children_nil_isSome {all : List (Option inter_node)} {i : Nat} :
    ∀ prog, (load_children all [] i prog).isSome = true := by
  intro prog; rfl

theorem loads_grouping {children : List (Option inter_node)} {next : Option inter_node}
    (hch : ∀ prog, (load_children children children 0 prog).isSome = true)
    (hn : loads next) : loads (some (.grouping children next)) := by
  intro up prog
  rw [load_opt, load]
  cases h : load_children children children 0 prog with
  | none => have := hch prog; rw [h] at this; cases this
  | some p => exact hn none p

theorem loads_set_next {r : inter_node} {nx : Option inter_node}
    (hr : loads (some r)) (hn : loads nx) : loads (some (r.set_next nx)) := by
  intro up prog
  have h := hr up prog
  cases r with
  | instruction inst next =>
    rw [inter_node.set_next, load_opt, load]
    rw [load_opt, load] at h
    cases hf : load.inst inst up (Furlow_offset prog) with
    | none => rw [hf] at h; cases h
    | some fmt => exact hn none _
  | grouping children next =>
    rw [inter_node.set_next, load_opt, load]
    rw [load_opt, load] at h
    cases hf : load_children children children 0 prog with
    | none => rw [hf] at h; cases h
    | some p => exact hn none _

theorem load_args_no_addr (up : Option (List (Option inter_node) × Nat)) (off : Nat) :
    ∀ (l : List arg_t) (fmt : List Nat), l.all (fun a => !a.is_addr) = true →
      (load.args up off l fmt).isSome = true := by
  intro l
  induction l with
  | nil => intro fmt _; rfl
  | cons a rest ih =>
    intro fmt h
    rw [List.all_cons, Bool.and_eq_true] at h
    cases a with
    | NO_ARG => rfl
    | REG_VAL reg => rw [load.args]; exact ih _ h.2
    | ADDR_VAL addr => simp [arg_t.is_addr] at h
    | LABEL label => rfl

theorem load_opt_inode_isSome {op : Furlow_opcode} {args : List arg_t}
    {up : Option (List (Option inter_node) × Nat)}
    (h : ∀ off, (load.args up off (mk_inst op args).args []).isSome = true) :
    ∀ prog, (load_opt (inode op args) up prog).isSome = true := by
  intro prog
  rw [inode, load_opt, load, load.inst]
  cases hf : load.args up (Furlow_offset prog) (mk_inst op args).args [] with
  | none => have := h (Furlow_offset prog); rw [hf] at this; cases this
  | some b => rfl

/-- An instruction node without address operand loads under every parent. -/
theorem inode_no_addr {op : Furlow_opcode} {args : List arg_t}
    {up : Option (List (Option inter_node) × Nat)}
    (h : (mk_inst op args).args.all (fun a => !a.is_addr) = true) :
    ∀ prog, (load_opt (inode op args) up prog).isSome = true :=
  load_opt_inode_isSome (fun off => load_args_no_addr up off _ [] h)

theorem resolve_isSome {all : List (Option inter_node)} {i t : Nat} (off : Nat)
    (hne : t ≠ i) (hi : i < all.length) (ht : t < all.length) :
    ∃ a, load.resolve all off i t = some a := by
  rcases Nat.lt_or_gt_of_ne hne with hlt | hgt
  · obtain ⟨a, ha, _⟩ := resolve_backward all off i t hlt hi
    exact ⟨a, ha⟩
  · exact ⟨_, resolve_forward all off i t hgt ht⟩

/-- A node `op ADDR t` loads as child `i` of a grouping when `t` is another valid index. -/
theorem inode_addr0 {op : Furlow_opcode} {all : List (Option inter_node)} {i t : Nat}
    (hne : t ≠ i) (hi : i < all.length) (ht : t < all.length) :
    ∀ prog, (load_opt (inode op [.ADDR_VAL t]) (some (all, i)) prog).isSome = true := by
  apply load_opt_inode_isSome
  intro off
  obtain ⟨a, ha⟩ := resolve_isSome off hne hi ht
  simp [mk_inst, inst_t.args, load.args, ha, hne]

/-- A node `op REG r, ADDR t` loads as child `i` of a grouping when `t` is another valid
index. -/
theorem inode_addr1 {op : Furlow_opcode} {r : Nat} {all : List (Option inter_node)}
    {i t : Nat} (hne : t ≠ i) (hi : i < all.length) (ht : t < all.length) :
    ∀ prog,
      (load_opt (inode op [.REG_VAL r, .ADDR_VAL t]) (some (all, i)) prog).isSome = true := by
  apply load_opt_inode_isSome
  intro off
  obtain ⟨a, ha⟩ := resolve_isSome off hne hi ht
  simp [mk_inst, inst_t.args, load.args, ha, hne]

theorem loads_begin_temp_scope : loads begin_temp_scope := by
  apply loads_grouping _ loads_none
  repeat' apply load_children_cons_isSome
  all_goals first
    | exact load_children_nil_isSome
    | exact inode_no_addr (by rfl)

theorem loads_end_temp_scope : loads end_temp_scope := by
  apply loads_grouping _ loads_none
  repeat' apply load_children_cons_isSome
  all_goals first
    | exact load_children_nil_isSome
    | exact inode_no_addr (by rfl)

theorem loads_set_return_val : loads set_return_val := by
  intro up prog
  rw [set_return_val]
  exact inode_no_addr (by rfl) prog

theorem compile_args_loads : ∀ (o : Option FACT_tree) (k : Option inter_node),
    compile_args o = some k → loads k := by
  have hrec : ∀ t : FACT_tree, ∀ k, compile_args (some t) = some k → loads k := by
    intro t
    refine @FACT_tree.rec (fun t => ∀ k, compile_args (some t) = some k → loads k)
      (fun o => ∀ k, compile_args o = some k → loads k) ?_ ?_ ?_ t
    · intro id lexem c0 c1 c2 c3 next _ h1 _ _ _ k hk
      cases c0 with
      | none => simp only [compile_args] at hk; cases hk
      | some t0 =>
        cases t0 with
        | mk id0 lexem0 a b c d e =>
          simp only [compile_args] at hk
          cases h : compile_args c1 with
          | none => rw [h] at hk; cases hk
          | some nx =>
            rw [h] at hk
            cases hk
            apply loads_grouping _ (h1 nx h)
            repeat' apply load_children_cons_isSome
            all_goals first
              | exact load_children_nil_isSome
              | exact inode_no_addr (by rfl)
    · intro k hk
      rw [compile_args] at hk
      cases hk
      exact loads_none
    · intro val hv k hk
      exact hv k hk
  intro o k hk
  cases o with
  | none => rw [compile_args] at hk; cases hk; exact loads_none
  | some t => exact hrec t k hk

theorem compile_tree_opt_loads {o : Option FACT_tree}
    (hq : ∀ t, o = some t → ∀ n, compile_tree t = some n → loads (some n))
    {k : Option inter_node} (hk : compile_tree_opt o = some k) : loads k := by
  cases o with
  | none => rw [compile_tree_opt] at hk; cases hk; exact loads_none
  | some t =>
    rw [compile_tree_opt] at hk
    cases hc : compile_tree t with
    | none => rw [hc] at hk; cases hk
    | some n => rw [hc] at hk; cases hk; exact hq t rfl n hc

set_option maxHeartbeats 1000000 in
theorem compile_step_loads (id : FACT_nterm_t) (lexem : List Char)
    (c0 c1 c2 c3 next : Option FACT_tree)
    (hid : id ≠ .E_FOR)
    (h0 : ∀ k, compile_tree_opt c0 = some k → loads k)
    (h1 : ∀ k, compile_tree_opt c1 = some k → loads k)
    (h2 : ∀ k, compile_tree_opt c2 = some k → loads k)
    (ha : ∀ k, compile_args c1 = some k → loads k)
    (hn : ∀ k, compile_tree_opt next = some k → loads k)
    (n : inter_node) (hc : compile_tree (.mk id lexem c0 c1 c2 c3 next) = some n) :
    loads (some n) := by
  cases id
  case E_FOR => exact absurd rfl hid
  all_goals simp only [compile_tree] at hc
  all_goals first
    | cases hc
    | (split at hc <;> cases hc)
  all_goals rename_i r nx hr hnx
  all_goals apply loads_set_next _ (hn _ hnx)
  all_goals clear hnx hn
  all_goals try simp only [Option.bind_eq_bind, Option.bind_eq_some, lookup_table,
    Option.some.injEq] at hr
  all_goals try split_ifs at hr
  all_goals try split at hr
  all_goals try simp only [Option.bind_eq_bind, Option.bind_eq_some, lookup_table,
    Option.some.injEq] at hr
  all_goals try casesm* (∃ _, _), (_ ∧ _)
  all_goals try subst_vars
  all_goals try cases hr
  all_goals first
    | apply loads_grouping _ loads_none
    | (intro up prog; exact inode_no_addr (by rfl) prog)
  all_goals repeat' apply load_children_cons_isSome
  all_goals first
    | exact load_children_nil_isSome
    | exact inode_no_addr (by rfl)
    | exact inode_addr0 (by simp) (by simp) (by simp)
    | exact inode_addr1 (by simp) (by simp) (by simp)
    | exact loads_begin_temp_scope _
    | exact loads_end_temp_scope _
    | exact h0 _ (by assumption) _
    | exact h1 _ (by assumption) _
    | exact h2 _ (by assumption) _
    | exact ha _ (by assumption) _

theorem compile_for_loads (lexem : List Char) (c0 c1 c2 c3 next : Option FACT_tree)
    (h0 : ∀ k, compile_tree_opt c0 = some k → loads k)
    (h1 : ∀ k, compile_tree_opt c1 = some k → loads k)
    (h2 : ∀ k, compile_tree_opt c2 = some k → loads k)
    (h3 : ∀ k, compile_tree_opt c3 = some k → loads k)
    (h30 : ∀ t3, c3 = some t3 → ∀ k, compile_tree_opt t3.children0 = some k → loads k)
    (hn : ∀ k, compile_tree_opt next = some k → loads k)
    (n : inter_node) (hc : compile_tree (.mk .E_FOR lexem c0 c1 c2 c3 next) = some n) :
    loads (some n) := by
  rw [compile_tree.eq_def] at hc
  simp only at hc
  split at hc
  case h_2 => cases hc
  rename_i r nx hr hnx
  cases hc
  apply loads_set_next _ (hn _ hnx)
  simp only [Option.bind_eq_bind, Option.bind_eq_some, Option.some.injEq] at hr
  obtain ⟨k1, e1, k2, e2, k4, e4, k5, e5, rfl⟩ := hr
  have hk4 : loads k4 := by
    split at e4
    · cases e4
    · rename_i lex3 c30 a b c d
      exact h30 _ rfl k4 e4
    · rename_i t3 hne
      apply h3 k4
      rw [compile_tree_opt]
      cases hct : compile_tree t3 with
      | none => rw [hct] at e4; cases e4
      | some n3 => rw [hct] at e4; exact e4
  apply loads_grouping _ loads_none
  repeat' apply load_children_cons_isSome
  all_goals first
    | exact load_children_nil_isSome
    | exact inode_no_addr (by rfl)
    | exact inode_addr0 (by simp) (by simp) (by simp)
    | exact loads_begin_temp_scope _
    | exact loads_end_temp_scope _
    | exact loads_set_return_val _
    | exact h0 _ e1 _
    | exact h1 _ e2 _
    | exact h2 _ e5 _
    | exact hk4 _
    | (split_ifs
       · exact inode_addr1 (by simp) (by simp) (by simp)
       · exact loads_none _)

/-- Every intermediate tree that `compile_tree` returns is accepted by `load`, under every
parent and from every program: `load` reaches neither `abort ()` nor a failing assertion. -/
theorem compile_tree_loads : ∀ (t : FACT_tree) (n : inter_node),
    compile_tree t = some n → loads (some n) := by
  have hrec : ∀ t : FACT_tree,
      (∀ n, compile_tree t = some n → loads (some n)) ∧
      (∀ k, compile_tree_opt t.children0 = some k → loads k) := by
    intro t
    refine @FACT_tree.rec
      (fun t => (∀ n, compile_tree t = some n → loads (some n)) ∧
        (∀ k, compile_tree_opt t.children0 = some k → loads k))
      (fun o => ∀ t, o = some t →
        (∀ n, compile_tree t = some n → loads (some n)) ∧
        (∀ k, compile_tree_opt t.children0 = some k → loads k)) ?_ ?_ ?_ t
    · intro id lexem c0 c1 c2 c3 next q0 q1 q2 q3 qn
      have h0 : ∀ k, compile_tree_opt c0 = some k → loads k :=
        fun k hk => compile_tree_opt_loads (fun t ht => (q0 t ht).1) hk
      have h1 : ∀ k, compile_tree_opt c1 = some k → loads k :=
        fun k hk => compile_tree_opt_loads (fun t ht => (q1 t ht).1) hk
      have h2 : ∀ k, compile_tree_opt c2 = some k → loads k :=
        fun k hk => compile_tree_opt_loads (fun t ht => (q2 t ht).1) hk
      have h3 : ∀ k, compile_tree_opt c3 = some k → loads k :=
        fun k hk => compile_tree_opt_loads (fun t ht => (q3 t ht).1) hk
      have hn : ∀ k, compile_tree_opt next = some k → loads k :=
        fun k hk => compile_tree_opt_loads (fun t ht => (qn t ht).1) hk
      refine ⟨?_, h0⟩
      intro n hc
      by_cases hid : id = .E_FOR
      · subst hid
        exact compile_for_loads lexem c0 c1 c2 c3 next h0 h1 h2 h3
          (fun t3 ht3 => (q3 t3 ht3).2) hn n hc
      · exact compile_step_loads id lexem c0 c1 c2 c3 next hid h0 h1 h2
          (compile_args_loads c1) hn n hc
    · intro t h; cases h
    · intro val hv t h
      cases h
      exact hv
  exact fun t => (hrec t).1

/-! ## Short-circuit `and` / `or` -/

theorem spread_mod (x : Nat) : spread (x % 2 ^ 64) = spread x := by
  have h255 : (0xFF : Nat) = 2 ^ 8 - 1 := by norm_num
  simp only [spread, h255, Nat.and_pow_two_sub_one_eq_mod, Nat.shiftRight_eq_div_pow]
  have e1 : x % 2 ^ 64 / 2 ^ 24 % 2 ^ 8 = x / 2 ^ 24 % 2 ^ 8 := by omega
  have e2 : x % 2 ^ 64 / 2 ^ 16 % 2 ^ 8 = x / 2 ^ 16 % 2 ^ 8 := by omega
  have e3 : x % 2 ^ 64 / 2 ^ 8 % 2 ^ 8 = x / 2 ^ 8 % 2 ^ 8 := by omega
  have e4 : x % 2 ^ 64 % 2 ^ 8 = x % 2 ^ 8 := by omega
  rw [e1, e2, e3, e4]

theorem decode_spread (x : Nat) (h : x < 2 ^ 32) : decode_addr (spread x) = some x := by
  have h255 : (0xFF : Nat) = 2 ^ 8 - 1 := by norm_num
  simp only [spread, h255, Nat.and_pow_two_sub_one_eq_mod, Nat.shiftRight_eq_div_pow,
    decode_addr, Option.some.injEq]
  omega

theorem load_children_cons_some {all : List (Option inter_node)} {c : Option inter_node}
    {cs : List (Option inter_node)} {i : Nat} {prog p : List fmt_t}
    (h : load_opt c (some (all, i)) prog = some p) :
    load_children all (c :: cs) i prog = load_children all cs (i + 1) p := by
  rw [load_children, h]

theorem load_opt_inode {op : Furlow_opcode} {args : List arg_t}
    {up : Option (List (Option inter_node) × Nat)} {prog : List fmt_t} {bytes : List Nat}
    (h : load.args up prog.length (mk_inst op args).args [] = some bytes) :
    load_opt (inode op args) up prog = some (prog ++ [⟨op, bytes⟩]) := by
  rw [inode, load_opt, load, load.inst, Furlow_offset, h]
  simp [load_opt, Furlow_add_instruction, mk_inst]

theorem loads_some {o : Option inter_node} (h : loads o)
    (up : Option (List (Option inter_node) × Nat)) (prog : List fmt_t) :
    ∃ code, load_opt o up prog = some (prog ++ code) ∧ code.length = weight_opt o := by
  cases hl : load_opt o up prog with
  | none => have := h up prog; rw [hl] at this; cases this
  | some p =>
    obtain ⟨code, hc, hlen⟩ := load_opt_appends hl
    exact ⟨code, by rw [hc], hlen⟩

theorem load_args_reg_addr_forward (op : Furlow_opcode) (ch : List (Option inter_node))
    (off i t r : Nat) (hlt : i < t) (ht : t < ch.length) :
    load.args (some (ch, i)) off (mk_inst op [.REG_VAL r, .ADDR_VAL t]).args []
      = some (r :: spread (off + weight_sum ch i (t + 1))) := by
  have h := load_args_addr ch off i t _ [r] [.NO_ARG, .NO_ARG] (by omega)
    (resolve_forward ch off i t hlt ht)
  rw [spread_mod] at h
  simpa [mk_inst, inst_t.args, load.args] using h

/-- The code that `load` emits for the grouping built for `and` (`op = JIF`) and for `or`
(`op = JIT`): both jumps carry the address of the instruction after the last `CONST`. -/
theorem short_circuit_layout (op : Furlow_opcode) (la lb : List Char)
    (k1 k3 nx : Option inter_node) (ch : List (Option inter_node))
    (hch : ch = [inode .CONST [.LABEL la], k1, inode op [.REG_VAL R_POP, .ADDR_VAL 6], k3,
           inode op [.REG_VAL R_POP, .ADDR_VAL 6], inode .DROP [], inode .CONST [.LABEL lb]])
    (h1 : loads k1) (h3 : loads k3) (hn : loads nx)
    (up : Option (List (Option inter_node) × Nat)) (prog : List fmt_t) :
    ∃ code_l code_r code_next,
      code_l.length = weight_opt k1 ∧ code_r.length = weight_opt k3 ∧
      code_next.length = weight_opt nx ∧
      load_opt k1 (some (ch, 1)) (prog ++ [⟨.CONST, la.map Char.toNat ++ [0]⟩])
        = some (prog ++ [⟨.CONST, la.map Char.toNat ++ [0]⟩] ++ code_l) ∧
      load_opt k3 (some (ch, 3)) (prog ++ [⟨.CONST, la.map Char.toNat ++ [0]⟩] ++ code_l
            ++ [⟨op, R_POP :: spread (prog.length + 1 + code_l.length + 1 + code_r.length + 3)⟩])
        = some (prog ++ [⟨.CONST, la.map Char.toNat ++ [0]⟩] ++ code_l
            ++ [⟨op, R_POP :: spread (prog.length + 1 + code_l.length + 1 + code_r.length + 3)⟩]
            ++ code_r) ∧
      load (.grouping ch nx) up prog
        = some (prog ++ [⟨.CONST, la.map Char.toNat ++ [0]⟩] ++ code_l
            ++ [⟨op, R_POP :: spread (prog.length + 1 + code_l.length + 1 + code_r.length + 3)⟩]
            ++ code_r
            ++ [⟨op, R_POP :: spread (prog.length + 1 + code_l.length + 1 + code_r.length + 3)⟩,
                ⟨.DROP, []⟩, ⟨.CONST, lb.map Char.toNat ++ [0]⟩]
            ++ code_next) := by
  have hlen : ch.length = 7 := by rw [hch]; rfl
  have hw27 : weight_sum ch 2 7 = weight_opt k3 + 4 := by
    rw [hch]
    simp [weight_sum, List.range', inode, weight_opt, weight]
    omega
  have hw47 : weight_sum ch 4 7 = 3 := by
    rw [hch]
    simp [weight_sum, List.range', inode, weight_opt, weight]
  obtain ⟨ca, hca⟩ : ∃ c : fmt_t, c = ⟨.CONST, la.map Char.toNat ++ [0]⟩ := ⟨_, rfl⟩
  obtain ⟨cb, hcb⟩ : ∃ c : fmt_t, c = ⟨.CONST, lb.map Char.toNat ++ [0]⟩ := ⟨_, rfl⟩
  have s0 : load_opt (inode .CONST [.LABEL la]) (some (ch, 0)) prog = some (prog ++ [ca]) := by
    rw [hca]
    exact load_opt_inode (by simp [mk_inst, inst_t.args, load.args])
  obtain ⟨code_l, s1, hl1⟩ := loads_some h1 (some (ch, 1)) (prog ++ [ca])
  obtain ⟨j, hj⟩ : ∃ c : fmt_t,
      c = ⟨op, R_POP :: spread (prog.length + 1 + code_l.length + 1 + weight_opt k3 + 3)⟩ :=
    ⟨_, rfl⟩
  have s2 : load_opt (inode op [.REG_VAL R_POP, .ADDR_VAL 6]) (some (ch, 2))
      (prog ++ [ca] ++ code_l) = some (prog ++ [ca] ++ code_l ++ [j]) := by
    rw [hj]
    apply load_opt_inode
    rw [load_args_reg_addr_forward op ch _ 2 6 R_POP (by omega) (by omega), hw27]
    simp only [List.length_append, List.length_singleton]
    congr 3
    omega
  obtain ⟨code_r, s3, hl3⟩ := loads_some h3 (some (ch, 3)) (prog ++ [ca] ++ code_l ++ [j])
  have s4 : load_opt (inode op [.REG_VAL R_POP, .ADDR_VAL 6]) (some (ch, 4))
      (prog ++ [ca] ++ code_l ++ [j] ++ code_r)
      = some (prog ++ [ca] ++ code_l ++ [j] ++ code_r ++ [j]) := by
    rw [hj]
    apply load_opt_inode
    rw [load_args_reg_addr_forward op ch _ 4 6 R_POP (by omega) (by omega), hw47]
    simp only [List.length_append, List.length_singleton]
    congr 3
    omega
  have s5 : load_opt (inode .DROP []) (some (ch, 5))
      (prog ++ [ca] ++ code_l ++ [j] ++ code_r ++ [j])
      = some (prog ++ [ca] ++ code_l ++ [j] ++ code_r ++ [j] ++ [⟨.DROP, []⟩]) :=
    load_opt_inode (by simp [mk_inst, inst_t.args, load.args])
  have s6 : load_opt (inode .CONST [.LABEL lb]) (some (ch, 6))
      (prog ++ [ca] ++ code_l ++ [j] ++ code_r ++ [j] ++ [⟨.DROP, []⟩])
      = some (prog ++ [ca] ++ code_l ++ [j] ++ code_r ++ [j] ++ [⟨.DROP, []⟩] ++ [cb]) := by
    rw [hcb]
    exact load_opt_inode (by simp [mk_inst, inst_t.args, load.args])
  obtain ⟨code_next, sn, hln⟩ := loads_some hn none
    (prog ++ [ca] ++ code_l ++ [j] ++ code_r ++ [j] ++ [⟨.DROP, []⟩] ++ [cb])
  have hc : load_children ch ch 0 prog
      = some (prog ++ [ca] ++ code_l ++ [j] ++ code_r ++ [j] ++ [⟨.DROP, []⟩] ++ [cb]) := by
    conv => lhs; arg 2; rw [hch]
    rw [load_children_cons_some s0, load_children_cons_some s1, load_children_cons_some s2,
      load_children_cons_some s3, load_children_cons_some s4, load_children_cons_some s5,
      load_children_cons_some s6, load_children]
  refine ⟨code_l, code_r, code_next, hl1, hl3, hln, ?_, ?_, ?_⟩
  · rw [← hca]; exact s1
  · rw [hl3, ← hca, ← hj]; exact s3
  · rw [load, hc]
    simp only
    rw [sn, hl3, ← hca, ← hcb, ← hj]
    simp

/-- A conditional jump that is taken: the value read through `R_POP` is popped, the
instruction pointer becomes the address operand and the rest of the stack is untouched. -/
theorem jump_taken (op : Furlow_opcode) (E : Nat) (hE : E < 2 ^ 32) (t : FACT_thread)
    (v : FACT_num) (rest : List FACT_t) (hs : t.vstack = .num v :: rest)
    (hop : (op = .JIF ∧ mpc_cmp_ui v.value 0 = 0) ∨ (op = .JIT ∧ mpc_cmp_ui v.value 0 ≠ 0)) :
    Furlow_run_jump ⟨op, R_POP :: spread E⟩ t = some { t with vstack := rest, ip := E } := by
  have hr : Furlow_reg_val t R_POP = some (v, { t with vstack := rest }) := by
    simp [Furlow_reg_val, hs]
  rcases hop with ⟨rfl, hz⟩ | ⟨rfl, hz⟩
  · simp [Furlow_run_jump, hr, decode_spread E hE, hz]
  · simp [Furlow_run_jump, hr, decode_spread E hE, hz]

theorem compile_short_circuit (id : FACT_nterm_t) (op : Furlow_opcode) (la lb : List Char)
    (hid : (id = .E_AND ∧ op = .JIF ∧ la = "0".toList ∧ lb = "1".toList) ∨
      (id = .E_OR ∧ op = .JIT ∧ la = "1".toList ∧ lb = "0".toList))
    (lexem : List Char) (l r c2 c3 next : Option FACT_tree) (n : inter_node)
    (hc : compile_tree (.mk id lexem l r c2 c3 next) = some n) :
    ∃ kl kr knext, compile_tree_opt l = some kl ∧ compile_tree_opt r = some kr ∧
      compile_tree_opt next = some knext ∧
      n = .grouping
        [inode .CONST [.LABEL la], kl, inode op [.REG_VAL R_POP, .ADDR_VAL 6], kr,
          inode op [.REG_VAL R_POP, .ADDR_VAL 6], inode .DROP [], inode .CONST [.LABEL lb]]
        knext := by
  rcases hid with ⟨rfl, rfl, rfl, rfl⟩ | ⟨rfl, rfl, rfl, rfl⟩
  all_goals simp only [compile_tree] at hc
  all_goals split at hc
  all_goals cases hc
  all_goals rename_i res nx hr hnx
  all_goals simp only [Option.bind_eq_bind, Option.bind_eq_some, Option.some.injEq] at hr
  all_goals obtain ⟨kl, e1, kr, e2, rfl⟩ := hr
  all_goals exact ⟨kl, kr, nx, e1, e2, hnx, rfl⟩

theorem short_circuit_emitted_of_compile (id : FACT_nterm_t) (op : Furlow_opcode)
    (la lb : List Char)
    (hid : (id = .E_AND ∧ op = .JIF ∧ la = "0".toList ∧ lb = "1".toList) ∨
      (id = .E_OR ∧ op = .JIT ∧ la = "1".toList ∧ lb = "0".toList))
    (lexem : List Char) (l r c2 c3 next : Option FACT_tree) (n : inter_node)
    (prog : List fmt_t) (hc : compile_tree (.mk id lexem l r c2 c3 next) = some n) :
    short_circuit_emitted op la lb l r next n prog := by
  obtain ⟨kl, kr, knext, e1, e2, e3, hn⟩ :=
    compile_short_circuit id op la lb hid lexem l r c2 c3 next n hc
  have hall : ∀ (o : Option FACT_tree) (k : Option inter_node),
      compile_tree_opt o = some k → loads k :=
    fun o k hk => compile_tree_opt_loads (fun t _ => compile_tree_loads t) hk
  obtain ⟨code_l, code_r, code_next, _, _, _, s1, s3, hload⟩ :=
    short_circuit_layout op la lb kl kr knext _ rfl (hall l kl e1) (hall r kr e2)
      (hall next knext e3) none prog
  refine ⟨kl, kr, knext, _, code_l, code_r, code_next,
    prog.length + 1 + code_l.length + 1 + code_r.length + 3, e1, e2, e3, hn, s1, s3, ?_, ?_, ?_⟩
  · rw [hn]; exact hload
  · simp only [List.length_append, List.length_cons, List.length_nil]
  · intro hE t v d rest hs hop
    exact jump_taken op _ hE t v (d :: rest) hs hop

/-- C6: short-circuit jump targets. In the code emitted for `l and r` both `JIF R_POP`
instructions carry the address of the instruction that follows the grouping's final
`CONST "1"`; for `l or r` the same holds of both `JIT R_POP` instructions and the final
`CONST "0"`. So when the first jump is taken the thread continues past every instruction
emitted for `r`, and the default `CONST` pushed at the start is on top of the stack. -/
theorem short_circuit_jump_targets (lexem : List Char) (l r c2 c3 next : Option FACT_tree)
    (prog : List fmt_t) :
    (∀ n, compile_tree (.mk .E_AND lexem l r c2 c3 next) = some n →
      short_circuit_emitted .JIF "0".toList "1".toList l r next n prog) ∧
    (∀ n, compile_tree (.mk .E_OR lexem l r c2 c3 next) = some n →
      short_circuit_emitted .JIT "1".toList "0".toList l r next n prog) :=
  ⟨fun n hc => short_circuit_emitted_of_compile .E_AND .JIF _ _
      (Or.inl ⟨rfl, rfl, rfl, rfl⟩) lexem l r c2 c3 next n prog hc,
   fun n hc => short_circuit_emitted_of_compile .E_OR .JIT _ _
      (Or.inr ⟨rfl, rfl, rfl, rfl⟩) lexem l r c2 c3 next n prog hc⟩

theorem short_circuit_jump_targets_witness :
    compile_tree example_and
      = some (.grouping
          [inode .CONST [.LABEL "0".toList], inode .VAR [.LABEL "x".toList],
           inode .JIF [.REG_VAL R_POP, .ADDR_VAL 6], inode .VAR [.LABEL "y".toList],
           inode .JIF [.REG_VAL R_POP, .ADDR_VAL 6], inode .DROP [],
           inode .CONST [.LABEL "1".toList]] none) ∧
    short_circuit_emitted .JIF "0".toList "1".toList (some (tree_var "x"))
      (some (tree_var "y")) none
      (.grouping
          [inode .CONST [.LABEL "0".toList], inode .VAR [.LABEL "x".toList],
           inode .JIF [.REG_VAL R_POP, .ADDR_VAL 6], inode .VAR [.LABEL "y".toList],
           inode .JIF [.REG_VAL R_POP, .ADDR_VAL 6], inode .DROP [],
           inode .CONST [.LABEL "1".toList]] none) [] :=
  ⟨rfl, (short_circuit_jump_targets "and".toList (some (tree_var "x")) (some (tree_var "y"))
    none none none []).1 _ rfl⟩

/-! ## Number arrays -/

theorem set_array_size_array_size (x : FACT_num) (s : Nat) :
    (x.set_array_size s).array_size = s := by
  cases x; rfl

theorem set_array_size_array_up (x : FACT_num) (s : Nat) :
    (x.set_array_size s).array_up = x.array_up := by
  cases x; rfl

theorem set_array_up_array_up (x : FACT_num) (u : Option (List FACT_num)) :
    (x.set_array_up u).array_up = u := by
  cases x; rfl

theorem set_array_up_array_size (x : FACT_num) (u : Option (List FACT_num)) :
    (x.set_array_up u).array_size = x.array_size := by
  cases x; rfl

theorem set_name_array_size (x : FACT_num) (n : List Char) :
    (x.set_name n).array_size = x.array_size := by
  cases x; rfl

theorem make_num_array_none (name : List Char) (ds : List Nat) (k : Nat)
    (hk : ds.length ≤ k) : make_num_array name ds k = none := by
  rw [make_num_array]
  simp [hk]

theorem make_num_array_rect (name : List Char) (ds : List Nat) :
    ∀ (m k : Nat), ds.length - k = m → k < ds.length →
      ∃ l, make_num_array name ds k = some l ∧ l.length = ds.getD k 0 ∧
        ∀ c ∈ l, is_rect (ds.drop (k + 1)) c := by
  intro m
  induction m with
  | zero => intro k h1 h2; omega
  | succ m ih =>
    intro k hm hk
    rw [make_num_array]
    simp only [ge_iff_le, show ¬ ds.length ≤ k by omega, dite_false]
    refine ⟨_, rfl, ?_, ?_⟩
    · simp [FACT_alloc_num_array, List.getD_eq_getElem?_getD, List.getElem?_eq_getElem hk]
    · intro c hc
      rw [List.mem_map] at hc
      obtain ⟨r, hr, rfl⟩ := hc
      have hr0 : r = FACT_alloc_num := List.eq_of_mem_replicate hr
      subst hr0
      by_cases hk1 : k + 1 < ds.length
      · obtain ⟨l1, hl1, hlen1, hrect1⟩ := ih (k + 1) (by omega) hk1
        simp only [hl1, Option.isSome_some, if_true]
        have hd : ds.drop (k + 1) = ds.getD (k + 1) 0 :: ds.drop (k + 1 + 1) := by
          rw [List.drop_eq_getElem_cons hk1, List.getD_eq_getElem?_getD,
            List.getElem?_eq_getElem hk1]
          rfl
        rw [hd, is_rect]
        refine ⟨set_array_size_array_size _ _, l1, ?_, hlen1, hrect1⟩
        rw [set_array_size_array_up, set_array_up_array_up]
      · rw [make_num_array_none name ds (k + 1) (by omega)]
        simp only [Option.isSome_none, Bool.false_eq_true, if_false]
        rw [List.drop_eq_nil_of_le (by omega), is_rect]
        exact ⟨rfl, rfl⟩

/-- The assignments of `FACT_def_num` that make the variable an array build a rectangular
array of the popped dimension sizes. -/
theorem def_num_array_rect (name : List Char) (ds : List Nat) (hne : ds ≠ [])
    (num : FACT_num) :
    is_rect ds ((num.set_array_up (make_num_array name ds 0)).set_array_size (ds.getD 0 0)) := by
  cases ds with
  | nil => exact absurd rfl hne
  | cons d rest =>
    obtain ⟨l, hl, hlen, hrect⟩ :=
      make_num_array_rect name (d :: rest) (d :: rest).length 0 rfl (by simp)
    rw [is_rect]
    refine ⟨by rw [set_array_size_array_size]; rfl, l, ?_, by simpa using hlen, ?_⟩
    · rw [set_array_size_array_up, set_array_up_array_up, hl]
    · simpa using hrect

theorem reg_val_pop (t : FACT_thread) (s : FACT_num) (rest : List FACT_t)
    (h : t.vstack = .num s :: rest) :
    Furlow_reg_val t R_POP = some (s, { t with vstack := rest }) := by
  simp [Furlow_reg_val, h]

theorem pop_sizes_ok (rest : List FACT_t) :
    ∀ (sizes : List FACT_num) (t : FACT_thread) (acc : List Nat),
      t.vstack = sizes.map .num ++ rest →
      (∀ s ∈ sizes, ¬ (mpc_cmp_ui s.value ULONG_MAX > 0 ∨ mpc_sgn s.value < 0) ∧
        2 ≤ mpc_get_ui s.value) →
      FACT_def_num.pop_sizes sizes.length t acc
        = ({ t with vstack := rest }, .ok (acc ++ sizes.map (fun s => mpc_get_ui s.value))) := by
  intro sizes
  induction sizes with
  | nil =>
    intro t acc hst _
    simp only [List.map_nil, List.nil_append] at hst
    simp [FACT_def_num.pop_sizes, ← hst]
  | cons s ss ih =>
    intro t acc hst hin
    have hs := hin s (by simp)
    have hst1 : t.vstack = .num s :: (ss.map .num ++ rest) := by
      rw [hst]; rfl
    rw [List.length_cons, FACT_def_num.pop_sizes, reg_val_pop t s (ss.map .num ++ rest) hst1]
    simp only [hs.1, if_false, show ¬ mpc_get_ui s.value ≤ 1 by omega]
    rw [ih _ _ rfl (fun x hx => hin x (by simp [hx]))]
    simp

theorem add_num_ok_slot (curr : FACT_scope) (name : List Char) (sc : FACT_scope)
    (num : FACT_num) (h : FACT_add_num curr name = (sc, .ok num)) :
    FACT_add_num.slot curr name < sc.num_stack.length := by
  unfold FACT_add_num at h
  split_ifs at h with h1 h2
  · cases h
  · cases h
  · simp only at h
    split at h
    · rename_i n hn
      have hsc : sc.num_stack
          = (FACT_add_num.move name curr.num_stack_size
              (curr.num_stack ++ [FACT_alloc_num.set_name name])).1 := by
        cases h; rfl
      rw [hsc, FACT_add_num.slot]
      by_contra hge
      rw [List.getElem?_eq_none (by omega)] at hn
      cases hn
    · cases h

/-- C7: array rectangularity. When `FACT_def_num` reads a dimension count `n ≥ 1` and then
pops `n` dimension sizes `d1..dn`, each in range and at least 2 (and, for a named variable,
`FACT_add_num` returns), it returns and pushes a Number that is a rectangular array of the
sizes `d1..dn`: `array_size` is `d1` at the root, every node at depth `k < n` has
`array_size = d(k+1)` and exactly that many children, every node at depth `n` is a leaf
with `array_size = 0` and no `array_up`; for a named variable that Number also stands in
`num_stack`. The first part states the same of the array assignments of `FACT_def_num`
(`make_num_array`) for an arbitrary list of sizes. -/
theorem array_rectangularity (t t1 : FACT_thread) (args0 : Nat) (name : List Char)
    (anonymous : Bool) (cnt : FACT_num) (sizes : List FACT_num) (rest : List FACT_t)
    (hreg : Furlow_reg_val t args0 = some (cnt, t1))
    (hcnt : mpc_get_ui cnt.value = sizes.length) (hne : sizes ≠ [])
    (hst : t1.vstack = sizes.map .num ++ rest)
    (hin : ∀ s ∈ sizes, ¬ (mpc_cmp_ui s.value ULONG_MAX > 0 ∨ mpc_sgn s.value < 0) ∧
      2 ≤ mpc_get_ui s.value)
    (hadd : anonymous = true ∨ ∃ sc num, FACT_add_num t1.this name = (sc, .ok num)) :
    (∀ (nm : List Char) (ds : List Nat) (num : FACT_num), ds ≠ [] → (∀ d ∈ ds, 2 ≤ d) →
      is_rect ds
        ((num.set_array_up (make_num_array nm ds 0)).set_array_size (ds.getD 0 0))) ∧
    ∃ x t3, FACT_def_num t args0 name anonymous = (t3, .ok ()) ∧
      t3.vstack = .num x :: rest ∧
      is_rect (sizes.map (fun s => mpc_get_ui s.value)) x ∧
      x.array_size = (sizes.map (fun s => mpc_get_ui s.value)).getD 0 0 ∧
      (anonymous = false → x ∈ t3.this.num_stack) := by
  refine ⟨fun nm ds num hds _ => def_num_array_rect nm ds hds num, ?_⟩
  have hlen : sizes.length ≠ 0 := by
    intro h0
    exact hne (List.length_eq_zero.mp h0)
  have hds : sizes.map (fun s => mpc_get_ui s.value) ≠ [] := by
    intro h0
    exact hne (List.map_eq_nil_iff.mp h0)
  have hanon : ∃ t3, FACT_def_num t args0 name true = (t3, .ok ()) ∧
      t3.vstack = .num ((FACT_alloc_num.set_array_up
          (make_num_array FACT_alloc_num.name (sizes.map (fun s => mpc_get_ui s.value)) 0)).set_array_size
          ((sizes.map (fun s => mpc_get_ui s.value)).getD 0 0)) :: rest := by
    have hpop := pop_sizes_ok rest sizes { t1 with this := t1.this } [] hst hin
    rw [FACT_def_num, hreg]
    simp only [if_true, hcnt, hlen, if_false]
    rw [hpop]
    exact ⟨_, rfl, rfl⟩
  rcases hadd with han | ⟨sc, num, hok⟩
  · subst han
    obtain ⟨t3, h1, h2⟩ := hanon
    exact ⟨_, t3, h1, h2, def_num_array_rect _ _ hds FACT_alloc_num,
      set_array_size_array_size _ _, fun h => by cases h⟩
  · by_cases han : anonymous = true
    · subst han
      obtain ⟨t3, h1, h2⟩ := hanon
      exact ⟨_, t3, h1, h2, def_num_array_rect _ _ hds FACT_alloc_num,
        set_array_size_array_size _ _, fun h => by cases h⟩
    · have han' : anonymous = false := by simpa using han
      subst han'
      have hpop := pop_sizes_ok rest sizes { t1 with this := sc } [] hst hin
      have hslot := add_num_ok_slot t1.this name sc num hok
      have hev : ∃ t3, FACT_def_num t args0 name false = (t3, .ok ()) ∧
          t3.vstack = .num ((num.set_array_up
            (make_num_array num.name (sizes.map (fun s => mpc_get_ui s.value)) 0)).set_array_size
            ((sizes.map (fun s => mpc_get_ui s.value)).getD 0 0)) :: rest ∧
          t3.this.num_stack = sc.num_stack.set (FACT_add_num.slot t1.this name)
            ((num.set_array_up
            (make_num_array num.name (sizes.map (fun s => mpc_get_ui s.value)) 0)).set_array_size
            ((sizes.map (fun s => mpc_get_ui s.value)).getD 0 0)) := by
        rw [FACT_def_num, hreg]
        simp only [Bool.false_eq_true, if_false, hok, hcnt, hlen]
        rw [hpop]
        exact ⟨_, rfl, rfl, rfl⟩
      obtain ⟨t3, h1, h2, h3⟩ := hev
      refine ⟨_, t3, h1, h2, def_num_array_rect _ _ hds num,
        set_array_size_array_size _ _, fun _ => ?_⟩
      rw [h3]
      exact List.mem_iff_getElem.mpr
        ⟨FACT_add_num.slot t1.this name, by simpa using hslot, by simp⟩

theorem example_add_ok :
    ∃ sc num, FACT_add_num example_scope "k".toList = (sc, .ok num) := by
  obtain ⟨pre, post, _, _, _, h⟩ := add_num_ok example_scope "k".toList (by decide)
    ((get_local_num_none_iff example_scope "k".toList (by decide)).mpr (by decide))
    (by decide)
  exact ⟨_, _, h⟩

theorem array_rectangularity_witness :
    ∃ x t3, FACT_def_num example_thread R_POP "k".toList false = (t3, .ok ()) ∧
      t3.vstack = .num x :: [] ∧
      is_rect ([num_of_nat 3, num_of_nat 2].map (fun s => mpc_get_ui s.value)) x ∧
      x.array_size = ([num_of_nat 3, num_of_nat 2].map (fun s => mpc_get_ui s.value)).getD 0 0 ∧
      (false = false → x ∈ t3.this.num_stack) :=
  (array_rectangularity example_thread
    { example_thread with vstack := [.num (num_of_nat 3), .num (num_of_nat 2)] }
    R_POP "k".toList false (num_of_nat 2) [num_of_nat 3, num_of_nat 2] [] rfl (by decide)
    (List.cons_ne_nil _ _) rfl (by decide) (Or.inr example_add_ok)).2

/-! ## `get_element` -/

theorem get_element_drop (elems : List Nat) :
    ∀ (m k : Nat) (base : FACT_num), elems.length - k = m →
      get_element base elems k = get_element.walk base (elems.drop k) := by
  intro m
  induction m with
  | zero =>
    intro k base hm
    rw [get_element]
    simp only [ge_iff_le, show elems.length ≤ k by omega, dite_true]
    rw [List.drop_eq_nil_of_le (by omega), get_element.walk]
  | succ m ih =>
    intro k base hm
    have hk : k < elems.length := by omega
    rw [get_element, List.drop_eq_getElem_cons hk, get_element.walk]
    simp only [ge_iff_le, show ¬ elems.length ≤ k by omega, dite_false, List.get_eq_getElem]
    have hne : k + 1 ≠ elems.length ↔ elems.drop (k + 1) ≠ [] := by
      rw [ne_eq, ne_eq, List.drop_eq_nil_iff]
      omega
    split_ifs with h1 h2 h3 h4 h5
    · rfl
    · rfl
    · exact absurd (hne.mp h3) h4
    · exact absurd (hne.mpr h5) h3
    · rfl
    · cases hu : base.array_up with
      | none => rfl
      | some up =>
        simp only
        cases hb : up[elems[k]]? with
        | none => rfl
        | some b => exact ih (k + 1) b (by omega)

theorem get_element_eq_walk (base : FACT_num) (elems : List Nat) :
    get_element base elems 0 = get_element.walk base elems := by
  rw [get_element_drop elems elems.length 0 base rfl, List.drop_zero]

/-- One step of `get_element` inside a rectangular array: an index below the size of the
first dimension leads to the child of that index, a rectangular array of the remaining
dimensions. -/
theorem walk_rect_step {d : Nat} {ds : List Nat} {base : FACT_num} (hr : is_rect (d :: ds) base)
    (hd : 2 ≤ d) {e : Nat} (he : e < d) :
    ∃ b, is_rect ds b ∧ (∀ es, follow base (e :: es) = follow b es) ∧
      (∀ es, get_element.walk base (e :: es) = get_element.walk b es) := by
  rw [is_rect] at hr
  obtain ⟨hs, l, hl, hlen, hc⟩ := hr
  have hel : e < l.length := by omega
  have hget : l[e]? = some l[e] := List.getElem?_eq_getElem hel
  refine ⟨l[e], hc _ (List.getElem_mem _), ?_, ?_⟩
  · intro es
    simp only [follow, hl, hget]
  · intro es
    rw [get_element.walk]
    simp only [hs, show ¬ d ≤ e by omega, if_false, show ¬ d = 1 by omega, hl, hget]

theorem follow_rect_some {ds : List Nat} {base : FACT_num} (hr : is_rect ds base)
    {e : Nat} {es : List Nat} {node : FACT_num} (hf : follow base (e :: es) = some node) :
    ∃ d ds1, ds = d :: ds1 ∧ e < d := by
  cases ds with
  | nil =>
    rw [is_rect] at hr
    simp [follow, hr.2] at hf
  | cons d ds1 =>
    rw [is_rect] at hr
    obtain ⟨_, l, hl, hlen, _⟩ := hr
    refine ⟨d, ds1, rfl, ?_⟩
    by_contra hge
    rw [follow] at hf
    simp only [hl] at hf
    rw [List.getElem?_eq_none (by omega)] at hf
    cases hf

theorem walk_throws_of_level :
    ∀ (elems : List Nat) (ds : List Nat) (base : FACT_num), is_rect ds base →
      (∀ d ∈ ds, 2 ≤ d) →
      ∀ (k : Nat) (hk : k < elems.length) (node : FACT_num),
        follow base (elems.take k) = some node → node.array_size ≤ elems[k] →
        get_element.walk base elems
          = .thrown ⟨"out of bounds error; expected value in [0, %lu), but value is %lu",
              [.ulong node.array_size, .ulong elems[k]]⟩ := by
  intro elems
  induction elems with
  | nil => intro ds base _ _ k hk; cases hk
  | cons e es ih =>
    intro ds base hr h2 k hk node hf hle
    cases k with
    | zero =>
      simp only [List.take_zero, follow, Option.some.injEq] at hf
      subst hf
      simp only [List.getElem_cons_zero] at hle ⊢
      rw [get_element.walk, if_pos hle]
    | succ k =>
      rw [List.take_succ_cons] at hf
      obtain ⟨d, ds1, rfl, hed⟩ := follow_rect_some hr hf
      obtain ⟨b, hb, hfb, hwb⟩ := walk_rect_step hr (h2 d (by simp)) hed
      rw [hfb] at hf
      rw [hwb]
      simp only [List.getElem_cons_succ] at hle ⊢
      exact ih ds1 b hb (fun x hx => h2 x (by simp [hx])) k (by simpa using hk) node hf hle

theorem walk_throws_level :
    ∀ (elems : List Nat) (ds : List Nat) (base : FACT_num), is_rect ds base →
      (∀ d ∈ ds, 2 ≤ d) → (get_element.walk base elems).throws = true →
      ∃ (k : Nat) (hk : k < elems.length) (node : FACT_num),
        follow base (elems.take k) = some node ∧ node.array_size ≤ elems[k] := by
  intro elems
  induction elems with
  | nil =>
    intro ds base _ _ h
    simp [get_element.walk, Result.throws] at h
  | cons e es ih =>
    intro ds base hr h2 h
    by_cases hle : base.array_size ≤ e
    · exact ⟨0, by simp, base, by simp [follow], by simpa using hle⟩
    · cases ds with
      | nil =>
        rw [is_rect] at hr
        omega
      | cons d ds1 =>
        have hd : base.array_size = d := by rw [is_rect] at hr; exact hr.1
        obtain ⟨b, hb, hfb, hwb⟩ := walk_rect_step hr (h2 d (by simp)) (show e < d by omega)
        rw [hwb] at h
        obtain ⟨k, hk, node, hf, hn⟩ := ih ds1 b hb (fun x hx => h2 x (by simp [hx])) h
        refine ⟨k + 1, by simpa using hk, node, ?_, by simpa using hn⟩
        rw [List.take_succ_cons, hfb]
        exact hf

theorem walk_in_range :
    ∀ (elems : List Nat) (ds : List Nat) (base : FACT_num), is_rect ds base →
      (∀ d ∈ ds, 2 ≤ d) →
      (∀ (k : Nat) (hk : k < elems.length), ∃ node,
        follow base (elems.take k) = some node ∧ elems[k] < node.array_size) →
      ∃ node, follow base elems = some node ∧ get_element.walk base elems = .ok node ∧
        is_rect (ds.drop elems.length) node := by
  intro elems
  induction elems with
  | nil =>
    intro ds base hr _ _
    exact ⟨base, rfl, rfl, by simpa using hr⟩
  | cons e es ih =>
    intro ds base hr h2 hin
    obtain ⟨n0, hf0, hlt0⟩ := hin 0 (by simp)
    simp only [List.take_zero, follow, Option.some.injEq] at hf0
    subst hf0
    simp only [List.getElem_cons_zero] at hlt0
    cases ds with
    | nil =>
      rw [is_rect] at hr
      omega
    | cons d ds1 =>
      have hd : base.array_size = d := by rw [is_rect] at hr; exact hr.1
      obtain ⟨b, hb, hfb, hwb⟩ := walk_rect_step hr (h2 d (by simp)) (show e < d by omega)
      have hin' : ∀ (k : Nat) (hk : k < es.length), ∃ node,
          follow b (es.take k) = some node ∧ es[k] < node.array_size := by
        intro k hk
        obtain ⟨node, hf, hlt⟩ := hin (k + 1) (by simpa using hk)
        rw [List.take_succ_cons, hfb] at hf
        exact ⟨node, hf, by simpa using hlt⟩
      obtain ⟨node, hf, hw, hrn⟩ := ih ds1 b hb (fun x hx => h2 x (by simp [hx])) hin'
      exact ⟨node, by rw [hfb]; exact hf, by rw [hwb]; exact hw, by simpa using hrn⟩

theorem walk_too_many :
    ∀ (elems : List Nat) (ds : List Nat) (base : FACT_num), is_rect ds base →
      (∀ d ∈ ds, 2 ≤ d) → ds.length < elems.length →
      (get_element.walk base elems).throws = true := by
  intro elems
  induction elems with
  | nil => intro ds base _ _ h; simp at h
  | cons e es ih =>
    intro ds base hr h2 hlen
    by_cases hle : base.array_size ≤ e
    · rw [get_element.walk, if_pos hle]; rfl
    · cases ds with
      | nil =>
        rw [is_rect] at hr
        omega
      | cons d ds1 =>
        have hd : base.array_size = d := by rw [is_rect] at hr; exact hr.1
        obtain ⟨b, hb, _, hwb⟩ := walk_rect_step hr (h2 d (by simp)) (show e < d by omega)
        rw [hwb]
        exact ih ds1 b hb (fun x hx => h2 x (by simp [hx])) (by simpa using hlen)

theorem example_array_rect : is_rect [3, 2] example_array :=
  def_num_array_rect "a".toList [3, 2] (List.cons_ne_nil _ _) FACT_alloc_num

theorem example_array_size : example_array.array_size = 3 :=
  set_array_size_array_size _ _

/-- C8: on a rectangular array whose dimension sizes are at least 2, `get_element` throws
exactly when at some level `k` below the number of indices the node reached by following
`elems[0..k-1]` has `array_size ≤ elems[k]`; the error then is the out-of-bounds error whose
arguments are the `array_size` of that node (the half-open range `[0, array_size)`) and the
offending index. Index 3 into the first dimension of `num a[3][2]` reports `[0, 3)`. -/
theorem get_element_bounds (ds : List Nat) (base : FACT_num) (elems : List Nat)
    (hr : is_rect ds base) (h2 : ∀ d ∈ ds, 2 ≤ d) :
    ((get_element base elems 0).throws = true ↔
      ∃ (k : Nat) (hk : k < elems.length) (node : FACT_num),
        follow base (elems.take k) = some node ∧ node.array_size ≤ elems[k]) ∧
    (∀ (k : Nat) (hk : k < elems.length) (node : FACT_num),
      follow base (elems.take k) = some node → node.array_size ≤ elems[k] →
      get_element base elems 0
        = .thrown ⟨"out of bounds error; expected value in [0, %lu), but value is %lu",
            [.ulong node.array_size, .ulong elems[k]]⟩) ∧
    (∃ e, get_element example_array [3, 0] 0 = .thrown e ∧
      e.message = "out of bounds error; expected value in [0, 3), but value is 3") := by
  refine ⟨⟨?_, ?_⟩, ?_, ?_⟩
  · intro h
    rw [get_element_eq_walk] at h
    exact walk_throws_level elems ds base hr h2 h
  · rintro ⟨k, hk, node, hf, hle⟩
    rw [get_element_eq_walk, walk_throws_of_level elems ds base hr h2 k hk node hf hle]
    rfl
  · intro k hk node hf hle
    rw [get_element_eq_walk]
    exact walk_throws_of_level elems ds base hr h2 k hk node hf hle
  · refine ⟨⟨"out of bounds error; expected value in [0, %lu), but value is %lu",
      [.ulong 3, .ulong 3]⟩, ?_, by decide⟩
    have h := walk_throws_of_level [3, 0] [3, 2] example_array example_array_rect
      (by decide) 0 (by decide) example_array rfl (by rw [example_array_size]; decide)
    rw [example_array_size] at h
    rw [get_element_eq_walk, h]
    rfl

theorem get_element_bounds_witness :
    (get_element example_array [1, 2] 0).throws = true ↔
      ∃ (k : Nat) (hk : k < [1, 2].length) (node : FACT_num),
        follow example_array ([1, 2].take k) = some node ∧ node.array_size ≤ [1, 2][k] :=
  (get_element_bounds [3, 2] example_array [1, 2] example_array_rect (by decide)).1

/-- C10: on a rectangular array, when each index is smaller than the `array_size` of the
node reached so far, `get_element` returns exactly the node reached by following
`array_up[elems[0]]`, ..., `array_up[elems[dims-1]]` from the base, a rectangular array of
the remaining dimensions: the addressed leaf when there are as many indices as dimensions.
With no index it returns the base itself. -/
theorem get_element_in_range (ds : List Nat) (base : FACT_num) (elems : List Nat)
    (hr : is_rect ds base) (h2 : ∀ d ∈ ds, 2 ≤ d)
    (hin : ∀ (k : Nat) (hk : k < elems.length), ∃ node,
      follow base (elems.take k) = some node ∧ elems[k] < node.array_size) :
    get_element base [] 0 = .ok base ∧
    ∃ node, follow base elems = some node ∧ get_element base elems 0 = .ok node ∧
      is_rect (ds.drop elems.length) node ∧
      (elems.length = ds.length → node.array_size = 0 ∧ node.array_up = none) := by
  refine ⟨by rw [get_element_eq_walk]; rfl, ?_⟩
  obtain ⟨node, hf, hw, hrn⟩ := walk_in_range elems ds base hr h2 hin
  refine ⟨node, hf, by rw [get_element_eq_walk]; exact hw, hrn, ?_⟩
  intro hlen
  rw [hlen, List.drop_length, is_rect] at hrn
  exact hrn

theorem example_in_range :
    ∀ (k : Nat) (hk : k < [1, 0].length), ∃ node,
      follow example_array ([1, 0].take k) = some node ∧ [1, 0][k] < node.array_size := by
  obtain ⟨b, hb, hfb, _⟩ :=
    walk_rect_step example_array_rect (by decide) (show 1 < 3 by decide)
  intro k hk
  match k, hk with
  | 0, _ => exact ⟨example_array, rfl, by rw [example_array_size]; simp⟩
  | 1, _ =>
    refine ⟨b, by rw [show List.take 1 [1, 0] = [1] from rfl, hfb]; rfl, ?_⟩
    rw [is_rect] at hb
    rw [hb.1]
    simp

theorem get_element_in_range_witness :
    get_element example_array [] 0 = .ok example_array ∧
    ∃ node, follow example_array [1, 0] = some node ∧
      get_element example_array [1, 0] 0 = .ok node ∧
      is_rect ([3, 2].drop [1, 0].length) node ∧
      ([1, 0].length = [3, 2].length → node.array_size = 0 ∧ node.array_up = none) :=
  get_element_in_range [3, 2] example_array [1, 0] example_array_rect (by decide)
    example_in_range

theorem pop_elems_spec (rest : List FACT_t) :
    ∀ (idx : List FACT_num) (t : FACT_thread) (acc : List Nat),
      t.vstack = idx.map .num ++ rest →
      (FACT_get_num_elem.pop_elems idx.length t acc).2.throws = true ∨
      FACT_get_num_elem.pop_elems idx.length t acc
        = ({ t with vstack := rest }, .ok (acc ++ idx.map (fun s => mpc_get_ui s.value))) := by
  intro idx
  induction idx with
  | nil =>
    intro t acc hst
    right
    simp only [List.map_nil, List.nil_append] at hst
    simp [FACT_get_num_elem.pop_elems, ← hst]
  | cons s ss ih =>
    intro t acc hst
    have hst1 : t.vstack = .num s :: (ss.map .num ++ rest) := by
      rw [hst]; rfl
    rw [List.length_cons, FACT_get_num_elem.pop_elems,
      reg_val_pop t s (ss.map .num ++ rest) hst1]
    simp only
    split_ifs with h
    · left; rfl
    · rcases ih { t with vstack := ss.map .num ++ rest } (acc ++ [mpc_get_ui s.value]) rfl
        with h1 | h1
      · left; exact h1
      · right
        rw [h1]
        simp

/-- C9 (counterexample): `num a[3][2]` has two dimensions; element access with the single
index 1 does not throw, neither in `get_element` nor in `FACT_get_num_elem`: it yields the
row `a[1]`, an array of size 2. -/
theorem elem_dimension_mismatch_counterexample :
    is_rect [3, 2] example_array ∧
    (get_element example_array [1] 0).throws = false ∧
    (∃ row, get_element example_array [1] 0 = .ok row ∧ row.array_size = 2) ∧
    (FACT_get_num_elem example_elem_thread example_array R_POP).2 = .ok () := by
  have hin : ∀ (k : Nat) (hk : k < [1].length), ∃ node,
      follow example_array ([1].take k) = some node ∧ [1][k] < node.array_size := by
    intro k hk
    match k, hk with
    | 0, _ => exact ⟨example_array, rfl, by rw [example_array_size]; simp⟩
  obtain ⟨row, _, hw, hrow⟩ := walk_in_range [1] [3, 2] example_array example_array_rect
    (by decide) hin
  have hg : get_element example_array [1] 0 = .ok row := by
    rw [get_element_eq_walk]; exact hw
  have hsz : row.array_size = 2 := by
    rw [show List.drop [1].length [3, 2] = [2] from rfl, is_rect] at hrow
    exact hrow.1
  refine ⟨example_array_rect, by rw [hg]; rfl, ⟨row, hg, hsz⟩, ?_⟩
  have hreg : Furlow_reg_val example_elem_thread R_POP
      = some (num_of_nat 1, { example_elem_thread with vstack := [.num (num_of_nat 1)] }) :=
    rfl
  have hpop : FACT_get_num_elem.pop_elems (mpc_get_ui (num_of_nat 1).value)
      { example_elem_thread with vstack := [.num (num_of_nat 1)] } []
      = ({ example_elem_thread with vstack := [] }, .ok [1]) := by
    rfl
  rw [FACT_get_num_elem, hreg]
  simp only
  rw [hpop]
  simp only
  rw [hg]

/-- C9 (amended): for a rectangular array of `n` dimensions, element access with more than
`n` indices throws whatever the index values are, in `get_element` and in
`FACT_get_num_elem`; with fewer than `n` indices, each within its dimension, `get_element`
does not throw: it returns the sub-array reached by following those indices. -/
theorem elem_dimension_mismatch (ds : List Nat) (base : FACT_num)
    (hr : is_rect ds base) (h2 : ∀ d ∈ ds, 2 ≤ d) :
    (∀ elems : List Nat, ds.length < elems.length →
      (get_element base elems 0).throws = true) ∧
    (∀ (t t1 : FACT_thread) (args0 : Nat) (cnt : FACT_num) (idx : List FACT_num)
        (rest : List FACT_t),
      Furlow_reg_val t args0 = some (cnt, t1) → mpc_get_ui cnt.value = idx.length →
      t1.vstack = idx.map .num ++ rest → ds.length < idx.length →
      (FACT_get_num_elem t base args0).2.throws = true) ∧
    (∀ elems : List Nat, elems.length < ds.length →
      (∀ (k : Nat) (hk : k < elems.length), ∃ node,
        follow base (elems.take k) = some node ∧ elems[k] < node.array_size) →
      ∃ node, follow base elems = some node ∧ get_element base elems 0 = .ok node ∧
        is_rect (ds.drop elems.length) node ∧ 2 ≤ node.array_size) := by
  refine ⟨?_, ?_, ?_⟩
  · intro elems hlen
    rw [get_element_eq_walk]
    exact walk_too_many elems ds base hr h2 hlen
  · intro t t1 args0 cnt idx rest hreg hcnt hst hlen
    rw [FACT_get_num_elem, hreg]
    simp only [hcnt]
    rcases pop_elems_spec rest idx t1 [] hst with h | h
    · revert h
      cases FACT_get_num_elem.pop_elems idx.length t1 [] with
      | mk t2 res =>
        cases res with
        | ok a => intro h; simp [Result.throws] at h
        | thrown e => intro _; rfl
        | undef => intro h; simp [Result.throws] at h
    · rw [h]
      simp only [List.nil_append]
      have hthrow := walk_too_many (idx.map (fun s => mpc_get_ui s.value)) ds base hr h2
        (by simpa using hlen)
      rw [← get_element_eq_walk] at hthrow
      revert hthrow
      cases get_element base (idx.map (fun s => mpc_get_ui s.value)) 0 with
      | ok a => intro h; simp [Result.throws] at h
      | thrown e => intro _; rfl
      | undef => intro h; simp [Result.throws] at h
  · intro elems hlen hin
    obtain ⟨node, hf, hw, hrn⟩ := walk_in_range elems ds base hr h2 hin
    refine ⟨node, hf, by rw [get_element_eq_walk]; exact hw, hrn, ?_⟩
    have hd : ds.drop elems.length
        = ds[elems.length] :: ds.drop (elems.length + 1) := List.drop_eq_getElem_cons hlen
    rw [hd, is_rect] at hrn
    rw [hrn.1]
    exact h2 _ (List.getElem_mem _)

theorem elem_dimension_mismatch_witness :
    (∀ elems : List Nat, [3, 2].length < elems.length →
      (get_element example_array elems 0).throws = true) ∧
    (∀ (t t1 : FACT_thread) (args0 : Nat) (cnt : FACT_num) (idx : List FACT_num)
        (rest : List FACT_t),
      Furlow_reg_val t args0 = some (cnt, t1) → mpc_get_ui cnt.value = idx.length →
      t1.vstack = idx.map .num ++ rest → [3, 2].length < idx.length →
      (FACT_get_num_elem t example_array args0).2.throws = true) ∧
    (∀ elems : List Nat, elems.length < [3, 2].length →
      (∀ (k : Nat) (hk : k < elems.length), ∃ node,
        follow example_array (elems.take k) = some node ∧ elems[k] < node.array_size) →
      ∃ node, follow example_array elems = some node ∧
        get_element example_array elems 0 = .ok node ∧
        is_rect ([3, 2].drop elems.length) node ∧ 2 ≤ node.array_size) :=
  elem_dimension_mismatch [3, 2] example_array example_array_rect (by decide)

/-! ## Dimension sizes below 2 -/

/-- The Number that a returning `FACT_add_num` hands back is the fresh one, named `name`. -/
theorem add_num_ok_val (curr : FACT_scope) (name : List Char) (sc : FACT_scope)
    (num : FACT_num) (h : FACT_add_num curr name = (sc, .ok num)) :
    num = FACT_alloc_num.set_name name ∧
    sc.num_stack[FACT_add_num.slot curr name]? = some num := by
  obtain ⟨pre, post, _, _, _, hmove⟩ :=
    move_spec name (FACT_alloc_num.set_name name) curr.num_stack []
  unfold FACT_add_num at h
  split_ifs at h with h1 h2
  · cases h
  · cases h
  · simp only [FACT_scope.num_stack_size] at h
    rw [hmove] at h
    simp only [List.append_nil, getElem?_append_cons_length] at h
    cases h
    refine ⟨rfl, ?_⟩
    simp only [FACT_add_num.slot, FACT_scope.num_stack_size]
    rw [hmove]
    simp only [List.append_nil, getElem?_append_cons_length]

/-- The loop that pops the dimension sizes throws at the first size that is 0 or 1 when no
size popped before it is out of range. -/
theorem pop_sizes_small (below : List FACT_t) (bad : FACT_num)
    (hbad : ¬ (mpc_cmp_ui bad.value ULONG_MAX > 0 ∨ mpc_sgn bad.value < 0) ∧
      mpc_get_ui bad.value ≤ 1) :
    ∀ (pre : List FACT_num) (more : Nat) (t : FACT_thread) (acc : List Nat),
      t.vstack = pre.map .num ++ .num bad :: below →
      (∀ s ∈ pre, ¬ (mpc_cmp_ui s.value ULONG_MAX > 0 ∨ mpc_sgn s.value < 0)) →
      ∃ t3, FACT_def_num.pop_sizes (pre.length + 1 + more) t acc
          = (t3, .thrown ⟨"dimension size must be larger than 1", []⟩) ∧
        t3.this = t.this ∧ t3.vstack <:+ t.vstack := by
  intro pre
  induction pre with
  | nil =>
    intro more t acc hst _
    have hst1 : t.vstack = .num bad :: below := by rw [hst]; rfl
    have e : ([] : List FACT_num).length + 1 + more = more + 1 := by simp; omega
    rw [e, FACT_def_num.pop_sizes, reg_val_pop t bad below hst1]
    simp only [hbad.1, if_false, hbad.2, if_true]
    exact ⟨_, rfl, rfl, by rw [hst1]; exact List.suffix_cons _ _⟩
  | cons s ss ih =>
    intro more t acc hst hin
    have hs := hin s (by simp)
    have hst1 : t.vstack = .num s :: (ss.map .num ++ .num bad :: below) := by
      rw [hst]; rfl
    have e : (s :: ss).length + 1 + more = (ss.length + 1 + more) + 1 := by simp; omega
    rw [e, FACT_def_num.pop_sizes, reg_val_pop t s _ hst1]
    simp only [hs, if_false]
    split_ifs with h2
    · exact ⟨_, rfl, rfl, by rw [hst1]; exact List.suffix_cons _ _⟩
    · obtain ⟨t3, h3, h4, h5⟩ := ih more { t with vstack := ss.map .num ++ .num bad :: below }
        (acc ++ [mpc_get_ui s.value]) rfl (fun x hx => hin x (by simp [hx]))
      refine ⟨t3, h3, h4, ?_⟩
      rw [hst1]
      exact h5.trans (List.suffix_cons _ _)

/-- When the loop that pops the dimension sizes runs to its end, every size it popped was
in range and at least 2. -/
theorem pop_sizes_ok_inv (rest : List FACT_t) :
    ∀ (sizes : List FACT_num) (t t3 : FACT_thread) (acc ds : List Nat),
      t.vstack = sizes.map .num ++ rest →
      FACT_def_num.pop_sizes sizes.length t acc = (t3, .ok ds) →
      ∀ s ∈ sizes, ¬ (mpc_cmp_ui s.value ULONG_MAX > 0 ∨ mpc_sgn s.value < 0) ∧
        2 ≤ mpc_get_ui s.value := by
  intro sizes
  induction sizes with
  | nil => intro t t3 acc ds _ _ s hs; cases hs
  | cons s ss ih =>
    intro t t3 acc ds hst hpop
    have hst1 : t.vstack = .num s :: (ss.map .num ++ rest) := by rw [hst]; rfl
    rw [List.length_cons, FACT_def_num.pop_sizes, reg_val_pop t s _ hst1] at hpop
    simp only at hpop
    split_ifs at hpop with h1 h2
    · cases hpop
    · cases hpop
    · intro x hx
      rcases List.mem_cons.mp hx with rfl | hx
      · exact ⟨h1, by omega⟩
      · exact ih _ _ _ _ rfl hpop x hx

/-- C12: dimension sizes below 2. `FACT_def_num` with a dimension count `n ≥ 1` returns (and
so attaches an array) only if each of the `n` sizes it pops is at least 2. If one of the
popped sizes is 0 or 1, and no size popped before it is negative or above `ULONG_MAX`, the
call throws "dimension size must be larger than 1" and pushes nothing; the Number that
`FACT_add_num` put in the scope for a named variable is left as it was added: a scalar, with
no `array_up` and `array_size = 0`. -/
theorem def_num_small_dimension (t t1 : FACT_thread) (args0 : Nat) (name : List Char)
    (anonymous : Bool) (cnt : FACT_num)
    (hreg : Furlow_reg_val t args0 = some (cnt, t1))
    (hn : 1 ≤ mpc_get_ui cnt.value)
    (hadd : anonymous = true ∨ ∃ sc num, FACT_add_num t1.this name = (sc, .ok num)) :
    (∀ (sizes : List FACT_num) (rest : List FACT_t) (t3 : FACT_thread),
      sizes.length = mpc_get_ui cnt.value → t1.vstack = sizes.map .num ++ rest →
      FACT_def_num t args0 name anonymous = (t3, .ok ()) →
      ∀ s ∈ sizes, 2 ≤ mpc_get_ui s.value) ∧
    (∀ (pre : List FACT_num) (bad : FACT_num) (below : List FACT_t),
      pre.length < mpc_get_ui cnt.value →
      t1.vstack = pre.map .num ++ .num bad :: below →
      (∀ s ∈ pre, ¬ (mpc_cmp_ui s.value ULONG_MAX > 0 ∨ mpc_sgn s.value < 0)) →
      ¬ (mpc_cmp_ui bad.value ULONG_MAX > 0 ∨ mpc_sgn bad.value < 0) →
      mpc_get_ui bad.value ≤ 1 →
      ∃ t3, FACT_def_num t args0 name anonymous
          = (t3, .thrown ⟨"dimension size must be larger than 1", []⟩) ∧
        (∀ v ∈ t3.vstack, v ∈ t1.vstack) ∧
        (anonymous = true → t3.this = t1.this) ∧
        (anonymous = false → ∃ num, FACT_add_num t1.this name = (t3.this, .ok num) ∧
          t3.this.num_stack[FACT_add_num.slot t1.this name]? = some num ∧
          num.name = name ∧ num.array_up = none ∧ num.array_size = 0)) := by
  have hn0 : mpc_get_ui cnt.value ≠ 0 := by omega
  constructor
  · intro sizes rest t3 hlen hst hok
    rw [FACT_def_num, hreg] at hok
    simp only [hn0, if_false] at hok
    rcases hadd with han | ⟨sc, num, hadd⟩
    · subst han
      simp only [if_true] at hok
      rw [← hlen] at hok
      cases hp : FACT_def_num.pop_sizes sizes.length { t1 with this := t1.this } [] with
      | mk tp r =>
        rw [hp] at hok
        cases r with
        | thrown e => cases hok
        | undef => cases hok
        | ok ds =>
          intro s hs
          exact (pop_sizes_ok_inv rest sizes { t1 with this := t1.this } tp [] ds hst hp s hs).2
    · by_cases han : anonymous = true
      · subst han
        simp only [if_true] at hok
        rw [← hlen] at hok
        cases hp : FACT_def_num.pop_sizes sizes.length { t1 with this := t1.this } [] with
        | mk tp r =>
          rw [hp] at hok
          cases r with
          | thrown e => cases hok
          | undef => cases hok
          | ok ds =>
            intro s hs
            exact (pop_sizes_ok_inv rest sizes { t1 with this := t1.this } tp [] ds hst hp s hs).2
      · have han' : anonymous = false := by simpa using han
        subst han'
        simp only [Bool.false_eq_true, if_false, hadd] at hok
        rw [← hlen] at hok
        cases hp : FACT_def_num.pop_sizes sizes.length { t1 with this := sc } [] with
        | mk tp r =>
          rw [hp] at hok
          cases r with
          | thrown e => cases hok
          | undef => cases hok
          | ok ds =>
            intro s hs
            exact (pop_sizes_ok_inv rest sizes { t1 with this := sc } tp [] ds hst hp s hs).2
  · intro pre bad below hlt hst hin hb1 hb2
    obtain ⟨more, hmore⟩ : ∃ more, mpc_get_ui cnt.value = pre.length + 1 + more :=
      ⟨mpc_get_ui cnt.value - (pre.length + 1), by omega⟩
    have hsub : ∀ (tp : FACT_thread), tp.vstack = t1.vstack →
        ∃ t3, FACT_def_num.pop_sizes (mpc_get_ui cnt.value) tp []
            = (t3, .thrown ⟨"dimension size must be larger than 1", []⟩) ∧
          t3.this = tp.this ∧ ∀ v ∈ t3.vstack, v ∈ t1.vstack := by
      intro tp htp
      obtain ⟨t3, h3, h4, h5⟩ := pop_sizes_small below bad ⟨hb1, hb2⟩ pre more tp []
        (htp.trans hst) hin
      rw [hmore]
      refine ⟨t3, h3, h4, fun v hv => ?_⟩
      rw [← htp]
      exact h5.subset hv
    have hanon : anonymous = true →
        ∃ t3, FACT_def_num t args0 name anonymous
            = (t3, .thrown ⟨"dimension size must be larger than 1", []⟩) ∧
          (∀ v ∈ t3.vstack, v ∈ t1.vstack) ∧ t3.this = t1.this := by
      intro han
      subst han
      obtain ⟨t3, h3, h4, h5⟩ := hsub { t1 with this := t1.this } rfl
      rw [FACT_def_num, hreg]
      simp only [hn0, if_false, if_true]
      rw [h3]
      exact ⟨t3, rfl, h5, h4⟩
    by_cases han : anonymous = true
    · obtain ⟨t3, h3, h4, h5⟩ := hanon han
      exact ⟨t3, h3, h4, fun _ => h5, fun h => by rw [han] at h; cases h⟩
    · have han' : anonymous = false := by simpa using han
      rcases hadd with h | ⟨sc, num, hadd⟩
      · exact absurd h han
      · subst han'
        obtain ⟨t3, h3, h4, h5⟩ := hsub { t1 with this := sc } rfl
        obtain ⟨hv1, hv2⟩ := add_num_ok_val t1.this name sc num hadd
        refine ⟨t3, ?_, h5, (fun h => by cases h), fun _ => ⟨num, ?_, ?_, ?_, ?_, ?_⟩⟩
        · rw [FACT_def_num, hreg]
          simp only [Bool.false_eq_true, hn0, if_false, hadd]
          rw [h3]
        · rw [h4]; exact hadd
        · rw [h4]; exact hv2
        · rw [hv1]; rfl
        · rw [hv1]; rfl
        · rw [hv1]; rfl

theorem def_num_small_dimension_witness :
    ∃ t3, FACT_def_num example_small_thread R_POP "k".toList false
        = (t3, .thrown ⟨"dimension size must be larger than 1", []⟩) ∧
      (∀ v ∈ t3.vstack, v ∈ [FACT_t.num (num_of_nat 3), .num (num_of_nat 1)]) ∧
      (false = true → t3.this = example_scope) ∧
      (false = false → ∃ num, FACT_add_num example_scope "k".toList = (t3.this, .ok num) ∧
        t3.this.num_stack[FACT_add_num.slot example_scope "k".toList]? = some num ∧
        num.name = "k".toList ∧ num.array_up = none ∧ num.array_size = 0) :=
  (def_num_small_dimension example_small_thread
    { example_small_thread with vstack := [.num (num_of_nat 3), .num (num_of_nat 1)] }
    R_POP "k".toList false (num_of_nat 2) rfl (by decide) (Or.inr example_add_ok)).2
    [num_of_nat 3] (num_of_nat 1) [] (by decide) rfl (by decide) (by decide) (by decide)

/-! ## Instruction encoding -/

theorem spread_length (a : Nat) : (spread a).length = 4 := rfl

theorem encode_operands_length (up : Option (List (Option inter_node) × Nat)) (off : Nat) :
    ∀ (args : List arg_t) (bytes : List Nat), encode_operands up off args = some bytes →
      bytes.length = (args.map operand_length).sum := by
  intro args
  induction args with
  | nil => intro bytes h; cases h; rfl
  | cons a rest ih =>
    intro bytes h
    rw [encode_operands] at h
    cases ha : encode_operand up off a with
    | none => rw [ha] at h; cases h
    | some b =>
      cases hr : encode_operands up off rest with
      | none => rw [ha, hr] at h; cases h
      | some bs =>
        rw [ha, hr] at h
        cases h
        have hb : b.length = operand_length a := by
          cases a with
          | NO_ARG => cases ha; rfl
          | REG_VAL reg => cases ha; rfl
          | ADDR_VAL t =>
            rw [encode_operand] at ha
            cases hx : load.addr up off t with
            | none => rw [hx] at ha; cases ha
            | some x => rw [hx] at ha; cases ha; rfl
          | LABEL label => cases ha; simp [operand_length]
        rw [List.length_append, hb, ih bs hr, List.map_cons, List.sum_cons]

/-- The loop of `load` over the argument slots encodes the arguments up to the first empty
slot and not beyond the first label. -/
theorem load_args_eq_encode (up : Option (List (Option inter_node) × Nat)) (off : Nat) :
    ∀ (args : List arg_t) (fmt : List Nat),
      load.args up off args fmt
        = (encode_operands up off (upto_label args)).map (fun b => fmt ++ b) := by
  intro args
  induction args with
  | nil => intro fmt; simp [load.args, upto_label, encode_operands]
  | cons a rest ih =>
    intro fmt
    cases a with
    | NO_ARG => simp [load.args, upto_label, encode_operands]
    | REG_VAL reg =>
      rw [load.args, ih, upto_label, encode_operands, encode_operand]
      cases encode_operands up off (upto_label rest) <;> simp
    | ADDR_VAL t =>
      rw [upto_label, encode_operands, encode_operand]
      unfold load.addr
      cases up with
      | none => simp [load.args]
      | some cj =>
        obtain ⟨children, j⟩ := cj
        by_cases htj : t = j
        · simp [load.args, htj]
        · cases hres : load.resolve children off j t with
          | none => simp [load.args, htj, hres]
          | some x =>
            simp only [load.args, htj, if_false, hres, Option.map_some']
            rw [ih]
            cases encode_operands (some (children, j)) off (upto_label rest) <;> simp
    | LABEL label => simp [load.args, upto_label, encode_operands, encode_operand]

theorem upto_label_eq_of_last : ∀ (args : List arg_t), label_last args = true →
    upto_label args = upto_empty args := by
  intro args
  induction args with
  | nil => intro _; rfl
  | cons a rest ih =>
    intro h
    cases a with
    | NO_ARG => rfl
    | REG_VAL reg => rw [upto_label, upto_empty, ih h]
    | ADDR_VAL t => rw [upto_label, upto_empty, ih h]
    | LABEL label =>
      rw [label_last, List.isEmpty_iff] at h
      rw [upto_label, upto_empty, h]

/-- An instruction node made by hand, `DEF_N "x", R_POP`, whose label stands before a
register operand; `compile_tree` and `compile_args` make no such node. Its arguments up to
the first empty slot are the label and the register, four bytes with the opcode; `load`
stops after the label and emits three. -/
theorem label_first_encoding :
    upto_empty example_label_first.args = [.LABEL "x".toList, .REG_VAL R_POP] ∧
    load.inst example_label_first none 0 = some ⟨.DEF_N, [120, 0]⟩ ∧
    encode_operands none 0 (upto_empty example_label_first.args) = some [120, 0, 0] ∧
    encoded_length (upto_empty example_label_first.args) = 4 ∧
    ¬ (∀ (inst : inst_t) (up : Option (List (Option inter_node) × Nat)) (off : Nat)
        (fmt : fmt_t), load.inst inst up off = some fmt →
        encode_operands up off (upto_empty inst.args) = some fmt.operands ∧
        fmt.operands.length + 1 = encoded_length (upto_empty inst.args)) := by
  refine ⟨by decide, by decide, by decide, by decide, ?_⟩
  intro h
  have h1 := (h example_label_first none 0 ⟨.DEF_N, [120, 0]⟩ (by decide)).2
  revert h1
  decide

/-- The encoding of one instruction node by `load`: the opcode followed by the encodings of
the arguments in order, up to the first empty argument slot and not beyond the first label:
one byte for a register operand, the four bytes (most significant first) of the resolved
address for an address operand, the label's bytes and a terminating NUL for a label
operand; it aborts exactly when one of these address operands does not resolve. When no
argument follows a label the arguments encoded are all those up to the first empty slot. -/
theorem load_inst_encoding (inst : inst_t) (up : Option (List (Option inter_node) × Nat))
    (off : Nat) :
    load.inst inst up off
      = (encode_operands up off (upto_label inst.args)).map (fun b => ⟨inst.inst_val, b⟩) ∧
    (∀ fmt, load.inst inst up off = some fmt →
      fmt.inst_val = inst.inst_val ∧
      encode_operands up off (upto_label inst.args) = some fmt.operands ∧
      fmt.operands.length + 1 = encoded_length (upto_label inst.args)) ∧
    (label_last inst.args = true → ∀ fmt, load.inst inst up off = some fmt →
      encode_operands up off (upto_empty inst.args) = some fmt.operands ∧
      fmt.operands.length + 1 = encoded_length (upto_empty inst.args)) := by
  have h1 : load.inst inst up off
      = (encode_operands up off (upto_label inst.args)).map (fun b => ⟨inst.inst_val, b⟩) := by
    rw [load.inst, load_args_eq_encode]
    cases encode_operands up off (upto_label inst.args) <;> simp
  have h2 : ∀ fmt, load.inst inst up off = some fmt →
      fmt.inst_val = inst.inst_val ∧
      encode_operands up off (upto_label inst.args) = some fmt.operands ∧
      fmt.operands.length + 1 = encoded_length (upto_label inst.args) := by
    intro fmt hf
    rw [h1] at hf
    cases he : encode_operands up off (upto_label inst.args) with
    | none => rw [he] at hf; cases hf
    | some b =>
      rw [he] at hf
      cases hf
      refine ⟨rfl, rfl, ?_⟩
      rw [encoded_length, encode_operands_length up off _ b he]
      omega
  refine ⟨h1, h2, ?_⟩
  intro hl fmt hf
  rw [← upto_label_eq_of_last inst.args hl]
  exact (h2 fmt hf).2

/-! ## Big-endian addresses -/

/-- C14: big-endian address encoding. `spread` writes four bytes `b0 b1 b2 b3`, each below
256, with `b0 * 2^24 + b1 * 2^16 + b2 * 2^8 + b3 = a mod 2^32`. For `a < 2^32` the sum is
`a` itself, reading the four bytes back big-endian returns `a`, and `spread` is injective
on that range; for a larger `a` the bytes are those of `a mod 2^32`. -/
theorem spread_big_endian (a : Nat) :
    ∃ b0 b1 b2 b3, spread a = [b0, b1, b2, b3] ∧
      b0 < 256 ∧ b1 < 256 ∧ b2 < 256 ∧ b3 < 256 ∧
      b0 * 2 ^ 24 + b1 * 2 ^ 16 + b2 * 2 ^ 8 + b3 = a % 2 ^ 32 ∧
      (a < 2 ^ 32 →
        b0 * 2 ^ 24 + b1 * 2 ^ 16 + b2 * 2 ^ 8 + b3 = a ∧ decode_addr (spread a) = some a) ∧
      (∀ a', a < 2 ^ 32 → a' < 2 ^ 32 → spread a = spread a' → a = a') ∧
      spread a = spread (a % 2 ^ 32) := by
  have h255 : (0xFF : Nat) = 2 ^ 8 - 1 := by norm_num
  have hs : ∀ x : Nat, spread x
      = [x / 2 ^ 24 % 2 ^ 8, x / 2 ^ 16 % 2 ^ 8, x / 2 ^ 8 % 2 ^ 8, x % 2 ^ 8] := by
    intro x
    simp only [spread, h255, Nat.and_pow_two_sub_one_eq_mod, Nat.shiftRight_eq_div_pow]
  refine ⟨a / 2 ^ 24 % 2 ^ 8, a / 2 ^ 16 % 2 ^ 8, a / 2 ^ 8 % 2 ^ 8, a % 2 ^ 8, hs a,
    by omega, by omega, by omega, by omega, by omega, ?_, ?_, ?_⟩
  · intro ha
    exact ⟨by omega, decode_spread a ha⟩
  · intro a' ha ha' he
    have h1 := decode_spread a ha
    have h2 := decode_spread a' ha'
    rw [he, h2] at h1
    exact (Option.some.inj h1).symm
  · rw [hs, hs]
    have e1 : a % 2 ^ 32 / 2 ^ 24 % 2 ^ 8 = a / 2 ^ 24 % 2 ^ 8 := by omega
    have e2 : a % 2 ^ 32 / 2 ^ 16 % 2 ^ 8 = a / 2 ^ 16 % 2 ^ 8 := by omega
    have e3 : a % 2 ^ 32 / 2 ^ 8 % 2 ^ 8 = a / 2 ^ 8 % 2 ^ 8 := by omega
    have e4 : a % 2 ^ 32 % 2 ^ 8 = a % 2 ^ 8 := by omega
    rw [e1, e2, e3, e4]

theorem spread_big_endian_witness :
    (258 : Nat) < 2 ^ 32 ∧ spread 258 = [0, 0, 1, 2] ∧
    decode_addr (spread 258) = some 258 ∧ spread (2 ^ 32 + 258) = spread 258 := by
  obtain ⟨_, _, _, _, _, _, _, _, _, _, h1, _, _⟩ := spread_big_endian 258
  obtain ⟨_, _, _, _, _, _, _, _, _, _, _, _, h2⟩ := spread_big_endian (2 ^ 32 + 258)
  exact ⟨by decide, by decide, (h1 (by decide)).2, h2⟩

/-! ## The code of a compiled tree does not depend on the parent it is loaded under -/

theorem load_args_up_indep (up up1 : Option (List (Option inter_node) × Nat)) (off : Nat) :
    ∀ (l : List arg_t) (fmt : List Nat), l.all (fun a => !a.is_addr) = true →
      load.args up off l fmt = load.args up1 off l fmt := by
  intro l
  induction l with
  | nil => intro fmt _; rfl
  | cons a rest ih =>
    intro fmt h
    rw [List.all_cons, Bool.and_eq_true] at h
    cases a with
    | NO_ARG => rfl
    | REG_VAL reg => rw [load.args, load.args]; exact ih _ h.2
    | ADDR_VAL addr => simp [arg_t.is_addr] at h
    | LABEL label => rfl

theorem load_up_free {n : inter_node} (h : up_free n)
    (up : Option (List (Option inter_node) × Nat)) (prog : List fmt_t) :
    load n up prog = load n none prog := by
  cases n with
  | instruction inst next =>
    rw [load, load, load.inst, load.inst, load_args_up_indep up none _ _ _ h]
  | grouping children next => rw [load, load]

theorem up_free_set_next {r : inter_node} (nx : Option inter_node) (h : up_free r) :
    up_free (r.set_next nx) := by
  cases r with
  | instruction inst next => exact h
  | grouping children next => trivial

set_option maxHeartbeats 1000000 in
theorem compile_tree_up_free (t : FACT_tree) (n : inter_node) (hc : compile_tree t = some n) :
    up_free n := by
  obtain ⟨id, lexem, c0, c1, c2, c3, next⟩ := t
  rw [compile_tree.eq_def] at hc
  simp only at hc
  split at hc
  case h_2 => cases hc
  rename_i r nx hr hnx
  cases hc
  apply up_free_set_next
  clear hnx
  cases id
  all_goals simp only [Option.bind_eq_bind, Option.bind_eq_some, lookup_table,
    Option.some.injEq] at hr
  all_goals try split_ifs at hr
  all_goals try split at hr
  all_goals try simp only [Option.bind_eq_bind, Option.bind_eq_some, lookup_table,
    Option.some.injEq] at hr
  all_goals try casesm* (∃ _, _), (_ ∧ _)
  all_goals try subst_vars
  all_goals try cases hr
  all_goals trivial

theorem compile_args_up_free (o : Option FACT_tree) (n : inter_node)
    (hc : compile_args o = some (some n)) : up_free n := by
  cases o with
  | none => rw [compile_args] at hc; cases hc
  | some t =>
    obtain ⟨id, lexem, c0, c1, c2, c3, next⟩ := t
    cases c0 with
    | none => simp only [compile_args] at hc; cases hc
    | some t0 =>
      obtain ⟨id0, lexem0, a, b, c, d, e⟩ := t0
      simp only [compile_args] at hc
      cases h : compile_args c1 with
      | none => rw [h] at hc; cases hc
      | some nx => rw [h] at hc; cases hc; trivial

theorem code_at_spec {k : Option inter_node} (hl : loads k) (hf : ∀ n, k = some n → up_free n)
    (up : Option (List (Option inter_node) × Nat)) (p : List fmt_t) :
    load_opt k up p = some (p ++ code_at k p) ∧ (code_at k p).length = weight_opt k := by
  have hup : load_opt k up p = load_opt k none p := by
    cases k with
    | none => rfl
    | some n => rw [load_opt, load_opt, load_up_free (hf n rfl)]
  obtain ⟨c, hc, hlen⟩ := loads_some hl none p
  have hcode : code_at k p = c := by
    rw [code_at, hc]
    simp
  rw [hup, hcode, hc]
  exact ⟨rfl, hlen⟩

/-- The compiled form of a tree loads, under every parent, to the code of the tree. -/
theorem load_code {o : Option FACT_tree} {k : Option inter_node}
    (hk : compile_tree_opt o = some k)
    (up : Option (List (Option inter_node) × Nat)) (p : List fmt_t) :
    load_opt k up p = some (p ++ code o p) ∧ (code o p).length = weight_opt k := by
  have hl : loads k := compile_tree_opt_loads (fun t _ => compile_tree_loads t) hk
  have hf : ∀ n, k = some n → up_free n := by
    intro n hn
    subst hn
    cases o with
    | none => rw [compile_tree_opt] at hk; cases hk
    | some t =>
      rw [compile_tree_opt] at hk
      cases hc : compile_tree t with
      | none => rw [hc] at hk; cases hk
      | some m =>
        rw [hc] at hk
        cases hk
        exact compile_tree_up_free t n hc
  have h := code_at_spec hl hf up p
  have e : code o p = code_at k p := by rw [code, hk]
  rw [e]
  exact h

/-- The compiled form of a parameter list loads, under every parent, to its code. -/
theorem load_args_code {o : Option FACT_tree} {k : Option inter_node}
    (hk : compile_args o = some k)
    (up : Option (List (Option inter_node) × Nat)) (p : List fmt_t) :
    load_opt k up p = some (p ++ args_code o p) ∧ (args_code o p).length = weight_opt k := by
  have hl : loads k := compile_args_loads o k hk
  have hf : ∀ n, k = some n → up_free n := by
    intro n hn
    subst hn
    exact compile_args_up_free o n hk
  have h := code_at_spec hl hf up p
  have e : args_code o p = code_at k p := by rw [args_code, hk]
  rw [e]
  exact h

/-! ## Address operands of the instruction nodes that `compile_tree` builds -/

theorem load_args_addr_forward (op : Furlow_opcode) (ch : List (Option inter_node))
    (off i t : Nat) (hlt : i < t) (ht : t < ch.length) :
    load.args (some (ch, i)) off (mk_inst op [.ADDR_VAL t]).args []
      = some (spread (off + weight_sum ch i (t + 1))) := by
  have h := load_args_addr ch off i t _ [] [.NO_ARG, .NO_ARG, .NO_ARG] (by omega)
    (resolve_forward ch off i t hlt ht)
  rw [spread_mod] at h
  simpa [mk_inst, inst_t.args, load.args] using h

theorem resolve_backward_exact (ch : List (Option inter_node)) (off i t : Nat)
    (hlt : t < i) (hi : i < ch.length) (hle : weight_sum ch t i ≤ off) :
    ∃ a, load.resolve ch off i t = some a ∧ spread a = spread (off - weight_sum ch t i) := by
  obtain ⟨a, ha, ha64, hint⟩ := resolve_backward ch off i t hlt hi
  refine ⟨a, ha, ?_⟩
  have e : a = (off - weight_sum ch t i) % 2 ^ 64 := by omega
  rw [e, spread_mod]

theorem load_args_addr_backward (op : Furlow_opcode) (ch : List (Option inter_node))
    (off i t : Nat) (hlt : t < i) (hi : i < ch.length) (hle : weight_sum ch t i ≤ off) :
    load.args (some (ch, i)) off (mk_inst op [.ADDR_VAL t]).args []
      = some (spread (off - weight_sum ch t i)) := by
  obtain ⟨a, ha, hs⟩ := resolve_backward_exact ch off i t hlt hi hle
  have h := load_args_addr ch off i t a [] [.NO_ARG, .NO_ARG, .NO_ARG] (by omega) ha
  rw [hs] at h
  simpa [mk_inst, inst_t.args, load.args] using h

theorem load_args_reg_addr_backward (op : Furlow_opcode) (ch : List (Option inter_node))
    (off i t r : Nat) (hlt : t < i) (hi : i < ch.length) (hle : weight_sum ch t i ≤ off) :
    load.args (some (ch, i)) off (mk_inst op [.REG_VAL r, .ADDR_VAL t]).args []
      = some (r :: spread (off - weight_sum ch t i)) := by
  obtain ⟨a, ha, hs⟩ := resolve_backward_exact ch off i t hlt hi hle
  have h := load_args_addr ch off i t a [r] [.NO_ARG, .NO_ARG] (by omega) ha
  rw [hs] at h
  simpa [mk_inst, inst_t.args, load.args] using h

/-! ## Array element -/

theorem compile_array_elem (lexem : List Char) (c0 c1 c2 c3 next : Option FACT_tree)
    (n : inter_node) (hc : compile_tree (.mk .E_ARRAY_ELEM lexem c0 c1 c2 c3 next) = some n) :
    ∃ k0 k2 knext, compile_tree_opt c0 = some k0 ∧ compile_tree_opt c1 = some k2 ∧
      compile_tree_opt next = some knext ∧
      n = .grouping
        [k0, inode .CONST [.LABEL "1".toList], k2, inode .ELEM [.REG_VAL R_POP, .REG_VAL R_POP]]
        knext := by
  simp only [compile_tree] at hc
  split at hc
  all_goals cases hc
  rename_i res nx hr hnx
  simp only [Option.bind_eq_bind, Option.bind_eq_some, Option.some.injEq] at hr
  obtain ⟨k0, e1, k2, e2, rfl⟩ := hr
  exact ⟨k0, k2, nx, e1, e2, hnx, rfl⟩

/-- The code emitted for an `E_ARRAY_ELEM` node: the code of `children[0]`, `CONST "1"`, the
code of `children[1]`, `ELEM R_POP R_POP`, then the code of the `next` chain. -/
theorem array_elem_layout (lexem : List Char) (c0 c1 c2 c3 next : Option FACT_tree)
    (n : inter_node) (hc : compile_tree (.mk .E_ARRAY_ELEM lexem c0 c1 c2 c3 next) = some n)
    (prog : List fmt_t) :
    ∃ code_0 code_1 code_next,
      code_0 = code c0 prog ∧
      code_1 = code c1 (prog ++ code_0 ++ [⟨.CONST, [49, 0]⟩]) ∧
      code_next = code next
        (prog ++ code_0 ++ [⟨.CONST, [49, 0]⟩] ++ code_1 ++ [⟨.ELEM, [R_POP, R_POP]⟩]) ∧
      load n none prog
        = some (prog ++ code_0 ++ [⟨.CONST, [49, 0]⟩] ++ code_1 ++ [⟨.ELEM, [R_POP, R_POP]⟩]
            ++ code_next) := by
  obtain ⟨k0, k2, knext, e0, e1, en, rfl⟩ := compile_array_elem lexem c0 c1 c2 c3 next n hc
  refine ⟨_, _, _, rfl, rfl, rfl, ?_⟩
  obtain ⟨ch, hch⟩ : ∃ ch : List (Option inter_node), ch
      = [k0, inode .CONST [.LABEL "1".toList], k2, inode .ELEM [.REG_VAL R_POP, .REG_VAL R_POP]] :=
    ⟨_, rfl⟩
  rw [← hch]
  have s0 := (load_code e0 (some (ch, 0)) prog).1
  have s1 : load_opt (inode .CONST [.LABEL "1".toList]) (some (ch, 1)) (prog ++ code c0 prog)
      = some (prog ++ code c0 prog ++ [⟨.CONST, [49, 0]⟩]) :=
    load_opt_inode (by simp [mk_inst, inst_t.args, load.args])
  have s2 := (load_code e1 (some (ch, 2)) (prog ++ code c0 prog ++ [⟨.CONST, [49, 0]⟩])).1
  have s3 : load_opt (inode .ELEM [.REG_VAL R_POP, .REG_VAL R_POP]) (some (ch, 3))
      (prog ++ code c0 prog ++ [⟨.CONST, [49, 0]⟩]
        ++ code c1 (prog ++ code c0 prog ++ [⟨.CONST, [49, 0]⟩]))
      = some (prog ++ code c0 prog ++ [⟨.CONST, [49, 0]⟩]
        ++ code c1 (prog ++ code c0 prog ++ [⟨.CONST, [49, 0]⟩]) ++ [⟨.ELEM, [R_POP, R_POP]⟩]) :=
    load_opt_inode (by simp [mk_inst, inst_t.args, load.args])
  have sn := (load_code en none (prog ++ code c0 prog ++ [⟨.CONST, [49, 0]⟩]
        ++ code c1 (prog ++ code c0 prog ++ [⟨.CONST, [49, 0]⟩]) ++ [⟨.ELEM, [R_POP, R_POP]⟩])).1
  have hcd : load_children ch ch 0 prog
      = some (prog ++ code c0 prog ++ [⟨.CONST, [49, 0]⟩]
        ++ code c1 (prog ++ code c0 prog ++ [⟨.CONST, [49, 0]⟩]) ++ [⟨.ELEM, [R_POP, R_POP]⟩]) := by
    conv => lhs; arg 2; rw [hch]
    rw [load_children_cons_some s0, load_children_cons_some s1, load_children_cons_some s2,
      load_children_cons_some s3, load_children]
  rw [load, hcd]
  simp only
  rw [sn]

/-- C15 (counterexample): for `a[i]` the parser makes the index `i` the first child and the
base `a` the second; the code emitted is `VAR "i"`, `CONST "1"`, `VAR "a"`,
`ELEM R_POP R_POP`: the code of the index comes first, not the code of the base. -/
theorem array_elem_order_counterexample :
    example_elem
      = .mk .E_ARRAY_ELEM "[".toList (some (tree_var "i")) (some (tree_var "a"))
          none none none ∧
    FACT_compile (some example_elem) []
      = some [⟨.VAR, [105, 0]⟩, ⟨.CONST, [49, 0]⟩, ⟨.VAR, [97, 0]⟩, ⟨.ELEM, [0, 0]⟩] ∧
    code (some (tree_var "a")) [] = [⟨.VAR, [97, 0]⟩] ∧
    code (some (tree_var "i")) ([] ++ code (some (tree_var "a")) [] ++ [⟨.CONST, [49, 0]⟩])
      = [⟨.VAR, [105, 0]⟩] ∧
    FACT_compile (some example_elem) []
      ≠ some ([] ++ code (some (tree_var "a")) [] ++ [⟨.CONST, [49, 0]⟩]
          ++ code (some (tree_var "i"))
              ([] ++ code (some (tree_var "a")) [] ++ [⟨.CONST, [49, 0]⟩])
          ++ [⟨.ELEM, [R_POP, R_POP]⟩]) := by
  refine ⟨rfl, by decide, by decide, by decide, by decide⟩

/-- C15 (amended): array element. For `a[i]` the parser (`opt_pb`) builds an `E_ARRAY_ELEM`
node whose first child is the index `i` and whose second child is the base `a`, and the
code emitted for it is: the code of the index `i`, then `CONST "1"`, then the code of the
base `a`, then `ELEM R_POP R_POP` (followed by the code of the `next` chain, if any). -/
theorem array_elem_order (lexem : List Char) (a i : FACT_tree) (prog : List fmt_t) :
    opt_pb.node (accept.node .E_OP_BRACK lexem) a (some i)
      = .mk .E_ARRAY_ELEM lexem (some i) (some a) none none none ∧
    ∀ (next : Option FACT_tree) (n : inter_node),
      compile_tree (.mk .E_ARRAY_ELEM lexem (some i) (some a) none none next) = some n →
      ∃ code_i code_a code_next,
        code_i = code (some i) prog ∧
        code_a = code (some a) (prog ++ code_i ++ [⟨.CONST, [49, 0]⟩]) ∧
        code_next = code next
          (prog ++ code_i ++ [⟨.CONST, [49, 0]⟩] ++ code_a ++ [⟨.ELEM, [R_POP, R_POP]⟩]) ∧
        load n none prog
          = some (prog ++ code_i ++ [⟨.CONST, [49, 0]⟩] ++ code_a
              ++ [⟨.ELEM, [R_POP, R_POP]⟩] ++ code_next) :=
  ⟨rfl, fun next n hc =>
    array_elem_layout lexem (some i) (some a) none none next n hc prog⟩

theorem array_elem_order_witness :
    compile_tree example_elem
      = some (.grouping
          [inode .VAR [.LABEL "i".toList], inode .CONST [.LABEL "1".toList],
           inode .VAR [.LABEL "a".toList], inode .ELEM [.REG_VAL R_POP, .REG_VAL R_POP]] none) ∧
    ∃ code_i code_a code_next,
      code_i = code (some (tree_var "i")) [] ∧
      code_a = code (some (tree_var "a")) ([] ++ code_i ++ [⟨.CONST, [49, 0]⟩]) ∧
      code_next = code none
        ([] ++ code_i ++ [⟨.CONST, [49, 0]⟩] ++ code_a ++ [⟨.ELEM, [R_POP, R_POP]⟩]) ∧
      load (.grouping
          [inode .VAR [.LABEL "i".toList], inode .CONST [.LABEL "1".toList],
           inode .VAR [.LABEL "a".toList], inode .ELEM [.REG_VAL R_POP, .REG_VAL R_POP]] none)
          none []
        = some ([] ++ code_i ++ [⟨.CONST, [49, 0]⟩] ++ code_a
            ++ [⟨.ELEM, [R_POP, R_POP]⟩] ++ code_next) :=
  ⟨rfl, (array_elem_order "[".toList (tree_var "a") (tree_var "i") []).2 none _ rfl⟩

/-! ## `if` -/

theorem compile_if_else (lexem : List Char) (c0 c1 c3 next : Option FACT_tree) (e : FACT_tree)
    (n : inter_node) (hc : compile_tree (.mk .E_IF lexem c0 c1 (some e) c3 next) = some n) :
    ∃ k0 k2 k4 knext, compile_tree_opt c0 = some k0 ∧ compile_tree_opt c1 = some k2 ∧
      compile_tree_opt (some e) = some k4 ∧ compile_tree_opt next = some knext ∧
      n = .grouping
        [k0, inode .JIF [.REG_VAL R_POP, .ADDR_VAL 3], k2, inode .JMP [.ADDR_VAL 4], k4]
        knext := by
  simp only [compile_tree] at hc
  split at hc
  all_goals cases hc
  rename_i res nx hr hnx
  simp only [Option.isSome_some, if_true, Option.bind_eq_bind, Option.bind_eq_some,
    Option.some.injEq] at hr
  obtain ⟨k0, e1, k2, e2, k4, e4, rfl⟩ := hr
  exact ⟨k0, k2, k4, nx, e1, e2, e4, hnx, rfl⟩

theorem compile_if (lexem : List Char) (c0 c1 c3 next : Option FACT_tree)
    (n : inter_node) (hc : compile_tree (.mk .E_IF lexem c0 c1 none c3 next) = some n) :
    ∃ k0 k2 knext, compile_tree_opt c0 = some k0 ∧ compile_tree_opt c1 = some k2 ∧
      compile_tree_opt next = some knext ∧
      n = .grouping [k0, inode .JIF [.REG_VAL R_POP, .ADDR_VAL 2], k2] knext := by
  simp only [compile_tree] at hc
  split at hc
  all_goals cases hc
  rename_i res nx hr hnx
  simp only [Option.isSome_none, Bool.false_eq_true, if_false, Option.bind_eq_bind,
    Option.bind_eq_some, Option.some.injEq] at hr
  obtain ⟨k0, e1, k2, e2, rfl⟩ := hr
  exact ⟨k0, k2, nx, e1, e2, hnx, rfl⟩

/-- The code emitted for `if (c) t else e`. -/
theorem if_else_layout (lexem : List Char) (c0 c1 c3 next : Option FACT_tree) (e : FACT_tree)
    (n : inter_node) (hc : compile_tree (.mk .E_IF lexem c0 c1 (some e) c3 next) = some n)
    (prog : List fmt_t) :
    ∃ (A1 A2 : Nat) (code_c code_t code_e code_next : List fmt_t),
      code_c = code c0 prog ∧
      code_t = code c1 (prog ++ code_c ++ [⟨.JIF, R_POP :: spread A1⟩]) ∧
      code_e = code (some e)
        (prog ++ code_c ++ [⟨.JIF, R_POP :: spread A1⟩] ++ code_t ++ [⟨.JMP, spread A2⟩]) ∧
      code_next = code next
        (prog ++ code_c ++ [⟨.JIF, R_POP :: spread A1⟩] ++ code_t ++ [⟨.JMP, spread A2⟩]
          ++ code_e) ∧
      load n none prog
        = some (prog ++ code_c ++ [⟨.JIF, R_POP :: spread A1⟩] ++ code_t
            ++ [⟨.JMP, spread A2⟩] ++ code_e ++ code_next) ∧
      A1 = @List.length fmt_t
        (prog ++ code_c ++ [⟨.JIF, R_POP :: spread A1⟩] ++ code_t ++ [⟨.JMP, spread A2⟩]) ∧
      A2 = @List.length fmt_t
        (prog ++ code_c ++ [⟨.JIF, R_POP :: spread A1⟩] ++ code_t ++ [⟨.JMP, spread A2⟩]
          ++ code_e) := by
  obtain ⟨k0, k2, k4, knext, e0, e1, e4, en, rfl⟩ := compile_if_else lexem c0 c1 c3 next e n hc
  obtain ⟨ch, hch⟩ : ∃ ch : List (Option inter_node), ch
      = [k0, inode .JIF [.REG_VAL R_POP, .ADDR_VAL 3], k2, inode .JMP [.ADDR_VAL 4], k4] :=
    ⟨_, rfl⟩
  rw [← hch]
  have hlen : ch.length = 5 := by rw [hch]; rfl
  have hw14 : weight_sum ch 1 4 = weight_opt k2 + 2 := by
    rw [hch]
    simp [weight_sum, List.range', inode, weight_opt, weight]
    omega
  have hw35 : weight_sum ch 3 5 = weight_opt k4 + 1 := by
    rw [hch]
    simp [weight_sum, List.range', inode, weight_opt, weight]
    omega
  -- the pieces of code
  obtain ⟨cc, hcc⟩ : ∃ x : List fmt_t, x = code c0 prog := ⟨_, rfl⟩
  obtain ⟨A1, hA1⟩ : ∃ a : Nat, a = prog.length + cc.length + 1 + weight_opt k2 + 1 := ⟨_, rfl⟩
  obtain ⟨jif, hjif⟩ : ∃ x : fmt_t, x = ⟨.JIF, R_POP :: spread A1⟩ := ⟨_, rfl⟩
  obtain ⟨ct, hct⟩ : ∃ x : List fmt_t, x = code c1 (prog ++ cc ++ [jif]) := ⟨_, rfl⟩
  obtain ⟨A2, hA2⟩ : ∃ a : Nat, a = A1 + weight_opt k4 := ⟨_, rfl⟩
  obtain ⟨jmp, hjmp⟩ : ∃ x : fmt_t, x = ⟨.JMP, spread A2⟩ := ⟨_, rfl⟩
  obtain ⟨ce, hce⟩ : ∃ x : List fmt_t, x = code (some e) (prog ++ cc ++ [jif] ++ ct ++ [jmp]) :=
    ⟨_, rfl⟩
  have s0 := load_code e0 (some (ch, 0)) prog
  rw [← hcc] at s0
  have s1 : load_opt (inode .JIF [.REG_VAL R_POP, .ADDR_VAL 3]) (some (ch, 1)) (prog ++ cc)
      = some (prog ++ cc ++ [jif]) := by
    rw [hjif]
    apply load_opt_inode
    rw [load_args_reg_addr_forward .JIF ch _ 1 3 R_POP (by omega) (by omega), hw14, hA1]
    simp only [List.length_append]
    congr 3
    omega
  have s2 := load_code e1 (some (ch, 2)) (prog ++ cc ++ [jif])
  rw [← hct] at s2
  have s3 : load_opt (inode .JMP [.ADDR_VAL 4]) (some (ch, 3)) (prog ++ cc ++ [jif] ++ ct)
      = some (prog ++ cc ++ [jif] ++ ct ++ [jmp]) := by
    rw [hjmp]
    apply load_opt_inode
    rw [load_args_addr_forward .JMP ch _ 3 4 (by omega) (by omega), hw35, hA2, hA1]
    simp only [List.length_append, List.length_singleton]
    congr 2
    omega
  have s4 := load_code e4 (some (ch, 4)) (prog ++ cc ++ [jif] ++ ct ++ [jmp])
  rw [← hce] at s4
  have sn := load_code en none (prog ++ cc ++ [jif] ++ ct ++ [jmp] ++ ce)
  have hcd : load_children ch ch 0 prog = some (prog ++ cc ++ [jif] ++ ct ++ [jmp] ++ ce) := by
    conv => lhs; arg 2; rw [hch]
    rw [load_children_cons_some s0.1, load_children_cons_some s1, load_children_cons_some s2.1,
      load_children_cons_some s3, load_children_cons_some s4.1, load_children]
  refine ⟨A1, A2, cc, ct, ce, _, hcc, ?_, ?_, rfl, ?_, ?_, ?_⟩
  · rw [hct, hjif]
  · rw [hce, hjif, hjmp]
  · rw [load, hcd]
    simp only
    rw [sn.1, hjif, hjmp]
  · simp only [List.length_append, List.length_singleton]
    rw [hA1, s2.2]
  · simp only [List.length_append, List.length_singleton]
    rw [hA2, hA1, s2.2, s4.2]

/-- The code emitted for `if (c) t` without `else`. -/
theorem if_layout (lexem : List Char) (c0 c1 c3 next : Option FACT_tree)
    (n : inter_node) (hc : compile_tree (.mk .E_IF lexem c0 c1 none c3 next) = some n)
    (prog : List fmt_t) :
    ∃ (A : Nat) (code_c code_t code_next : List fmt_t),
      code_c = code c0 prog ∧
      code_t = code c1 (prog ++ code_c ++ [⟨.JIF, R_POP :: spread A⟩]) ∧
      code_next = code next (prog ++ code_c ++ [⟨.JIF, R_POP :: spread A⟩] ++ code_t) ∧
      load n none prog
        = some (prog ++ code_c ++ [⟨.JIF, R_POP :: spread A⟩] ++ code_t ++ code_next) ∧
      A = @List.length fmt_t (prog ++ code_c ++ [⟨.JIF, R_POP :: spread A⟩] ++ code_t) := by
  obtain ⟨k0, k2, knext, e0, e1, en, rfl⟩ := compile_if lexem c0 c1 c3 next n hc
  obtain ⟨ch, hch⟩ : ∃ ch : List (Option inter_node), ch
      = [k0, inode .JIF [.REG_VAL R_POP, .ADDR_VAL 2], k2] := ⟨_, rfl⟩
  rw [← hch]
  have hlen : ch.length = 3 := by rw [hch]; rfl
  have hw13 : weight_sum ch 1 3 = weight_opt k2 + 1 := by
    rw [hch]
    simp [weight_sum, List.range', inode, weight_opt, weight]
    omega
  obtain ⟨cc, hcc⟩ : ∃ x : List fmt_t, x = code c0 prog := ⟨_, rfl⟩
  obtain ⟨A, hA⟩ : ∃ a : Nat, a = prog.length + cc.length + 1 + weight_opt k2 := ⟨_, rfl⟩
  obtain ⟨jif, hjif⟩ : ∃ x : fmt_t, x = ⟨.JIF, R_POP :: spread A⟩ := ⟨_, rfl⟩
  obtain ⟨ct, hct⟩ : ∃ x : List fmt_t, x = code c1 (prog ++ cc ++ [jif]) := ⟨_, rfl⟩
  have s0 := load_code e0 (some (ch, 0)) prog
  rw [← hcc] at s0
  have s1 : load_opt (inode .JIF [.REG_VAL R_POP, .ADDR_VAL 2]) (some (ch, 1)) (prog ++ cc)
      = some (prog ++ cc ++ [jif]) := by
    rw [hjif]
    apply load_opt_inode
    rw [load_args_reg_addr_forward .JIF ch _ 1 2 R_POP (by omega) (by omega), hw13, hA]
    simp only [List.length_append]
    congr 3
    omega
  have s2 := load_code e1 (some (ch, 2)) (prog ++ cc ++ [jif])
  rw [← hct] at s2
  have sn := load_code en none (prog ++ cc ++ [jif] ++ ct)
  have hcd : load_children ch ch 0 prog = some (prog ++ cc ++ [jif] ++ ct) := by
    conv => lhs; arg 2; rw [hch]
    rw [load_children_cons_some s0.1, load_children_cons_some s1, load_children_cons_some s2.1,
      load_children]
  refine ⟨A, cc, ct, _, hcc, ?_, rfl, ?_, ?_⟩
  · rw [hct, hjif]
  · rw [load, hcd]
    simp only
    rw [sn.1, hjif]
  · simp only [List.length_append, List.length_singleton]
    rw [hA, s2.2]

/-- C18: `if`. For `if (c) t else e` the emitted code is the code of `c`, `JIF R_POP A1`, the
code of `t`, `JMP A2`, the code of `e`, where `A1` is the address of the first instruction
of the code of `e` and `A2` the address of the first instruction after it. For an `if`
without `else` the emitted code is the code of `c`, `JIF R_POP A`, the code of `t`, with `A`
the address of the first instruction after the code of `t`. The branches are arbitrary
trees, absent (empty) ones included; the code of the `next` chain follows. -/
theorem if_jump_targets (lexem : List Char) (c t c3 next : Option FACT_tree)
    (prog : List fmt_t) :
    (∀ (e : FACT_tree) (n : inter_node),
      compile_tree (.mk .E_IF lexem c t (some e) c3 next) = some n →
      ∃ (A1 A2 : Nat) (code_c code_t code_e code_next : List fmt_t),
        code_c = code c prog ∧
        code_t = code t (prog ++ code_c ++ [⟨.JIF, R_POP :: spread A1⟩]) ∧
        code_e = code (some e)
          (prog ++ code_c ++ [⟨.JIF, R_POP :: spread A1⟩] ++ code_t ++ [⟨.JMP, spread A2⟩]) ∧
        code_next = code next
          (prog ++ code_c ++ [⟨.JIF, R_POP :: spread A1⟩] ++ code_t ++ [⟨.JMP, spread A2⟩]
            ++ code_e) ∧
        load n none prog
          = some (prog ++ code_c ++ [⟨.JIF, R_POP :: spread A1⟩] ++ code_t
              ++ [⟨.JMP, spread A2⟩] ++ code_e ++ code_next) ∧
        A1 = @List.length fmt_t
          (prog ++ code_c ++ [⟨.JIF, R_POP :: spread A1⟩] ++ code_t ++ [⟨.JMP, spread A2⟩]) ∧
        A2 = @List.length fmt_t
          (prog ++ code_c ++ [⟨.JIF, R_POP :: spread A1⟩] ++ code_t ++ [⟨.JMP, spread A2⟩]
            ++ code_e)) ∧
    (∀ (n : inter_node), compile_tree (.mk .E_IF lexem c t none c3 next) = some n →
      ∃ (A : Nat) (code_c code_t code_next : List fmt_t),
        code_c = code c prog ∧
        code_t = code t (prog ++ code_c ++ [⟨.JIF, R_POP :: spread A⟩]) ∧
        code_next = code next (prog ++ code_c ++ [⟨.JIF, R_POP :: spread A⟩] ++ code_t) ∧
        load n none prog
          = some (prog ++ code_c ++ [⟨.JIF, R_POP :: spread A⟩] ++ code_t ++ code_next) ∧
        A = @List.length fmt_t (prog ++ code_c ++ [⟨.JIF, R_POP :: spread A⟩] ++ code_t)) :=
  ⟨fun e n hc => if_else_layout lexem c t c3 next e n hc prog,
   fun n hc => if_layout lexem c t c3 next n hc prog⟩

theorem if_jump_targets_witness :
    FACT_compile (some example_if_else) []
      = some [⟨.VAR, [120, 0]⟩, ⟨.JIF, [0, 0, 0, 0, 4]⟩, ⟨.VAR, [121, 0]⟩,
          ⟨.JMP, [0, 0, 0, 5]⟩, ⟨.VAR, [122, 0]⟩] ∧
    ∃ (A1 A2 : Nat) (code_c code_t code_e code_next : List fmt_t),
      code_c = code (some (tree_var "x")) [] ∧
      code_t = code (some (tree_var "y")) ([] ++ code_c ++ [⟨.JIF, R_POP :: spread A1⟩]) ∧
      code_e = code (some (tree_var "z"))
        ([] ++ code_c ++ [⟨.JIF, R_POP :: spread A1⟩] ++ code_t ++ [⟨.JMP, spread A2⟩]) ∧
      code_next = code none
        ([] ++ code_c ++ [⟨.JIF, R_POP :: spread A1⟩] ++ code_t ++ [⟨.JMP, spread A2⟩]
          ++ code_e) ∧
      load (.grouping
          [inode .VAR [.LABEL "x".toList], inode .JIF [.REG_VAL R_POP, .ADDR_VAL 3],
           inode .VAR [.LABEL "y".toList], inode .JMP [.ADDR_VAL 4],
           inode .VAR [.LABEL "z".toList]] none) none []
        = some ([] ++ code_c ++ [⟨.JIF, R_POP :: spread A1⟩] ++ code_t
            ++ [⟨.JMP, spread A2⟩] ++ code_e ++ code_next) ∧
      A1 = @List.length fmt_t
        ([] ++ code_c ++ [⟨.JIF, R_POP :: spread A1⟩] ++ code_t ++ [⟨.JMP, spread A2⟩]) ∧
      A2 = @List.length fmt_t
        ([] ++ code_c ++ [⟨.JIF, R_POP :: spread A1⟩] ++ code_t ++ [⟨.JMP, spread A2⟩]
          ++ code_e) :=
  ⟨by decide,
    (if_jump_targets "if".toList (some (tree_var "x")) (some (tree_var "y")) none none []).1
      (tree_var "z") _ rfl⟩

/-! ## `while` -/

theorem compile_while (lexem : List Char) (c0 c1 c2 c3 next : Option FACT_tree)
    (n : inter_node) (hc : compile_tree (.mk .E_WHILE lexem c0 c1 c2 c3 next) = some n) :
    ∃ k0 k2 knext, compile_tree_opt c0 = some k0 ∧ compile_tree_opt c1 = some k2 ∧
      compile_tree_opt next = some knext ∧
      n = .grouping
        [k0, inode .JIF [.REG_VAL R_POP, .ADDR_VAL 3], k2, inode .JMP [.ADDR_VAL 0]] knext := by
  simp only [compile_tree] at hc
  split at hc
  all_goals cases hc
  rename_i res nx hr hnx
  simp only [Option.bind_eq_bind, Option.bind_eq_some, Option.some.injEq] at hr
  obtain ⟨k0, e1, k2, e2, rfl⟩ := hr
  exact ⟨k0, k2, nx, e1, e2, hnx, rfl⟩

/-- C19: `while`. For `while (c) b` the emitted code is the code of `c`, `JIF R_POP A_end`,
the code of `b`, `JMP A_start`, where `A_start` is the address of the first instruction of
the code of `c` and `A_end` the address of the first instruction after the `JMP`; the code
of the `next` chain follows. -/
theorem while_jump_targets (lexem : List Char) (c b c2 c3 next : Option FACT_tree)
    (n : inter_node) (hc : compile_tree (.mk .E_WHILE lexem c b c2 c3 next) = some n)
    (prog : List fmt_t) :
    ∃ (A_start A_end : Nat) (code_c code_b code_next : List fmt_t),
      code_c = code c prog ∧
      code_b = code b (prog ++ code_c ++ [⟨.JIF, R_POP :: spread A_end⟩]) ∧
      code_next = code next
        (prog ++ code_c ++ [⟨.JIF, R_POP :: spread A_end⟩] ++ code_b
          ++ [⟨.JMP, spread A_start⟩]) ∧
      load n none prog
        = some (prog ++ code_c ++ [⟨.JIF, R_POP :: spread A_end⟩] ++ code_b
            ++ [⟨.JMP, spread A_start⟩] ++ code_next) ∧
      A_start = prog.length ∧
      A_end = @List.length fmt_t
        (prog ++ code_c ++ [⟨.JIF, R_POP :: spread A_end⟩] ++ code_b
          ++ [⟨.JMP, spread A_start⟩]) := by
  obtain ⟨k0, k2, knext, e0, e1, en, rfl⟩ := compile_while lexem c b c2 c3 next n hc
  obtain ⟨ch, hch⟩ : ∃ ch : List (Option inter_node), ch
      = [k0, inode .JIF [.REG_VAL R_POP, .ADDR_VAL 3], k2, inode .JMP [.ADDR_VAL 0]] :=
    ⟨_, rfl⟩
  rw [← hch]
  have hlen : ch.length = 4 := by rw [hch]; rfl
  have hw14 : weight_sum ch 1 4 = weight_opt k2 + 2 := by
    rw [hch]
    simp [weight_sum, List.range', inode, weight_opt, weight]
    omega
  have hw03 : weight_sum ch 0 3 = weight_opt k0 + 1 + weight_opt k2 := by
    rw [hch]
    simp [weight_sum, List.range', inode, weight_opt, weight]
    omega
  obtain ⟨cc, hcc⟩ : ∃ x : List fmt_t, x = code c prog := ⟨_, rfl⟩
  obtain ⟨A, hA⟩ : ∃ a : Nat, a = prog.length + cc.length + 1 + weight_opt k2 + 1 := ⟨_, rfl⟩
  obtain ⟨jif, hjif⟩ : ∃ x : fmt_t, x = ⟨.JIF, R_POP :: spread A⟩ := ⟨_, rfl⟩
  obtain ⟨cb, hcb⟩ : ∃ x : List fmt_t, x = code b (prog ++ cc ++ [jif]) := ⟨_, rfl⟩
  obtain ⟨jmp, hjmp⟩ : ∃ x : fmt_t, x = ⟨.JMP, spread prog.length⟩ := ⟨_, rfl⟩
  have s0 := load_code e0 (some (ch, 0)) prog
  rw [← hcc] at s0
  have s1 : load_opt (inode .JIF [.REG_VAL R_POP, .ADDR_VAL 3]) (some (ch, 1)) (prog ++ cc)
      = some (prog ++ cc ++ [jif]) := by
    rw [hjif]
    apply load_opt_inode
    rw [load_args_reg_addr_forward .JIF ch _ 1 3 R_POP (by omega) (by omega), hw14, hA]
    simp only [List.length_append]
    congr 3
    omega
  have s2 := load_code e1 (some (ch, 2)) (prog ++ cc ++ [jif])
  rw [← hcb] at s2
  have s3 : load_opt (inode .JMP [.ADDR_VAL 0]) (some (ch, 3)) (prog ++ cc ++ [jif] ++ cb)
      = some (prog ++ cc ++ [jif] ++ cb ++ [jmp]) := by
    rw [hjmp]
    apply load_opt_inode
    have hle : weight_sum ch 0 3 ≤ (prog ++ cc ++ [jif] ++ cb).length := by
      rw [hw03]
      simp only [List.length_append, List.length_singleton]
      rw [s0.2, s2.2]
      omega
    rw [load_args_addr_backward .JMP ch _ 3 0 (by omega) (by omega) hle, hw03]
    simp only [List.length_append, List.length_singleton]
    rw [s0.2, s2.2]
    congr 2
    omega
  have sn := load_code en none (prog ++ cc ++ [jif] ++ cb ++ [jmp])
  have hcd : load_children ch ch 0 prog = some (prog ++ cc ++ [jif] ++ cb ++ [jmp]) := by
    conv => lhs; arg 2; rw [hch]
    rw [load_children_cons_some s0.1, load_children_cons_some s1, load_children_cons_some s2.1,
      load_children_cons_some s3, load_children]
  refine ⟨prog.length, A, cc, cb, _, hcc, ?_, rfl, ?_, rfl, ?_⟩
  · rw [hcb, hjif]
  · rw [load, hcd]
    simp only
    rw [sn.1, hjif, hjmp]
  · simp only [List.length_append, List.length_singleton]
    rw [hA, s2.2]

theorem while_jump_targets_witness :
    FACT_compile (some example_while) []
      = some [⟨.VAR, [120, 0]⟩, ⟨.JIF, [0, 0, 0, 0, 4]⟩, ⟨.VAR, [121, 0]⟩,
          ⟨.JMP, [0, 0, 0, 0]⟩] ∧
    ∃ (A_start A_end : Nat) (code_c code_b code_next : List fmt_t),
      code_c = code (some (tree_var "x")) [] ∧
      code_b = code (some (tree_var "y")) ([] ++ code_c ++ [⟨.JIF, R_POP :: spread A_end⟩]) ∧
      code_next = code none
        ([] ++ code_c ++ [⟨.JIF, R_POP :: spread A_end⟩] ++ code_b
          ++ [⟨.JMP, spread A_start⟩]) ∧
      load (.grouping example_while_children none) none []
        = some ([] ++ code_c ++ [⟨.JIF, R_POP :: spread A_end⟩] ++ code_b
            ++ [⟨.JMP, spread A_start⟩] ++ code_next) ∧
      A_start = ([] : List fmt_t).length ∧
      A_end = @List.length fmt_t
        ([] ++ code_c ++ [⟨.JIF, R_POP :: spread A_end⟩] ++ code_b
          ++ [⟨.JMP, spread A_start⟩]) :=
  ⟨by decide,
    while_jump_targets "while".toList (some (tree_var "x")) (some (tree_var "y")) none none
      none _ rfl []⟩

/-! ## Function definition -/

theorem compile_func_def (lexem : List Char) (c0 c1 c2 c3 next : Option FACT_tree)
    (n : inter_node) (hc : compile_tree (.mk .E_FUNC_DEF lexem c0 c1 c2 c3 next) = some n) :
    ∃ k1 k2 k5 knext, compile_args c1 = some k1 ∧ compile_tree_opt c2 = some k2 ∧
      compile_tree_opt c0 = some k5 ∧ compile_tree_opt next = some knext ∧
      n = .grouping
        [inode .JMP [.ADDR_VAL 4], k1, k2, inode .CONST [.LABEL "0".toList], inode .RET [],
          k5, inode .SET_C [.REG_VAL R_TOP, .ADDR_VAL 1]] knext := by
  simp only [compile_tree] at hc
  split at hc
  all_goals cases hc
  rename_i res nx hr hnx
  simp only [Option.bind_eq_bind, Option.bind_eq_some, Option.some.injEq] at hr
  obtain ⟨k1, e1, k2, e2, k5, e5, rfl⟩ := hr
  exact ⟨k1, k2, k5, nx, e1, e2, e5, hnx, rfl⟩

/-- C17: function definition. In the code emitted for a function definition, which is `JMP`,
the parameter bindings, the body, `CONST "0"`, `RET`, the code of the target identifier,
`SET_C R_TOP`, the operand of the leading `JMP` is the address of the first instruction
after the `CONST "0"`, `RET` pair, where the code of the target identifier starts; and the
address operand of the final `SET_C R_TOP` is the address of the instruction that follows
the `JMP`, where the parameter bindings (or, without parameters, the body) start. -/
theorem func_def_jump_targets (lexem : List Char) (target params body c3 next : Option FACT_tree)
    (n : inter_node)
    (hc : compile_tree (.mk .E_FUNC_DEF lexem target params body c3 next) = some n)
    (prog : List fmt_t) :
    ∃ (A_over A_entry : Nat) (code_params code_body code_target code_next : List fmt_t),
      code_params = args_code params (prog ++ [⟨.JMP, spread A_over⟩]) ∧
      code_body = code body (prog ++ [⟨.JMP, spread A_over⟩] ++ code_params) ∧
      code_target = code target
        (prog ++ [⟨.JMP, spread A_over⟩] ++ code_params ++ code_body
          ++ [⟨.CONST, [48, 0]⟩, ⟨.RET, []⟩]) ∧
      code_next = code next
        (prog ++ [⟨.JMP, spread A_over⟩] ++ code_params ++ code_body
          ++ [⟨.CONST, [48, 0]⟩, ⟨.RET, []⟩] ++ code_target
          ++ [⟨.SET_C, R_TOP :: spread A_entry⟩]) ∧
      load n none prog
        = some (prog ++ [⟨.JMP, spread A_over⟩] ++ code_params ++ code_body
            ++ [⟨.CONST, [48, 0]⟩, ⟨.RET, []⟩] ++ code_target
            ++ [⟨.SET_C, R_TOP :: spread A_entry⟩] ++ code_next) ∧
      A_over = @List.length fmt_t
        (prog ++ [⟨.JMP, spread A_over⟩] ++ code_params ++ code_body
          ++ [⟨.CONST, [48, 0]⟩, ⟨.RET, []⟩]) ∧
      A_entry = @List.length fmt_t (prog ++ [⟨.JMP, spread A_over⟩]) := by
  obtain ⟨k1, k2, k5, knext, e1, e2, e5, en, rfl⟩ :=
    compile_func_def lexem target params body c3 next n hc
  obtain ⟨ch, hch⟩ : ∃ ch : List (Option inter_node), ch
      = [inode .JMP [.ADDR_VAL 4], k1, k2, inode .CONST [.LABEL "0".toList], inode .RET [],
          k5, inode .SET_C [.REG_VAL R_TOP, .ADDR_VAL 1]] := ⟨_, rfl⟩
  rw [← hch]
  have hlen : ch.length = 7 := by rw [hch]; rfl
  have hw05 : weight_sum ch 0 5 = weight_opt k1 + weight_opt k2 + 3 := by
    rw [hch]
    simp [weight_sum, List.range', inode, weight_opt, weight]
    omega
  have hw16 : weight_sum ch 1 6 = weight_opt k1 + weight_opt k2 + 2 + weight_opt k5 := by
    rw [hch]
    simp [weight_sum, List.range', inode, weight_opt, weight]
    omega
  obtain ⟨A, hA⟩ : ∃ a : Nat, a = prog.length + 1 + weight_opt k1 + weight_opt k2 + 2 :=
    ⟨_, rfl⟩
  obtain ⟨jmp, hjmp⟩ : ∃ x : fmt_t, x = ⟨.JMP, spread A⟩ := ⟨_, rfl⟩
  obtain ⟨cp, hcp⟩ : ∃ x : List fmt_t, x = args_code params (prog ++ [jmp]) := ⟨_, rfl⟩
  obtain ⟨cb, hcb⟩ : ∃ x : List fmt_t, x = code body (prog ++ [jmp] ++ cp) := ⟨_, rfl⟩
  obtain ⟨c0, hc0⟩ : ∃ x : fmt_t, x = ⟨.CONST, [48, 0]⟩ := ⟨_, rfl⟩
  obtain ⟨ret, hret⟩ : ∃ x : fmt_t, x = ⟨.RET, []⟩ := ⟨_, rfl⟩
  obtain ⟨ct, hct⟩ : ∃ x : List fmt_t,
      x = code target (prog ++ [jmp] ++ cp ++ cb ++ [c0] ++ [ret]) := ⟨_, rfl⟩
  obtain ⟨setc, hsetc⟩ : ∃ x : fmt_t, x = ⟨.SET_C, R_TOP :: spread (prog.length + 1)⟩ :=
    ⟨_, rfl⟩
  have s0 : load_opt (inode .JMP [.ADDR_VAL 4]) (some (ch, 0)) prog = some (prog ++ [jmp]) := by
    rw [hjmp]
    apply load_opt_inode
    rw [load_args_addr_forward .JMP ch _ 0 4 (by omega) (by omega), hw05, hA]
    congr 2
    omega
  have s1 := load_args_code e1 (some (ch, 1)) (prog ++ [jmp])
  rw [← hcp] at s1
  have s2 := load_code e2 (some (ch, 2)) (prog ++ [jmp] ++ cp)
  rw [← hcb] at s2
  have s3 : load_opt (inode .CONST [.LABEL "0".toList]) (some (ch, 3)) (prog ++ [jmp] ++ cp ++ cb)
      = some (prog ++ [jmp] ++ cp ++ cb ++ [c0]) := by
    rw [hc0]
    exact load_opt_inode (by simp [mk_inst, inst_t.args, load.args])
  have s4 : load_opt (inode .RET []) (some (ch, 4)) (prog ++ [jmp] ++ cp ++ cb ++ [c0])
      = some (prog ++ [jmp] ++ cp ++ cb ++ [c0] ++ [ret]) := by
    rw [hret]
    exact load_opt_inode (by simp [mk_inst, inst_t.args, load.args])
  have s5 := load_code e5 (some (ch, 5)) (prog ++ [jmp] ++ cp ++ cb ++ [c0] ++ [ret])
  rw [← hct] at s5
  have s6 : load_opt (inode .SET_C [.REG_VAL R_TOP, .ADDR_VAL 1]) (some (ch, 6))
      (prog ++ [jmp] ++ cp ++ cb ++ [c0] ++ [ret] ++ ct)
      = some (prog ++ [jmp] ++ cp ++ cb ++ [c0] ++ [ret] ++ ct ++ [setc]) := by
    rw [hsetc]
    apply load_opt_inode
    have hle : weight_sum ch 1 6 ≤ (prog ++ [jmp] ++ cp ++ cb ++ [c0] ++ [ret] ++ ct).length := by
      rw [hw16]
      simp only [List.length_append, List.length_singleton]
      rw [s1.2, s2.2, s5.2]
      omega
    rw [load_args_reg_addr_backward .SET_C ch _ 6 1 R_TOP (by omega) (by omega) hle, hw16]
    simp only [List.length_append, List.length_singleton]
    rw [s1.2, s2.2, s5.2]
    congr 3
    omega
  have sn := load_code en none (prog ++ [jmp] ++ cp ++ cb ++ [c0] ++ [ret] ++ ct ++ [setc])
  have hcd : load_children ch ch 0 prog
      = some (prog ++ [jmp] ++ cp ++ cb ++ [c0] ++ [ret] ++ ct ++ [setc]) := by
    conv => lhs; arg 2; rw [hch]
    rw [load_children_cons_some s0, load_children_cons_some s1.1,
      load_children_cons_some s2.1, load_children_cons_some s3, load_children_cons_some s4,
      load_children_cons_some s5.1, load_children_cons_some s6, load_children]
  have happ : ∀ (l : List fmt_t) (x y : fmt_t), l ++ [x] ++ [y] = l ++ [x, y] := by
    intro l x y; simp
  refine ⟨A, prog.length + 1, cp, cb, ct, _, ?_, ?_, ?_, rfl, ?_, ?_, ?_⟩
  · rw [hcp, hjmp]
  · rw [hcb, hjmp]
  · rw [hct, happ, hjmp, hc0, hret]
  · rw [load, hcd]
    simp only
    rw [sn.1, happ, hjmp, hc0, hret, hsetc]
  · simp only [List.length_append, List.length_singleton, List.length_cons, List.length_nil]
    rw [hA, s1.2, s2.2]
  · simp only [List.length_append, List.length_singleton]

theorem func_def_jump_targets_witness :
    ∃ n, compile_tree example_func_def = some n ∧
    load n none []
      = some [⟨.JMP, [0, 0, 0, 8]⟩,
          ⟨.CONST, [48, 0]⟩, ⟨.DEF_N, [0, 120, 0]⟩, ⟨.SWAP, []⟩, ⟨.STO, [0, 0]⟩,
          ⟨.VAR, [121, 0]⟩, ⟨.CONST, [48, 0]⟩, ⟨.RET, []⟩,
          ⟨.VAR, [102, 0]⟩, ⟨.SET_C, [1, 0, 0, 0, 1]⟩] ∧
    ∃ (A_over A_entry : Nat) (code_params code_body code_target code_next : List fmt_t),
      code_params = args_code
        (some (.mk .E_NUM_DEF "num".toList (some (tree_var "x")) none none none none))
        ([] ++ [⟨.JMP, spread A_over⟩]) ∧
      code_body = code (some (tree_var "y")) ([] ++ [⟨.JMP, spread A_over⟩] ++ code_params) ∧
      code_target = code (some (tree_var "f"))
        ([] ++ [⟨.JMP, spread A_over⟩] ++ code_params ++ code_body
          ++ [⟨.CONST, [48, 0]⟩, ⟨.RET, []⟩]) ∧
      code_next = code none
        ([] ++ [⟨.JMP, spread A_over⟩] ++ code_params ++ code_body
          ++ [⟨.CONST, [48, 0]⟩, ⟨.RET, []⟩] ++ code_target
          ++ [⟨.SET_C, R_TOP :: spread A_entry⟩]) ∧
      load n none []
        = some ([] ++ [⟨.JMP, spread A_over⟩] ++ code_params ++ code_body
            ++ [⟨.CONST, [48, 0]⟩, ⟨.RET, []⟩] ++ code_target
            ++ [⟨.SET_C, R_TOP :: spread A_entry⟩] ++ code_next) ∧
      A_over = @List.length fmt_t
        ([] ++ [⟨.JMP, spread A_over⟩] ++ code_params ++ code_body
          ++ [⟨.CONST, [48, 0]⟩, ⟨.RET, []⟩]) ∧
      A_entry = @List.length fmt_t ([] ++ [⟨.JMP, spread A_over⟩]) := by
  have h : compile_args
      (some (.mk .E_NUM_DEF "num".toList (some (tree_var "x")) none none none none))
      = some (some (.grouping
          [inode .CONST [.LABEL "0".toList],
           inode .DEF_N [.REG_VAL R_POP, .LABEL "x".toList],
           inode .SWAP [],
           inode .STO [.REG_VAL R_POP, .REG_VAL R_POP]] none)) := by
    simp [compile_args, tree_var]
  have hc : compile_tree example_func_def
      = some (.grouping
        [inode .JMP [.ADDR_VAL 4],
         some (.grouping
          [inode .CONST [.LABEL "0".toList],
           inode .DEF_N [.REG_VAL R_POP, .LABEL "x".toList],
           inode .SWAP [],
           inode .STO [.REG_VAL R_POP, .REG_VAL R_POP]] none),
         inode .VAR [.LABEL "y".toList], inode .CONST [.LABEL "0".toList], inode .RET [],
         inode .VAR [.LABEL "f".toList], inode .SET_C [.REG_VAL R_TOP, .ADDR_VAL 1]] none) := by
    rw [example_func_def, compile_tree]
    simp only [h]
    rfl
  exact ⟨_, hc, by decide,
    func_def_jump_targets "@".toList (some (tree_var "f"))
      (some (.mk .E_NUM_DEF "num".toList (some (tree_var "x")) none none none none))
      (some (tree_var "y")) none none _ hc []⟩

/-! ## `for` -/

theorem load_begin_temp_scope (up : Option (List (Option inter_node) × Nat))
    (p : List fmt_t) :
    load_opt begin_temp_scope up p = some (p ++ begin_temp_scope_code) := by
  obtain ⟨ch, hch⟩ : ∃ ch : List (Option inter_node), ch
      = [inode .THIS [],
         inode .REF [.REG_VAL R_POP, .REG_VAL R_A],
         inode .CONST [.LABEL "0".toList],
         inode .NEW_S [.REG_VAL R_TOP],
         inode .USE [.REG_VAL R_POP],
         inode .DEF_S [.REG_VAL R_POP, .LABEL "up".toList],
         inode .STO [.REG_VAL R_A, .REG_VAL R_POP]] := ⟨_, rfl⟩
  have hplain : ∀ (op : Furlow_opcode) (args : List arg_t) (i : Nat) (q : List fmt_t)
      (bytes : List Nat),
      load.args (some (ch, i)) q.length (mk_inst op args).args [] = some bytes →
      load_opt (inode op args) (some (ch, i)) q = some (q ++ [⟨op, bytes⟩]) :=
    fun op args i q bytes h => load_opt_inode h
  have hcd : load_children ch ch 0 p = some (p ++ begin_temp_scope_code) := by
    conv => lhs; arg 2; rw [hch]
    rw [load_children_cons_some (hplain _ _ 0 p [] (by simp [mk_inst, inst_t.args, load.args])),
      load_children_cons_some (hplain _ _ 1 _ [R_POP, R_A]
        (by simp [mk_inst, inst_t.args, load.args])),
      load_children_cons_some (hplain _ _ 2 _ [48, 0]
        (by simp [mk_inst, inst_t.args, load.args])),
      load_children_cons_some (hplain _ _ 3 _ [R_TOP]
        (by simp [mk_inst, inst_t.args, load.args])),
      load_children_cons_some (hplain _ _ 4 _ [R_POP]
        (by simp [mk_inst, inst_t.args, load.args])),
      load_children_cons_some (hplain _ _ 5 _ [R_POP, 117, 112, 0]
        (by simp [mk_inst, inst_t.args, load.args])),
      load_children_cons_some (hplain _ _ 6 _ [R_A, R_POP]
        (by simp [mk_inst, inst_t.args, load.args])),
      load_children]
    simp [begin_temp_scope_code]
  rw [begin_temp_scope, load_opt, load, ← hch, hcd]
  rfl

theorem load_end_temp_scope (up : Option (List (Option inter_node) × Nat))
    (p : List fmt_t) :
    load_opt end_temp_scope up p = some (p ++ [⟨.EXIT, []⟩]) := by
  have h : load_opt (inode .EXIT []) (some ([inode .EXIT []], 0)) p
      = some (p ++ [⟨.EXIT, []⟩]) :=
    load_opt_inode (by simp [mk_inst, inst_t.args, load.args])
  rw [end_temp_scope, load_opt, load, load_children_cons_some h, load_children]
  rfl

theorem weight_begin_temp_scope : weight_opt begin_temp_scope = 7 := by decide

theorem weight_end_temp_scope : weight_opt end_temp_scope = 1 := by decide

theorem compile_for (lexem : List Char) (c0 c2 next : Option FACT_tree) (c b : FACT_tree)
    (n : inter_node)
    (hc : compile_tree (.mk .E_FOR lexem c0 (some c) c2 (some b) next) = some n) :
    ∃ k1 k2 k4 k5 knext, compile_tree_opt c0 = some k1 ∧
      compile_tree_opt (some c) = some k2 ∧ compile_tree_opt (for_body b) = some k4 ∧
      compile_tree_opt c2 = some k5 ∧ compile_tree_opt next = some knext ∧
      n = .grouping
        [begin_temp_scope, k1, k2, inode .JIF [.REG_VAL R_POP, .ADDR_VAL 7], k4, k5,
          inode .DROP [], inode .JMP [.ADDR_VAL 2], end_temp_scope, set_return_val] knext := by
  rw [compile_tree.eq_def] at hc
  simp only at hc
  split at hc
  case h_2 => cases hc
  rename_i r nx hr hnx
  cases hc
  simp only [Option.bind_eq_bind, Option.bind_eq_some, Option.some.injEq, Option.isSome_some,
    if_true] at hr
  obtain ⟨k1, e1, k2, e2, k4, e4, k5, e5, rfl⟩ := hr
  refine ⟨k1, k2, k4, k5, nx, e1, e2, ?_, e5, hnx, rfl⟩
  split at e4
  · cases e4
  · rename_i t3 lex3 c30 a1 a2 a3 a4 heq
    cases heq
    exact e4
  · rename_i t3 t3' hne heq
    cases heq
    have hb : for_body b = some b := by
      unfold for_body
      split
      · rename_i lex3 c30 a1 a2 a3 a4
        exact absurd rfl (hne lex3 c30 a1 a2 a3 a4)
      · rfl
    rw [hb, compile_tree_opt]
    cases hct : compile_tree b with
    | none => rw [hct] at e4; cases e4
    | some n3 => rw [hct] at e4; exact e4

/-- C20: `for`. For `for (init; c; step) b` with a condition and a body the emitted code is:
the seven instructions that open a temporary scope, the code of `init`, the code of `c`,
`JIF R_POP A_exit`, the code of the body, the code of `step`, `DROP`, `JMP A_loop`, `EXIT`,
`REF R_POP R_X`, where `A_loop` is the address of the first instruction of the code of `c`
and `A_exit` the address of the `EXIT`. The code of the body is the code of `b`, except
that for a braced block it is the code of the statements of the block: they are emitted
directly, without the instructions that open a temporary scope and the `EXIT` that
`compile_tree` puts around a block. -/
theorem for_jump_targets (lexem : List Char) (init step next : Option FACT_tree)
    (c b : FACT_tree) (n : inter_node)
    (hc : compile_tree (.mk .E_FOR lexem init (some c) step (some b) next) = some n)
    (prog : List fmt_t) :
    (∀ (lex3 : List Char) (c30 a1 a2 a3 a4 : Option FACT_tree),
      for_body (.mk .E_OP_CURL lex3 c30 a1 a2 a3 a4) = c30) ∧
    ((∀ (lex3 : List Char) (c30 a1 a2 a3 a4 : Option FACT_tree),
      b ≠ .mk .E_OP_CURL lex3 c30 a1 a2 a3 a4) → for_body b = some b) ∧
    ∃ (A_loop A_exit : Nat) (code_init code_c code_b code_step code_next : List fmt_t),
      code_init = code init (prog ++ begin_temp_scope_code) ∧
      code_c = code (some c) (prog ++ begin_temp_scope_code ++ code_init) ∧
      code_b = code (for_body b)
        (prog ++ begin_temp_scope_code ++ code_init ++ code_c
          ++ [⟨.JIF, R_POP :: spread A_exit⟩]) ∧
      code_step = code step
        (prog ++ begin_temp_scope_code ++ code_init ++ code_c
          ++ [⟨.JIF, R_POP :: spread A_exit⟩] ++ code_b) ∧
      code_next = code next
        (prog ++ begin_temp_scope_code ++ code_init ++ code_c
          ++ [⟨.JIF, R_POP :: spread A_exit⟩] ++ code_b ++ code_step
          ++ [⟨.DROP, []⟩, ⟨.JMP, spread A_loop⟩, ⟨.EXIT, []⟩, ⟨.REF, [R_POP, R_X]⟩]) ∧
      load n none prog
        = some (prog ++ begin_temp_scope_code ++ code_init ++ code_c
            ++ [⟨.JIF, R_POP :: spread A_exit⟩] ++ code_b ++ code_step
            ++ [⟨.DROP, []⟩, ⟨.JMP, spread A_loop⟩, ⟨.EXIT, []⟩, ⟨.REF, [R_POP, R_X]⟩]
            ++ code_next) ∧
      A_loop = @List.length fmt_t (prog ++ begin_temp_scope_code ++ code_init) ∧
      A_exit = @List.length fmt_t
        (prog ++ begin_temp_scope_code ++ code_init ++ code_c
          ++ [⟨.JIF, R_POP :: spread A_exit⟩] ++ code_b ++ code_step
          ++ [⟨.DROP, []⟩, ⟨.JMP, spread A_loop⟩]) := by
  refine ⟨fun _ _ _ _ _ _ => rfl, ?_, ?_⟩
  · intro hne
    unfold for_body
    split
    · rename_i lex3 c30 a1 a2 a3 a4
      exact absurd rfl (hne lex3 c30 a1 a2 a3 a4)
    · rfl
  obtain ⟨k1, k2, k4, k5, knext, e1, e2, e4, e5, en, rfl⟩ :=
    compile_for lexem init step next c b n hc
  obtain ⟨ch, hch⟩ : ∃ ch : List (Option inter_node), ch
      = [begin_temp_scope, k1, k2, inode .JIF [.REG_VAL R_POP, .ADDR_VAL 7], k4, k5,
          inode .DROP [], inode .JMP [.ADDR_VAL 2], end_temp_scope, set_return_val] :=
    ⟨_, rfl⟩
  rw [← hch]
  have hlen : ch.length = 10 := by rw [hch]; rfl
  have hw38 : weight_sum ch 3 8 = weight_opt k4 + weight_opt k5 + 3 := by
    rw [hch]
    simp [weight_sum, List.range', inode, weight_opt, weight]
    omega
  have hw27 : weight_sum ch 2 7 = weight_opt k2 + weight_opt k4 + weight_opt k5 + 2 := by
    rw [hch]
    simp [weight_sum, List.range', inode, weight_opt, weight]
    omega
  obtain ⟨p0, hp0⟩ : ∃ x : List fmt_t, x = prog ++ begin_temp_scope_code := ⟨_, rfl⟩
  have hp0len : p0.length = prog.length + 7 := by rw [hp0]; simp [begin_temp_scope_code]
  obtain ⟨ci, hci⟩ : ∃ x : List fmt_t, x = code init p0 := ⟨_, rfl⟩
  obtain ⟨cc, hcc⟩ : ∃ x : List fmt_t, x = code (some c) (p0 ++ ci) := ⟨_, rfl⟩
  obtain ⟨A, hA⟩ : ∃ a : Nat,
      a = p0.length + ci.length + cc.length + 1 + weight_opt k4 + weight_opt k5 + 2 :=
    ⟨_, rfl⟩
  obtain ⟨jif, hjif⟩ : ∃ x : fmt_t, x = ⟨.JIF, R_POP :: spread A⟩ := ⟨_, rfl⟩
  obtain ⟨cb, hcb⟩ : ∃ x : List fmt_t, x = code (for_body b) (p0 ++ ci ++ cc ++ [jif]) :=
    ⟨_, rfl⟩
  obtain ⟨cs, hcs⟩ : ∃ x : List fmt_t, x = code step (p0 ++ ci ++ cc ++ [jif] ++ cb) :=
    ⟨_, rfl⟩
  obtain ⟨drop, hdrop⟩ : ∃ x : fmt_t, x = ⟨.DROP, []⟩ := ⟨_, rfl⟩
  obtain ⟨jmp, hjmp⟩ : ∃ x : fmt_t, x = ⟨.JMP, spread (p0.length + ci.length)⟩ := ⟨_, rfl⟩
  obtain ⟨ex, hex⟩ : ∃ x : fmt_t, x = ⟨.EXIT, []⟩ := ⟨_, rfl⟩
  obtain ⟨ref, href⟩ : ∃ x : fmt_t, x = ⟨.REF, [R_POP, R_X]⟩ := ⟨_, rfl⟩
  have s0 : load_opt begin_temp_scope (some (ch, 0)) prog = some p0 := by
    rw [hp0]; exact load_begin_temp_scope _ _
  have s1 := load_code e1 (some (ch, 1)) p0
  rw [← hci] at s1
  have s2 := load_code e2 (some (ch, 2)) (p0 ++ ci)
  rw [← hcc] at s2
  have s3 : load_opt (inode .JIF [.REG_VAL R_POP, .ADDR_VAL 7]) (some (ch, 3)) (p0 ++ ci ++ cc)
      = some (p0 ++ ci ++ cc ++ [jif]) := by
    rw [hjif]
    apply load_opt_inode
    rw [load_args_reg_addr_forward .JIF ch _ 3 7 R_POP (by omega) (by omega), hw38, hA]
    simp only [List.length_append]
    congr 3
    omega
  have s4 := load_code e4 (some (ch, 4)) (p0 ++ ci ++ cc ++ [jif])
  rw [← hcb] at s4
  have s5 := load_code e5 (some (ch, 5)) (p0 ++ ci ++ cc ++ [jif] ++ cb)
  rw [← hcs] at s5
  have s6 : load_opt (inode .DROP []) (some (ch, 6)) (p0 ++ ci ++ cc ++ [jif] ++ cb ++ cs)
      = some (p0 ++ ci ++ cc ++ [jif] ++ cb ++ cs ++ [drop]) := by
    rw [hdrop]
    exact load_opt_inode (by simp [mk_inst, inst_t.args, load.args])
  have s7 : load_opt (inode .JMP [.ADDR_VAL 2]) (some (ch, 7))
      (p0 ++ ci ++ cc ++ [jif] ++ cb ++ cs ++ [drop])
      = some (p0 ++ ci ++ cc ++ [jif] ++ cb ++ cs ++ [drop] ++ [jmp]) := by
    rw [hjmp]
    apply load_opt_inode
    have hle : weight_sum ch 2 7 ≤ (p0 ++ ci ++ cc ++ [jif] ++ cb ++ cs ++ [drop]).length := by
      rw [hw27]
      simp only [List.length_append, List.length_singleton]
      rw [s2.2, s4.2, s5.2]
      omega
    rw [load_args_addr_backward .JMP ch _ 7 2 (by omega) (by omega) hle, hw27]
    simp only [List.length_append, List.length_singleton]
    rw [s2.2, s4.2, s5.2]
    congr 2
    omega
  have s8 : load_opt end_temp_scope (some (ch, 8))
      (p0 ++ ci ++ cc ++ [jif] ++ cb ++ cs ++ [drop] ++ [jmp])
      = some (p0 ++ ci ++ cc ++ [jif] ++ cb ++ cs ++ [drop] ++ [jmp] ++ [ex]) := by
    rw [hex]; exact load_end_temp_scope _ _
  have s9 : load_opt set_return_val (some (ch, 9))
      (p0 ++ ci ++ cc ++ [jif] ++ cb ++ cs ++ [drop] ++ [jmp] ++ [ex])
      = some (p0 ++ ci ++ cc ++ [jif] ++ cb ++ cs ++ [drop] ++ [jmp] ++ [ex] ++ [ref]) := by
    rw [href, set_return_val]
    exact load_opt_inode (by simp [mk_inst, inst_t.args, load.args])
  have sn := load_code en none
    (p0 ++ ci ++ cc ++ [jif] ++ cb ++ cs ++ [drop] ++ [jmp] ++ [ex] ++ [ref])
  have hcd : load_children ch ch 0 prog
      = some (p0 ++ ci ++ cc ++ [jif] ++ cb ++ cs ++ [drop] ++ [jmp] ++ [ex] ++ [ref]) := by
    conv => lhs; arg 2; rw [hch]
    rw [load_children_cons_some s0, load_children_cons_some s1.1,
      load_children_cons_some s2.1, load_children_cons_some s3, load_children_cons_some s4.1,
      load_children_cons_some s5.1, load_children_cons_some s6, load_children_cons_some s7,
      load_children_cons_some s8, load_children_cons_some s9, load_children]
  have happ4 : ∀ (l : List fmt_t) (x y z w : fmt_t),
      l ++ [x] ++ [y] ++ [z] ++ [w] = l ++ [x, y, z, w] := by
    intro l x y z w; simp
  have happ2 : ∀ (l : List fmt_t) (x y : fmt_t), l ++ [x] ++ [y] = l ++ [x, y] := by
    intro l x y; simp
  refine ⟨p0.length + ci.length, A, ci, cc, cb, cs, _, ?_, ?_, ?_, ?_, rfl, ?_, ?_, ?_⟩
  · rw [hci, hp0]
  · rw [hcc, hp0]
  · rw [hcb, hjif, hp0]
  · rw [hcs, hjif, hp0]
  · rw [load, hcd]
    simp only
    rw [sn.1, happ4, hjif, hdrop, hjmp, hex, href, hp0]
  · rw [← hp0]
    simp only [List.length_append]
  · rw [← hp0, ← happ2]
    simp only [List.length_append, List.length_singleton]
    rw [hA, s4.2, s5.2]

theorem for_jump_targets_witness :
    compile_tree example_for
      = some (.grouping
          [begin_temp_scope, none, inode .VAR [.LABEL "x".toList],
           inode .JIF [.REG_VAL R_POP, .ADDR_VAL 7], inode .VAR [.LABEL "y".toList], none,
           inode .DROP [], inode .JMP [.ADDR_VAL 2], end_temp_scope, set_return_val] none) ∧
    FACT_compile (some example_for) []
      = some (begin_temp_scope_code
          ++ [⟨.VAR, [120, 0]⟩, ⟨.JIF, [0, 0, 0, 0, 12]⟩, ⟨.VAR, [121, 0]⟩, ⟨.DROP, []⟩,
              ⟨.JMP, [0, 0, 0, 7]⟩, ⟨.EXIT, []⟩, ⟨.REF, [0, 7]⟩]) ∧
    ∃ (A_loop A_exit : Nat) (code_init code_c code_b code_step code_next : List fmt_t),
      code_init = code none ([] ++ begin_temp_scope_code) ∧
      code_c = code (some (tree_var "x")) ([] ++ begin_temp_scope_code ++ code_init) ∧
      code_b = code
        (for_body (.mk .E_OP_CURL "\x7b".toList (some (tree_var "y")) none none none none))
        ([] ++ begin_temp_scope_code ++ code_init ++ code_c
          ++ [⟨.JIF, R_POP :: spread A_exit⟩]) ∧
      code_step = code none
        ([] ++ begin_temp_scope_code ++ code_init ++ code_c
          ++ [⟨.JIF, R_POP :: spread A_exit⟩] ++ code_b) ∧
      code_next = code none
        ([] ++ begin_temp_scope_code ++ code_init ++ code_c
          ++ [⟨.JIF, R_POP :: spread A_exit⟩] ++ code_b ++ code_step
          ++ [⟨.DROP, []⟩, ⟨.JMP, spread A_loop⟩, ⟨.EXIT, []⟩, ⟨.REF, [R_POP, R_X]⟩]) ∧
      load (.grouping
          [begin_temp_scope, none, inode .VAR [.LABEL "x".toList],
           inode .JIF [.REG_VAL R_POP, .ADDR_VAL 7], inode .VAR [.LABEL "y".toList], none,
           inode .DROP [], inode .JMP [.ADDR_VAL 2], end_temp_scope, set_return_val] none)
          none []
        = some ([] ++ begin_temp_scope_code ++ code_init ++ code_c
            ++ [⟨.JIF, R_POP :: spread A_exit⟩] ++ code_b ++ code_step
            ++ [⟨.DROP, []⟩, ⟨.JMP, spread A_loop⟩, ⟨.EXIT, []⟩, ⟨.REF, [R_POP, R_X]⟩]
            ++ code_next) ∧
      A_loop = @List.length fmt_t ([] ++ begin_temp_scope_code ++ code_init) ∧
      A_exit = @List.length fmt_t
        ([] ++ begin_temp_scope_code ++ code_init ++ code_c
          ++ [⟨.JIF, R_POP :: spread A_exit⟩] ++ code_b ++ code_step
          ++ [⟨.DROP, []⟩, ⟨.JMP, spread A_loop⟩]) :=
  ⟨rfl, by decide,
    (for_jump_targets "for".toList none none none (tree_var "x")
      (.mk .E_OP_CURL "\x7b".toList (some (tree_var "y")) none none none none) _ rfl []).2.2⟩

/-! ## Function call -/

theorem compile_func_call (lexem : List Char) (c0 c1 c2 c3 next : Option FACT_tree)
    (n : inter_node) (hc : compile_tree (.mk .E_FUNC_CALL lexem c0 c1 c2 c3 next) = some n) :
    ∃ k0 k3 knext, compile_tree_opt c0 = some k0 ∧ compile_tree_opt c1 = some k3 ∧
      compile_tree_opt next = some knext ∧
      n = .grouping
        ([k0, inode .CONST [.LABEL "0".toList], inode .NEW_S [.REG_VAL R_POP], k3]
          ++ call_binding.map (fun i => some (.instruction i none))
          ++ [inode .SET_F [.REG_VAL R_A, .REG_VAL R_TOP], inode .CALL [.REG_VAL R_POP]])
        knext := by
  simp only [compile_tree] at hc
  split at hc
  all_goals cases hc
  rename_i res nx hr hnx
  simp only [Option.bind_eq_bind, Option.bind_eq_some, Option.some.injEq] at hr
  obtain ⟨k0, e1, k3, e2, rfl⟩ := hr
  exact ⟨k0, k3, nx, e1, e2, hnx, rfl⟩

/-- What the binding instructions of a call do: the value on top of the stack (that of the
function being called) goes to `R_A`, the scope below it (the lambda) is entered, `up` is
defined in it, and `STO` copies `R_A` into that `up`; then the lambda is left. -/
theorem call_binding_run (s : sym_state) (F L : sym_val) (rest : List sym_val)
    (hs : s.vstack = F :: L :: rest) :
    ∃ s1, sym_run call_binding s = some s1 ∧
      s1.stored = (.variable L "up".toList, F) :: s.stored ∧
      s1.vstack = rest ∧ s1.cstack = s.cstack ∧ s1.registers R_A = some F := by
  simp [call_binding, sym_run, sym_step, mk_inst, sym_read, sym_write, hs, R_POP, R_A, R_TOP]

/-- What the instructions of `begin_temp_scope` do: `up` of the new scope gets the `this`
that was current. -/
theorem temp_scope_binding_run (s : sym_state) (C : sym_val) (frames : List sym_val)
    (hs : s.cstack = C :: frames) :
    ∃ s1, sym_run temp_scope_binding s = some s1 ∧
      s1.stored = (.variable (.anonymous s.created) "up".toList, C) :: s.stored ∧
      s1.vstack = s.vstack ∧ s1.cstack = .anonymous s.created :: C :: frames := by
  simp [temp_scope_binding, sym_run, sym_step, mk_inst, sym_read, sym_write, hs, R_POP, R_A,
    R_TOP]

theorem call_binding_code :
    call_binding.map plain_code
      = [⟨.REF, [R_POP, R_A]⟩, ⟨.USE, [R_POP]⟩, ⟨.CONST, [48, 0]⟩,
         ⟨.DEF_S, [R_POP, 117, 112, 0]⟩, ⟨.STO, [R_A, R_POP]⟩, ⟨.EXIT, []⟩] := by
  decide

/-- The code emitted for an `E_FUNC_CALL` node. -/
theorem func_call_layout (lexem : List Char) (c0 c1 c2 c3 next : Option FACT_tree)
    (n : inter_node) (hc : compile_tree (.mk .E_FUNC_CALL lexem c0 c1 c2 c3 next) = some n)
    (prog : List fmt_t) :
    ∃ code_0 code_1 code_next,
      code_0 = code c0 prog ∧
      code_1 = code c1 (prog ++ code_0 ++ [⟨.CONST, [48, 0]⟩, ⟨.NEW_S, [R_POP]⟩]) ∧
      code_next = code next
        (prog ++ code_0 ++ [⟨.CONST, [48, 0]⟩, ⟨.NEW_S, [R_POP]⟩] ++ code_1
          ++ call_binding.map plain_code ++ [⟨.SET_F, [R_A, R_TOP]⟩, ⟨.CALL, [R_POP]⟩]) ∧
      load n none prog
        = some (prog ++ code_0 ++ [⟨.CONST, [48, 0]⟩, ⟨.NEW_S, [R_POP]⟩] ++ code_1
            ++ call_binding.map plain_code ++ [⟨.SET_F, [R_A, R_TOP]⟩, ⟨.CALL, [R_POP]⟩]
            ++ code_next) := by
  obtain ⟨k0, k3, knext, e0, e3, en, rfl⟩ := compile_func_call lexem c0 c1 c2 c3 next n hc
  obtain ⟨ch, hch⟩ : ∃ ch : List (Option inter_node), ch
      = [k0, inode .CONST [.LABEL "0".toList], inode .NEW_S [.REG_VAL R_POP], k3,
         inode .REF [.REG_VAL R_POP, .REG_VAL R_A],
         inode .USE [.REG_VAL R_POP],
         inode .CONST [.LABEL "0".toList],
         inode .DEF_S [.REG_VAL R_POP, .LABEL "up".toList],
         inode .STO [.REG_VAL R_A, .REG_VAL R_POP],
         inode .EXIT [],
         inode .SET_F [.REG_VAL R_A, .REG_VAL R_TOP], inode .CALL [.REG_VAL R_POP]] :=
    ⟨_, rfl⟩
  have hch' : [k0, inode .CONST [.LABEL "0".toList], inode .NEW_S [.REG_VAL R_POP], k3]
        ++ call_binding.map (fun i => some (.instruction i none))
        ++ [inode .SET_F [.REG_VAL R_A, .REG_VAL R_TOP], inode .CALL [.REG_VAL R_POP]]
      = ch := by rw [hch]; rfl
  rw [hch', call_binding_code]
  have hplain : ∀ (op : Furlow_opcode) (args : List arg_t) (i : Nat) (q : List fmt_t)
      (bytes : List Nat),
      load.args (some (ch, i)) q.length (mk_inst op args).args [] = some bytes →
      load_opt (inode op args) (some (ch, i)) q = some (q ++ [⟨op, bytes⟩]) :=
    fun op args i q bytes h => load_opt_inode h
  obtain ⟨c0', hc0'⟩ : ∃ x : List fmt_t, x = code c0 prog := ⟨_, rfl⟩
  obtain ⟨k, hk⟩ : ∃ x : fmt_t, x = ⟨.CONST, [48, 0]⟩ := ⟨_, rfl⟩
  obtain ⟨ns, hns⟩ : ∃ x : fmt_t, x = ⟨.NEW_S, [R_POP]⟩ := ⟨_, rfl⟩
  obtain ⟨c1', hc1'⟩ : ∃ x : List fmt_t, x = code c1 (prog ++ c0' ++ [k] ++ [ns]) := ⟨_, rfl⟩
  have s0 := load_code e0 (some (ch, 0)) prog
  rw [← hc0'] at s0
  have s1 : load_opt (inode .CONST [.LABEL "0".toList]) (some (ch, 1)) (prog ++ c0')
      = some (prog ++ c0' ++ [k]) := by
    rw [hk]; exact hplain _ _ 1 _ _ (by simp [mk_inst, inst_t.args, load.args])
  have s2 : load_opt (inode .NEW_S [.REG_VAL R_POP]) (some (ch, 2)) (prog ++ c0' ++ [k])
      = some (prog ++ c0' ++ [k] ++ [ns]) := by
    rw [hns]; exact hplain _ _ 2 _ _ (by simp [mk_inst, inst_t.args, load.args])
  have s3 := load_code e3 (some (ch, 3)) (prog ++ c0' ++ [k] ++ [ns])
  rw [← hc1'] at s3
  obtain ⟨q, hq⟩ : ∃ x : List fmt_t, x = prog ++ c0' ++ [k] ++ [ns] ++ c1' := ⟨_, rfl⟩
  rw [← hq] at s3
  have hcd : load_children ch ch 0 prog
      = some (q ++ [⟨.REF, [R_POP, R_A]⟩] ++ [⟨.USE, [R_POP]⟩] ++ [⟨.CONST, [48, 0]⟩]
          ++ [⟨.DEF_S, [R_POP, 117, 112, 0]⟩] ++ [⟨.STO, [R_A, R_POP]⟩] ++ [⟨.EXIT, []⟩]
          ++ [⟨.SET_F, [R_A, R_TOP]⟩] ++ [⟨.CALL, [R_POP]⟩]) := by
    conv => lhs; arg 2; rw [hch]
    rw [load_children_cons_some s0.1, load_children_cons_some s1, load_children_cons_some s2,
      load_children_cons_some s3.1,
      load_children_cons_some (hplain _ _ 4 q [R_POP, R_A]
        (by simp [mk_inst, inst_t.args, load.args])),
      load_children_cons_some (hplain _ _ 5 _ [R_POP]
        (by simp [mk_inst, inst_t.args, load.args])),
      load_children_cons_some (hplain _ _ 6 _ [48, 0]
        (by simp [mk_inst, inst_t.args, load.args])),
      load_children_cons_some (hplain _ _ 7 _ [R_POP, 117, 112, 0]
        (by simp [mk_inst, inst_t.args, load.args])),
      load_children_cons_some (hplain _ _ 8 _ [R_A, R_POP]
        (by simp [mk_inst, inst_t.args, load.args])),
      load_children_cons_some (hplain _ _ 9 _ []
        (by simp [mk_inst, inst_t.args, load.args])),
      load_children_cons_some (hplain _ _ 10 _ [R_A, R_TOP]
        (by simp [mk_inst, inst_t.args, load.args])),
      load_children_cons_some (hplain _ _ 11 _ [R_POP]
        (by simp [mk_inst, inst_t.args, load.args])),
      load_children]
  have sn := load_code en none
    (q ++ [⟨.REF, [R_POP, R_A]⟩] ++ [⟨.USE, [R_POP]⟩] ++ [⟨.CONST, [48, 0]⟩]
          ++ [⟨.DEF_S, [R_POP, 117, 112, 0]⟩] ++ [⟨.STO, [R_A, R_POP]⟩] ++ [⟨.EXIT, []⟩]
          ++ [⟨.SET_F, [R_A, R_TOP]⟩] ++ [⟨.CALL, [R_POP]⟩])
  have hshape : q ++ [⟨.REF, [R_POP, R_A]⟩] ++ [⟨.USE, [R_POP]⟩] ++ [⟨.CONST, [48, 0]⟩]
          ++ [⟨.DEF_S, [R_POP, 117, 112, 0]⟩] ++ [⟨.STO, [R_A, R_POP]⟩] ++ [⟨.EXIT, []⟩]
          ++ [⟨.SET_F, [R_A, R_TOP]⟩] ++ [⟨.CALL, [R_POP]⟩]
      = prog ++ c0' ++ [⟨.CONST, [48, 0]⟩, ⟨.NEW_S, [R_POP]⟩] ++ c1'
          ++ [⟨.REF, [R_POP, R_A]⟩, ⟨.USE, [R_POP]⟩, ⟨.CONST, [48, 0]⟩,
              ⟨.DEF_S, [R_POP, 117, 112, 0]⟩, ⟨.STO, [R_A, R_POP]⟩, ⟨.EXIT, []⟩]
          ++ [⟨.SET_F, [R_A, R_TOP]⟩, ⟨.CALL, [R_POP]⟩] := by
    rw [hq, hk, hns]; simp
  have hpre : prog ++ c0' ++ [k] ++ [ns]
      = prog ++ c0' ++ [⟨.CONST, [48, 0]⟩, ⟨.NEW_S, [R_POP]⟩] := by
    rw [hk, hns]; simp
  rw [hshape] at sn hcd
  rw [hpre] at hc1'
  refine ⟨c0', c1', _, hc0', hc1', rfl, ?_⟩
  rw [load, hcd]
  simp only
  rw [sn.1]

/-- C16 (counterexample): the call `f (x)`. The code emitted is `VAR "x"`, `CONST "0"`,
`NEW_S R_POP`, `VAR "f"`, `REF R_POP R_A`, `USE R_POP`, `CONST "0"`, `DEF_S R_POP "up"`,
`STO R_A R_POP`, `EXIT`, `SET_F R_A R_TOP`, `CALL R_POP`. Run from a state where the code of
`f` has left its value (`given 2`) above the lambda scope (`given 1`) and the caller's
`this` is `given 0`, the binding instructions store the value of `f` into the lambda's
`up`: what is stored is not the caller's `this`. -/
theorem func_call_up_counterexample :
    FACT_compile (some example_call) []
      = some [⟨.VAR, [120, 0]⟩, ⟨.CONST, [48, 0]⟩, ⟨.NEW_S, [0]⟩, ⟨.VAR, [102, 0]⟩,
          ⟨.REF, [0, 6]⟩, ⟨.USE, [0]⟩, ⟨.CONST, [48, 0]⟩, ⟨.DEF_S, [0, 117, 112, 0]⟩,
          ⟨.STO, [6, 0]⟩, ⟨.EXIT, []⟩, ⟨.SET_F, [6, 1]⟩, ⟨.CALL, [0]⟩] ∧
    example_call_state.cstack = [.given 0] ∧
    example_call_state.vstack = [.given 2, .given 1, .given 3] ∧
    ∃ s1, sym_run call_binding example_call_state = some s1 ∧
      s1.stored = [(.variable (.given 1) "up".toList, .given 2)] ∧
      s1.stored ≠ [(.variable (.given 1) "up".toList, .given 0)] := by
  refine ⟨by decide, rfl, rfl, ?_⟩
  obtain ⟨s1, h1, h2, _⟩ :=
    call_binding_run example_call_state (.given 2) (.given 1) [.given 3] rfl
  refine ⟨s1, h1, h2, ?_⟩
  rw [h2]
  decide

/-- C16 (amended): function call. For `f (args)` the parser (`opt_pb`) builds an
`E_FUNC_CALL` node with the arguments as first child and `f` as second child, and the code
emitted for it is, in order: the code of the arguments; `CONST "0"`, `NEW_S R_POP`, which
create the lambda scope; the code of `f`; `REF R_POP R_A`, `USE R_POP`, `CONST "0"`,
`DEF_S R_POP "up"`, `STO R_A R_POP`, `EXIT`; `SET_F R_A R_TOP`; and `CALL R_POP` as the
last instruction of the call. Run with the value of `f` on top of the value stack and the
lambda scope below it, the six binding instructions move the value of `f` to `R_A`, enter
the lambda, define `up` in it and store `R_A` into that `up`: the value stored into the
lambda's `up` is the value obtained by evaluating `f`, whatever the caller's `this` is. -/
theorem func_call_sequence (lexem : List Char) (f : FACT_tree) (args : Option FACT_tree)
    (prog : List fmt_t) :
    opt_pb.node (accept.node .E_OP_PAREN lexem) f args
      = .mk .E_FUNC_CALL lexem args (some f) none none none ∧
    (∀ (next : Option FACT_tree) (n : inter_node),
      compile_tree (.mk .E_FUNC_CALL lexem args (some f) none none next) = some n →
      ∃ code_args code_f code_next,
        code_args = code args prog ∧
        code_f = code (some f)
          (prog ++ code_args ++ [⟨.CONST, [48, 0]⟩, ⟨.NEW_S, [R_POP]⟩]) ∧
        code_next = code next
          (prog ++ code_args ++ [⟨.CONST, [48, 0]⟩, ⟨.NEW_S, [R_POP]⟩] ++ code_f
            ++ call_binding.map plain_code ++ [⟨.SET_F, [R_A, R_TOP]⟩, ⟨.CALL, [R_POP]⟩]) ∧
        load n none prog
          = some (prog ++ code_args ++ [⟨.CONST, [48, 0]⟩, ⟨.NEW_S, [R_POP]⟩] ++ code_f
              ++ call_binding.map plain_code
              ++ [⟨.SET_F, [R_A, R_TOP]⟩, ⟨.CALL, [R_POP]⟩] ++ code_next)) ∧
    call_binding.map plain_code
      = [⟨.REF, [R_POP, R_A]⟩, ⟨.USE, [R_POP]⟩, ⟨.CONST, [48, 0]⟩,
         ⟨.DEF_S, [R_POP, 117, 112, 0]⟩, ⟨.STO, [R_A, R_POP]⟩, ⟨.EXIT, []⟩] ∧
    (∀ (s : sym_state) (F L : sym_val) (rest : List sym_val), s.vstack = F :: L :: rest →
      ∃ s1, sym_run call_binding s = some s1 ∧
        s1.stored = (.variable L "up".toList, F) :: s.stored ∧
        s1.vstack = rest ∧ s1.cstack = s.cstack ∧ s1.registers R_A = some F) :=
  ⟨rfl, fun next n hc => func_call_layout lexem args (some f) none none next n hc prog,
    call_binding_code, call_binding_run⟩

theorem func_call_sequence_witness :
    compile_tree example_call
      = some (.grouping
          ([inode .VAR [.LABEL "x".toList], inode .CONST [.LABEL "0".toList],
            inode .NEW_S [.REG_VAL R_POP], inode .VAR [.LABEL "f".toList]]
            ++ call_binding.map (fun i => some (.instruction i none))
            ++ [inode .SET_F [.REG_VAL R_A, .REG_VAL R_TOP], inode .CALL [.REG_VAL R_POP]])
          none) ∧
    (∃ code_args code_f code_next,
      code_args = code (some (tree_var "x")) [] ∧
      code_f = code (some (tree_var "f"))
        ([] ++ code_args ++ [⟨.CONST, [48, 0]⟩, ⟨.NEW_S, [R_POP]⟩]) ∧
      code_next = code none
        ([] ++ code_args ++ [⟨.CONST, [48, 0]⟩, ⟨.NEW_S, [R_POP]⟩] ++ code_f
          ++ call_binding.map plain_code ++ [⟨.SET_F, [R_A, R_TOP]⟩, ⟨.CALL, [R_POP]⟩]) ∧
      load (.grouping
          ([inode .VAR [.LABEL "x".toList], inode .CONST [.LABEL "0".toList],
            inode .NEW_S [.REG_VAL R_POP], inode .VAR [.LABEL "f".toList]]
            ++ call_binding.map (fun i => some (.instruction i none))
            ++ [inode .SET_F [.REG_VAL R_A, .REG_VAL R_TOP], inode .CALL [.REG_VAL R_POP]])
          none) none []
        = some ([] ++ code_args ++ [⟨.CONST, [48, 0]⟩, ⟨.NEW_S, [R_POP]⟩] ++ code_f
            ++ call_binding.map plain_code
            ++ [⟨.SET_F, [R_A, R_TOP]⟩, ⟨.CALL, [R_POP]⟩] ++ code_next)) ∧
    ∃ s1, sym_run call_binding example_call_state = some s1 ∧
      s1.stored = (.variable (.given 1) "up".toList, .given 2) :: example_call_state.stored ∧
      s1.vstack = [.given 3] ∧ s1.cstack = example_call_state.cstack ∧
      s1.registers R_A = some (.given 2) :=
  ⟨rfl,
    (func_call_sequence "(".toList (tree_var "f") (some (tree_var "x")) []).2.1 none _ rfl,
    (func_call_sequence "(".toList (tree_var "f") (some (tree_var "x")) []).2.2.2
      example_call_state (.given 2) (.given 1) [.given 3] rfl⟩

/-! ## `FACT_set_num` on Numbers that overlap -/

/-- C11: the deep copy is not what `FACT_set_num (rop, op)` does for every pair of distinct
Numbers. In `example_heap` take for `rop` the array `a` (address 0) and for `op` its first
cell `a[0]` (address 1), as in `a = a[0]`: the two Numbers are distinct, `op` is
`rop->array_up[0]`. The first loop of `FACT_set_num` frees the cells of `rop`, `op` among
them, and `mpc_set (rop->value, op->value)` then reads the freed cell: the behaviour is
undefined, whatever recursion depth is allowed (with none, `free_num` is not even
entered). -/
theorem set_num_overlap :
    example_heap.cell 0 = some ⟨"a".toList, .intv 0, 2, some [.addr 1, .addr 2]⟩ ∧
    example_heap.cell 1 = some (scalar_cell "a" 5) ∧
    read_entry example_heap 0 0 = some (.addr 1) ∧
    free_loop (free_num 1) 0 2 0 example_heap
      = .done [some ⟨"a".toList, .intv 0, 2, some [.addr 1, .addr 2]⟩, none, none,
          some ⟨"b".toList, .intv 0, 3, some [.addr 4, .addr 5, .addr 6]⟩,
          some (scalar_cell "b" 7), some (scalar_cell "b" 8), some (scalar_cell "b" 9),
          some (scalar_cell "c" 1)] ∧
    FACT_set_num 0 example_heap 0 1 = .more ∧
    (∀ fuel, FACT_set_num (fuel + 1) example_heap 0 1 = .undef) ∧
    (∀ fuel h1, FACT_set_num fuel example_heap 0 1 ≠ .done h1) := by
  have h : ∀ fuel, FACT_set_num (fuel + 1) example_heap 0 1 = .undef := fun _ => rfl
  refine ⟨rfl, rfl, rfl, rfl, rfl, h, ?_⟩
  intro fuel h1 hd
  cases fuel with
  | zero => cases hd
  | succ f => rw [h f] at hd; cases hd

/-! ## `FACT_set_num` on Numbers that do not overlap -/

theorem FACT_num_induction {P : FACT_num → Prop} {R : List FACT_num → Prop}
    (h1 : ∀ name value size, P (.mk name value size none))
    (h2 : ∀ name value size l, R l → P (.mk name value size (some l)))
    (h3 : R []) (h4 : ∀ t ts, P t → R ts → R (t :: ts)) :
    (∀ T, P T) ∧ (∀ l, R l) := by
  have hp : ∀ T, P T := fun T =>
    @FACT_num.rec P (fun o => ∀ l, o = some l → R l) R
      (fun name value size up ih => by
        cases up with
        | none => exact h1 name value size
        | some l => exact h2 name value size l (ih l rfl))
      (fun l h => by cases h)
      (fun l ih l1 h => by cases h; exact ih)
      h3 (fun t ts iht ihts => h4 t ts iht ihts) T
  refine ⟨hp, ?_⟩
  intro l
  induction l with
  | nil => exact h3
  | cons t ts ih => exact h4 t ts (hp t) ih

theorem cell_lt_length {h : num_heap} {a : Nat} {c : num_cell} (hc : h.cell a = some c) :
    a < h.length := by
  by_contra hge
  rw [num_heap.cell, List.getElem?_eq_none (by omega)] at hc
  cases hc

/-- The cells of a Number that stands in the heap are live. -/
theorem tree_at_live (h : num_heap) :
    (∀ T p fp, tree_at h T p fp → ∀ b ∈ fp, ∃ c, h.cell b = some c) ∧
    (∀ l ps fp, trees_at h l ps fp → ∀ b ∈ fp, ∃ c, h.cell b = some c) := by
  apply FACT_num_induction
  · intro name value size p fp ht b hb
    rw [tree_at] at ht
    obtain ⟨a, c, fp1, _, hfp, hc, _, _, _, hbl⟩ := ht
    rw [block_at] at hbl
    rw [hfp, hbl.2] at hb
    rw [List.mem_singleton] at hb
    exact ⟨c, hb ▸ hc⟩
  · intro name value size l ih p fp ht b hb
    rw [tree_at] at ht
    obtain ⟨a, c, fp1, _, hfp, hc, _, _, _, hbl⟩ := ht
    rw [block_at] at hbl
    obtain ⟨ps, _, hts⟩ := hbl
    rw [hfp] at hb
    rcases List.mem_cons.mp hb with rfl | hb
    · exact ⟨c, hc⟩
    · exact ih ps fp1 hts b hb
  · intro ps fp ht b hb
    rw [trees_at] at ht
    rw [ht.2] at hb
    cases hb
  · intro t ts iht ihts ps fp ht b hb
    rw [trees_at] at ht
    obtain ⟨p, ps1, f1, f2, _, hfp, h1, h2⟩ := ht
    rw [hfp] at hb
    rcases List.mem_append.mp hb with hb | hb
    · exact iht p f1 h1 b hb
    · exact ihts ps1 f2 h2 b hb

/-- A Number that stands in a heap stands in every heap with the same cells at its
addresses. -/
theorem tree_at_frame (h h1 : num_heap) :
    (∀ T p fp, tree_at h T p fp → (∀ b ∈ fp, h1.cell b = h.cell b) → tree_at h1 T p fp) ∧
    (∀ l ps fp, trees_at h l ps fp → (∀ b ∈ fp, h1.cell b = h.cell b) →
      trees_at h1 l ps fp) := by
  apply FACT_num_induction
  · intro name value size p fp ht hsame
    rw [tree_at] at ht ⊢
    obtain ⟨a, c, fp1, hp, hfp, hc, hn, hv, hs, hbl⟩ := ht
    refine ⟨a, c, fp1, hp, hfp, ?_, hn, hv, hs, ?_⟩
    · rw [hsame a (by rw [hfp]; simp), hc]
    · rw [block_at] at hbl ⊢
      exact hbl
  · intro name value size l ih p fp ht hsame
    rw [tree_at] at ht ⊢
    obtain ⟨a, c, fp1, hp, hfp, hc, hn, hv, hs, hbl⟩ := ht
    refine ⟨a, c, fp1, hp, hfp, ?_, hn, hv, hs, ?_⟩
    · rw [hsame a (by rw [hfp]; simp), hc]
    · rw [block_at] at hbl ⊢
      obtain ⟨ps, hps, hts⟩ := hbl
      exact ⟨ps, hps, ih ps fp1 hts (fun b hb => hsame b (by rw [hfp]; simp [hb]))⟩
  · intro ps fp ht _
    rw [trees_at] at ht ⊢
    exact ht
  · intro t ts iht ihts ps fp ht hsame
    rw [trees_at] at ht ⊢
    obtain ⟨p, ps1, f1, f2, hps, hfp, h1', h2'⟩ := ht
    exact ⟨p, ps1, f1, f2, hps, hfp,
      iht p f1 h1' (fun b hb => hsame b (by rw [hfp]; simp [hb])),
      ihts ps1 f2 h2' (fun b hb => hsame b (by rw [hfp]; simp [hb]))⟩

theorem cell_set_eq (h : num_heap) (a : Nat) (x : Option num_cell) (ha : a < h.length) :
    num_heap.cell (List.set h a x) a = x := by
  unfold num_heap.cell
  rw [List.getElem?_set]
  simp [ha]

theorem cell_set_ne (h : num_heap) (a b : Nat) (x : Option num_cell) (hne : b ≠ a) :
    num_heap.cell (List.set h a x) b = h.cell b := by
  unfold num_heap.cell
  rw [List.getElem?_set_ne (Ne.symm hne)]

theorem cell_append_lt (h ext : num_heap) (b : Nat) (hb : b < h.length) :
    num_heap.cell (h ++ ext) b = h.cell b := by
  unfold num_heap.cell
  rw [List.getElem?_append_left hb]

theorem cell_append_length (h : num_heap) (x : Option num_cell) :
    num_heap.cell (h ++ [x]) h.length = x := by
  unfold num_heap.cell
  rw [List.getElem?_append_right (Nat.le_refl _)]
  simp

theorem getElem?_of_drop {α : Type} {l : List α} {i : Nat} {p : α} {ps : List α}
    (h : l.drop i = p :: ps) : l[i]? = some p ∧ l.drop (i + 1) = ps := by
  constructor
  · have := List.getElem?_drop l i 0
    rw [h] at this
    simpa using this.symm
  · have e : l.drop (i + 1) = (l.drop i).drop 1 := by
      rw [List.drop_drop]
    rw [e, h]
    rfl

/-- The function `free_num` frees the cells of a Number whose cells are all different, and no other
cell. -/
theorem free_num_spec :
    (∀ T fuel (h : num_heap) p fp, tree_at h T p fp → well_formed T → fp.Nodup →
      depth T ≤ fuel →
      ∃ h1, free_num fuel h p = .done h1 ∧ h1.length = h.length ∧
        ∀ b, b ∉ fp → h1.cell b = h.cell b) ∧
    (∀ l fuel (h : num_heap) a c block i ps fp, h.cell a = some c →
      c.array_up = some block → block.drop i = ps → trees_at h l ps fp →
      well_formed.list l → fp.Nodup → a ∉ fp → depth.list l ≤ fuel →
      ∃ h1, free_loop (free_num fuel) a l.length i h = .done h1 ∧ h1.length = h.length ∧
        ∀ b, b ∉ fp → h1.cell b = h.cell b) := by
  apply FACT_num_induction
  · intro name value size fuel h p fp ht hwf _ hd
    rw [tree_at] at ht
    obtain ⟨a, c, fp1, rfl, hfp, hc, _, _, hs, hbl⟩ := ht
    rw [block_at] at hbl
    rw [well_formed, well_formed.block] at hwf
    rw [depth] at hd
    obtain ⟨f, rfl⟩ : ∃ f, fuel = f + 1 := ⟨fuel - 1, by omega⟩
    refine ⟨List.set h a none, ?_, by simp, ?_⟩
    · simp only [free_num, hc, hs, hwf, free_loop]
    · intro b hb
      rw [hfp, hbl.2] at hb
      exact cell_set_ne h a b none (by simpa using hb)
  · intro name value size l ih fuel h p fp ht hwf hnd hd
    rw [tree_at] at ht
    obtain ⟨a, c, fp1, rfl, hfp, hc, _, _, hs, hbl⟩ := ht
    rw [block_at] at hbl
    obtain ⟨ps, hps, hts⟩ := hbl
    rw [well_formed, well_formed.block] at hwf
    rw [depth, depth.block] at hd
    obtain ⟨f, rfl⟩ : ∃ f, fuel = f + 1 := ⟨fuel - 1, by omega⟩
    rw [hfp, List.nodup_cons] at hnd
    obtain ⟨h1, hl, hlen, hsame⟩ := ih f h a c ps 0 ps fp1 hc hps rfl hts hwf.2.2 hnd.2 hnd.1
      (by omega)
    have hc1 : h1.cell a = some c := by rw [hsame a hnd.1, hc]
    refine ⟨List.set h1 a none, ?_, by simp [hlen], ?_⟩
    · simp only [free_num, hc, hs, ← hwf.1, hl, hc1]
    · intro b hb
      rw [hfp, List.mem_cons, not_or] at hb
      rw [cell_set_ne h1 a b none hb.1, hsame b hb.2]
  · intro fuel h a c block i ps fp _ _ _ _ _ _ _ _
    exact ⟨h, rfl, rfl, fun _ _ => rfl⟩
  · intro t ts iht ihts fuel h a c block i ps fp hc hbl hdrop hts hwf hnd ha hd
    rw [trees_at] at hts
    obtain ⟨p, ps1, f1, f2, hps, hfp, ht1, ht2⟩ := hts
    rw [well_formed.list] at hwf
    rw [depth.list] at hd
    rw [hfp, List.nodup_append] at hnd
    rw [hfp, List.mem_append, not_or] at ha
    rw [hps] at hdrop
    obtain ⟨hget, hdrop1⟩ := getElem?_of_drop hdrop
    obtain ⟨h1, hf1, hlen1, hsame1⟩ := iht fuel h p f1 ht1 hwf.1 hnd.1 (by omega)
    have hc1 : h1.cell a = some c := by rw [hsame1 a ha.1, hc]
    have ht2' : trees_at h1 ts ps1 f2 :=
      (tree_at_frame h h1).2 ts ps1 f2 ht2
        (fun b hb => hsame1 b (fun hb1 => hnd.2.2 hb1 hb))
    obtain ⟨h2, hf2, hlen2, hsame2⟩ :=
      ihts fuel h1 a c block (i + 1) ps1 f2 hc1 hbl hdrop1 ht2' hwf.2 hnd.2.1 ha.2 (by omega)
    refine ⟨h2, ?_, by rw [hlen2, hlen1], ?_⟩
    · simp only [List.length_cons, free_loop, read_entry, hc, hbl, hget, hf1]
      exact hf2
    · intro b hb
      rw [hfp, List.mem_append, not_or] at hb
      rw [hsame2 b hb.2, hsame1 b hb.1]

theorem mpc_set_eq (rop op : mpc_t) : mpc_set rop op = op := by
  cases rop <;> cases op <;> rfl

theorem take_set_succ {α : Type} (l : List α) (i : Nat) (x : α) (hi : i < l.length) :
    (l.set i x).take (i + 1) = l.take i ++ [x] := by
  induction l generalizing i with
  | nil => simp at hi
  | cons a r ih =>
    cases i with
    | zero => simp
    | succ j =>
      simp only [List.set_cons_succ, List.take_succ_cons, List.cons_append]
      rw [ih j (by simpa using hi)]

/-- The function `copy_num` builds a copy of a Number in fresh cells and leaves the cells that were
there as they are. -/
theorem copy_num_spec :
    (∀ T fuel (h : num_heap) p fp, tree_at h T p fp → well_formed T → depth T ≤ fuel →
      ∃ h1 fp2, copy_num fuel h p = .done (h1, .addr h.length) ∧ h.length ≤ h1.length ∧
        (∀ b, b < h.length → h1.cell b = h.cell b) ∧
        tree_at h1 (copy_num.tree T) (.addr h.length) fp2 ∧
        (∀ b ∈ fp2, h.length ≤ b) ∧ fp2.Nodup) ∧
    (∀ l fuel (h : num_heap) src dst cs cd sblock dblock i ps fp, h.cell src = some cs →
      cs.array_up = some sblock → sblock.drop i = ps → trees_at h l ps fp →
      well_formed.list l → depth.list l ≤ fuel → h.cell dst = some cd →
      cd.array_up = some dblock → dblock.length = i + l.length → dst ∉ fp → src ≠ dst →
      ∃ h1 qs fp2, copy_loop (copy_num fuel) src dst l.length i h = .done h1 ∧
        h.length ≤ h1.length ∧
        (∀ b, b < h.length → b ≠ dst → h1.cell b = h.cell b) ∧
        h1.cell dst = some { cd with array_up := some (dblock.take i ++ qs) } ∧
        trees_at h1 (copy_num.list l) qs fp2 ∧
        (∀ b ∈ fp2, h.length ≤ b) ∧ fp2.Nodup) := by
  apply FACT_num_induction
  · intro name value size fuel h p fp ht hwf hd
    rw [tree_at] at ht
    obtain ⟨a, c, fp1, rfl, hfp, hc, _, hv, hs, hbl⟩ := ht
    rw [block_at] at hbl
    rw [well_formed, well_formed.block] at hwf
    rw [depth] at hd
    obtain ⟨f, rfl⟩ : ∃ f, fuel = f + 1 := ⟨fuel - 1, by omega⟩
    have ha := cell_lt_length hc
    obtain ⟨res, hres⟩ : ∃ res : num_cell, res
        = ⟨FACT_alloc_num.cell.name, mpc_set FACT_alloc_num.cell.value c.value, size, none⟩ :=
      ⟨_, rfl⟩
    refine ⟨h ++ [some res], [h.length], ?_, ?_, ?_, ?_, ?_, ?_⟩
    · simp only [copy_num, hc, hs, hbl.1, Option.isSome_none, Bool.false_eq_true, if_false]
      rw [← hres, hwf]
      rfl
    · simp
    · intro b hb
      exact cell_append_lt h _ b hb
    · rw [copy_num.tree, tree_at]
      refine ⟨h.length, res, [], rfl, rfl, cell_append_length h _, ?_, ?_, ?_, ?_⟩
      · rw [hres]; rfl
      · rw [hres]; simp only [mpc_set_eq]; exact hv
      · rw [hres]
      · rw [copy_num.block, block_at]
        exact ⟨by rw [hres], rfl⟩
    · intro b hb
      rw [List.mem_singleton.mp hb]
    · simp
  · intro name value size l ih fuel h p fp ht hwf hd
    rw [tree_at] at ht
    obtain ⟨a, c, fp1, rfl, hfp, hc, _, hv, hs, hbl⟩ := ht
    rw [block_at] at hbl
    obtain ⟨ps, hps, hts⟩ := hbl
    rw [well_formed, well_formed.block] at hwf
    rw [depth, depth.block] at hd
    obtain ⟨f, rfl⟩ : ∃ f, fuel = f + 1 := ⟨fuel - 1, by omega⟩
    have ha := cell_lt_length hc
    have hlive := (tree_at_live h).2 l ps fp1 hts
    obtain ⟨res, hres⟩ : ∃ res : num_cell, res
        = ⟨FACT_alloc_num.cell.name, mpc_set FACT_alloc_num.cell.value c.value, size,
            some (FACT_malloc size)⟩ := ⟨_, rfl⟩
    have hc0 : num_heap.cell (h ++ [some res]) a = some c := by
      rw [cell_append_lt h _ a ha, hc]
    have hts0 : trees_at (h ++ [some res]) l ps fp1 :=
      (tree_at_frame h (h ++ [some res])).2 l ps fp1 hts (fun b hb => by
        obtain ⟨cb, hcb⟩ := hlive b hb
        exact cell_append_lt h _ b (cell_lt_length hcb))
    have hdst : h.length ∉ fp1 := by
      intro hin
      obtain ⟨cb, hcb⟩ := hlive _ hin
      exact absurd (cell_lt_length hcb) (by omega)
    obtain ⟨h1, qs, fp2, hl, hlen, hsame, hcd, hq, hge, hnd⟩ :=
      ih f (h ++ [some res]) a h.length c res ps (FACT_malloc size) 0 ps fp1 hc0 hps rfl hts0
        hwf.2.2 (by omega) (cell_append_length h _) (by rw [hres])
        (by simp [FACT_malloc, hwf.1]) hdst (by omega)
    refine ⟨h1, h.length :: fp2, ?_, ?_, ?_, ?_, ?_, ?_⟩
    · simp only [copy_num, hc, hs, hps, Option.isSome_some, if_true]
      rw [← hres, ← hwf.1, hl]
    · simp only [List.length_append, List.length_singleton] at hlen
      omega
    · intro b hb
      rw [hsame b (by simp; omega) (by omega), cell_append_lt h _ b hb]
    · rw [copy_num.tree, tree_at]
      refine ⟨h.length, _, fp2, rfl, rfl, hcd, ?_, ?_, ?_, ?_⟩
      · rw [hres]; rfl
      · rw [hres]; simp only [mpc_set_eq]; exact hv
      · rw [hres]
      · rw [copy_num.block, block_at]
        exact ⟨qs, by simp, hq⟩
    · intro b hb
      rcases List.mem_cons.mp hb with rfl | hb
      · exact Nat.le_refl _
      · have := hge b hb
        simp only [List.length_append, List.length_singleton] at this
        omega
    · rw [List.nodup_cons]
      refine ⟨?_, hnd⟩
      intro hin
      have := hge _ hin
      simp only [List.length_append, List.length_singleton] at this
      omega
  · intro fuel h src dst cs cd sblock dblock i ps fp _ _ _ _ _ _ hcd hbl hlen _ _
    refine ⟨h, [], [], rfl, Nat.le_refl _, fun _ _ _ => rfl, ?_, ?_, ?_, ?_⟩
    · rw [hcd]
      have e : dblock.take i ++ [] = dblock := by
        rw [List.append_nil, List.take_of_length_le (by simp at hlen; omega)]
      rw [e, ← hbl]
    · rw [copy_num.list, trees_at]; exact ⟨rfl, rfl⟩
    · intro b hb; cases hb
    · exact List.nodup_nil
  · intro t ts iht ihts fuel h src dst cs cd sblock dblock i ps fp hcs hsb hdrop hts hwf hd
      hcd hdb hlen hdst hne
    rw [trees_at] at hts
    obtain ⟨p, ps1, f1, f2, hps, hfp, ht1, ht2⟩ := hts
    rw [well_formed.list] at hwf
    rw [depth.list] at hd
    rw [hfp, List.mem_append, not_or] at hdst
    rw [hps] at hdrop
    obtain ⟨hget, hdrop1⟩ := getElem?_of_drop hdrop
    have hlive2 := (tree_at_live h).2 ts ps1 f2 ht2
    have hdl := cell_lt_length hcd
    have hsl := cell_lt_length hcs
    obtain ⟨h1, f2a, hcp, hlen1, hsame1, hta, hge1, hnd1⟩ :=
      iht fuel h p f1 ht1 hwf.1 (by omega)
    have hlive1 := (tree_at_live h1).1 _ _ f2a hta
    obtain ⟨cd1, hcd1⟩ : ∃ x : num_cell, x
        = { cd with array_up := some (dblock.set i (.addr h.length)) } := ⟨_, rfl⟩
    obtain ⟨h2, hh2⟩ : ∃ x : num_heap, x = List.set h1 dst (some cd1) := ⟨_, rfl⟩
    have hlen2 : h2.length = h1.length := by rw [hh2]; simp
    have hw : write_entry h1 dst i (.addr h.length) = some h2 := by
      simp only [write_entry, hsame1 dst hdl, hcd, hdb]
      rw [if_pos (by simp only [List.length_cons] at hlen; omega), hh2, hcd1]
    have hcs2 : h2.cell src = some cs := by
      rw [hh2, cell_set_ne h1 dst src _ hne, hsame1 src hsl, hcs]
    have hcd2 : h2.cell dst = some cd1 := by
      rw [hh2]; exact cell_set_eq h1 dst _ (by omega)
    have ht2' : trees_at h2 ts ps1 f2 :=
      (tree_at_frame h h2).2 ts ps1 f2 ht2 (fun b hb => by
        obtain ⟨cb, hcb⟩ := hlive2 b hb
        have hbne : b ≠ dst := fun e => hdst.2 (e ▸ hb)
        rw [hh2, cell_set_ne h1 dst b _ hbne, hsame1 b (cell_lt_length hcb)])
    obtain ⟨h3, qs1, fp3, hl3, hlen3, hsame3, hcd3, hq3, hge3, hnd3⟩ :=
      ihts fuel h2 src dst cs cd1 sblock (dblock.set i (.addr h.length)) (i + 1) ps1 f2 hcs2 hsb
        hdrop1 ht2' hwf.2 (by omega) hcd2 (by rw [hcd1])
        (by simp only [List.length_set, List.length_cons] at hlen ⊢; omega) hdst.2 hne
    refine ⟨h3, .addr h.length :: qs1, f2a ++ fp3, ?_, by omega, ?_, ?_, ?_, ?_, ?_⟩
    · simp only [List.length_cons, copy_loop, read_entry, hcs, hsb, hget, hcp, hw]
      exact hl3
    · intro b hb hbne
      rw [hsame3 b (by omega) hbne, hh2, cell_set_ne h1 dst b _ hbne, hsame1 b hb]
    · rw [hcd3, hcd1]
      simp only [Option.some.injEq, num_cell.mk.injEq, true_and]
      rw [take_set_succ dblock i _ (by simp only [List.length_cons] at hlen; omega)]
      simp
    · rw [copy_num.list, trees_at]
      refine ⟨_, qs1, f2a, fp3, rfl, rfl, ?_, hq3⟩
      refine (tree_at_frame h1 h3).1 _ _ f2a hta (fun b hb => ?_)
      obtain ⟨cb, hcb⟩ := hlive1 b hb
      have hb1 := cell_lt_length hcb
      have hb2 := hge1 b hb
      have hbne : b ≠ dst := by omega
      rw [hsame3 b (by omega) hbne, hh2, cell_set_ne h1 dst b _ hbne]
    · intro b hb
      rcases List.mem_append.mp hb with hb | hb
      · exact hge1 b hb
      · have := hge3 b hb
        omega
    · rw [List.nodup_append]
      refine ⟨hnd1, hnd3, ?_⟩
      intro b hb1 hb3
      obtain ⟨cb, hcb⟩ := hlive1 b hb1
      have := cell_lt_length hcb
      have := hge3 b hb3
      omega

theorem realloc_length (block : Option (List ptr)) (n : Nat) :
    (FACT_realloc block n).length = n := by
  cases block with
  | none => simp [FACT_realloc, FACT_malloc]
  | some old =>
    simp only [FACT_realloc, List.length_append, List.length_take, List.length_replicate]
    omega

/-- The first loop of `FACT_set_num` frees the cells below `rop` and no other cell. -/
theorem set_num_free (h : num_heap) (rop : Nat) (R : FACT_num) (fpR : List Nat) (fuel : Nat)
    (hR : tree_at h R (.addr rop) fpR) (hwR : well_formed R) (hnd : fpR.Nodup)
    (hfuel : depth R ≤ fuel + 1) :
    ∃ cR h1, h.cell rop = some cR ∧ cR.name = R.name ∧
      free_loop (free_num fuel) rop cR.array_size 0 h = .done h1 ∧ h1.length = h.length ∧
      ∀ b, (b = rop ∨ b ∉ fpR) → h1.cell b = h.cell b := by
  obtain ⟨nR, vR, sR, upR⟩ := R
  rw [tree_at] at hR
  obtain ⟨a, cR, fR1, ha, hfp, hc, hn, _, hs, hbl⟩ := hR
  cases ha
  rw [well_formed] at hwR
  rw [depth] at hfuel
  rw [hfp, List.nodup_cons] at hnd
  cases upR with
  | none =>
    rw [well_formed.block] at hwR
    refine ⟨cR, h, hc, hn, ?_, rfl, fun _ _ => rfl⟩
    rw [hs, hwR, free_loop]
  | some l =>
    rw [well_formed.block] at hwR
    rw [depth.block] at hfuel
    rw [block_at] at hbl
    obtain ⟨ps, hps, hts⟩ := hbl
    obtain ⟨h1, hl, hlen, hsame⟩ := free_num_spec.2 l fuel h rop cR ps 0 ps fR1 hc hps rfl hts
      hwR.2.2 hnd.2 hnd.1 (by omega)
    refine ⟨cR, h1, hc, hn, ?_, hlen, ?_⟩
    · rw [hs, ← hwR.1, hl]
    · intro b hb
      apply hsame
      rcases hb with rfl | hb
      · exact hnd.1
      · intro hin
        exact hb (by rw [hfp]; exact List.mem_cons_of_mem _ hin)

/-- For two Numbers that do not overlap, `rop` with cells that are all different,
`FACT_set_num (rop, op)` returns, given enough recursion depth, and then: `rop` has the
value (with its tag) and the `array_size` of `op` and, as `array_up`, a copy of the
`array_up` of `op` in fresh cells (the copied cells carry the name of a fresh Number);
the name of `rop` is unchanged; `op` and every cell of its array subtree are unchanged;
and so is every cell that is not a cell of `rop`. -/
theorem set_num_deep_copy (h : num_heap) (rop op : Nat) (R O : FACT_num)
    (fpR fpO : List Nat) (fuel : Nat)
    (hR : tree_at h R (.addr rop) fpR) (hO : tree_at h O (.addr op) fpO)
    (hwR : well_formed R) (hwO : well_formed O)
    (hnd : fpR.Nodup) (hdis : ∀ b ∈ fpR, b ∉ fpO)
    (hfR : depth R ≤ fuel + 1) (hfO : depth O ≤ fuel + 1) :
    ∃ h1 fp2, FACT_set_num fuel h rop op = .done h1 ∧
      tree_at h1 (.mk R.name O.value O.array_size (copy_num.block O.array_up)) (.addr rop)
        (rop :: fp2) ∧
      (∀ b ∈ fp2, h.length ≤ b) ∧
      tree_at h1 O (.addr op) fpO ∧
      (∀ b ∈ fpO, h1.cell b = h.cell b) ∧
      (∀ b, b < h.length → b ∉ fpR → h1.cell b = h.cell b) := by
  obtain ⟨cR, h1, hcR, hnR, hfree, hlen1, hsame1⟩ := set_num_free h rop R fpR fuel hR hwR hnd hfR
  have hliveO := (tree_at_live h).1 O _ fpO hO
  have hropR : rop ∈ fpR := by
    obtain ⟨nR, vR, sR, upR⟩ := R
    rw [tree_at] at hR
    obtain ⟨a, _, fR1, ha, hfp, _⟩ := hR
    cases ha
    rw [hfp]; simp
  have hropO : rop ∉ fpO := hdis rop hropR
  have hnotR : ∀ b ∈ fpO, b ∉ fpR := fun b hb hbR => hdis b hbR hb
  obtain ⟨nO, vO, sO, upO⟩ := O
  have hO0 := hO
  rw [tree_at] at hO
  obtain ⟨a, cO, fO1, ha, hfpO, hcO, _, hvO, hsO, hblO⟩ := hO
  cases ha
  have hopO : op ∈ fpO := by rw [hfpO]; simp
  have hne : op ≠ rop := fun e => hropO (e ▸ hopO)
  have hcR1 : h1.cell rop = some cR := by rw [hsame1 rop (Or.inl rfl), hcR]
  have hcO1 : h1.cell op = some cO := by rw [hsame1 op (Or.inr (hnotR op hopO)), hcO]
  have hrl := cell_lt_length hcR
  rw [well_formed] at hwO
  rw [depth] at hfO
  simp only [FACT_num.name, FACT_num.value, FACT_num.array_size, FACT_num.array_up]
  cases upO with
  | none =>
    rw [well_formed.block] at hwO
    rw [block_at] at hblO
    obtain ⟨r3, hr3⟩ : ∃ x : num_cell, x
        = ⟨cR.name, mpc_set cR.value cO.value, cO.array_size, none⟩ := ⟨_, rfl⟩
    have hsame2 : ∀ b, b ≠ rop → num_heap.cell (List.set h1 rop (some r3)) b = h1.cell b :=
      fun b hb => cell_set_ne h1 rop b _ hb
    have hfO' : ∀ b ∈ fpO, num_heap.cell (List.set h1 rop (some r3)) b = h.cell b := by
      intro b hb
      rw [hsame2 b (fun e => hropO (e ▸ hb)), hsame1 b (Or.inr (hnotR b hb))]
    refine ⟨List.set h1 rop (some r3), [], ?_, ?_, ?_, ?_, hfO', ?_⟩
    · simp only [FACT_set_num, hcR, hfree, hcR1, hcO1, hsO, hwO, ne_eq, not_true_eq_false,
        if_false]
      rw [hr3, hsO, hwO]
    · rw [tree_at]
      refine ⟨rop, r3, [], rfl, rfl, cell_set_eq h1 rop _ (by omega), ?_, ?_, ?_, ?_⟩
      · rw [hr3]; exact hnR
      · rw [hr3]; simp only [mpc_set_eq]; exact hvO
      · rw [hr3]; exact hsO
      · rw [copy_num.block, block_at]
        exact ⟨by rw [hr3], rfl⟩
    · intro b hb; cases hb
    · exact (tree_at_frame h _).1 _ _ fpO hO0 hfO'
    · intro b _ hb
      rw [hsame2 b (fun e => hb (e ▸ hropR)), hsame1 b (Or.inr hb)]
  | some lO =>
    rw [well_formed.block] at hwO
    rw [depth.block] at hfO
    rw [block_at] at hblO
    obtain ⟨psO, hpsO, htsO⟩ := hblO
    have hliveO1 := (tree_at_live h).2 lO psO fO1 htsO
    obtain ⟨r3, hr3⟩ : ∃ x : num_cell, x
        = ⟨cR.name, mpc_set cR.value cO.value, cO.array_size,
            some (FACT_realloc cR.array_up cO.array_size)⟩ := ⟨_, rfl⟩
    obtain ⟨h2, hh2⟩ : ∃ x : num_heap, x = List.set h1 rop (some r3) := ⟨_, rfl⟩
    have hlen2 : h2.length = h.length := by rw [hh2]; simp [hlen1]
    have hsame2 : ∀ b, b ≠ rop → h2.cell b = h1.cell b := by
      intro b hb; rw [hh2]; exact cell_set_ne h1 rop b _ hb
    have hin1 : ∀ b ∈ fO1, b ∈ fpO := fun b hb => by rw [hfpO]; exact List.mem_cons_of_mem _ hb
    have hts2 : trees_at h2 lO psO fO1 :=
      (tree_at_frame h h2).2 lO psO fO1 htsO (fun b hb => by
        rw [hsame2 b (fun e => hropO (e ▸ hin1 b hb)),
          hsame1 b (Or.inr (hnotR b (hin1 b hb)))])
    have hcO2 : h2.cell op = some cO := by rw [hsame2 op hne, hcO1]
    have hcR2 : h2.cell rop = some r3 := by
      rw [hh2]; exact cell_set_eq h1 rop _ (by omega)
    obtain ⟨h3, qs, fp2, hl3, hlen3, hsame3, hcd3, hq3, hge3, _⟩ :=
      copy_num_spec.2 lO fuel h2 op rop cO r3 psO (FACT_realloc cR.array_up cO.array_size) 0
        psO fO1 hcO2 hpsO rfl hts2 hwO.2.2 (by omega) hcR2 (by rw [hr3])
        (by rw [realloc_length, hsO, hwO.1]; omega)
        (fun hin => hropO (hin1 rop hin)) hne
    have hfO' : ∀ b ∈ fpO, h3.cell b = h.cell b := by
      intro b hb
      obtain ⟨cb, hcb⟩ := hliveO b hb
      have hbl := cell_lt_length hcb
      have hbne : b ≠ rop := fun e => hropO (e ▸ hb)
      rw [hsame3 b (by omega) hbne, hsame2 b hbne, hsame1 b (Or.inr (hnotR b hb))]
    refine ⟨h3, fp2, ?_, ?_, ?_, ?_, hfO', ?_⟩
    · simp only [FACT_set_num, hcR, hfree, hcR1, hcO1]
      rw [if_pos (by rw [hsO]; exact hwO.2.1), ← hr3, ← hh2, hsO, ← hwO.1]
      exact hl3
    · rw [tree_at]
      refine ⟨rop, _, fp2, rfl, rfl, hcd3, ?_, ?_, ?_, ?_⟩
      · rw [hr3]; exact hnR
      · rw [hr3]; simp only [mpc_set_eq]; exact hvO
      · rw [hr3]; exact hsO
      · rw [copy_num.block, block_at]
        exact ⟨qs, by simp, hq3⟩
    · intro b hb
      have := hge3 b hb
      omega
    · exact (tree_at_frame h h3).1 _ _ fpO hO0 hfO'
    · intro b hbl hb
      have hbne : b ≠ rop := fun e => hb (e ▸ hropR)
      rw [hsame3 b (by omega) hbne, hsame2 b hbne, hsame1 b (Or.inr hb)]

/-- The assignment `a = b` in `example_heap`: the cells of `a` are freed, `a` gets the value
and the size of `b` and copies of the cells of `b` in fresh cells; `b` and its cells are
untouched. -/
theorem set_num_example :
    FACT_set_num 1 example_heap 0 3
      = .done [some ⟨"a".toList, .intv 0, 3, some [.addr 8, .addr 9, .addr 10]⟩, none, none,
          some ⟨"b".toList, .intv 0, 3, some [.addr 4, .addr 5, .addr 6]⟩,
          some (scalar_cell "b" 7), some (scalar_cell "b" 8), some (scalar_cell "b" 9),
          some (scalar_cell "c" 1),
          some (scalar_cell "" 7), some (scalar_cell "" 8), some (scalar_cell "" 9)] := by
  decide

/-! ## Groupings whose children carry no address operand -/

theorem load_children_code (all : List (Option inter_node)) :
    ∀ (cs : List (Option inter_node)) (i : Nat) (p : List fmt_t),
      (∀ c ∈ cs, loads c ∧ ∀ n, c = some n → up_free n) →
      load_children all cs i p = some (p ++ children_code cs p) := by
  intro cs
  induction cs with
  | nil => intro i p _; simp [load_children, children_code]
  | cons c cs ih =>
    intro i p h
    obtain ⟨hl, hf⟩ := h c (List.mem_cons_self _ _)
    have s := (code_at_spec hl hf (some (all, i)) p).1
    rw [load_children_cons_some s, ih (i + 1) _ (fun c1 h1 => h c1 (List.mem_cons_of_mem _ h1))]
    simp [children_code]

theorem loads_of_compile {o : Option FACT_tree} {k : Option inter_node}
    (hk : compile_tree_opt o = some k) : loads k ∧ ∀ n, k = some n → up_free n := by
  refine ⟨compile_tree_opt_loads (fun t _ => compile_tree_loads t) hk, ?_⟩
  intro n hn
  subst hn
  cases o with
  | none => rw [compile_tree_opt] at hk; cases hk
  | some t =>
    rw [compile_tree_opt] at hk
    cases hc : compile_tree t with
    | none => rw [hc] at hk; cases hk
    | some m =>
      rw [hc] at hk
      cases hk
      exact compile_tree_up_free t n hc

theorem loads_inode_plain (op : Furlow_opcode) (args : List arg_t)
    (h : (mk_inst op args).args.all (fun a => !a.is_addr) = true) :
    loads (inode op args) ∧ ∀ n, inode op args = some n → up_free n := by
  refine ⟨fun up prog => @inode_no_addr op args up h prog, ?_⟩
  intro n hn
  rw [inode] at hn
  cases hn
  exact h

theorem code_at_inode (op : Furlow_opcode) (args : List arg_t) (p : List fmt_t)
    (bytes : List Nat) (h : load.args none p.length (mk_inst op args).args [] = some bytes) :
    code_at (inode op args) p = [⟨op, bytes⟩] := by
  rw [code_at, load_opt_inode h]
  simp

theorem code_at_of_compile {o : Option FACT_tree} {k : Option inter_node}
    (hk : compile_tree_opt o = some k) (p : List fmt_t) : code_at k p = code o p := by
  rw [code, hk]

/-- A grouping whose children carry no address operand loads to the code of its children,
one after the other, followed by the code of its `next` chain. -/
theorem load_grouping_code (ch : List (Option inter_node)) (nx : Option inter_node)
    (hch : ∀ c ∈ ch, loads c ∧ ∀ n, c = some n → up_free n)
    (hnx : loads nx ∧ ∀ n, nx = some n → up_free n)
    (up : Option (List (Option inter_node) × Nat)) (p : List fmt_t) :
    load (.grouping ch nx) up p
      = some (p ++ children_code ch p ++ code_at nx (p ++ children_code ch p)) := by
  rw [load, load_children_code ch ch 0 p hch]
  simp only
  rw [(code_at_spec hnx.1 hnx.2 none _).1]

/-! ## Binary arithmetic and comparison -/

theorem compile_binary (id : FACT_nterm_t) (op : Furlow_opcode)
    (hid : (id, op) ∈ [(FACT_nterm_t.E_ADD, Furlow_opcode.ADD), (.E_SUB, .SUB), (.E_MUL, .MUL),
      (.E_DIV, .DIV), (.E_MOD, .MOD), (.E_NE, .CNE), (.E_EQ, .CEQ), (.E_MT, .CMT),
      (.E_ME, .CME), (.E_LT, .CLT), (.E_LE, .CLE)])
    (lexem : List Char) (c0 c1 c2 c3 next : Option FACT_tree) (n : inter_node)
    (hc : compile_tree (.mk id lexem c0 c1 c2 c3 next) = some n) :
    ∃ k1 k2 knext, compile_tree_opt c1 = some k1 ∧ compile_tree_opt c0 = some k2 ∧
      compile_tree_opt next = some knext ∧
      n = .grouping
        [inode .CONST [.LABEL "0".toList], k1, k2,
         inode op [.REG_VAL R_POP, .REG_VAL R_POP, .REG_VAL R_TOP]] knext := by
  simp only [List.mem_cons, Prod.mk.injEq, List.mem_singleton, List.not_mem_nil, or_false] at hid
  rcases hid with h | h | h | h | h | h | h | h | h | h | h
  all_goals obtain ⟨rfl, rfl⟩ := h
  all_goals simp only [compile_tree] at hc
  all_goals split at hc
  all_goals cases hc
  all_goals rename_i res nx hr hnx
  all_goals simp only [Option.bind_eq_bind, Option.bind_eq_some, Option.some.injEq,
    lookup_table] at hr
  all_goals obtain ⟨k1, e1, k2, e2, _, rfl, rfl⟩ := hr
  all_goals exact ⟨k1, k2, nx, e1, e2, hnx, rfl⟩

/-- The code emitted for a binary arithmetic or comparison node: `CONST "0"`, the code of
`children[1]`, the code of `children[0]`, the operation on `R_POP R_POP R_TOP`, then the
code of the `next` chain. -/
theorem binary_layout (id : FACT_nterm_t) (op : Furlow_opcode)
    (hid : (id, op) ∈ [(FACT_nterm_t.E_ADD, Furlow_opcode.ADD), (.E_SUB, .SUB), (.E_MUL, .MUL),
      (.E_DIV, .DIV), (.E_MOD, .MOD), (.E_NE, .CNE), (.E_EQ, .CEQ), (.E_MT, .CMT),
      (.E_ME, .CME), (.E_LT, .CLT), (.E_LE, .CLE)])
    (lexem : List Char) (c0 c1 c2 c3 next : Option FACT_tree) (n : inter_node)
    (hc : compile_tree (.mk id lexem c0 c1 c2 c3 next) = some n) (prog : List fmt_t) :
    ∃ code_1 code_0 code_next,
      code_1 = code c1 (prog ++ [⟨.CONST, [48, 0]⟩]) ∧
      code_0 = code c0 (prog ++ [⟨.CONST, [48, 0]⟩] ++ code_1) ∧
      code_next = code next
        (prog ++ [⟨.CONST, [48, 0]⟩] ++ code_1 ++ code_0 ++ [⟨op, [R_POP, R_POP, R_TOP]⟩]) ∧
      load n none prog
        = some (prog ++ [⟨.CONST, [48, 0]⟩] ++ code_1 ++ code_0
            ++ [⟨op, [R_POP, R_POP, R_TOP]⟩] ++ code_next) := by
  obtain ⟨k1, k2, knext, e1, e0, en, rfl⟩ := compile_binary id op hid lexem c0 c1 c2 c3 next n hc
  refine ⟨_, _, _, rfl, rfl, rfl, ?_⟩
  rw [load_grouping_code _ _ _ (loads_of_compile en)]
  · simp only [children_code, code_at_of_compile e1, code_at_of_compile e0,
      code_at_of_compile en,
      code_at_inode .CONST [.LABEL "0".toList] _ [48, 0] (by simp [mk_inst, inst_t.args, load.args]),
      code_at_inode op [.REG_VAL R_POP, .REG_VAL R_POP, .REG_VAL R_TOP] _ [R_POP, R_POP, R_TOP]
        (by simp [mk_inst, inst_t.args, load.args]),
      List.append_nil, List.append_assoc]
  · intro c hcm
    simp only [List.mem_cons, List.mem_singleton, List.not_mem_nil, or_false] at hcm
    rcases hcm with rfl | rfl | rfl | rfl
    · exact loads_inode_plain _ _ (by decide)
    · exact loads_of_compile e1
    · exact loads_of_compile e0
    · exact loads_inode_plain _ _ rfl

/-- C22: binary arithmetic and comparison. The parser makes the left operand `l` the first
child and the right operand `r` the second child of the operator node; the node compiles
exactly when both operands and its `next` chain do, and the code emitted for it is
`CONST "0"`, the code of `r`, the code of `l`, then `OP R_POP R_POP R_TOP` with `OP` given by
the table `+ ADD`, `- SUB`, `* MUL`, `/ DIV`, `% MOD`, `!= CNE`, `== CEQ`, `> CMT`, `>= CME`,
`< CLT`, `<= CLE` (followed by the code of the `next` chain, if any): the code of the right
operand always precedes the code of the left operand. -/
theorem binary_operand_order (id : FACT_nterm_t) (op : Furlow_opcode)
    (hid : (id, op) ∈ [(FACT_nterm_t.E_ADD, Furlow_opcode.ADD), (.E_SUB, .SUB), (.E_MUL, .MUL),
      (.E_DIV, .DIV), (.E_MOD, .MOD), (.E_NE, .CNE), (.E_EQ, .CEQ), (.E_MT, .CMT),
      (.E_ME, .CME), (.E_LT, .CLT), (.E_LE, .CLE)])
    (lexem : List Char) (l r : FACT_tree) (next : Option FACT_tree) (prog : List fmt_t) :
    term.node (accept.node id lexem) l r = .mk id lexem (some l) (some r) none none none ∧
    ((compile_tree (.mk id lexem (some l) (some r) none none next)).isSome = true ↔
      ((compile_tree l).isSome = true ∧ (compile_tree r).isSome = true ∧
        (compile_tree_opt next).isSome = true)) ∧
    ∀ n : inter_node,
      compile_tree (.mk id lexem (some l) (some r) none none next) = some n →
      ∃ code_r code_l code_next,
        code_r = code (some r) (prog ++ [⟨.CONST, [48, 0]⟩]) ∧
        code_l = code (some l) (prog ++ [⟨.CONST, [48, 0]⟩] ++ code_r) ∧
        code_next = code next
          (prog ++ [⟨.CONST, [48, 0]⟩] ++ code_r ++ code_l ++ [⟨op, [R_POP, R_POP, R_TOP]⟩]) ∧
        load n none prog
          = some (prog ++ [⟨.CONST, [48, 0]⟩] ++ code_r ++ code_l
              ++ [⟨op, [R_POP, R_POP, R_TOP]⟩] ++ code_next) := by
  refine ⟨rfl, ?_, fun n hc => binary_layout id op hid lexem _ _ none none next n hc prog⟩
  simp only [List.mem_cons, Prod.mk.injEq, List.mem_singleton, List.not_mem_nil, or_false] at hid
  rcases hid with h | h | h | h | h | h | h | h | h | h | h
  all_goals obtain ⟨rfl, rfl⟩ := h
  all_goals simp only [compile_tree, compile_tree_opt, lookup_table, Option.bind_eq_bind]
  all_goals cases compile_tree l <;> cases compile_tree r <;> cases compile_tree_opt next <;> simp

theorem binary_operand_order_witness :
    example_sub = .mk .E_SUB "-".toList (some (tree_var "a")) (some (tree_var "b"))
      none none none ∧
    FACT_compile (some example_sub) []
      = some [⟨.CONST, [48, 0]⟩, ⟨.VAR, [98, 0]⟩, ⟨.VAR, [97, 0]⟩, ⟨.SUB, [0, 0, 1]⟩] ∧
    ∃ code_r code_l code_next,
      code_r = code (some (tree_var "b")) ([] ++ [⟨.CONST, [48, 0]⟩]) ∧
      code_l = code (some (tree_var "a")) ([] ++ [⟨.CONST, [48, 0]⟩] ++ code_r) ∧
      code_next = code none
        ([] ++ [⟨.CONST, [48, 0]⟩] ++ code_r ++ code_l ++ [⟨.SUB, [R_POP, R_POP, R_TOP]⟩]) ∧
      load (.grouping
          [inode .CONST [.LABEL "0".toList], inode .VAR [.LABEL "b".toList],
           inode .VAR [.LABEL "a".toList],
           inode .SUB [.REG_VAL R_POP, .REG_VAL R_POP, .REG_VAL R_TOP]] none) none []
        = some ([] ++ [⟨.CONST, [48, 0]⟩] ++ code_r ++ code_l
            ++ [⟨.SUB, [R_POP, R_POP, R_TOP]⟩] ++ code_next) :=
  ⟨rfl, by decide,
    (binary_operand_order .E_SUB .SUB (by decide) "-".toList (tree_var "a") (tree_var "b")
      none []).2.2 _ rfl⟩

/-! ## Compound assignment -/

theorem compile_compound (id : FACT_nterm_t) (op : Furlow_opcode)
    (hid : (id, op) ∈ [(FACT_nterm_t.E_ADD_AS, Furlow_opcode.ADD), (.E_SUB_AS, .SUB),
      (.E_MUL_AS, .MUL), (.E_DIV_AS, .DIV), (.E_MOD_AS, .MOD)])
    (lexem : List Char) (c0 c1 c2 c3 next : Option FACT_tree) (n : inter_node)
    (hc : compile_tree (.mk id lexem c0 c1 c2 c3 next) = some n) :
    ∃ k0 k1 knext, compile_tree_opt c1 = some k0 ∧ compile_tree_opt c0 = some k1 ∧
      compile_tree_opt next = some knext ∧
      n = .grouping
        [k0, k1, inode .REF [.REG_VAL R_TOP, .REG_VAL R_A], inode .SWAP [],
         inode op [.REG_VAL R_A, .REG_VAL R_POP, .REG_VAL R_TOP]] knext := by
  simp only [List.mem_cons, Prod.mk.injEq, List.mem_singleton, List.not_mem_nil, or_false] at hid
  rcases hid with h | h | h | h | h
  all_goals obtain ⟨rfl, rfl⟩ := h
  all_goals simp only [compile_tree] at hc
  all_goals split at hc
  all_goals cases hc
  all_goals rename_i res nx hr hnx
  all_goals simp only [Option.bind_eq_bind, Option.bind_eq_some, Option.some.injEq,
    lookup_table] at hr
  all_goals obtain ⟨k1, e1, k2, e2, _, rfl, rfl⟩ := hr
  all_goals exact ⟨k1, k2, nx, e1, e2, hnx, rfl⟩

/-- The code emitted for a compound assignment node: the code of `children[1]`, the code of
`children[0]`, `REF R_TOP R_A`, `SWAP`, the operation on `R_A R_POP R_TOP`, then the code of
the `next` chain. -/
theorem compound_layout (id : FACT_nterm_t) (op : Furlow_opcode)
    (hid : (id, op) ∈ [(FACT_nterm_t.E_ADD_AS, Furlow_opcode.ADD), (.E_SUB_AS, .SUB),
      (.E_MUL_AS, .MUL), (.E_DIV_AS, .DIV), (.E_MOD_AS, .MOD)])
    (lexem : List Char) (c0 c1 c2 c3 next : Option FACT_tree) (n : inter_node)
    (hc : compile_tree (.mk id lexem c0 c1 c2 c3 next) = some n) (prog : List fmt_t) :
    ∃ code_1 code_0 code_next,
      code_1 = code c1 prog ∧
      code_0 = code c0 (prog ++ code_1) ∧
      code_next = code next
        (prog ++ code_1 ++ code_0
          ++ [⟨.REF, [R_TOP, R_A]⟩, ⟨.SWAP, []⟩, ⟨op, [R_A, R_POP, R_TOP]⟩]) ∧
      load n none prog
        = some (prog ++ code_1 ++ code_0
            ++ [⟨.REF, [R_TOP, R_A]⟩, ⟨.SWAP, []⟩, ⟨op, [R_A, R_POP, R_TOP]⟩] ++ code_next) := by
  obtain ⟨k0, k1, knext, e1, e0, en, rfl⟩ :=
    compile_compound id op hid lexem c0 c1 c2 c3 next n hc
  refine ⟨_, _, _, rfl, rfl, rfl, ?_⟩
  rw [load_grouping_code _ _ _ (loads_of_compile en)]
  · simp only [children_code, code_at_of_compile e1, code_at_of_compile e0,
      code_at_of_compile en,
      code_at_inode .REF [.REG_VAL R_TOP, .REG_VAL R_A] _ [R_TOP, R_A]
        (by simp [mk_inst, inst_t.args, load.args]),
      code_at_inode .SWAP [] _ [] (by simp [mk_inst, inst_t.args, load.args]),
      code_at_inode op [.REG_VAL R_A, .REG_VAL R_POP, .REG_VAL R_TOP] _ [R_A, R_POP, R_TOP]
        (by simp [mk_inst, inst_t.args, load.args]),
      List.append_nil, List.append_assoc, List.cons_append, List.nil_append]
  · intro c hcm
    simp only [List.mem_cons, List.mem_singleton, List.not_mem_nil, or_false] at hcm
    rcases hcm with rfl | rfl | rfl | rfl | rfl
    · exact loads_of_compile e1
    · exact loads_of_compile e0
    · exact loads_inode_plain _ _ rfl
    · exact loads_inode_plain _ _ rfl
    · exact loads_inode_plain _ _ rfl

/-- What the three instructions after the code of the value and of the target do: with the
target `X` on top of the stack and the value `E` under it, the operation reads `X` through
`R_A` and `E` through `R_POP` and writes to `X`, which stays on top of the stack. -/
theorem compound_tail_run (op : Furlow_opcode)
    (hop : op ∈ [Furlow_opcode.ADD, .SUB, .MUL, .DIV, .MOD]) (s : sym_arith)
    (X E : sym_val) (rest : List sym_val) (hs : s.state.vstack = X :: E :: rest) :
    sym_exec_run (compound_tail op) s
      = some
          { state := { s.state with
              vstack := X :: rest,
              registers := fun r => if r = R_A then some X else s.state.registers r },
            computed := (op, X, E, X) :: s.computed } := by
  obtain ⟨⟨vs, regs, cs, cr, sto⟩, comp⟩ := s
  simp only at hs
  subst hs
  simp only [List.mem_cons, List.mem_singleton, List.not_mem_nil, or_false] at hop
  rcases hop with rfl | rfl | rfl | rfl | rfl
  all_goals simp [compound_tail, sym_exec_run, sym_exec, sym_step, sym_read, sym_write, mk_inst,
    R_A, R_POP, R_TOP]

/-- C23: compound assignment. For `x op= e` (`op` one of `+ - * / %`) the parser makes the
target `x` the first child and the value `e` the second; the node compiles exactly when
both and its `next` chain do, and the code emitted for it is the code of `e`, the code of
`x`, `REF R_TOP R_A`, `SWAP`, `OP R_A R_POP R_TOP` with `OP` the arithmetic opcode of `op`
(followed by the code of the `next` chain, if any). Reading `REF`, `SWAP` and the operand
registers as the instruction table does, with the target `X` on top of the stack and the
value `E` under it when the three instructions start, the first operand (`R_A`) is the
target `X`, the popped operand is the value `E`, and the destination, the remaining stack
top, is the target `X`. -/
theorem compound_assignment_sequence (id : FACT_nterm_t) (op : Furlow_opcode)
    (hid : (id, op) ∈ [(FACT_nterm_t.E_ADD_AS, Furlow_opcode.ADD), (.E_SUB_AS, .SUB),
      (.E_MUL_AS, .MUL), (.E_DIV_AS, .DIV), (.E_MOD_AS, .MOD)])
    (lexem : List Char) (x e : FACT_tree) (next : Option FACT_tree) (prog : List fmt_t) :
    term.node (accept.node id lexem) x e = .mk id lexem (some x) (some e) none none none ∧
    ((compile_tree (.mk id lexem (some x) (some e) none none next)).isSome = true ↔
      ((compile_tree x).isSome = true ∧ (compile_tree e).isSome = true ∧
        (compile_tree_opt next).isSome = true)) ∧
    (∀ n : inter_node,
      compile_tree (.mk id lexem (some x) (some e) none none next) = some n →
      ∃ code_e code_x code_next,
        code_e = code (some e) prog ∧
        code_x = code (some x) (prog ++ code_e) ∧
        code_next = code next
          (prog ++ code_e ++ code_x
            ++ [⟨.REF, [R_TOP, R_A]⟩, ⟨.SWAP, []⟩, ⟨op, [R_A, R_POP, R_TOP]⟩]) ∧
        load n none prog
          = some (prog ++ code_e ++ code_x
              ++ [⟨.REF, [R_TOP, R_A]⟩, ⟨.SWAP, []⟩, ⟨op, [R_A, R_POP, R_TOP]⟩]
              ++ code_next)) ∧
    (compound_tail op).map plain_code
      = [⟨.REF, [R_TOP, R_A]⟩, ⟨.SWAP, []⟩, ⟨op, [R_A, R_POP, R_TOP]⟩] ∧
    ∀ (s : sym_arith) (X E : sym_val) (rest : List sym_val),
      s.state.vstack = X :: E :: rest →
      sym_exec_run (compound_tail op) s
        = some
            { state := { s.state with
                vstack := X :: rest,
                registers := fun r => if r = R_A then some X else s.state.registers r },
              computed := (op, X, E, X) :: s.computed } := by
  refine ⟨rfl, ?_, fun n hc => compound_layout id op hid lexem _ _ none none next n hc prog,
    by simp [compound_tail, plain_code, mk_inst, inst_t.args, load.args], ?_⟩
  · simp only [List.mem_cons, Prod.mk.injEq, List.mem_singleton, List.not_mem_nil,
      or_false] at hid
    rcases hid with h | h | h | h | h
    all_goals obtain ⟨rfl, rfl⟩ := h
    all_goals simp only [compile_tree, compile_tree_opt, lookup_table, Option.bind_eq_bind]
    all_goals cases compile_tree x <;> cases compile_tree e <;> cases compile_tree_opt next
      <;> simp
  · intro s X E rest hs
    apply compound_tail_run op _ s X E rest hs
    simp only [List.mem_cons, Prod.mk.injEq, List.mem_singleton, List.not_mem_nil,
      or_false] at hid ⊢
    rcases hid with h | h | h | h | h
    all_goals obtain ⟨rfl, rfl⟩ := h
    all_goals simp

theorem compound_assignment_sequence_witness :
    example_add_as = .mk .E_ADD_AS "+=".toList (some (tree_var "x")) (some (tree_var "e"))
      none none none ∧
    FACT_compile (some example_add_as) []
      = some [⟨.VAR, [101, 0]⟩, ⟨.VAR, [120, 0]⟩, ⟨.REF, [1, 6]⟩, ⟨.SWAP, []⟩,
          ⟨.ADD, [6, 0, 1]⟩] ∧
    sym_exec_run (compound_tail .ADD)
        ⟨⟨[.given 1, .given 2, .given 3], fun _ => none, [.given 0], 0, []⟩, []⟩
      = some
          ⟨⟨[.given 1, .given 3], fun r => if r = R_A then some (.given 1) else none,
            [.given 0], 0, []⟩, [(.ADD, .given 1, .given 2, .given 1)]⟩ :=
  ⟨rfl, by decide,
    (compound_assignment_sequence .E_ADD_AS .ADD (by decide) "+=".toList (tree_var "x")
      (tree_var "e") none []).2.2.2.2
      ⟨⟨[.given 1, .given 2, .given 3], fun _ => none, [.given 0], 0, []⟩, []⟩
      (.given 1) (.given 2) [.given 3] rfl⟩

/-! ## The `next` chain -/

theorem compile_tree_res (id : FACT_nterm_t) (lexem : List Char)
    (c0 c1 c2 c3 : Option FACT_tree) :
    ∃ res : Option inter_node, ∀ next : Option FACT_tree,
      compile_tree (.mk id lexem c0 c1 c2 c3 next)
        = (match res, compile_tree_opt next with
          | some r, some nx => some (r.set_next nx)
          | _, _ => none) :=
  ⟨_, fun next => (compile_tree.eq_def (.mk id lexem c0 c1 c2 c3 next)).trans rfl⟩

theorem set_next_set_next (r : inter_node) (a b : Option inter_node) :
    (r.set_next a).set_next b = r.set_next b := by
  cases r <;> rfl

theorem load_set_next (r : inter_node) (nx : Option inter_node)
    (up : Option (List (Option inter_node) × Nat)) (p : List fmt_t) :
    load (r.set_next nx) up p = (load (r.set_next none) up p).bind (load_opt nx none) := by
  cases r with
  | instruction inst next =>
    simp only [inter_node.set_next, load]
    cases load.inst inst up (Furlow_offset p) <;> simp [load_opt]
  | grouping ch next =>
    simp only [inter_node.set_next, load]
    cases load_children ch ch 0 p <;> simp [load_opt]

/-- The compiled form of a node is that of the node without its `next` chain, with the
compiled `next` chain linked to it. -/
theorem compile_tree_next (id : FACT_nterm_t) (lexem : List Char)
    (c0 c1 c2 c3 next : Option FACT_tree) :
    compile_tree (.mk id lexem c0 c1 c2 c3 next)
      = (match compile_tree (.mk id lexem c0 c1 c2 c3 none), compile_tree_opt next with
        | some r, some nx => some (r.set_next nx)
        | _, _ => none) := by
  obtain ⟨res, h⟩ := compile_tree_res id lexem c0 c1 c2 c3
  rw [h next, h none]
  cases res with
  | none => simp
  | some r =>
    cases compile_tree_opt next with
    | none => simp [compile_tree_opt]
    | some nx => simp [compile_tree_opt, set_next_set_next]

theorem compile_tree_next_isSome (id : FACT_nterm_t) (lexem : List Char)
    (c0 c1 c2 c3 next : Option FACT_tree) :
    (compile_tree (.mk id lexem c0 c1 c2 c3 next)).isSome = true ↔
      ((compile_tree (.mk id lexem c0 c1 c2 c3 none)).isSome = true ∧
        (compile_tree_opt next).isSome = true) := by
  rw [compile_tree_next]
  cases compile_tree (.mk id lexem c0 c1 c2 c3 none) <;> cases compile_tree_opt next <;> simp

/-- The code of a node is the code of the node without its `next` chain, followed by the
code of the `next` chain. -/
theorem code_next (id : FACT_nterm_t) (lexem : List Char)
    (c0 c1 c2 c3 next : Option FACT_tree)
    (h : (compile_tree (.mk id lexem c0 c1 c2 c3 next)).isSome = true) (prog : List fmt_t) :
    code (some (.mk id lexem c0 c1 c2 c3 next)) prog
      = code (some (.mk id lexem c0 c1 c2 c3 none)) prog
        ++ code next (prog ++ code (some (.mk id lexem c0 c1 c2 c3 none)) prog) := by
  rw [compile_tree_next] at h
  cases h0 : compile_tree (.mk id lexem c0 c1 c2 c3 none) with
  | none => rw [h0] at h; simp at h
  | some r =>
    cases hn : compile_tree_opt next with
    | none => rw [h0, hn] at h; simp at h
    | some nx =>
      have e0 : compile_tree_opt (some (.mk id lexem c0 c1 c2 c3 none)) = some (some r) := by
        rw [compile_tree_opt, h0]
      have e1 : compile_tree_opt (some (.mk id lexem c0 c1 c2 c3 next))
          = some (some (r.set_next nx)) := by
        rw [compile_tree_opt, compile_tree_next, h0, hn]
      have s0 := (load_code e0 none prog).1
      have sn := (load_code hn none (prog ++ code (some (.mk id lexem c0 c1 c2 c3 none)) prog)).1
      have s1 := (load_code e1 none prog).1
      rw [load_opt] at s0 s1
      have hr : r.set_next none = r := by
        obtain ⟨res, hres⟩ := compile_tree_res id lexem c0 c1 c2 c3
        rw [hres none] at h0
        cases res with
        | none => simp at h0
        | some r0 =>
          simp only [compile_tree_opt, Option.some.injEq] at h0
          rw [← h0, set_next_set_next]
      rw [load_set_next, hr, s0, Option.some_bind, sn] at s1
      simp only [Option.some.injEq, List.append_assoc, List.append_cancel_left_eq] at s1
      exact s1.symm

theorem code_none (prog : List fmt_t) : code none prog = [] := by
  simp [code, compile_tree_opt, code_at, load_opt]

theorem count_dims_link (es : List FACT_tree) : count_dims (link es) = es.length := by
  induction es with
  | nil => simp [link, count_dims]
  | cons e rest ih =>
    obtain ⟨id, lexem, c0, c1, c2, c3, next⟩ := e
    simp [link, FACT_tree.set_next, count_dims, ih]

theorem compile_link_isSome (es : List FACT_tree) (hes : ∀ e ∈ es, e.next = none) :
    (compile_tree_opt (link es)).isSome = true ↔ ∀ e ∈ es, (compile_tree e).isSome = true := by
  induction es with
  | nil => simp [link, compile_tree_opt]
  | cons e rest ih =>
    have hr := ih (fun x hx => hes x (List.mem_cons_of_mem _ hx))
    have he := hes e (List.mem_cons_self _ _)
    obtain ⟨id, lexem, c0, c1, c2, c3, next⟩ := e
    simp only [FACT_tree.next] at he
    subst he
    have h1 : (compile_tree_opt (link (.mk id lexem c0 c1 c2 c3 none :: rest))).isSome
        = (compile_tree (.mk id lexem c0 c1 c2 c3 (link rest))).isSome := by
      simp only [link, FACT_tree.set_next, compile_tree_opt]
      cases compile_tree (.mk id lexem c0 c1 c2 c3 (link rest)) <;> rfl
    rw [h1, compile_tree_next_isSome, hr]
    simp

/-- The code of a chain is the code of its trees, one after the other. -/
theorem code_link (es : List FACT_tree) (hes : ∀ e ∈ es, e.next = none)
    (h : (compile_tree_opt (link es)).isSome = true) (prog : List fmt_t) :
    code (link es) prog = codes es prog := by
  induction es generalizing prog with
  | nil => simp [link, codes, code_none]
  | cons e rest ih =>
    have hr := fun x hx => hes x (List.mem_cons_of_mem e hx)
    have he := hes e (List.mem_cons_self _ _)
    have hall := (compile_link_isSome _ hes).1 h
    have hrest : (compile_tree_opt (link rest)).isSome = true :=
      (compile_link_isSome rest hr).2 (fun x hx => hall x (List.mem_cons_of_mem _ hx))
    obtain ⟨id, lexem, c0, c1, c2, c3, next⟩ := e
    simp only [FACT_tree.next] at he
    subst he
    have hc : (compile_tree (.mk id lexem c0 c1 c2 c3 (link rest))).isSome = true :=
      (compile_tree_next_isSome _ _ _ _ _ _ _).2
        ⟨hall _ (List.mem_cons_self _ _), hrest⟩
    simp only [link, FACT_tree.set_next, codes]
    rw [code_next _ _ _ _ _ _ _ hc, ih hr hrest]

/-! ## The dimension count as a decimal string -/

theorem digitChar_eq (d : Nat) (h : d < 10) : Nat.digitChar d = Char.ofNat (d + '0'.toNat) := by
  interval_cases d <;> rfl

theorem toDigitsCore_eq_digits : ∀ (fuel n : Nat) (ds : List Char), n < fuel →
    Nat.toDigitsCore 10 fuel n ds = (dims_str.digits n).reverse ++ ds := by
  intro fuel
  induction fuel with
  | zero => intro n ds h; omega
  | succ f ih =>
    intro n ds h
    rw [Nat.toDigitsCore, dims_str.digits]
    rw [digitChar_eq _ (Nat.mod_lt _ (by norm_num))]
    by_cases h0 : n / 10 = 0
    · simp [h0]
    · have hpos : n / 10 > 0 := Nat.pos_of_ne_zero h0
      rw [if_neg h0, if_pos hpos, ih (n / 10) _ (by omega)]
      simp

/-- The label `dims_str` is the decimal representation of the count: its digits, most
significant first, without leading zero, and `"0"` for 0. -/
theorem dims_str_eq_toDigits (n : Nat) : dims_str n = Nat.toDigits 10 n := by
  rw [Nat.toDigits, toDigitsCore_eq_digits _ _ _ (Nat.lt_succ_self n), dims_str]
  simp

/-! ## Declarations -/

theorem count_dims_eq_zero (o : Option FACT_tree) : count_dims o = 0 ↔ o = none := by
  cases o with
  | none => simp [count_dims]
  | some t =>
    obtain ⟨id, lexem, c0, c1, c2, c3, next⟩ := t
    simp [count_dims]

theorem compile_decl (id : FACT_nterm_t) (op : Furlow_opcode)
    (hid : (id, op) ∈ [(FACT_nterm_t.E_NUM_DEF, Furlow_opcode.DEF_N), (.E_SCOPE_DEF, .DEF_S)])
    (lexem : List Char) (c0 c2 c3 next : Option FACT_tree) (name : FACT_tree) (n : inter_node)
    (hc : compile_tree (.mk id lexem c0 (some name) c2 c3 next) = some n) :
    (∃ k0 knext, compile_tree_opt c0 = some k0 ∧ compile_tree_opt next = some knext ∧
      n = .grouping
        [k0, inode .CONST [.LABEL (dims_str (count_dims c0))],
         inode op [.REG_VAL R_POP, .LABEL name.lexem]] knext) ∨
    (c0 = none ∧ ∃ knext, compile_tree_opt next = some knext ∧
      n = .grouping
        [inode .CONST [.LABEL "0".toList],
         inode op [.REG_VAL R_POP, .LABEL name.lexem]] knext) := by
  obtain ⟨vid, vname, v0, v1, v2, v3, vn⟩ := name
  simp only [List.mem_cons, Prod.mk.injEq, List.mem_singleton, List.not_mem_nil, or_false] at hid
  rcases hid with h | h
  all_goals obtain ⟨rfl, rfl⟩ := h
  all_goals simp only [compile_tree] at hc
  all_goals split at hc
  all_goals cases hc
  all_goals rename_i res nx hr hnx
  all_goals split_ifs at hr
  all_goals try contradiction
  all_goals simp only [Option.bind_eq_bind, Option.bind_eq_some, Option.some.injEq] at hr
  all_goals first
    | exact Or.inr ⟨(count_dims_eq_zero c0).1 (by assumption), nx, hnx, by rw [← hr]; rfl⟩
    | (obtain ⟨k0, e0, rfl⟩ := hr; exact Or.inl ⟨k0, nx, e0, hnx, rfl⟩)

theorem load_args_reg_label (off r : Nat) (op : Furlow_opcode) (label : List Char) :
    load.args none off (mk_inst op [.REG_VAL r, .LABEL label]).args []
      = some (r :: (label.map Char.toNat ++ [0])) := by
  simp [mk_inst, inst_t.args, load.args]

theorem load_args_label (off : Nat) (op : Furlow_opcode) (label : List Char) :
    load.args none off (mk_inst op [.LABEL label]).args []
      = some (label.map Char.toNat ++ [0]) := by
  simp [mk_inst, inst_t.args, load.args]

/-- The code emitted for a declaration node: the code of `children[0]`, `CONST` with the
dimension count as label, `DEF_N` or `DEF_S` on `R_POP` with the lexeme of `children[1]` as
label, then the code of the `next` chain. -/
theorem decl_layout (id : FACT_nterm_t) (op : Furlow_opcode)
    (hid : (id, op) ∈ [(FACT_nterm_t.E_NUM_DEF, Furlow_opcode.DEF_N), (.E_SCOPE_DEF, .DEF_S)])
    (lexem : List Char) (c0 c2 c3 next : Option FACT_tree) (name : FACT_tree) (n : inter_node)
    (hc : compile_tree (.mk id lexem c0 (some name) c2 c3 next) = some n) (prog : List fmt_t) :
    ∃ code_0 code_next,
      code_0 = code c0 prog ∧
      code_next = code next
        (prog ++ code_0
          ++ [⟨.CONST, (dims_str (count_dims c0)).map Char.toNat ++ [0]⟩,
              ⟨op, R_POP :: (name.lexem.map Char.toNat ++ [0])⟩]) ∧
      load n none prog
        = some (prog ++ code_0
            ++ [⟨.CONST, (dims_str (count_dims c0)).map Char.toNat ++ [0]⟩,
                ⟨op, R_POP :: (name.lexem.map Char.toNat ++ [0])⟩] ++ code_next) := by
  refine ⟨_, _, rfl, rfl, ?_⟩
  rcases compile_decl id op hid lexem c0 c2 c3 next name n hc with
    ⟨k0, knext, e0, en, rfl⟩ | ⟨rfl, knext, en, rfl⟩
  · rw [load_grouping_code _ _ _ (loads_of_compile en)]
    · simp only [children_code, code_at_of_compile e0, code_at_of_compile en,
        code_at_inode .CONST [.LABEL (dims_str (count_dims c0))] _ _ (load_args_label _ _ _),
        code_at_inode op [.REG_VAL R_POP, .LABEL name.lexem] _ _ (load_args_reg_label _ _ _ _),
        List.append_nil, List.append_assoc, List.cons_append, List.nil_append]
    · intro c hcm
      simp only [List.mem_cons, List.mem_singleton, List.not_mem_nil, or_false] at hcm
      rcases hcm with rfl | rfl | rfl
      · exact loads_of_compile e0
      · exact loads_inode_plain _ _ rfl
      · exact loads_inode_plain _ _ rfl
  · rw [load_grouping_code _ _ _ (loads_of_compile en)]
    · have hd : dims_str (count_dims none) = "0".toList := by
        rw [dims_str_eq_toDigits]
        simp [count_dims]
        rfl
      simp only [children_code, code_at_of_compile en, code_none, hd,
        code_at_inode .CONST [.LABEL "0".toList] _ _ (load_args_label _ _ _),
        code_at_inode op [.REG_VAL R_POP, .LABEL name.lexem] _ _ (load_args_reg_label _ _ _ _),
        List.append_nil, List.append_assoc, List.cons_append, List.nil_append]
    · intro c hcm
      simp only [List.mem_cons, List.mem_singleton, List.not_mem_nil, or_false] at hcm
      rcases hcm with rfl | rfl
      · exact loads_inode_plain _ _ rfl
      · exact loads_inode_plain _ _ rfl

/-- C24: declarations. For `num x` or `scope x` with the dimension expressions `es` (as
many as `n = es.length`, chained by `next` as `def_scalar` chains them), the node compiles
exactly when the dimension expressions and its `next` chain do, and the code emitted is the
code of the `n` dimension expressions, then one `CONST` whose label is the decimal
representation of `n` (most significant digit first, no leading zero, `"0"` for `n = 0`,
also for `n ≥ 10`), then `DEF_N` (for `num`) or `DEF_S` (for `scope`) with register `R_POP`
and the declared name as label (followed by the code of the `next` chain, if any). -/
theorem declaration_sequence (id : FACT_nterm_t) (op : Furlow_opcode)
    (hid : (id, op) ∈ [(FACT_nterm_t.E_NUM_DEF, Furlow_opcode.DEF_N), (.E_SCOPE_DEF, .DEF_S)])
    (lexem : List Char) (es : List FACT_tree) (hes : ∀ e ∈ es, e.next = none)
    (name : FACT_tree) (next : Option FACT_tree) (prog : List fmt_t) :
    factor.node (accept.node id lexem) (link es) name
      = .mk id lexem (link es) (some name) none none none ∧
    count_dims (link es) = es.length ∧
    dims_str es.length = Nat.toDigits 10 es.length ∧
    ((compile_tree (.mk id lexem (link es) (some name) none none next)).isSome = true ↔
      ((∀ e ∈ es, (compile_tree e).isSome = true) ∧ (compile_tree_opt next).isSome = true)) ∧
    ∀ n : inter_node,
      compile_tree (.mk id lexem (link es) (some name) none none next) = some n →
      ∃ code_dims code_next,
        code_dims = codes es prog ∧
        code_next = code next
          (prog ++ code_dims
            ++ [⟨.CONST, (Nat.toDigits 10 es.length).map Char.toNat ++ [0]⟩,
                ⟨op, R_POP :: (name.lexem.map Char.toNat ++ [0])⟩]) ∧
        load n none prog
          = some (prog ++ code_dims
              ++ [⟨.CONST, (Nat.toDigits 10 es.length).map Char.toNat ++ [0]⟩,
                  ⟨op, R_POP :: (name.lexem.map Char.toNat ++ [0])⟩] ++ code_next) := by
  have hiff : (compile_tree (.mk id lexem (link es) (some name) none none next)).isSome = true ↔
      ((∀ e ∈ es, (compile_tree e).isSome = true) ∧ (compile_tree_opt next).isSome = true) := by
    rw [← compile_link_isSome es hes]
    obtain ⟨vid, vname, v0, v1, v2, v3, vn⟩ := name
    simp only [List.mem_cons, Prod.mk.injEq, List.mem_singleton, List.not_mem_nil,
      or_false] at hid
    rcases hid with h | h
    all_goals obtain ⟨rfl, rfl⟩ := h
    all_goals simp only [compile_tree, Option.bind_eq_bind]
    all_goals by_cases hz : count_dims (link es) = 0
    all_goals simp only [hz, if_true, if_false]
    all_goals try rw [(count_dims_eq_zero _).1 hz]
    all_goals cases compile_tree_opt (link es) <;> cases compile_tree_opt next <;>
      simp [compile_tree_opt]
  refine ⟨rfl, count_dims_link es, dims_str_eq_toDigits _, hiff, ?_⟩
  intro n hc
  obtain ⟨code_0, code_next, h0, hn, hl⟩ :=
    decl_layout id op hid lexem (link es) none none next name n hc prog
  have hsome : (compile_tree_opt (link es)).isSome = true :=
    (compile_link_isSome es hes).2 (hiff.1 (by rw [hc]; rfl)).1
  rw [count_dims_link, dims_str_eq_toDigits] at hn hl
  rw [code_link es hes hsome] at h0
  exact ⟨code_0, code_next, h0, hn, hl⟩

theorem declaration_sequence_witness :
    (∀ e ∈ [tree_var "2", tree_var "3"], e.next = none) ∧
    example_decl
      = .mk .E_NUM_DEF "num".toList
          (some (.mk .E_VAR "2".toList none none none none (some (tree_var "3"))))
          (some (tree_var "a")) none none none ∧
    dims_str [tree_var "2", tree_var "3"].length = Nat.toDigits 10 2 ∧
    ∃ n : inter_node, compile_tree example_decl = some n ∧
      load n none []
        = some [⟨.CONST, [50, 0]⟩, ⟨.CONST, [51, 0]⟩, ⟨.CONST, [50, 0]⟩,
            ⟨.DEF_N, [0, 97, 0]⟩] := by
  have hes : ∀ e ∈ [tree_var "2", tree_var "3"], e.next = none := by
    intro e he
    simp only [List.mem_cons, List.mem_singleton, List.not_mem_nil, or_false] at he
    rcases he with rfl | rfl <;> rfl
  have h := declaration_sequence .E_NUM_DEF .DEF_N (by decide) "num".toList
    [tree_var "2", tree_var "3"] hes (tree_var "a") none []
  refine ⟨hes, rfl, h.2.2.1, ?_⟩
  have hs : (compile_tree example_decl).isSome = true :=
    h.2.2.2.1.2 ⟨by
      intro e he
      simp only [List.mem_cons, List.mem_singleton, List.not_mem_nil, or_false] at he
      rcases he with rfl | rfl <;> decide, rfl⟩
  obtain ⟨n, hn⟩ := Option.isSome_iff_exists.1 hs
  refine ⟨n, hn, ?_⟩
  obtain ⟨code_dims, code_next, h0, h1, hl⟩ := h.2.2.2.2 n hn
  have e1 : code (some (tree_var "2")) [] = [⟨.CONST, [50, 0]⟩] := by decide
  have e2 : code (some (tree_var "3")) [⟨.CONST, [50, 0]⟩] = [⟨.CONST, [51, 0]⟩] := by decide
  have e3 : Nat.toDigits 10 2 = ['2'] := by decide
  have e4 : (tree_var "a").lexem = ['a'] := rfl
  rw [hl, h1, h0]
  simp [codes, e1, e2, e3, e4, code_none, R_POP]

/-! ## Variables, literals and `this` -/

theorem hex_prefix_iff (tok : List Char) :
    (decide (char_at tok 0 = '0' ∧ tolower (char_at tok 1) = 'x')) = is_hex_prefixed tok := by
  have hl : ∀ c : Char, tolower c = 'x' ↔ (c = 'x' ∨ c = 'X') := by
    intro c
    constructor
    · intro h
      unfold tolower at h
      split_ifs at h with hc
      · right
        have h1 : (Char.ofNat (c.toNat + 32)).toNat = 120 := by rw [h]; rfl
        have h2 : c.toNat + 32 < 0xd800 := by
          have := hc.2
          have e : 'Z'.toNat = 90 := rfl
          omega
        have h3 : (Char.ofNat (c.toNat + 32)).toNat = c.toNat + 32 := by
          rw [Char.ofNat, dif_pos (Or.inl h2)]
          rfl
        have h4 : c.toNat = 'X'.toNat := by
          have e : 'X'.toNat = 88 := rfl
          omega
        exact Char.ext (by
          have := h4
          simp only [Char.toNat] at this
          exact UInt32.ext (by simpa [UInt32.toNat] using this))
      · left; exact h
    · rintro (rfl | rfl) <;> rfl
  match tok with
  | [] => simp [char_at, is_hex_prefixed]
  | [c0] =>
    have h0 : ¬ tolower (Char.ofNat 0) = 'x' := by decide
    simp [char_at, is_hex_prefixed, h0]
  | c0 :: c1 :: rest =>
    simp only [char_at, is_hex_prefixed, List.getD_cons_zero, List.getD_cons_succ, hl]
    simp [Bool.decide_and, Bool.decide_or]

theorem toNat_ofNat_small (n : Nat) (h : n < 0xd800) : (Char.ofNat n).toNat = n := by
  rw [Char.ofNat, dif_pos (Or.inl h)]
  rfl

theorem is_hex_letter_iff (c : Char) :
    is_hex_letter c = true ↔
      ((97 ≤ c.toNat ∧ c.toNat ≤ 102) ∨ (65 ≤ c.toNat ∧ c.toNat ≤ 70)) := by
  unfold is_hex_letter
  simp only [Bool.or_eq_true, Bool.and_eq_true, decide_eq_true_eq]
  exact Iff.rfl

theorem tolower_range (c : Char) :
    (97 ≤ (tolower c).toNat ∧ (tolower c).toNat ≤ 102) ↔ is_hex_letter c = true := by
  rw [is_hex_letter_iff]
  unfold tolower
  split_ifs with hc
  · have hc1 : 65 ≤ c.toNat ∧ c.toNat ≤ 90 := hc
    rw [toNat_ofNat_small _ (by omega)]
    omega
  · have hc1 : ¬ (65 ≤ c.toNat ∧ c.toNat ≤ 90) := hc
    omega

theorem getLast?_cons_ne {c : Char} (rest : List Char) (hc : c ≠ '.') :
    ((c :: rest).getLast? ≠ some '.') ↔ (rest.getLast? ≠ some '.') := by
  cases rest with
  | nil => simp [hc]
  | cons d ds => simp [List.getLast?_cons_cons]

/-- The loop of `is_num` runs to the end of the string exactly when every character is a
digit, a `.` or (in a hexadecimal literal) one of `a`-`f`/`A`-`F`, there is at most one `.`,
and the last character is not a `.`. -/
theorem is_num_loop_spec (hex : Bool) : ∀ (body : List Char) (flp : Bool),
    is_num.loop hex body flp
      = if body.all (fun c => isdigit c || c = '.' || (hex && is_hex_letter c)) = true ∧
          body.count '.' + (if flp then 1 else 0) ≤ 1 ∧ body.getLast? ≠ some '.'
        then none else some false := by
  intro body
  induction body with
  | nil => intro flp; cases flp <;> simp [is_num.loop]
  | cons c rest ih =>
    intro flp
    rw [is_num.loop]
    by_cases hdot : c = '.'
    · subst hdot
      rw [if_pos rfl]
      cases flp with
      | true => simp
      | false =>
        cases rest with
        | nil => simp
        | cons d ds =>
          simp only [Bool.false_or, List.isEmpty_cons, Bool.false_eq_true, if_false]
          rw [ih true]
          simp [List.getLast?_cons_cons, List.count_cons]
    · rw [if_neg hdot]
      have hcount : (c :: rest).count '.' = rest.count '.' := by
        rw [List.count_cons]
        simp [hdot]
      have hlast := getLast?_cons_ne rest hdot
      by_cases hd : isdigit c = true
      · simp only [hd, Bool.not_true, Bool.false_eq_true, if_false]
        rw [ih flp, hcount]
        simp only [List.all_cons, hd, Bool.true_or, Bool.true_and, hlast]
      · have hd1 : isdigit c = false := by simpa using hd
        simp only [hd1, Bool.not_false, if_true]
        have hx := tolower_range c
        cases hex with
        | false => simp [hdot, hd1]
        | true =>
          by_cases hl : is_hex_letter c = true
          · have hr := hx.2 hl
            have h1 : ¬ ((tolower c).toNat < 'a'.toNat) := by
              show ¬ ((tolower c).toNat < 97)
              omega
            have h2 : ¬ ((tolower c).toNat > 'f'.toNat) := by
              show ¬ ((tolower c).toNat > 102)
              omega
            simp only [Bool.not_true, Bool.false_or, Bool.or_eq_true, decide_eq_true_eq, h1, h2,
              or_self, if_false]
            rw [ih flp, hcount]
            simp only [List.all_cons, hl, hd1, Bool.true_and, Bool.or_true, Bool.false_or, hlast]
          · have hl1 : is_hex_letter c = false := by simpa using hl
            have hr : (tolower c).toNat < 'a'.toNat ∨ (tolower c).toNat > 'f'.toNat := by
              show (tolower c).toNat < 97 ∨ (tolower c).toNat > 102
              by_contra hcon
              push_neg at hcon
              exact hl (hx.1 ⟨by omega, by omega⟩)
            have : ((!true || decide ((tolower c).toNat < 'a'.toNat)) ||
                decide ((tolower c).toNat > 'f'.toNat)) = true := by
              simpa using hr
            rw [if_pos this]
            simp [hdot, hl1, hd1]

/-- The function `is_num` accepts exactly the numeric literals of the specification's
words. -/
theorem is_num_eq_spec (tok : List Char) : is_num tok = is_num_spec tok := by
  unfold is_num is_num_spec
  simp only [hex_prefix_iff]
  cases hp : is_hex_prefixed tok with
  | false =>
    simp only [Bool.false_eq_true, if_false, List.drop_zero, false_and, Bool.not_false,
      Bool.true_or, Bool.and_true]
    rw [is_num_loop_spec]
    simp only [Bool.false_eq_true, if_false, Nat.add_zero]
    generalize tok.all (fun c => isdigit c || c = '.' || (false && is_hex_letter c)) = A
    cases A with
    | false => simp
    | true =>
      by_cases hB : tok.count '.' ≤ 1
      · by_cases hC : tok.getLast? ≠ some '.'
        · simp [hB, hC]
        · simp [hB, hC]
      · simp [hB]
  | true =>
    simp only [if_true, true_and, Bool.not_true, Bool.false_or]
    rw [is_num_loop_spec]
    simp only [Bool.false_eq_true, if_false, Nat.add_zero]
    have hnul : (tok.drop 2).all (fun c => isdigit c || c = '.' || (true && is_hex_letter c))
        = true → (char_at tok 2 = Char.ofNat 0 ↔ tok.drop 2 = []) := by
      intro hA
      have e : char_at tok 2 = (tok.drop 2).headD (Char.ofNat 0) := by
        unfold char_at
        rw [List.getD_eq_getElem?_getD, ← List.head?_drop, List.headD_eq_head?_getD]
      rw [e]
      cases hb : tok.drop 2 with
      | nil => simp
      | cons c cs =>
        rw [hb] at hA
        simp only [List.all_cons, Bool.and_eq_true] at hA
        simp only [List.headD_cons, reduceCtorEq, iff_false]
        intro hz
        rw [hz] at hA
        exact absurd hA.1 (by decide)
    revert hnul
    generalize (tok.drop 2).all (fun c => isdigit c || c = '.' || (true && is_hex_letter c)) = A
    intro hnul
    cases A with
    | false => simp
    | true =>
      have hn := hnul rfl
      by_cases hB : (tok.drop 2).count '.' ≤ 1
      · by_cases hC : (tok.drop 2).getLast? ≠ some '.'
        · simp only [hB, hC, hn, ne_eq, not_false_eq_true, and_self, if_true,
            decide_True, Bool.and_self, Bool.true_and]
          cases tok.drop 2 <;> simp
        · simp [hB, hC]
      · simp [hB]

theorem compile_var (L : List Char) (c0 c1 c2 c3 : Option FACT_tree) :
    compile_tree (.mk .E_VAR L c0 c1 c2 c3 none)
      = if L = "this".toList then inode .THIS []
        else if is_num L = true then inode .CONST [.LABEL L] else inode .VAR [.LABEL L] := by
  simp only [compile_tree, compile_tree_opt, strcmp_eq_zero_iff, inode]
  split_ifs <;> rfl

/-- Some lexemes that `is_num` accepts and some that it rejects. -/
theorem is_num_examples :
    is_num "42".toList = true ∧ is_num "0x1F".toList = true ∧ is_num ".5".toList = true ∧
    is_num "3.25".toList = true ∧ is_num "x".toList = false ∧ is_num "1.".toList = false ∧
    is_num "1.2.3".toList = false ∧ is_num "0x".toList = false ∧ is_num "1f".toList = false := by
  decide

/-- C25: variables, literals and `this`. An `E_VAR` node with lexeme `L` emits a single
instruction (followed by the code of its `next` chain, if any): `THIS` without operand if
`L` is `"this"`; otherwise `CONST` with label `L` if `is_num (L)` holds; otherwise `VAR`
with label `L`. And `is_num (L)` holds exactly when `L`, after an optional `0x`/`0X`
prefix, consists only of decimal digits (and of `a`-`f`/`A`-`F` when prefixed), with at
most one `.`, which is not the last character, and at least one character after a
prefix. -/
theorem var_instruction (L : List Char) (c0 c1 c2 c3 next : Option FACT_tree)
    (prog : List fmt_t) :
    is_num L = is_num_spec L ∧
    ∃ i : fmt_t,
      i = (if L = "this".toList then ⟨.THIS, []⟩
           else if is_num L = true then ⟨.CONST, L.map Char.toNat ++ [0]⟩
           else ⟨.VAR, L.map Char.toNat ++ [0]⟩) ∧
      code (some (.mk .E_VAR L c0 c1 c2 c3 none)) prog = [i] ∧
      ((compile_tree (.mk .E_VAR L c0 c1 c2 c3 next)).isSome = true ↔
        (compile_tree_opt next).isSome = true) ∧
      ((compile_tree_opt next).isSome = true →
        code (some (.mk .E_VAR L c0 c1 c2 c3 next)) prog = i :: code next (prog ++ [i])) := by
  have hc := compile_var L c0 c1 c2 c3
  have hs : (compile_tree (.mk .E_VAR L c0 c1 c2 c3 none)).isSome = true := by
    rw [hc]
    split_ifs <;> rfl
  have hcode : code (some (.mk .E_VAR L c0 c1 c2 c3 none)) prog
      = [if L = "this".toList then ⟨.THIS, []⟩
         else if is_num L = true then ⟨.CONST, L.map Char.toNat ++ [0]⟩
         else ⟨.VAR, L.map Char.toNat ++ [0]⟩] := by
    have e : compile_tree_opt (some (.mk .E_VAR L c0 c1 c2 c3 none))
        = some (if L = "this".toList then inode .THIS []
          else if is_num L = true then inode .CONST [.LABEL L] else inode .VAR [.LABEL L]) := by
      rw [compile_tree_opt]
      rw [hc]
      split_ifs <;> rfl
    rw [code, e]
    simp only
    split_ifs
    · exact code_at_inode _ _ _ _ (by simp [mk_inst, inst_t.args, load.args])
    · exact code_at_inode _ _ _ _ (load_args_label _ _ _)
    · exact code_at_inode _ _ _ _ (load_args_label _ _ _)
  have hiff : (compile_tree (.mk .E_VAR L c0 c1 c2 c3 next)).isSome = true ↔
      (compile_tree_opt next).isSome = true := by
    rw [compile_tree_next_isSome]
    simp [hs]
  refine ⟨is_num_eq_spec L, _, rfl, hcode, hiff, ?_⟩
  intro hn
  rw [code_next _ _ _ _ _ _ _ (hiff.2 hn), hcode]
  rfl

theorem var_instruction_witness :
    is_num "42".toList = is_num_spec "42".toList ∧
    code (some (.mk .E_VAR "42".toList none none none none (some (tree_var "x")))) []
      = [⟨.CONST, [52, 50, 0]⟩, ⟨.VAR, [120, 0]⟩] := by
  have h := var_instruction "42".toList none none none none (some (tree_var "x")) []
  refine ⟨h.1, ?_⟩
  obtain ⟨i, hi, _, _, hn⟩ := h.2
  rw [hn (by decide)]
  subst hi
  decide

/-! ## Parameter bindings -/

theorem binding_blocks_append (l1 l2 : List (FACT_tree × FACT_tree)) :
    binding_blocks (l1 ++ l2) = binding_blocks l1 ++ binding_blocks l2 := by
  induction l1 with
  | nil => rfl
  | cons p rest ih => simp [binding_blocks, ih]

theorem args_code_none (prog : List fmt_t) : args_code none prog = [] := by
  simp [args_code, compile_args, code_at, load_opt]

/-- The code of one link of a parameter chain: its binding block, then the code of the
chain it is linked to. -/
theorem args_code_cons (id : FACT_nterm_t) (lexem : List Char) (a0 a1 c2 c3 next : Option FACT_tree)
    (name : FACT_tree) (hold : Option FACT_tree) (k : Option inter_node)
    (hk : compile_args hold = some k) (prog : List fmt_t) :
    compile_args (some (.mk id lexem (some name) hold c2 c3 next))
      = some (some (.grouping
          [inode .CONST [.LABEL "0".toList],
           inode (if id = .E_NUM_DEF then .DEF_N else .DEF_S)
             [.REG_VAL R_POP, .LABEL name.lexem],
           inode .SWAP [],
           inode .STO [.REG_VAL R_POP, .REG_VAL R_POP]] k)) ∧
    args_code (some (.mk id lexem (some name) hold c2 c3 next)) prog
      = (binding_block (.mk id lexem a0 a1 c2 c3 next, name)).map plain_code
        ++ args_code hold
          (prog ++ (binding_block (.mk id lexem a0 a1 c2 c3 next, name)).map plain_code) := by
  obtain ⟨vid, vname, v0, v1, v2, v3, vn⟩ := name
  have hk1 : compile_args (some (.mk id lexem (some (.mk vid vname v0 v1 v2 v3 vn)) hold
      c2 c3 next))
      = some (some (.grouping
        [inode .CONST [.LABEL "0".toList],
         inode (if id = .E_NUM_DEF then .DEF_N else .DEF_S) [.REG_VAL R_POP, .LABEL vname],
         inode .SWAP [],
         inode .STO [.REG_VAL R_POP, .REG_VAL R_POP]] k)) := by
    simp only [compile_args, hk]
  refine ⟨hk1, ?_⟩
  have hl := (load_args_code hk1 none prog).1
  rw [load_opt, load_grouping_code _ _ _
    ⟨compile_args_loads hold k hk, fun n hn => compile_args_up_free hold n (hn ▸ hk)⟩] at hl
  · have hnx : code_at k = args_code hold := by
      funext p
      rw [args_code, hk]
    simp only [Option.some.injEq, List.append_assoc, List.append_cancel_left_eq] at hl
    rw [← hl, hnx]
    simp only [children_code,
      code_at_inode .CONST [.LABEL "0".toList] _ _ (load_args_label _ _ _),
      code_at_inode (if id = .E_NUM_DEF then .DEF_N else .DEF_S)
        [.REG_VAL R_POP, .LABEL vname] _ _ (load_args_reg_label _ _ _ _),
      code_at_inode .SWAP [] _ [] (by simp [mk_inst, inst_t.args, load.args]),
      code_at_inode .STO [.REG_VAL R_POP, .REG_VAL R_POP] _ [R_POP, R_POP]
        (by simp [mk_inst, inst_t.args, load.args]),
      List.append_nil, List.append_assoc, List.cons_append, List.nil_append]
    simp [binding_block, plain_code, mk_inst, inst_t.args, load.args, FACT_tree.id,
      FACT_tree.lexem]
  · intro c hcm
    simp only [List.mem_cons, List.mem_singleton, List.not_mem_nil, or_false] at hcm
    rcases hcm with rfl | rfl | rfl | rfl
    all_goals exact loads_inode_plain _ _ rfl

/-- The chain that `func_dec` builds compiles, and its code is the binding blocks of the
parameters in the reverse of the declaration order, then the code of the chain `hold` it
started from. -/
theorem compile_args_func_dec : ∀ (params : List (FACT_tree × FACT_tree))
    (hold : Option FACT_tree) (k : Option inter_node) (prog : List fmt_t),
    compile_args hold = some k →
    ∃ k1, compile_args (func_dec.args params hold) = some k1 ∧
      args_code (func_dec.args params hold) prog
        = (binding_blocks params.reverse).map plain_code
          ++ args_code hold (prog ++ (binding_blocks params.reverse).map plain_code) := by
  intro params
  induction params with
  | nil =>
    intro hold k prog hk
    exact ⟨k, hk, by simp [func_dec.args, binding_blocks]⟩
  | cons p rest ih =>
    intro hold k prog hk
    obtain ⟨⟨id, lexem, a0, a1, c2, c3, next⟩, name⟩ := p
    obtain ⟨hk1, hblock⟩ := args_code_cons id lexem a0 a1 c2 c3 next name hold k hk
      (prog ++ (binding_blocks rest.reverse).map plain_code)
    obtain ⟨k1, e1, hcode⟩ := ih _ _ prog hk1
    refine ⟨k1, e1, ?_⟩
    rw [func_dec.args, hcode, hblock, List.reverse_cons, binding_blocks_append]
    simp [binding_blocks, List.map_append]

/-- What one binding block does: with the argument `b` on top of the stack, it adds the
parameter to the current `this` and copies `b` into it; both leave the stack. -/
theorem binding_block_run (p : FACT_tree × FACT_tree) (s : sym_arith) (b this : sym_val)
    (rest frames : List sym_val) (hs : s.state.vstack = b :: rest)
    (hc : s.state.cstack = this :: frames) :
    sym_exec_run (binding_block p) s
      = some { s with state := { s.state with
          vstack := rest,
          stored := (.variable this p.2.lexem, b) :: s.state.stored } } := by
  obtain ⟨⟨vs, regs, cs, cr, sto⟩, comp⟩ := s
  simp only at hs hc
  subst hs hc
  by_cases hid : p.1.id = .E_NUM_DEF
  · simp [binding_block, hid, sym_exec_run, sym_exec, sym_step, sym_read, mk_inst, R_POP]
  · simp [binding_block, hid, sym_exec_run, sym_exec, sym_step, sym_read, mk_inst, R_POP]

theorem sym_exec_run_append (l1 l2 : List inst_t) (s : sym_arith) :
    sym_exec_run (l1 ++ l2) s = (sym_exec_run l1 s).bind (sym_exec_run l2) := by
  induction l1 generalizing s with
  | nil => rfl
  | cons i rest ih =>
    simp only [List.cons_append, sym_exec_run]
    cases sym_exec i s with
    | none => rfl
    | some s1 => exact ih s1

/-- What the binding blocks do, taken in the order in which they are emitted: each binds
its parameter to the value then on top of the stack. -/
theorem binding_blocks_run : ∀ (qs : List (FACT_tree × FACT_tree)) (bs : List sym_val)
    (s : sym_arith) (this : sym_val) (rest frames : List sym_val),
    qs.length = bs.length → s.state.vstack = bs ++ rest → s.state.cstack = this :: frames →
    sym_exec_run (binding_blocks qs) s
      = some { s with state := { s.state with
          vstack := rest,
          stored := (List.zip (qs.map (fun p => sym_val.variable this p.2.lexem)) bs).reverse
            ++ s.state.stored } } := by
  intro qs
  induction qs with
  | nil =>
    intro bs s this rest frames hlen hs hc
    cases bs with
    | nil =>
      obtain ⟨⟨vs, regs, cs, cr, sto⟩, comp⟩ := s
      simp only [List.nil_append] at hs
      subst hs
      simp [binding_blocks, sym_exec_run]
    | cons b bs => simp at hlen
  | cons q qs ih =>
    intro bs s this rest frames hlen hs hc
    cases bs with
    | nil => simp at hlen
    | cons b bs =>
      simp only [List.length_cons, Nat.add_right_cancel_iff] at hlen
      rw [binding_blocks, sym_exec_run_append,
        binding_block_run q s b this (bs ++ rest) frames hs hc, Option.some_bind]
      rw [ih bs { s with state := { s.state with
          vstack := bs ++ rest,
          stored := (.variable this q.2.lexem, b) :: s.state.stored } }
        this rest frames hlen rfl hc]
      simp

/-- The chain of the parameters `params` (in declaration order) that `func_dec.args`
describes, under `compile_args`: the binding blocks of the parameters in the order
`pn, ..., p1`, each block being exactly `CONST "0"`, `DEF_N` or `DEF_S` on `R_POP` with the
parameter's name, `SWAP`, `STO R_POP R_POP`; they are what the function definition node
loads after its `JMP`; read as the instruction table does, they bind each parameter to the
argument of the same position. -/
theorem chain_binding_order (params : List (FACT_tree × FACT_tree)) (prog : List fmt_t) :
    args_code (func_dec.args params none) prog
      = (binding_blocks params.reverse).map plain_code ∧
    (∀ p : FACT_tree × FACT_tree,
      (binding_block p).map plain_code
        = [⟨.CONST, [48, 0]⟩,
           ⟨if p.1.id = .E_NUM_DEF then .DEF_N else .DEF_S,
             R_POP :: (p.2.lexem.map Char.toNat ++ [0])⟩,
           ⟨.SWAP, []⟩, ⟨.STO, [R_POP, R_POP]⟩]) ∧
    (∀ (lexem : List Char) (target body c3 next : Option FACT_tree) (n : inter_node),
      compile_tree (.mk .E_FUNC_DEF lexem target (func_dec.args params none) body c3 next)
        = some n →
      ∃ k1 k2 k5 knext,
        n = .grouping
          [inode .JMP [.ADDR_VAL 4], k1, k2, inode .CONST [.LABEL "0".toList], inode .RET [],
            k5, inode .SET_C [.REG_VAL R_TOP, .ADDR_VAL 1]] knext ∧
        ∀ (up : Option (List (Option inter_node) × Nat)) (p : List fmt_t),
          load_opt k1 up p = some (p ++ (binding_blocks params.reverse).map plain_code)) ∧
    ∀ (args : List sym_val) (s : sym_arith) (this : sym_val) (rest frames : List sym_val),
      args.length = params.length → s.state.vstack = args.reverse ++ rest →
      s.state.cstack = this :: frames →
      sym_exec_run (binding_blocks params.reverse) s
        = some { s with state := { s.state with
            vstack := rest,
            stored := List.zip (params.map (fun p => sym_val.variable this p.2.lexem)) args
              ++ s.state.stored } } := by
  obtain ⟨k1, hk1, hcode⟩ := compile_args_func_dec params none none prog (by simp [compile_args])
  have hcode1 : ∀ p, args_code (func_dec.args params none) p
      = (binding_blocks params.reverse).map plain_code := by
    intro p
    obtain ⟨k2, _, h2⟩ := compile_args_func_dec params none none p (by simp [compile_args])
    rw [h2, args_code_none, List.append_nil]
  refine ⟨hcode1 prog, ?_, ?_, ?_⟩
  · intro p
    by_cases hid : p.1.id = .E_NUM_DEF
    · simp [binding_block, plain_code, mk_inst, inst_t.args, load.args, hid]
    · simp [binding_block, plain_code, mk_inst, inst_t.args, load.args, hid]
  · intro lexem target body c3 next n hc
    obtain ⟨j1, k2, k5, knext, e1, _, _, _, hn⟩ :=
      compile_func_def lexem target _ body c3 next n hc
    refine ⟨j1, k2, k5, knext, hn, ?_⟩
    intro up p
    rw [(load_args_code e1 up p).1, hcode1 p]
  · intro args s this rest frames hlen hs hc
    rw [binding_blocks_run params.reverse args.reverse s this rest frames
      (by simp [hlen]) hs hc]
    have hz : (List.zip (params.reverse.map (fun p => sym_val.variable this p.2.lexem))
        args.reverse).reverse
        = List.zip (params.map (fun p => sym_val.variable this p.2.lexem)) args := by
      rw [List.map_reverse]
      unfold List.zip
      rw [List.reverse_zipWith (by simp [hlen])]
      simp
    rw [hz]

/-! ## The tag of a numeric value after each operation -/

theorem fp_make_float_on (rop : mpc_t) (f : Rat → Rat) : (rop.make_float.on_fltv f).fp = true := by
  cases rop <;> rfl

theorem fp_make_int_on (rop : mpc_t) (f : Int → Int) : (rop.make_int.on_intv f).fp = false := by
  cases rop <;> rfl

theorem make_int_on_const (rop : mpc_t) (v : Int) :
    rop.make_int.on_intv (fun _ => v) = .intv v := by
  cases rop <;> rfl

theorem make_float_on_const (rop : mpc_t) (q : Rat) :
    rop.make_float.on_fltv (fun _ => q) = .fltv q := by
  cases rop <;> rfl

theorem fp_mpc_arith (fop : Rat → Rat → Rat) (zop : Int → Int → Int) (rop op1 op2 : mpc_t) :
    (mpc_arith fop zop rop op1 op2).fp = (op1.fp || op2.fp) := by
  cases op1 <;> cases op2 <;> simp only [mpc_arith, fp_make_float_on, fp_make_int_on] <;> rfl

theorem mpc_div_isSome (rop op1 op2 : mpc_t) :
    (mpc_div rop op1 op2).isSome = true ↔ (op2 ≠ .intv 0 ∧ op2 ≠ .fltv 0) := by
  cases op1 <;> cases op2 <;>
    simp [mpc_div, mpf_div, mpz_tdiv_q, mpf_set_z, Option.isSome_map']

theorem fp_mpc_div (rop op1 op2 r : mpc_t) (h : mpc_div rop op1 op2 = some r) :
    r.fp = (op1.fp || op2.fp) := by
  cases op1 <;> cases op2 <;>
    simp only [mpc_div, Option.map_eq_some'] at h <;>
    obtain ⟨q, _, rfl⟩ := h <;>
    simp only [fp_make_float_on, fp_make_int_on] <;> rfl

theorem tdiv_magnitude (a b : Int) :
    (Int.tdiv a b).natAbs = a.natAbs / b.natAbs ∧
    (0 ≤ a * b → Int.tdiv a b = ((a.natAbs / b.natAbs : Nat) : Int)) ∧
    (a * b < 0 → Int.tdiv a b = -((a.natAbs / b.natAbs : Nat) : Int)) := by
  refine ⟨Int.natAbs_tdiv a b, ?_, ?_⟩
  · intro h
    rcases Int.le_total 0 a with ha | ha
    · rcases Int.le_total 0 b with hb | hb
      · obtain ⟨m, rfl⟩ := Int.eq_ofNat_of_zero_le ha
        obtain ⟨n, rfl⟩ := Int.eq_ofNat_of_zero_le hb
        simp [Int.tdiv]
      · rcases lt_or_eq_of_le ha with ha1 | ha1
        · have hb0 : b = 0 := by
            by_contra hne
            have : b < 0 := lt_of_le_of_ne hb hne
            have := Int.mul_neg_of_pos_of_neg ha1 this
            omega
          subst hb0
          simp
        · subst ha1
          simp
    · rcases lt_or_eq_of_le ha with ha1 | ha1
      · rcases Int.le_total b 0 with hb | hb
        · obtain ⟨m, hm⟩ := Int.eq_ofNat_of_zero_le (Int.neg_nonneg_of_nonpos ha)
          obtain ⟨n, hn⟩ := Int.eq_ofNat_of_zero_le (Int.neg_nonneg_of_nonpos hb)
          have ea : a = -(m : Int) := by omega
          have eb : b = -(n : Int) := by omega
          subst ea eb
          rw [Int.neg_tdiv, Int.tdiv_neg, Int.neg_neg]
          simp [Int.tdiv]
        · have hb0 : b = 0 := by
            by_contra hne
            have : 0 < b := lt_of_le_of_ne hb (Ne.symm hne)
            have := Int.mul_neg_of_neg_of_pos ha1 this
            omega
          subst hb0
          simp
      · subst ha1
        simp
  · intro h
    rcases Int.lt_trichotomy a 0 with ha | ha | ha
    · have hb : 0 < b := by
        by_contra hne
        have hb0 : b ≤ 0 := Int.not_lt.1 hne
        have := Int.mul_nonneg_of_nonpos_of_nonpos (Int.le_of_lt ha) hb0
        omega
      obtain ⟨m, hm⟩ := Int.eq_ofNat_of_zero_le (Int.neg_nonneg_of_nonpos (Int.le_of_lt ha))
      obtain ⟨n, rfl⟩ := Int.eq_ofNat_of_zero_le (Int.le_of_lt hb)
      have ea : a = -(m : Int) := by omega
      subst ea
      rw [Int.neg_tdiv]
      simp [Int.tdiv]
    · subst ha
      simp at h
    · have hb : b < 0 := by
        by_contra hne
        have hb0 : 0 ≤ b := Int.not_lt.1 hne
        have := Int.mul_nonneg (Int.le_of_lt ha) hb0
        omega
      obtain ⟨m, rfl⟩ := Int.eq_ofNat_of_zero_le (Int.le_of_lt ha)
      obtain ⟨n, hn⟩ := Int.eq_ofNat_of_zero_le (Int.neg_nonneg_of_nonpos (Int.le_of_lt hb))
      have eb : b = -(n : Int) := by omega
      subst eb
      rw [Int.tdiv_neg]
      simp [Int.tdiv]

/-- C26: integer division. For integers `a` and `b` with `b ≠ 0`, `mpc_div (rop, a, b)`
returns and leaves `rop` an integer, whatever tag and value `rop` had before, whose value is
`a / b` rounded towards zero: its magnitude is the whole part of `|a| / |b|` and its sign
that of the exact quotient. -/
theorem mpc_div_truncates (rop : mpc_t) (a b : Int) (hb : b ≠ 0) :
    ∃ q : Int, mpc_div rop (.intv a) (.intv b) = some (.intv q) ∧
      q.natAbs = a.natAbs / b.natAbs ∧
      (0 ≤ a * b → q = ((a.natAbs / b.natAbs : Nat) : Int)) ∧
      (a * b < 0 → q = -((a.natAbs / b.natAbs : Nat) : Int)) := by
  refine ⟨Int.tdiv a b, ?_, tdiv_magnitude a b⟩
  simp [mpc_div, mpz_tdiv_q, hb, make_int_on_const]

theorem mpc_div_truncates_witness :
    (2 : Int) ≠ 0 ∧
    mpc_div (.fltv (1 / 2)) (.intv 7) (.intv 2) = some (.intv 3) ∧
    mpc_div (.fltv (1 / 2)) (.intv (-7)) (.intv 2) = some (.intv (-3)) ∧
    ∃ q : Int, mpc_div (.fltv (1 / 2)) (.intv (-7)) (.intv 2) = some (.intv q) ∧
      q.natAbs = (-7 : Int).natAbs / (2 : Int).natAbs ∧
      (0 ≤ (-7 : Int) * 2 → q = (((-7 : Int).natAbs / (2 : Int).natAbs : Nat) : Int)) ∧
      ((-7 : Int) * 2 < 0 → q = -(((-7 : Int).natAbs / (2 : Int).natAbs : Nat) : Int)) :=
  ⟨by decide, by decide, by decide, mpc_div_truncates (.fltv (1 / 2)) (-7) 2 (by decide)⟩

theorem mpc_bitwise_spec (zop : Int → Int → Int) (rop op1 op2 : mpc_t) :
    ((mpc_bitwise zop rop op1 op2).isSome = true ↔ (op1.fp = false ∧ op2.fp = false)) ∧
    (∀ r, mpc_bitwise zop rop op1 op2 = some r → r.fp = false) := by
  cases op1 <;> cases op2 <;>
    simp only [mpc_bitwise, mpc_t.get_intv, mpc_t.fp, Option.isSome_some, Option.isSome_none,
      and_self, and_false, false_and, Bool.false_eq_true, Bool.true_eq_false, true_iff,
      false_iff, not_false_eq_true, not_true_eq_false, Option.some.injEq, true_and,
      forall_eq', IsEmpty.forall_iff, implies_true]
  all_goals first
    | exact fp_make_int_on _ _
    | trivial

/-- C27: re-tagging. Whatever tag `rop` had before: after `mpc_add`, `mpc_sub`, `mpc_mul` or
`mpc_div (rop, op1, op2)` (the last returns unless the divisor is zero) `rop` is a float
exactly when `op1` or `op2` is; after `mpc_set` or `mpc_neg (rop, op)` the tag of `rop` is
that of `op`; after `mpc_set_ui` or `mpc_set_si` `rop` is an integer; for two integers add,
sub and mul give the exact integer result. `mpc_mod`, `mpc_and`, `mpc_ior` and `mpc_xor`
read the integer member of both operands without looking at their tag: they return, and
then with `rop` an integer, exactly when both operands are integers (and, for `mpc_mod`,
the divisor is not zero). With a float operand, as in `mpc_mod (rop, 0.5, 2)` or
`mpc_and (rop, 1, 0.5)`, they read a member that has been cleared and there is no result. -/
theorem mpc_retag (rop op1 op2 op : mpc_t) (n : Nat) (z a b : Int) :
    (mpc_add rop op1 op2).fp = (op1.fp || op2.fp) ∧
    (mpc_sub rop op1 op2).fp = (op1.fp || op2.fp) ∧
    (mpc_mul rop op1 op2).fp = (op1.fp || op2.fp) ∧
    ((mpc_div rop op1 op2).isSome = true ↔ (op2 ≠ .intv 0 ∧ op2 ≠ .fltv 0)) ∧
    (∀ r, mpc_div rop op1 op2 = some r → r.fp = (op1.fp || op2.fp)) ∧
    (mpc_set rop op).fp = op.fp ∧
    (mpc_neg rop op).fp = op.fp ∧
    (mpc_set_ui rop n).fp = false ∧
    (mpc_set_si rop z).fp = false ∧
    ((mpc_mod rop op1 op2).isSome = true
      ↔ (op1.fp = false ∧ op2.fp = false ∧ op2 ≠ .intv 0)) ∧
    (∀ r, mpc_mod rop op1 op2 = some r → r.fp = false) ∧
    ((mpc_and rop op1 op2).isSome = true ↔ (op1.fp = false ∧ op2.fp = false)) ∧
    (∀ r, mpc_and rop op1 op2 = some r → r.fp = false) ∧
    ((mpc_ior rop op1 op2).isSome = true ↔ (op1.fp = false ∧ op2.fp = false)) ∧
    (∀ r, mpc_ior rop op1 op2 = some r → r.fp = false) ∧
    ((mpc_xor rop op1 op2).isSome = true ↔ (op1.fp = false ∧ op2.fp = false)) ∧
    (∀ r, mpc_xor rop op1 op2 = some r → r.fp = false) ∧
    mpc_add rop (.intv a) (.intv b) = .intv (a + b) ∧
    mpc_sub rop (.intv a) (.intv b) = .intv (a - b) ∧
    mpc_mul rop (.intv a) (.intv b) = .intv (a * b) ∧
    mpc_mod rop (.fltv (1 / 2)) (.intv 2) = none ∧
    mpc_and rop (.intv 1) (.fltv (1 / 2)) = none := by
  refine ⟨fp_mpc_arith _ _ _ _ _, fp_mpc_arith _ _ _ _ _, fp_mpc_arith _ _ _ _ _,
    mpc_div_isSome _ _ _, fun r h => fp_mpc_div _ _ _ r h, ?_, ?_, fp_make_int_on _ _,
    fp_make_int_on _ _, ?_, ?_, (mpc_bitwise_spec _ _ _ _).1, (mpc_bitwise_spec _ _ _ _).2,
    (mpc_bitwise_spec _ _ _ _).1, (mpc_bitwise_spec _ _ _ _).2,
    (mpc_bitwise_spec _ _ _ _).1, (mpc_bitwise_spec _ _ _ _).2, ?_, ?_, ?_, rfl, rfl⟩
  · cases rop <;> cases op <;> rfl
  · cases op
    · exact fp_make_int_on _ _
    · exact fp_make_float_on _ _
  · cases op1 <;> cases op2 <;>
      simp [mpc_mod, mpc_t.get_intv, mpc_t.fp, mpz_mod, Option.isSome_map']
  · intro r h
    cases op1 <;> cases op2 <;> simp only [mpc_mod, mpc_t.get_intv] at h
    · simp only [Option.map_eq_some'] at h
      obtain ⟨q, _, rfl⟩ := h
      exact fp_make_int_on _ _
    all_goals cases h
  · simp [mpc_add, mpc_arith, make_int_on_const]
  · simp [mpc_sub, mpc_arith, make_int_on_const]
  · simp [mpc_mul, mpc_arith, make_int_on_const]

theorem mpc_retag_witness :
    mpc_div (.intv 5) (.fltv (1 / 2)) (.intv 4) = some (.fltv (1 / 8)) ∧
    (mpc_t.fltv (1 / 8)).fp = ((mpc_t.fltv (1 / 2)).fp || (mpc_t.intv 4).fp) ∧
    mpc_mod (.fltv (1 / 2)) (.intv 7) (.intv 4) = some (.intv 3) ∧
    (mpc_t.intv 3).fp = false ∧
    mpc_add (.fltv (1 / 2)) (.intv 2) (.intv 3) = .intv 5 ∧
    mpc_mod (.intv 0) (.fltv (1 / 2)) (.intv 2) = none := by
  have h := mpc_retag (.intv 5) (.fltv (1 / 2)) (.intv 4) (.intv 0) 0 0 0 0
  have hd : mpc_div (.intv 5) (.fltv (1 / 2)) (.intv 4) = some (.fltv (1 / 8)) := by
    simp [mpc_div, mpf_div, mpf_set_z, make_float_on_const]
    norm_num
  have h2 := mpc_retag (.fltv (1 / 2)) (.intv 7) (.intv 4) (.intv 0) 0 0 2 3
  have h3 := mpc_retag (.intv 0) (.intv 7) (.intv 4) (.intv 0) 0 0 2 3
  have hm : mpc_mod (.fltv (1 / 2)) (.intv 7) (.intv 4) = some (.intv 3) := by
    simp [mpc_mod, mpz_mod, mpc_t.get_intv, make_int_on_const]
    rfl
  exact ⟨hd, h.2.2.2.2.1 _ hd, hm, h2.2.2.2.2.2.2.2.2.2.2.1 _ hm,
    h2.2.2.2.2.2.2.2.2.2.2.2.2.2.2.2.2.2.1, h3.2.2.2.2.2.2.2.2.2.2.2.2.2.2.2.2.2.2.2.2.1⟩

/-- C28: `mpc_set_str`. For every string, base and prior tag and value of `rop`, and
whatever the GMP functions read from the digits, after `mpc_set_str (rop, s, base)` `rop` is
a float if and only if `base < 0` or `s` contains the character `.`; otherwise it is an
integer. -/
theorem mpc_set_str_tag (mpz_set_str : Int → List Char → Int → Int)
    (mpf_set_str : Rat → List Char → Int → Rat) (rop : mpc_t) (s : List Char) (base : Int) :
    ((mpc_set_str mpz_set_str mpf_set_str rop s base).fp = true ↔ (base < 0 ∨ '.' ∈ s)) ∧
    ((mpc_set_str mpz_set_str mpf_set_str rop s base).fp = false ↔ ¬ (base < 0 ∨ '.' ∈ s)) := by
  unfold mpc_set_str
  by_cases h : base < 0 ∨ '.' ∈ s
  · rw [if_pos h, fp_make_float_on]
    simp [h]
  · rw [if_neg h, fp_make_int_on]
    simp [h]

/-! ## `mpc_get_str` on floats -/

/-- The other cases on examples: with `0 < exp < len` and with `exp = len` the string returned
is the expansion; with `exp < 0` the zeros written are not followed by a NUL, and with
`exp > len` the NUL is written one byte after the block of zeros. -/
theorem get_str_examples :
    mpc_get_str.fltv true "12345".toList 2 = some "-12.345".toList ∧
    decimal_expansion true "12345".toList 2 = "-12.345".toList ∧
    mpc_get_str.fltv false "12345".toList 5 = some "12345".toList ∧
    decimal_expansion false "12345".toList 5 = "12345".toList ∧
    mpc_get_str.fltv false "5".toList (-1) = none ∧
    decimal_expansion false "5".toList (-1) = "0.05".toList ∧
    mpc_get_str.fltv false "5".toList 3 = none ∧
    decimal_expansion false "5".toList 3 = "500".toList := by
  refine ⟨?_, ?_, ?_, ?_, ?_, ?_, ?_, ?_⟩ <;> decide

theorem strlen_scan_c_string (s : List Char) (hs : NUL ∉ s) (rest : chars) :
    strlen.scan (s.map some ++ some NUL :: rest) = some s.length := by
  induction s with
  | nil => simp [strlen.scan]
  | cons c cs ih =>
    have hc : c ≠ NUL := fun h => hs (h ▸ List.mem_cons_self _ _)
    have hcs : NUL ∉ cs := fun h => hs (List.mem_cons_of_mem _ h)
    simp [strlen.scan, hc, ih hcs]

theorem read_string_c_string (s : List Char) (hs : NUL ∉ s) :
    read_string (c_string s) 0 = some s := by
  have h := strlen_scan_c_string s hs []
  simp only [read_string, strlen, c_string, List.drop_zero, h, Option.map_some',
    Option.some.injEq]
  rw [List.take_left' (by simp)]
  clear h hs
  induction s with
  | nil => rfl
  | cons c cs ih => simpa [List.filterMap_cons] using ih

/-- With the exponent 0, `mpc_get_str` returns the string of `mpf_get_str` as it is: the
sign and the digits, without `0.` before them. -/
theorem get_str_exp_zero (neg : Bool) (D : List Char) (hD : NUL ∉ D) :
    mpc_get_str.fltv neg D 0 = some ((if neg then ['-'] else []) ++ D) := by
  have hs : NUL ∉ (if neg then ['-'] else []) ++ D := by
    cases neg
    · simpa using hD
    · simp only [if_true, List.singleton_append, List.mem_cons, not_or]
      exact ⟨by decide, hD⟩
  simp only [mpc_get_str.fltv, if_true]
  exact read_string_c_string _ hs

/-- C29: the float 0.5, which `mpf_get_str` reports as the digits `5` with the exponent 0.
The positional decimal expansion is `0.5`; `mpc_get_str` returns `5`, because it returns
the digit string as it is when the exponent is 0. -/
theorem get_str_zero_exponent :
    mpc_get_str.fltv false "5".toList 0 = some "5".toList ∧
    decimal_expansion false "5".toList 0 = "0.5".toList ∧
    mpc_get_str.fltv false "5".toList 0 ≠ some (decimal_expansion false "5".toList 0) := by
  refine ⟨?_, ?_, ?_⟩ <;> decide

/-! ## Stack discipline -/

theorem all_paths_here (P : List fmt_t) (stop dstop fuel : Nat) :
    all_paths P stop dstop fuel stop dstop = true := by
  cases fuel <;> simp [all_paths]

theorem all_paths_mono (P : List fmt_t) (stop dstop : Nat) :
    ∀ (f pc d : Nat), all_paths P stop dstop f pc d = true →
      all_paths P stop dstop (f + 1) pc d = true := by
  intro f
  induction f with
  | zero =>
    intro pc d h
    simp only [all_paths, decide_eq_true_eq] at h
    simp [all_paths, h]
  | succ f ih =>
    intro pc d h
    rw [all_paths] at h ⊢
    split_ifs at h ⊢ with hc
    · rfl
    · cases hs : depth_step P pc d with
      | none => rw [hs] at h; simp at h
      | some next =>
        rw [hs] at h
        simp only [List.all_eq_true] at h ⊢
        exact fun s hs1 => ih _ _ (h s hs1)

theorem all_paths_mono_le (P : List fmt_t) (stop dstop : Nat) (f g pc d : Nat) (hfg : f ≤ g)
    (h : all_paths P stop dstop f pc d = true) : all_paths P stop dstop g pc d = true := by
  induction hfg with
  | refl => exact h
  | step _ ih => exact all_paths_mono _ _ _ _ _ _ ih

/-- Paths compose: if every path from `(pc, d)` comes to `(b, db)` and every path from
there comes to `(c, dc)`, every path from `(pc, d)` comes to `(c, dc)`. -/
theorem all_paths_trans (P : List fmt_t) (b db c dc f2 : Nat)
    (h2 : all_paths P c dc f2 b db = true) :
    ∀ (f1 pc d : Nat), all_paths P b db f1 pc d = true →
      all_paths P c dc (f1 + f2) pc d = true := by
  intro f1
  induction f1 with
  | zero =>
    intro pc d h
    simp only [all_paths, decide_eq_true_eq] at h
    obtain ⟨rfl, rfl⟩ := h
    simpa using h2
  | succ f ih =>
    intro pc d h
    rw [all_paths] at h
    split_ifs at h with hc
    · obtain ⟨rfl, rfl⟩ := hc
      exact all_paths_mono_le _ _ _ f2 _ _ _ (by omega) h2
    · cases hs : depth_step P pc d with
      | none => rw [hs] at h; simp at h
      | some next =>
        rw [hs] at h
        have e : f + 1 + f2 = (f + f2) + 1 := by omega
        rw [e, all_paths]
        split_ifs with hc2
        · rfl
        · rw [hs]
          simp only [List.all_eq_true] at h ⊢
          exact fun s hs1 => ih _ _ (h s hs1)

theorem depth_step_at (A R : List fmt_t) (i : fmt_t) (d : Nat) :
    depth_step (A ++ i :: R) A.length d
      = (match depth_effect i d with
        | none => none
        | some d1 =>
          match i.inst_val with
          | .JMP => (decode_addr i.operands).map (fun a => [(a, d1)])
          | .JIF | .JIT =>
            (decode_addr (i.operands.drop 1)).map (fun a => [(a, d1), (A.length + 1, d1)])
          | _ => some [(A.length + 1, d1)]) := by
  rw [depth_step, getElem?_append_cons_length]

/-- An instruction after which execution continues at the next instruction only. -/
theorem paths_plain (A R : List fmt_t) (i : fmt_t) (d d1 : Nat)
    (h : depth_step (A ++ i :: R) A.length d = some [(A.length + 1, d1)]) :
    all_paths (A ++ i :: R) (A.length + 1) d1 1 A.length d = true := by
  rw [all_paths, h]
  simp [all_paths]

/-- A conditional jump whose address is the place to reach, with the depth to reach. -/
theorem paths_branch (A R : List fmt_t) (i : fmt_t) (d d1 stop f : Nat)
    (h : depth_step (A ++ i :: R) A.length d = some [(stop, d1), (A.length + 1, d1)])
    (hrest : all_paths (A ++ i :: R) stop d1 f (A.length + 1) d1 = true) :
    all_paths (A ++ i :: R) stop d1 (f + 1) A.length d = true := by
  rw [all_paths]
  split_ifs
  · rfl
  · rw [h]
    simp [all_paths_here, hrest]

theorem step_push (A R : List fmt_t) (op : Furlow_opcode) (bytes : List Nat) (d : Nat)
    (hop : op = .CONST ∨ op = .VAR ∨ op = .THIS) :
    all_paths (A ++ (⟨op, bytes⟩ : fmt_t) :: R) (A.length + 1) (d + 1) 1 A.length d = true := by
  apply paths_plain
  rw [depth_step_at]
  rcases hop with rfl | rfl | rfl <;> simp [depth_effect]

theorem step_binary (A R : List fmt_t) (op : Furlow_opcode) (d : Nat)
    (hop : op ∈ [Furlow_opcode.ADD, .SUB, .MUL, .DIV, .MOD, .CNE, .CEQ, .CMT, .CME, .CLT, .CLE]) :
    all_paths (A ++ (⟨op, [R_POP, R_POP, R_TOP]⟩ : fmt_t) :: R) (A.length + 1) (d + 1) 1
      A.length (d + 3) = true := by
  apply paths_plain
  rw [depth_step_at]
  simp only [List.mem_cons, List.mem_singleton, List.not_mem_nil, or_false] at hop
  rcases hop with h | h | h | h | h | h | h | h | h | h | h
  all_goals subst h
  all_goals simp [depth_effect, reg_operands, R_POP, R_TOP]

theorem step_compound (A R : List fmt_t) (op : Furlow_opcode) (d : Nat)
    (hop : op ∈ [Furlow_opcode.ADD, .SUB, .MUL, .DIV, .MOD]) :
    all_paths (A ++ (⟨op, [R_A, R_POP, R_TOP]⟩ : fmt_t) :: R) (A.length + 1) (d + 1) 1
      A.length (d + 2) = true := by
  apply paths_plain
  rw [depth_step_at]
  simp only [List.mem_cons, List.mem_singleton, List.not_mem_nil, or_false] at hop
  rcases hop with h | h | h | h | h
  all_goals subst h
  all_goals simp [depth_effect, reg_operands, R_POP, R_TOP, R_A]

theorem step_neg (A R : List fmt_t) (d : Nat) :
    all_paths (A ++ (⟨.NEG, [R_TOP]⟩ : fmt_t) :: R) (A.length + 1) (d + 1) 1
      A.length (d + 1) = true := by
  apply paths_plain
  rw [depth_step_at]
  simp [depth_effect, reg_operands, R_POP, R_TOP]

theorem step_sto (A R : List fmt_t) (d : Nat) :
    all_paths (A ++ (⟨.STO, [R_POP, R_TOP]⟩ : fmt_t) :: R) (A.length + 1) (d + 1) 1
      A.length (d + 2) = true := by
  apply paths_plain
  rw [depth_step_at]
  simp [depth_effect, reg_operands, R_POP, R_TOP]

theorem step_ref_top (A R : List fmt_t) (d : Nat) :
    all_paths (A ++ (⟨.REF, [R_TOP, R_A]⟩ : fmt_t) :: R) (A.length + 1) (d + 1) 1
      A.length (d + 1) = true := by
  apply paths_plain
  rw [depth_step_at]
  simp [depth_effect, reg_operands, R_POP, R_TOP, R_A]

theorem step_swap (A R : List fmt_t) (d : Nat) :
    all_paths (A ++ (⟨.SWAP, []⟩ : fmt_t) :: R) (A.length + 1) (d + 2) 1
      A.length (d + 2) = true := by
  apply paths_plain
  rw [depth_step_at]
  simp [depth_effect, reg_operands]

theorem step_drop (A R : List fmt_t) (d : Nat) :
    all_paths (A ++ (⟨.DROP, []⟩ : fmt_t) :: R) (A.length + 1) d 1
      A.length (d + 1) = true := by
  apply paths_plain
  rw [depth_step_at]
  simp [depth_effect, reg_operands]

theorem step_def (A R : List fmt_t) (op : Furlow_opcode) (label : List Nat) (d : Nat)
    (hop : op = .DEF_N ∨ op = .DEF_S) :
    all_paths (A ++ (⟨op, R_POP :: label⟩ : fmt_t) :: R) (A.length + 1) (d + 1) 1
      A.length (d + 1) = true := by
  apply paths_plain
  rw [depth_step_at]
  rcases hop with rfl | rfl <;> simp [depth_effect, reg_operands, R_POP]

/-- The terminator `REF R_POP R_X` pops one value. -/
theorem step_terminator (A R : List fmt_t) (d : Nat) :
    all_paths (A ++ (⟨.REF, [R_POP, R_X]⟩ : fmt_t) :: R) (A.length + 1) d 1
      A.length (d + 1) = true := by
  apply paths_plain
  rw [depth_step_at]
  simp [depth_effect, reg_operands, R_POP, R_TOP, R_X]

theorem step_jump (A R : List fmt_t) (op : Furlow_opcode) (hop : op = .JIF ∨ op = .JIT)
    (E d f : Nat) (hE : E < 2 ^ 32)
    (hrest : all_paths (A ++ (⟨op, R_POP :: spread E⟩ : fmt_t) :: R) E d f (A.length + 1) d
      = true) :
    all_paths (A ++ (⟨op, R_POP :: spread E⟩ : fmt_t) :: R) E d (f + 1) A.length (d + 1)
      = true := by
  apply paths_branch _ _ _ _ _ _ _ _ hrest
  rw [depth_step_at]
  rcases hop with rfl | rfl <;>
    simp [depth_effect, reg_operands, R_POP, R_TOP, decode_spread E hE]

/-! ### The code of each kind of expression -/

theorem code_of_load {t : FACT_tree} {n : inter_node} (hc : compile_tree t = some n)
    (prog c : List fmt_t) (hl : load n none prog = some (prog ++ c)) :
    code (some t) prog = c := by
  simp [code, compile_tree_opt, hc, code_at, load_opt, hl]

theorem code_var (L : List Char) (c0 c1 c2 c3 : Option FACT_tree) (prog : List fmt_t) :
    (compile_tree (.mk .E_VAR L c0 c1 c2 c3 none)).isSome = true ∧
    ∃ (op : Furlow_opcode) (bytes : List Nat), (op = .CONST ∨ op = .VAR ∨ op = .THIS) ∧
      code (some (.mk .E_VAR L c0 c1 c2 c3 none)) prog = [⟨op, bytes⟩] := by
  have hc := compile_var L c0 c1 c2 c3
  refine ⟨by rw [hc]; split_ifs <;> rfl, ?_⟩
  have e : compile_tree_opt (some (.mk .E_VAR L c0 c1 c2 c3 none))
      = some (if L = "this".toList then inode .THIS []
        else if is_num L = true then inode .CONST [.LABEL L] else inode .VAR [.LABEL L]) := by
    rw [compile_tree_opt, hc]
    split_ifs <;> rfl
  rw [code, e]
  simp only
  split_ifs
  · exact ⟨.THIS, [], Or.inr (Or.inr rfl),
      code_at_inode _ _ _ _ (by simp [mk_inst, inst_t.args, load.args])⟩
  · exact ⟨.CONST, _, Or.inl rfl, code_at_inode _ _ _ _ (load_args_label _ _ _)⟩
  · exact ⟨.VAR, _, Or.inr (Or.inl rfl), code_at_inode _ _ _ _ (load_args_label _ _ _)⟩

theorem code_scalar_decl (id : FACT_nterm_t) (op : Furlow_opcode)
    (hid : (id, op) ∈ [(FACT_nterm_t.E_NUM_DEF, Furlow_opcode.DEF_N), (.E_SCOPE_DEF, .DEF_S)])
    (lexem : List Char) (name : FACT_tree) (c2 c3 : Option FACT_tree) (prog : List fmt_t) :
    (compile_tree (.mk id lexem none (some name) c2 c3 none)).isSome = true ∧
    code (some (.mk id lexem none (some name) c2 c3 none)) prog
      = [⟨.CONST, [48, 0]⟩, ⟨op, R_POP :: (name.lexem.map Char.toNat ++ [0])⟩] := by
  have hs : (compile_tree (.mk id lexem none (some name) c2 c3 none)).isSome = true := by
    obtain ⟨vid, vname, v0, v1, v2, v3, vn⟩ := name
    simp only [List.mem_cons, Prod.mk.injEq, List.mem_singleton, List.not_mem_nil,
      or_false] at hid
    rcases hid with h | h
    all_goals obtain ⟨rfl, rfl⟩ := h
    all_goals simp [compile_tree, compile_tree_opt, count_dims]
  refine ⟨hs, ?_⟩
  obtain ⟨n, hn⟩ := Option.isSome_iff_exists.1 hs
  obtain ⟨code_0, code_next, h0, h1, hl⟩ := decl_layout id op hid lexem none c2 c3 none name n hn prog
  have hd : dims_str (count_dims none) = "0".toList := by
    rw [dims_str_eq_toDigits]
    simp [count_dims]
    rfl
  rw [h1, h0, code_none, code_none, hd] at hl
  apply code_of_load hn
  rw [hl]
  simp

theorem compile_neg (lexem : List Char) (c0 c1 c2 c3 next : Option FACT_tree) (n : inter_node)
    (hc : compile_tree (.mk .E_NEG lexem c0 c1 c2 c3 next) = some n) :
    ∃ k0 knext, compile_tree_opt c0 = some k0 ∧ compile_tree_opt next = some knext ∧
      n = .grouping [k0, inode .NEG [.REG_VAL R_TOP]] knext := by
  simp only [compile_tree] at hc
  split at hc
  all_goals cases hc
  rename_i res nx hr hnx
  simp only [Option.bind_eq_bind, Option.bind_eq_some, Option.some.injEq] at hr
  obtain ⟨k0, e0, rfl⟩ := hr
  exact ⟨k0, nx, e0, hnx, rfl⟩

theorem code_neg (lexem : List Char) (e : FACT_tree) (c1 c2 c3 : Option FACT_tree)
    (he : (compile_tree e).isSome = true) (prog : List fmt_t) :
    (compile_tree (.mk .E_NEG lexem (some e) c1 c2 c3 none)).isSome = true ∧
    code (some (.mk .E_NEG lexem (some e) c1 c2 c3 none)) prog
      = code (some e) prog ++ [⟨.NEG, [R_TOP]⟩] := by
  have hs : (compile_tree (.mk .E_NEG lexem (some e) c1 c2 c3 none)).isSome = true := by
    obtain ⟨k, hk⟩ := Option.isSome_iff_exists.1 he
    simp [compile_tree, compile_tree_opt, hk]
  refine ⟨hs, ?_⟩
  obtain ⟨n, hn⟩ := Option.isSome_iff_exists.1 hs
  obtain ⟨k0, knext, e0, en, rfl⟩ := compile_neg lexem _ c1 c2 c3 none n hn
  apply code_of_load hn
  rw [load_grouping_code _ _ _ (loads_of_compile en)]
  · simp only [children_code, code_at_of_compile e0, code_at_of_compile en, code_none,
      code_at_inode .NEG [.REG_VAL R_TOP] _ [R_TOP] (by simp [mk_inst, inst_t.args, load.args]),
      List.append_nil, List.append_assoc]
  · intro c hcm
    simp only [List.mem_cons, List.mem_singleton, List.not_mem_nil, or_false] at hcm
    rcases hcm with rfl | rfl
    · exact loads_of_compile e0
    · exact loads_inode_plain _ _ rfl

theorem compile_set (lexem : List Char) (c0 c1 c2 c3 next : Option FACT_tree) (n : inter_node)
    (hc : compile_tree (.mk .E_SET lexem c0 c1 c2 c3 next) = some n) :
    ∃ k0 k1 knext, compile_tree_opt c0 = some k0 ∧ compile_tree_opt c1 = some k1 ∧
      compile_tree_opt next = some knext ∧
      n = .grouping [k0, k1, inode .STO [.REG_VAL R_POP, .REG_VAL R_TOP]] knext := by
  simp only [compile_tree] at hc
  split at hc
  all_goals cases hc
  rename_i res nx hr hnx
  simp only [Option.bind_eq_bind, Option.bind_eq_some, Option.some.injEq] at hr
  obtain ⟨k0, e0, k1, e1, rfl⟩ := hr
  exact ⟨k0, k1, nx, e0, e1, hnx, rfl⟩

theorem code_set (lexem : List Char) (x e : FACT_tree) (c2 c3 : Option FACT_tree)
    (hx : (compile_tree x).isSome = true) (he : (compile_tree e).isSome = true)
    (prog : List fmt_t) :
    (compile_tree (.mk .E_SET lexem (some x) (some e) c2 c3 none)).isSome = true ∧
    code (some (.mk .E_SET lexem (some x) (some e) c2 c3 none)) prog
      = code (some x) prog ++ code (some e) (prog ++ code (some x) prog)
        ++ [⟨.STO, [R_POP, R_TOP]⟩] := by
  have hs : (compile_tree (.mk .E_SET lexem (some x) (some e) c2 c3 none)).isSome = true := by
    obtain ⟨k, hk⟩ := Option.isSome_iff_exists.1 hx
    obtain ⟨j, hj⟩ := Option.isSome_iff_exists.1 he
    simp [compile_tree, compile_tree_opt, hk, hj]
  refine ⟨hs, ?_⟩
  obtain ⟨n, hn⟩ := Option.isSome_iff_exists.1 hs
  obtain ⟨k0, k1, knext, e0, e1, en, rfl⟩ := compile_set lexem _ _ c2 c3 none n hn
  apply code_of_load hn
  rw [load_grouping_code _ _ _ (loads_of_compile en)]
  · simp only [children_code, code_at_of_compile e0, code_at_of_compile e1,
      code_at_of_compile en, code_none,
      code_at_inode .STO [.REG_VAL R_POP, .REG_VAL R_TOP] _ [R_POP, R_TOP]
        (by simp [mk_inst, inst_t.args, load.args]),
      List.append_nil, List.append_assoc]
  · intro c hcm
    simp only [List.mem_cons, List.mem_singleton, List.not_mem_nil, or_false] at hcm
    rcases hcm with rfl | rfl | rfl
    · exact loads_of_compile e0
    · exact loads_of_compile e1
    · exact loads_inode_plain _ _ rfl

theorem code_binary (id : FACT_nterm_t) (op : Furlow_opcode)
    (hid : (id, op) ∈ [(FACT_nterm_t.E_ADD, Furlow_opcode.ADD), (.E_SUB, .SUB), (.E_MUL, .MUL),
      (.E_DIV, .DIV), (.E_MOD, .MOD), (.E_NE, .CNE), (.E_EQ, .CEQ), (.E_MT, .CMT),
      (.E_ME, .CME), (.E_LT, .CLT), (.E_LE, .CLE)])
    (lexem : List Char) (l r : FACT_tree) (c2 c3 : Option FACT_tree)
    (hl : (compile_tree l).isSome = true) (hr : (compile_tree r).isSome = true)
    (prog : List fmt_t) :
    (compile_tree (.mk id lexem (some l) (some r) c2 c3 none)).isSome = true ∧
    code (some (.mk id lexem (some l) (some r) c2 c3 none)) prog
      = [⟨.CONST, [48, 0]⟩] ++ code (some r) (prog ++ [⟨.CONST, [48, 0]⟩])
        ++ code (some l)
            (prog ++ [⟨.CONST, [48, 0]⟩] ++ code (some r) (prog ++ [⟨.CONST, [48, 0]⟩]))
        ++ [⟨op, [R_POP, R_POP, R_TOP]⟩] := by
  have hs : (compile_tree (.mk id lexem (some l) (some r) c2 c3 none)).isSome = true := by
    obtain ⟨k, hk⟩ := Option.isSome_iff_exists.1 hl
    obtain ⟨j, hj⟩ := Option.isSome_iff_exists.1 hr
    simp only [List.mem_cons, Prod.mk.injEq, List.mem_singleton, List.not_mem_nil,
      or_false] at hid
    rcases hid with h | h | h | h | h | h | h | h | h | h | h
    all_goals obtain ⟨rfl, rfl⟩ := h
    all_goals simp [compile_tree, compile_tree_opt, hk, hj, lookup_table]
  refine ⟨hs, ?_⟩
  obtain ⟨n, hn⟩ := Option.isSome_iff_exists.1 hs
  obtain ⟨code_1, code_0, code_next, h1, h0, hnx, hload⟩ :=
    binary_layout id op hid lexem _ _ c2 c3 none n hn prog
  apply code_of_load hn
  rw [hload, hnx, code_none, h0, h1]
  simp

theorem code_compound (id : FACT_nterm_t) (op : Furlow_opcode)
    (hid : (id, op) ∈ [(FACT_nterm_t.E_ADD_AS, Furlow_opcode.ADD), (.E_SUB_AS, .SUB),
      (.E_MUL_AS, .MUL), (.E_DIV_AS, .DIV), (.E_MOD_AS, .MOD)])
    (lexem : List Char) (x e : FACT_tree) (c2 c3 : Option FACT_tree)
    (hx : (compile_tree x).isSome = true) (he : (compile_tree e).isSome = true)
    (prog : List fmt_t) :
    (compile_tree (.mk id lexem (some x) (some e) c2 c3 none)).isSome = true ∧
    code (some (.mk id lexem (some x) (some e) c2 c3 none)) prog
      = code (some e) prog ++ code (some x) (prog ++ code (some e) prog)
        ++ [⟨.REF, [R_TOP, R_A]⟩, ⟨.SWAP, []⟩, ⟨op, [R_A, R_POP, R_TOP]⟩] := by
  have hs : (compile_tree (.mk id lexem (some x) (some e) c2 c3 none)).isSome = true := by
    obtain ⟨k, hk⟩ := Option.isSome_iff_exists.1 hx
    obtain ⟨j, hj⟩ := Option.isSome_iff_exists.1 he
    simp only [List.mem_cons, Prod.mk.injEq, List.mem_singleton, List.not_mem_nil,
      or_false] at hid
    rcases hid with h | h | h | h | h
    all_goals obtain ⟨rfl, rfl⟩ := h
    all_goals simp [compile_tree, compile_tree_opt, hk, hj, lookup_table]
  refine ⟨hs, ?_⟩
  obtain ⟨n, hn⟩ := Option.isSome_iff_exists.1 hs
  obtain ⟨code_1, code_0, code_next, h1, h0, hnx, hload⟩ :=
    compound_layout id op hid lexem _ _ c2 c3 none n hn prog
  apply code_of_load hn
  rw [hload, hnx, code_none, h0, h1]
  simp

theorem code_short_circuit (id : FACT_nterm_t) (op : Furlow_opcode) (la lb : List Char)
    (hid : (id = .E_AND ∧ op = .JIF ∧ la = "0".toList ∧ lb = "1".toList) ∨
      (id = .E_OR ∧ op = .JIT ∧ la = "1".toList ∧ lb = "0".toList))
    (lexem : List Char) (l r : FACT_tree) (c2 c3 : Option FACT_tree)
    (hl : (compile_tree l).isSome = true) (hr : (compile_tree r).isSome = true)
    (prog : List fmt_t) :
    (compile_tree (.mk id lexem (some l) (some r) c2 c3 none)).isSome = true ∧
    ∃ (code_l code_r : List fmt_t) (E : Nat),
      code_l = code (some l) (prog ++ [⟨.CONST, la.map Char.toNat ++ [0]⟩]) ∧
      code_r = code (some r)
        (prog ++ [⟨.CONST, la.map Char.toNat ++ [0]⟩] ++ code_l ++ [⟨op, R_POP :: spread E⟩]) ∧
      E = prog.length + 1 + code_l.length + 1 + code_r.length + 3 ∧
      code (some (.mk id lexem (some l) (some r) c2 c3 none)) prog
        = [⟨.CONST, la.map Char.toNat ++ [0]⟩] ++ code_l ++ [⟨op, R_POP :: spread E⟩] ++ code_r
          ++ [⟨op, R_POP :: spread E⟩, ⟨.DROP, []⟩, ⟨.CONST, lb.map Char.toNat ++ [0]⟩] := by
  have hs : (compile_tree (.mk id lexem (some l) (some r) c2 c3 none)).isSome = true := by
    obtain ⟨k, hk⟩ := Option.isSome_iff_exists.1 hl
    obtain ⟨j, hj⟩ := Option.isSome_iff_exists.1 hr
    rcases hid with ⟨rfl, _⟩ | ⟨rfl, _⟩
    all_goals simp [compile_tree, compile_tree_opt, hk, hj]
  refine ⟨hs, ?_⟩
  obtain ⟨n, hn⟩ := Option.isSome_iff_exists.1 hs
  obtain ⟨kl, kr, knext, e1, e2, e3, rfl⟩ :=
    compile_short_circuit id op la lb hid lexem _ _ c2 c3 none n hn
  obtain ⟨code_l, code_r, code_next, hl1, hl3, hln, s1, s3, hload⟩ :=
    short_circuit_layout op la lb kl kr knext _ rfl (loads_of_compile e1).1
      (loads_of_compile e2).1 (loads_of_compile e3).1 none prog
  have hcl : code_l = code (some l) (prog ++ [⟨.CONST, la.map Char.toNat ++ [0]⟩]) := by
    rw [(load_code e1 _ _).1] at s1
    simpa using s1.symm
  have hcr : code_r = code (some r)
      (prog ++ [⟨.CONST, la.map Char.toNat ++ [0]⟩] ++ code_l
        ++ [⟨op, R_POP :: spread (prog.length + 1 + code_l.length + 1 + code_r.length + 3)⟩]) := by
    rw [(load_code e2 _ _).1] at s3
    simpa using s3.symm
  have hcn : code_next = [] := by
    rw [compile_tree_opt] at e3
    cases e3
    simpa [weight_opt] using hln
  refine ⟨code_l, code_r, _, hcl, hcr, rfl, ?_⟩
  apply code_of_load hn
  rw [hload, hcn]
  simp

/-! ### Every path through the code of an expression -/

theorem paths_cast {P P1 : List fmt_t} {s s1 ds ds1 f f1 pc pc1 d d1 : Nat}
    (h : all_paths P s ds f pc d = true) (hP : P = P1) (hs : s = s1) (hds : ds = ds1)
    (hf : f ≤ f1) (hpc : pc = pc1) (hd : d = d1) :
    all_paths P1 s1 ds1 f1 pc1 d1 = true := by
  subst hP hs hds hpc hd
  exact all_paths_mono_le _ _ _ _ _ _ _ hf h

theorem paths_seq {P : List fmt_t} {a da b db c dc f1 f2 : Nat} (f : Nat)
    (h1 : all_paths P b db f1 a da = true) (h2 : all_paths P c dc f2 b db = true)
    (hf : f1 + f2 ≤ f) : all_paths P c dc f a da = true :=
  all_paths_mono_le _ _ _ _ _ _ _ hf (all_paths_trans P b db c dc f2 h2 f1 a da h1)

/-- The two jumps of a short-circuit operator both land right after its code, where the
stack holds the one value the operator leaves: the first constant on a jump, the second
constant when both operands were evaluated. -/
theorem short_circuit_paths (id : FACT_nterm_t) (op : Furlow_opcode) (la lb : List Char)
    (hid : (id = .E_AND ∧ op = .JIF ∧ la = "0".toList ∧ lb = "1".toList) ∨
      (id = .E_OR ∧ op = .JIT ∧ la = "1".toList ∧ lb = "0".toList))
    (lexem : List Char) (l r : FACT_tree) (c2 c3 : Option FACT_tree)
    (ihl : (compile_tree l).isSome = true ∧
      ∀ (prog rest : List fmt_t) (d : Nat),
        prog.length + (code (some l) prog).length < 2 ^ 32 →
        all_paths (prog ++ code (some l) prog ++ rest)
          (prog.length + (code (some l) prog).length) (d + 1)
          (code (some l) prog).length prog.length d = true)
    (ihr : (compile_tree r).isSome = true ∧
      ∀ (prog rest : List fmt_t) (d : Nat),
        prog.length + (code (some r) prog).length < 2 ^ 32 →
        all_paths (prog ++ code (some r) prog ++ rest)
          (prog.length + (code (some r) prog).length) (d + 1)
          (code (some r) prog).length prog.length d = true) :
    (compile_tree (.mk id lexem (some l) (some r) c2 c3 none)).isSome = true ∧
    ∀ (prog rest : List fmt_t) (d : Nat),
      prog.length + (code (some (.mk id lexem (some l) (some r) c2 c3 none)) prog).length
        < 2 ^ 32 →
      all_paths (prog ++ code (some (.mk id lexem (some l) (some r) c2 c3 none)) prog ++ rest)
        (prog.length + (code (some (.mk id lexem (some l) (some r) c2 c3 none)) prog).length)
        (d + 1)
        (code (some (.mk id lexem (some l) (some r) c2 c3 none)) prog).length
        prog.length d = true := by
  refine ⟨(code_short_circuit id op la lb hid lexem l r c2 c3 ihl.1 ihr.1 []).1, ?_⟩
  intro prog rest d hlen
  obtain ⟨cl, cr, E, hcl, hcr, hE, hcode⟩ :=
    (code_short_circuit id op la lb hid lexem l r c2 c3 ihl.1 ihr.1 prog).2
  have hop : op = .JIF ∨ op = .JIT := by
    rcases hid with ⟨_, h, _⟩ | ⟨_, h, _⟩
    · exact Or.inl h
    · exact Or.inr h
  rw [hcode] at hlen ⊢
  simp only [List.length_append, List.length_singleton, List.length_cons,
    List.length_nil] at hlen
  obtain ⟨K0, hK0⟩ : ∃ K : fmt_t, K = ⟨.CONST, la.map Char.toNat ++ [0]⟩ := ⟨_, rfl⟩
  obtain ⟨K1, hK1⟩ : ∃ K : fmt_t, K = ⟨.CONST, lb.map Char.toNat ++ [0]⟩ := ⟨_, rfl⟩
  obtain ⟨J, hJ⟩ : ∃ J : fmt_t, J = ⟨op, R_POP :: spread E⟩ := ⟨_, rfl⟩
  rw [← hK0] at hcl hcr ⊢
  rw [← hK1, ← hJ]
  rw [← hJ] at hcr
  obtain ⟨P, hP⟩ : ∃ P, P = prog ++ ([K0] ++ cl ++ [J] ++ cr
    ++ [J, (⟨.DROP, []⟩ : fmt_t), K1]) ++ rest := ⟨_, rfl⟩
  rw [← hP]
  have hE32 : E < 2 ^ 32 := by omega
  have s1 := step_push prog (cl ++ [J] ++ cr ++ [J, (⟨.DROP, []⟩ : fmt_t), K1] ++ rest)
    .CONST (la.map Char.toNat ++ [0]) d (Or.inl rfl)
  rw [← hK0] at s1
  have s2 := ihl.2 (prog ++ [K0]) ([J] ++ cr ++ [J, (⟨.DROP, []⟩ : fmt_t), K1] ++ rest)
    (d + 1) (by rw [← hcl]; simp; omega)
  rw [← hcl] at s2
  have s3 := ihr.2 (prog ++ [K0] ++ cl ++ [J]) ([J, (⟨.DROP, []⟩ : fmt_t), K1] ++ rest)
    (d + 1) (by rw [← hcr]; simp; omega)
  rw [← hcr] at s3
  have s5 := step_drop (prog ++ [K0] ++ cl ++ [J] ++ cr ++ [J]) (K1 :: rest) d
  have s6 := step_push (prog ++ [K0] ++ cl ++ [J] ++ cr ++ [J, (⟨.DROP, []⟩ : fmt_t)]) rest
    .CONST (lb.map Char.toNat ++ [0]) d (Or.inl rfl)
  rw [← hK1] at s6
  have t1 : all_paths P (prog.length + 1) (d + 1) 1 prog.length d = true :=
    paths_cast s1 (by rw [hP]; simp) rfl rfl (le_refl _) rfl rfl
  have t2 : all_paths P (prog.length + 1 + cl.length) (d + 2) cl.length (prog.length + 1)
      (d + 1) = true :=
    paths_cast s2 (by rw [hP]; simp) (by simp) rfl (le_refl _) (by simp) rfl
  have t3 : all_paths P (prog.length + 1 + cl.length + 1 + cr.length) (d + 2) cr.length
      (prog.length + 1 + cl.length + 1) (d + 1) = true :=
    paths_cast s3 (by rw [hP]; simp) (by simp; omega) rfl (le_refl _) (by simp; omega) rfl
  have t5 : all_paths P (prog.length + 1 + cl.length + 1 + cr.length + 2) d 1
      (prog.length + 1 + cl.length + 1 + cr.length + 1) (d + 1) = true :=
    paths_cast s5 (by rw [hP]; simp) (by simp; omega) rfl (le_refl _) (by simp; omega) rfl
  have t6 : all_paths P E (d + 1) 1
      (prog.length + 1 + cl.length + 1 + cr.length + 2) d = true :=
    paths_cast s6 (by rw [hP]; simp) (by simp; omega) rfl (le_refl _) (by simp; omega) rfl
  have u5 : all_paths P E (d + 1) 2
      (prog.length + 1 + cl.length + 1 + cr.length + 1) (d + 1) = true :=
    paths_seq 2 t5 t6 (le_refl _)
  have j4 := step_jump (prog ++ [K0] ++ cl ++ [J] ++ cr)
    ((⟨.DROP, []⟩ : fmt_t) :: K1 :: rest) op hop E (d + 1) 2 hE32
    (paths_cast u5 (by rw [hP, hJ]; simp) rfl rfl (le_refl _) (by simp; omega) rfl)
  have u4 : all_paths P E (d + 1) 3
      (prog.length + 1 + cl.length + 1 + cr.length) (d + 2) = true :=
    paths_cast j4 (by rw [hP, hJ]; simp) rfl rfl (le_refl _) (by simp; omega) rfl
  have u3 : all_paths P E (d + 1) (cr.length + 3)
      (prog.length + 1 + cl.length + 1) (d + 1) = true :=
    paths_seq _ t3 u4 (le_refl _)
  have j2 := step_jump (prog ++ [K0] ++ cl)
    (cr ++ [J, (⟨.DROP, []⟩ : fmt_t), K1] ++ rest) op hop E (d + 1) (cr.length + 3) hE32
    (paths_cast u3 (by rw [hP, hJ]; simp) rfl rfl (le_refl _) (by simp; omega) rfl)
  have u2 : all_paths P E (d + 1) (cr.length + 3 + 1)
      (prog.length + 1 + cl.length) (d + 2) = true :=
    paths_cast j2 (by rw [hP, hJ]; simp) rfl rfl (le_refl _) (by simp; omega) rfl
  exact paths_cast
    (paths_seq (1 + (cl.length + (cr.length + 3 + 1))) t1
      (paths_seq (cl.length + (cr.length + 3 + 1)) t2 u2 (le_refl _)) (le_refl _))
    rfl (by simp; omega) rfl (by simp; omega) rfl rfl

/-- Every control path through the code of an expression of the stack discipline ends
right after that code, with one value more on the stack; the code has as many instructions
as the longest path executes at most. -/
theorem plain_expr_paths (e : FACT_tree) (he : plain_expr e) :
    (compile_tree e).isSome = true ∧
    ∀ (prog rest : List fmt_t) (d : Nat),
      prog.length + (code (some e) prog).length < 2 ^ 32 →
      all_paths (prog ++ code (some e) prog ++ rest)
        (prog.length + (code (some e) prog).length) (d + 1)
        (code (some e) prog).length prog.length d = true := by
  induction he with
  | var lexem c0 c1 c2 c3 =>
    refine ⟨(code_var lexem c0 c1 c2 c3 []).1, ?_⟩
    intro prog rest d _
    obtain ⟨op, bytes, hop, hcode⟩ := (code_var lexem c0 c1 c2 c3 prog).2
    rw [hcode]
    exact paths_cast (step_push prog rest op bytes d hop) (by simp) rfl rfl (by simp) rfl rfl
  | decl id op hid lexem name c2 c3 =>
    refine ⟨(code_scalar_decl id op hid lexem name c2 c3 []).1, ?_⟩
    intro prog rest d _
    rw [(code_scalar_decl id op hid lexem name c2 c3 prog).2]
    have hop : op = .DEF_N ∨ op = .DEF_S := by
      simp only [List.mem_cons, Prod.mk.injEq, List.mem_singleton, List.not_mem_nil,
        or_false] at hid
      rcases hid with h | h
      · exact Or.inl h.2
      · exact Or.inr h.2
    obtain ⟨P, hP⟩ : ∃ P, P = prog ++ [(⟨.CONST, [48, 0]⟩ : fmt_t),
      ⟨op, R_POP :: (name.lexem.map Char.toNat ++ [0])⟩] ++ rest := ⟨_, rfl⟩
    rw [← hP]
    have t1 : all_paths P (prog.length + 1) (d + 1) 1 prog.length d = true :=
      paths_cast (step_push prog
        (⟨op, R_POP :: (name.lexem.map Char.toNat ++ [0])⟩ :: rest) .CONST [48, 0] d
        (Or.inl rfl)) (by rw [hP]; simp) rfl rfl (le_refl _) rfl rfl
    have t2 : all_paths P (prog.length + 2) (d + 1) 1 (prog.length + 1) (d + 1) = true :=
      paths_cast (step_def (prog ++ [⟨.CONST, [48, 0]⟩]) rest op
        (name.lexem.map Char.toNat ++ [0]) d hop)
        (by rw [hP]; simp) (by simp) rfl (le_refl _) (by simp) rfl
    exact paths_seq _ t1 (paths_cast t2 rfl (by simp) rfl (le_refl _) rfl rfl) (by simp)
  | neg lexem e c1 c2 c3 _ ih =>
    refine ⟨(code_neg lexem e c1 c2 c3 ih.1 []).1, ?_⟩
    intro prog rest d hlen
    rw [(code_neg lexem e c1 c2 c3 ih.1 prog).2] at hlen ⊢
    simp only [List.length_append, List.length_singleton] at hlen
    obtain ⟨ce, hce⟩ : ∃ c, c = code (some e) prog := ⟨_, rfl⟩
    rw [← hce] at hlen ⊢
    obtain ⟨P, hP⟩ : ∃ P, P = prog ++ (ce ++ [(⟨.NEG, [R_TOP]⟩ : fmt_t)]) ++ rest := ⟨_, rfl⟩
    rw [← hP]
    have s1 := ih.2 prog (⟨.NEG, [R_TOP]⟩ :: rest) d (by rw [← hce]; omega)
    rw [← hce] at s1
    have t1 : all_paths P (prog.length + ce.length) (d + 1) ce.length prog.length d = true :=
      paths_cast s1 (by rw [hP]; simp) rfl rfl (le_refl _) rfl rfl
    have t2 : all_paths P (prog.length + ce.length + 1) (d + 1) 1 (prog.length + ce.length)
        (d + 1) = true :=
      paths_cast (step_neg (prog ++ ce) rest d) (by rw [hP]; simp) (by simp) rfl (le_refl _)
        (by simp) rfl
    exact paths_seq _ t1 (paths_cast t2 rfl (by simp; omega) rfl (le_refl _) rfl rfl) (by simp)
  | binary id op hid lexem l r c2 c3 _ _ ihl ihr =>
    refine ⟨(code_binary id op hid lexem l r c2 c3 ihl.1 ihr.1 []).1, ?_⟩
    intro prog rest d hlen
    rw [(code_binary id op hid lexem l r c2 c3 ihl.1 ihr.1 prog).2] at hlen ⊢
    simp only [List.length_append, List.length_singleton] at hlen
    have hop : op ∈ [Furlow_opcode.ADD, .SUB, .MUL, .DIV, .MOD, .CNE, .CEQ, .CMT, .CME,
        .CLT, .CLE] := by
      simp only [List.mem_cons, Prod.mk.injEq, List.mem_singleton, List.not_mem_nil,
        or_false] at hid ⊢
      rcases hid with h | h | h | h | h | h | h | h | h | h | h
      all_goals simp [h.2]
    obtain ⟨K, hK⟩ : ∃ K : fmt_t, K = ⟨.CONST, [48, 0]⟩ := ⟨_, rfl⟩
    rw [← hK] at hlen ⊢
    obtain ⟨cr, hcr⟩ : ∃ c, c = code (some r) (prog ++ [K]) := ⟨_, rfl⟩
    rw [← hcr] at hlen ⊢
    obtain ⟨cl, hcl⟩ : ∃ c, c = code (some l) (prog ++ [K] ++ cr) := ⟨_, rfl⟩
    rw [← hcl] at hlen ⊢
    obtain ⟨P, hP⟩ : ∃ P, P = prog ++ ([K] ++ cr ++ cl
      ++ [(⟨op, [R_POP, R_POP, R_TOP]⟩ : fmt_t)]) ++ rest := ⟨_, rfl⟩
    rw [← hP]
    have s1 := step_push prog (cr ++ cl ++ [⟨op, [R_POP, R_POP, R_TOP]⟩] ++ rest)
      .CONST [48, 0] d (Or.inl rfl)
    rw [← hK] at s1
    have s2 := ihr.2 (prog ++ [K]) (cl ++ [⟨op, [R_POP, R_POP, R_TOP]⟩] ++ rest) (d + 1)
      (by rw [← hcr]; simp; omega)
    rw [← hcr] at s2
    have s3 := ihl.2 (prog ++ [K] ++ cr) ([⟨op, [R_POP, R_POP, R_TOP]⟩] ++ rest) (d + 2)
      (by rw [← hcl]; simp; omega)
    rw [← hcl] at s3
    have s4 := step_binary (prog ++ [K] ++ cr ++ cl) rest op d hop
    have t1 : all_paths P (prog.length + 1) (d + 1) 1 prog.length d = true :=
      paths_cast s1 (by rw [hP]; simp) rfl rfl (le_refl _) rfl rfl
    have t2 : all_paths P (prog.length + 1 + cr.length) (d + 2) cr.length (prog.length + 1)
        (d + 1) = true :=
      paths_cast s2 (by rw [hP]; simp) (by simp) rfl (le_refl _) (by simp) rfl
    have t3 : all_paths P (prog.length + 1 + cr.length + cl.length) (d + 3) cl.length
        (prog.length + 1 + cr.length) (d + 2) = true :=
      paths_cast s3 (by rw [hP]; simp) (by simp; omega) rfl (le_refl _) (by simp; omega) rfl
    have t4 : all_paths P (prog.length + 1 + cr.length + cl.length + 1) (d + 1) 1
        (prog.length + 1 + cr.length + cl.length) (d + 3) = true :=
      paths_cast s4 (by rw [hP]; simp) (by simp; omega) rfl (le_refl _) (by simp; omega) rfl
    exact paths_cast
      (paths_seq (1 + cr.length + cl.length + 1) t1
        (paths_seq (cr.length + cl.length + 1) t2
          (paths_seq (cl.length + 1) t3 t4 (le_refl _)) (by omega)) (by omega))
      rfl (by simp; omega) rfl (by simp; omega) rfl rfl
  | set lexem x e c2 c3 _ _ ihx ihe =>
    refine ⟨(code_set lexem x e c2 c3 ihx.1 ihe.1 []).1, ?_⟩
    intro prog rest d hlen
    rw [(code_set lexem x e c2 c3 ihx.1 ihe.1 prog).2] at hlen ⊢
    simp only [List.length_append, List.length_singleton] at hlen
    obtain ⟨cx, hcx⟩ : ∃ c, c = code (some x) prog := ⟨_, rfl⟩
    rw [← hcx] at hlen ⊢
    obtain ⟨ce, hce⟩ : ∃ c, c = code (some e) (prog ++ cx) := ⟨_, rfl⟩
    rw [← hce] at hlen ⊢
    obtain ⟨P, hP⟩ : ∃ P, P = prog ++ (cx ++ ce ++ [(⟨.STO, [R_POP, R_TOP]⟩ : fmt_t)])
      ++ rest := ⟨_, rfl⟩
    rw [← hP]
    have s1 := ihx.2 prog (ce ++ [⟨.STO, [R_POP, R_TOP]⟩] ++ rest) d (by rw [← hcx]; omega)
    rw [← hcx] at s1
    have s2 := ihe.2 (prog ++ cx) ([⟨.STO, [R_POP, R_TOP]⟩] ++ rest) (d + 1)
      (by rw [← hce]; simp; omega)
    rw [← hce] at s2
    have s3 := step_sto (prog ++ cx ++ ce) rest d
    have t1 : all_paths P (prog.length + cx.length) (d + 1) cx.length prog.length d = true :=
      paths_cast s1 (by rw [hP]; simp) rfl rfl (le_refl _) rfl rfl
    have t2 : all_paths P (prog.length + cx.length + ce.length) (d + 2) ce.length
        (prog.length + cx.length) (d + 1) = true :=
      paths_cast s2 (by rw [hP]; simp) (by simp) rfl (le_refl _) (by simp) rfl
    have t3 : all_paths P (prog.length + cx.length + ce.length + 1) (d + 1) 1
        (prog.length + cx.length + ce.length) (d + 2) = true :=
      paths_cast s3 (by rw [hP]; simp) (by simp; omega) rfl (le_refl _) (by simp; omega) rfl
    exact paths_cast
      (paths_seq (cx.length + ce.length + 1) t1
        (paths_seq (ce.length + 1) t2 t3 (le_refl _)) (by omega))
      rfl (by simp; omega) rfl (by simp; omega) rfl rfl
  | compound id op hid lexem x e c2 c3 _ _ ihx ihe =>
    refine ⟨(code_compound id op hid lexem x e c2 c3 ihx.1 ihe.1 []).1, ?_⟩
    intro prog rest d hlen
    rw [(code_compound id op hid lexem x e c2 c3 ihx.1 ihe.1 prog).2] at hlen ⊢
    simp only [List.length_append, List.length_cons, List.length_nil] at hlen
    have hop : op ∈ [Furlow_opcode.ADD, .SUB, .MUL, .DIV, .MOD] := by
      simp only [List.mem_cons, Prod.mk.injEq, List.mem_singleton, List.not_mem_nil,
        or_false] at hid ⊢
      rcases hid with h | h | h | h | h
      all_goals simp [h.2]
    obtain ⟨ce, hce⟩ : ∃ c, c = code (some e) prog := ⟨_, rfl⟩
    rw [← hce] at hlen ⊢
    obtain ⟨cx, hcx⟩ : ∃ c, c = code (some x) (prog ++ ce) := ⟨_, rfl⟩
    rw [← hcx] at hlen ⊢
    obtain ⟨P, hP⟩ : ∃ P, P = prog ++ (ce ++ cx ++ [(⟨.REF, [R_TOP, R_A]⟩ : fmt_t),
      ⟨.SWAP, []⟩, ⟨op, [R_A, R_POP, R_TOP]⟩]) ++ rest := ⟨_, rfl⟩
    rw [← hP]
    have s1 := ihe.2 prog
      (cx ++ [⟨.REF, [R_TOP, R_A]⟩, ⟨.SWAP, []⟩, ⟨op, [R_A, R_POP, R_TOP]⟩] ++ rest) d
      (by rw [← hce]; omega)
    rw [← hce] at s1
    have s2 := ihx.2 (prog ++ ce)
      ([⟨.REF, [R_TOP, R_A]⟩, ⟨.SWAP, []⟩, ⟨op, [R_A, R_POP, R_TOP]⟩] ++ rest) (d + 1)
      (by rw [← hcx]; simp; omega)
    rw [← hcx] at s2
    have s3 := step_ref_top (prog ++ ce ++ cx)
      ([⟨.SWAP, []⟩, ⟨op, [R_A, R_POP, R_TOP]⟩] ++ rest) (d + 1)
    have s4 := step_swap (prog ++ ce ++ cx ++ [⟨.REF, [R_TOP, R_A]⟩])
      ([⟨op, [R_A, R_POP, R_TOP]⟩] ++ rest) d
    have s5 := step_compound
      (prog ++ ce ++ cx ++ [⟨.REF, [R_TOP, R_A]⟩] ++ [⟨.SWAP, []⟩]) rest op d hop
    have t1 : all_paths P (prog.length + ce.length) (d + 1) ce.length prog.length d = true :=
      paths_cast s1 (by rw [hP]; simp) rfl rfl (le_refl _) rfl rfl
    have t2 : all_paths P (prog.length + ce.length + cx.length) (d + 2) cx.length
        (prog.length + ce.length) (d + 1) = true :=
      paths_cast s2 (by rw [hP]; simp) (by simp) rfl (le_refl _) (by simp) rfl
    have t3 : all_paths P (prog.length + ce.length + cx.length + 1) (d + 2) 1
        (prog.length + ce.length + cx.length) (d + 2) = true :=
      paths_cast s3 (by rw [hP]; simp) (by simp; omega) rfl (le_refl _) (by simp; omega) rfl
    have t4 : all_paths P (prog.length + ce.length + cx.length + 2) (d + 2) 1
        (prog.length + ce.length + cx.length + 1) (d + 2) = true :=
      paths_cast s4 (by rw [hP]; simp) (by simp; omega) rfl (le_refl _) (by simp; omega) rfl
    have t5 : all_paths P (prog.length + ce.length + cx.length + 3) (d + 1) 1
        (prog.length + ce.length + cx.length + 2) (d + 2) = true :=
      paths_cast s5 (by rw [hP]; simp) (by simp; omega) rfl (le_refl _) (by simp; omega) rfl
    exact paths_cast
      (paths_seq (ce.length + cx.length + 3) t1
        (paths_seq (cx.length + 3) t2
          (paths_seq 3 t3 (paths_seq 2 t4 t5 (le_refl _)) (le_refl _)) (le_refl _)) (by omega))
      rfl (by simp; omega) rfl (by simp; omega) rfl rfl
  | and lexem l r c2 c3 _ _ ihl ihr =>
    exact short_circuit_paths .E_AND .JIF _ _ (Or.inl ⟨rfl, rfl, rfl, rfl⟩) lexem l r c2 c3
      ihl ihr
  | or lexem l r c2 c3 _ _ ihl ihr =>
    exact short_circuit_paths .E_OR .JIT _ _ (Or.inr ⟨rfl, rfl, rfl, rfl⟩) lexem l r c2 c3
      ihl ihr

theorem plain_expr_next (e : FACT_tree) (he : plain_expr e) : e.next = none := by
  cases he <;> rfl

theorem code_terminator (lexem : List Char) (c0 c1 c2 c3 : Option FACT_tree)
    (prog : List fmt_t) :
    (compile_tree (.mk .E_SEMI lexem c0 c1 c2 c3 none)).isSome = true ∧
    code (some (.mk .E_SEMI lexem c0 c1 c2 c3 none)) prog = [⟨.REF, [R_POP, R_X]⟩] := by
  have hc : compile_tree (.mk .E_SEMI lexem c0 c1 c2 c3 none)
      = inode .REF [.REG_VAL R_POP, .REG_VAL R_X] := by
    simp [compile_tree, compile_tree_opt, inode, inter_node.set_next]
  refine ⟨by rw [hc]; rfl, ?_⟩
  have h := code_at_inode .REF [.REG_VAL R_POP, .REG_VAL R_X] prog [R_POP, R_X]
    (by simp [mk_inst, inst_t.args, load.args])
  simpa [code, compile_tree_opt, hc] using h

/-- C21: stack discipline. Read as the instruction table reads them (`depth_effect`,
`depth_step`), the code of an expression statement `e;`, where `e` is built from variables,
literals, scalar declarations, unary minus, binary arithmetic and comparison, assignment,
compound assignment, `and` and `or`, is the code of `e`, the terminator `REF R_POP R_X` and
the code of what follows. Executed from a stack of depth `d`, every control path through the
code of `e` comes to the terminator with depth `d + 1`, the value of `e` on top; the
terminator pops that value into `R_X`, so every control path leaves the statement with
depth `d` again. -/
theorem statement_stack_discipline (e : FACT_tree) (he : plain_expr e) (semi : List Char)
    (following : Option FACT_tree) (hf : (compile_tree_opt following).isSome = true)
    (prog rest : List fmt_t) (d : Nat)
    (hlen : prog.length + (code (some e) prog).length < 2 ^ 32) :
    (compile_tree (stmt.node e semi following)).isSome = true ∧
    code (some (stmt.node e semi following)) prog
      = code (some e) prog ++ [⟨.REF, [R_POP, R_X]⟩]
        ++ code following (prog ++ code (some e) prog ++ [⟨.REF, [R_POP, R_X]⟩]) ∧
    all_paths (prog ++ code (some (stmt.node e semi following)) prog ++ rest)
      (prog.length + (code (some e) prog).length) (d + 1)
      (code (some e) prog).length prog.length d = true ∧
    (prog ++ code (some (stmt.node e semi following)) prog ++ rest)[prog.length
      + (code (some e) prog).length]? = some ⟨.REF, [R_POP, R_X]⟩ ∧
    all_paths (prog ++ code (some (stmt.node e semi following)) prog ++ rest)
      (prog.length + (code (some e) prog).length + 1) d
      ((code (some e) prog).length + 1) prog.length d = true := by
  have hnext := plain_expr_next e he
  obtain ⟨he1, hpaths⟩ := plain_expr_paths e he
  obtain ⟨id, lexem, c0, c1, c2, c3, next⟩ := e
  simp only [FACT_tree.next] at hnext
  subst hnext
  obtain ⟨ce, hce⟩ : ∃ c, c = code (some (.mk id lexem c0 c1 c2 c3 none)) prog := ⟨_, rfl⟩
  have hsemi : (compile_tree (.mk .E_SEMI semi none none none none following)).isSome
      = true :=
    (compile_tree_next_isSome _ _ _ _ _ _ _).2 ⟨(code_terminator semi _ _ _ _ []).1, hf⟩
  have hs : (compile_tree (.mk id lexem c0 c1 c2 c3
      (some (.mk .E_SEMI semi none none none none following)))).isSome = true :=
    (compile_tree_next_isSome _ _ _ _ _ _ _).2
      ⟨he1, by
        obtain ⟨n, hn⟩ := Option.isSome_iff_exists.1 hsemi
        simp [compile_tree_opt, hn]⟩
  have hcode : code (some (stmt.node (.mk id lexem c0 c1 c2 c3 none) semi following)) prog
      = ce ++ [⟨.REF, [R_POP, R_X]⟩] ++ code following (prog ++ ce ++ [⟨.REF, [R_POP, R_X]⟩]) := by
    simp only [stmt.node, accept.node, FACT_tree.set_next]
    rw [code_next _ _ _ _ _ _ _ hs, ← hce, code_next _ _ _ _ _ _ _ hsemi,
      (code_terminator semi _ _ _ _ _).2]
    simp
  rw [← hce] at hlen ⊢
  refine ⟨hs, hcode, ?_⟩
  rw [hcode]
  obtain ⟨cf, hcf⟩ : ∃ c, c = code following (prog ++ ce ++ [⟨.REF, [R_POP, R_X]⟩]) := ⟨_, rfl⟩
  rw [← hcf]
  obtain ⟨P, hP⟩ : ∃ P, P = prog ++ (ce ++ [(⟨.REF, [R_POP, R_X]⟩ : fmt_t)] ++ cf) ++ rest :=
    ⟨_, rfl⟩
  rw [← hP]
  have s1 := hpaths prog ([(⟨.REF, [R_POP, R_X]⟩ : fmt_t)] ++ cf ++ rest) d
    (by rw [← hce]; exact hlen)
  rw [← hce] at s1
  have t1 : all_paths P (prog.length + ce.length) (d + 1) ce.length prog.length d = true :=
    paths_cast s1 (by rw [hP]; simp) rfl rfl (le_refl _) rfl rfl
  have t2 : all_paths P (prog.length + ce.length + 1) d 1 (prog.length + ce.length) (d + 1)
      = true :=
    paths_cast (step_terminator (prog ++ ce) (cf ++ rest) d) (by rw [hP]; simp)
      (by simp) rfl (le_refl _) (by simp) rfl
  refine ⟨t1, ?_, paths_seq _ t1 t2 (le_refl _)⟩
  rw [hP]
  have e1 : prog ++ (ce ++ [(⟨.REF, [R_POP, R_X]⟩ : fmt_t)] ++ cf) ++ rest
      = (prog ++ ce) ++ (⟨.REF, [R_POP, R_X]⟩ : fmt_t) :: (cf ++ rest) := by simp
  rw [e1, ← List.length_append, List.getElem?_append_right (le_refl _)]
  simp

theorem statement_stack_discipline_witness :
    plain_expr (.mk .E_SET "=".toList (some (tree_var "x"))
      (some (.mk .E_AND "and".toList
        (some (.mk .E_SUB "-".toList (some (tree_var "a")) (some (tree_var "b")) none none none))
        (some (tree_var "c")) none none none))
      none none none) ∧
    FACT_compile (some example_stmt) []
      = some [⟨.VAR, [120, 0]⟩, ⟨.CONST, [48, 0]⟩, ⟨.CONST, [48, 0]⟩, ⟨.VAR, [98, 0]⟩,
          ⟨.VAR, [97, 0]⟩, ⟨.SUB, [0, 0, 1]⟩, ⟨.JIF, [0, 0, 0, 0, 11]⟩, ⟨.VAR, [99, 0]⟩,
          ⟨.JIF, [0, 0, 0, 0, 11]⟩, ⟨.DROP, []⟩, ⟨.CONST, [49, 0]⟩, ⟨.STO, [0, 1]⟩,
          ⟨.REF, [0, 7]⟩] ∧
    all_paths ([] ++ code (some example_stmt) [] ++ []) (0 + 12 + 1) 0 (12 + 1) 0 0 = true :=
  have hp : plain_expr (.mk .E_SET "=".toList (some (tree_var "x"))
      (some (.mk .E_AND "and".toList
        (some (.mk .E_SUB "-".toList (some (tree_var "a")) (some (tree_var "b")) none none none))
        (some (tree_var "c")) none none none))
      none none none) :=
    .set _ _ _ _ _ (.var _ _ _ _ _)
      (.and _ _ _ _ _ (.binary .E_SUB .SUB (by decide) _ _ _ _ _ (.var _ _ _ _ _) (.var _ _ _ _ _))
        (.var _ _ _ _ _))
  ⟨hp, by decide,
    (statement_stack_discipline _ hp ";".toList none rfl [] [] 0 (by decide)).2.2.2.2⟩

/-! ## The number of instructions that `load` appends -/

theorem weight_children_eq_sum (l : List (Option inter_node)) :
    weight_children l = (l.map weight_opt).sum := by
  induction l with
  | nil => rfl
  | cons c cs ih => rw [weight_children, ih]; rfl

/-- C31: the number of instructions that `load (t, up)` appends. Whenever `load` returns,
under any parent and from any program, the program after the call is the program before it
followed by exactly `weight (t)` instructions; every tree that `compile_tree` returns is
loaded so. `weight` counts one for an instruction node, the weights of the children for a
grouping, and in both cases the weight of the `next` chain; an absent (NULL) node counts
0. -/
theorem load_appends_weight (t : inter_node)
    (up : Option (List (Option inter_node) × Nat)) (prog prog1 : List fmt_t)
    (h : load t up prog = some prog1) :
    (∃ code, prog1 = prog ++ code ∧ code.length = weight t) ∧
    (∀ inst next, weight (.instruction inst next) = 1 + weight_opt next) ∧
    (∀ children next,
      weight (.grouping children next) = (children.map weight_opt).sum + weight_opt next) ∧
    weight_opt none = 0 ∧ (∀ n, weight_opt (some n) = weight n) ∧
    (∀ (tree : FACT_tree) (n : inter_node), compile_tree tree = some n →
      ∀ up0 prog0, ∃ code, load n up0 prog0 = some (prog0 ++ code) ∧
        code.length = weight n) := by
  refine ⟨load_appends.1 t up prog prog1 h, fun _ _ => by rw [weight], ?_, rfl,
    fun _ => rfl, ?_⟩
  · intro children next
    rw [weight, weight_children_eq_sum]
  · intro tree n hc up0 prog0
    exact loads_some (compile_tree_loads tree n hc) up0 prog0

theorem load_appends_weight_witness :
    load example_if_node none []
      = some [⟨.VAR, [120, 0]⟩, ⟨.JIF, [0, 0, 0, 0, 3]⟩, ⟨.VAR, [121, 0]⟩] ∧
    weight example_if_node = 3 ∧
    ∃ code : List fmt_t,
      [⟨.VAR, [120, 0]⟩, ⟨.JIF, [0, 0, 0, 0, 3]⟩, ⟨.VAR, [121, 0]⟩] = [] ++ code ∧
      code.length = weight example_if_node :=
  ⟨by decide, by decide,
    (load_appends_weight example_if_node none []
      [⟨.VAR, [120, 0]⟩, ⟨.JIF, [0, 0, 0, 0, 3]⟩, ⟨.VAR, [121, 0]⟩] (by decide)).1⟩

/-! ## Lookup after `FACT_add_num`; a declaration that throws -/

theorem get_local_num_eq_find (curr : FACT_scope) (name : List Char)
    (hs : num_stack_sorted curr.num_stack) :
    FACT_get_local_num curr name = curr.num_stack.find? (fun n => n.name = name) := by
  unfold FACT_get_local_num
  exact search_eq_find curr.num_stack name hs _ 0 _ _ rfl (fun i _ h => absurd h (by omega))
    (fun i hi h => absurd h (by omega))

theorem find_insert_other (pre post : List FACT_num) (x : FACT_num) (other : List Char)
    (hx : x.name ≠ other) :
    (pre ++ x :: post).find? (fun n => n.name = other)
      = (pre ++ post).find? (fun n => n.name = other) := by
  induction pre with
  | nil => simp [List.find?_cons, hx]
  | cons a t ih =>
    simp only [List.cons_append, List.find?_cons]
    split
    · rfl
    · exact ih

/-- C33: lookup after insertion. In a scope whose `num_stack` is strictly sorted and that
holds `name` neither in `num_stack` nor in `scope_stack`, `FACT_add_num (scope, name)`
returns a Number; afterwards `FACT_get_local_num (scope, name)` returns that Number, which
stands in `num_stack` at the index where `FACT_add_num` left it; `num_stack_size` has grown
by exactly one; for every other name `FACT_get_local_num` returns what it returned before
the call; and the Numbers stored before are all still there, in their order: `num_stack` is
the old one with the new Number inserted. -/
theorem add_num_then_lookup (curr : FACT_scope) (name : List Char)
    (hs : num_stack_sorted curr.num_stack)
    (h1 : ∀ x ∈ curr.num_stack, x.name ≠ name)
    (h2 : ∀ s ∈ curr.scope_stack, s.name ≠ name) :
    ∃ sc num, FACT_add_num curr name = (sc, .ok num) ∧
      FACT_get_local_num sc name = some num ∧
      sc.num_stack[FACT_add_num.slot curr name]? = some num ∧
      sc.num_stack_size = curr.num_stack_size + 1 ∧
      (∀ other, other ≠ name →
        FACT_get_local_num sc other = FACT_get_local_num curr other) ∧
      sc.num_stack.eraseIdx (FACT_add_num.slot curr name) = curr.num_stack ∧
      sc.num_stack.Perm (num :: curr.num_stack) ∧
      sc.scope_stack = curr.scope_stack := by
  have e1 : (FACT_get_local_num curr name).isSome = false :=
    (get_local_num_none_iff curr name hs).mpr h1
  have e2 : (FACT_get_local_scope curr name).isSome = false := by
    cases h : (FACT_get_local_scope curr name).isSome with
    | false => rfl
    | true =>
      obtain ⟨s, hs1, hs2⟩ := (get_local_scope_some_iff curr name).mp h
      exact absurd hs2 (h2 s hs1)
  obtain ⟨pre, post, hl, hpre, hpost, hadd⟩ := add_num_ok curr name hs e1 e2
  have hname : (FACT_alloc_num.set_name name).name = name := by
    simp [FACT_alloc_num, FACT_num.set_name, FACT_num.name]
  have hsorted : num_stack_sorted (pre ++ FACT_alloc_num.set_name name :: post) :=
    sorted_insert hname (hl ▸ hs) hpre
      (fun b hb => (strcmp_neg_iff_pos _ _).mp (hpost b hb))
  have hslot := (add_num_ok_val curr name _ _ hadd).2
  have hlt := add_num_ok_slot curr name _ _ hadd
  have hslot_eq : FACT_add_num.slot curr name = pre.length := by
    obtain ⟨pre1, post1, hl1, _, _, hmove⟩ :=
      move_spec name (FACT_alloc_num.set_name name) curr.num_stack []
    have hfst : (FACT_add_num curr name).1.num_stack
        = pre1 ++ FACT_alloc_num.set_name name :: (post1 ++ []) := by
      unfold FACT_add_num
      simp only [e1, e2, Bool.false_eq_true, if_false, FACT_scope.num_stack_size]
      rw [hmove]
      simp only [List.append_nil, getElem?_append_cons_length]
    rw [hadd] at hfst
    simp only [List.append_nil] at hfst
    have hlen : pre.length + post.length = pre1.length + post1.length := by
      have := congrArg List.length (hl.symm.trans hl1)
      simpa using this
    have hs1 : num_stack_sorted (pre1 ++ FACT_alloc_num.set_name name :: post1) :=
      hfst ▸ hsorted
    have hp : pre.length = pre1.length := by
      by_contra hne
      have hget : (pre ++ FACT_alloc_num.set_name name :: post)[pre1.length]?
          = some (FACT_alloc_num.set_name name) := by
        rw [hfst]; exact getElem?_append_cons_length _ _ _
      have hget0 : (pre ++ FACT_alloc_num.set_name name :: post)[pre.length]?
          = some (FACT_alloc_num.set_name name) := getElem?_append_cons_length _ _ _
      have hi : pre.length < (pre ++ FACT_alloc_num.set_name name :: post).length := by simp
      have hj : pre1.length < (pre ++ FACT_alloc_num.set_name name :: post).length := by
        rw [hfst]; simp
      rw [List.getElem?_eq_getElem hj] at hget
      rw [List.getElem?_eq_getElem hi] at hget0
      rcases Nat.lt_or_gt_of_ne hne with hlt1 | hgt1
      · have := sorted_get_lt hsorted hi hj hlt1
        simp only [List.get_eq_getElem] at this
        rw [Option.some.inj hget, Option.some.inj hget0, strcmp_self] at this
        exact absurd this (by decide)
      · have := sorted_get_lt hsorted hj hi hgt1
        simp only [List.get_eq_getElem] at this
        rw [Option.some.inj hget, Option.some.inj hget0, strcmp_self] at this
        exact absurd this (by decide)
    simp only [FACT_add_num.slot, FACT_scope.num_stack_size]
    rw [hmove, hp]
  refine ⟨_, _, hadd, ?_, hslot, ?_, ?_, ?_, ?_, rfl⟩
  · rw [get_local_num_eq_find _ _ hsorted]
    have := find_of_sorted hsorted
      (show FACT_alloc_num.set_name name ∈ pre ++ FACT_alloc_num.set_name name :: post by simp)
    rw [hname] at this
    exact this
  · simp [FACT_scope.num_stack_size, hl]
    omega
  · intro other hne
    rw [get_local_num_eq_find _ _ hsorted, get_local_num_eq_find _ _ hs]
    simp only
    rw [find_insert_other pre post _ other (by rw [hname]; exact fun h => hne h.symm), hl]
  · rw [hslot_eq, hl]
    simp [List.eraseIdx_append_of_length_le]
  · rw [hl]
    simp only
    exact List.perm_middle

theorem add_num_then_lookup_witness :
    num_stack_sorted example_scope.num_stack ∧
    ∃ sc num, FACT_add_num example_scope "k".toList = (sc, .ok num) ∧
      FACT_get_local_num sc "k".toList = some num ∧
      sc.num_stack[FACT_add_num.slot example_scope "k".toList]? = some num ∧
      sc.num_stack_size = example_scope.num_stack_size + 1 ∧
      (∀ other, other ≠ "k".toList →
        FACT_get_local_num sc other = FACT_get_local_num example_scope other) ∧
      sc.num_stack.eraseIdx (FACT_add_num.slot example_scope "k".toList)
        = example_scope.num_stack ∧
      sc.num_stack.Perm (num :: example_scope.num_stack) ∧
      sc.scope_stack = example_scope.scope_stack :=
  ⟨by decide, add_num_then_lookup example_scope "k".toList (by decide) (by decide) (by decide)⟩

theorem pop_sizes_this :
    ∀ (n : Nat) (t : FACT_thread) (acc : List Nat),
      (FACT_def_num.pop_sizes n t acc).1.this = t.this := by
  intro n
  induction n with
  | zero => intro t acc; rfl
  | succ n ih =>
    intro t acc
    rw [FACT_def_num.pop_sizes]
    cases hr : Furlow_reg_val t R_POP with
    | none => rfl
    | some p =>
      obtain ⟨v, t1⟩ := p
      have ht1 : t1.this = t.this := by
        simp only [Furlow_reg_val, R_POP, if_true] at hr
        split at hr
        · cases hr; rfl
        · cases hr
      simp only
      split_ifs
      · exact ht1
      · exact ht1
      · rw [ih]; exact ht1

theorem pop_sizes_thrown :
    ∀ (n : Nat) (t t3 : FACT_thread) (acc : List Nat) (e : FACT_error),
      FACT_def_num.pop_sizes n t acc = (t3, .thrown e) →
      e = ⟨"out of bounds error", []⟩ ∨ e = ⟨"dimension size must be larger than 1", []⟩ := by
  intro n
  induction n with
  | zero => intro t t3 acc e h; cases h
  | succ n ih =>
    intro t t3 acc e h
    rw [FACT_def_num.pop_sizes] at h
    cases hr : Furlow_reg_val t R_POP with
    | none => rw [hr] at h; cases h
    | some p =>
      obtain ⟨v, t1⟩ := p
      rw [hr] at h
      simp only at h
      split_ifs at h
      · cases h; exact Or.inl rfl
      · cases h; exact Or.inr rfl
      · exact ih _ _ _ _ h

theorem example_add_eq :
    FACT_add_num example_scope "k".toList
      = ({ example_scope with
            num_stack := [FACT_alloc_num.set_name "a".toList, FACT_alloc_num.set_name "b".toList,
              FACT_alloc_num.set_name "k".toList, FACT_alloc_num.set_name "x".toList] },
         .ok (FACT_alloc_num.set_name "k".toList)) := by
  have e1 : (FACT_get_local_num example_scope "k".toList).isSome = false :=
    (get_local_num_none_iff example_scope "k".toList (by decide)).mpr (by decide)
  have e2 : (FACT_get_local_scope example_scope "k".toList).isSome = false := by decide
  unfold FACT_add_num
  simp only [e1, e2, Bool.false_eq_true, if_false]
  rfl

theorem example_small_throws :
    FACT_def_num example_small_thread R_POP "k".toList false
      = ({ example_small_thread with
            vstack := [],
            this := { example_scope with
              num_stack := [FACT_alloc_num.set_name "a".toList,
                FACT_alloc_num.set_name "b".toList, FACT_alloc_num.set_name "k".toList,
                FACT_alloc_num.set_name "x".toList] } },
         .thrown ⟨"dimension size must be larger than 1", []⟩) := by
  have hreg : Furlow_reg_val example_small_thread R_POP
      = some (num_of_nat 2,
        { example_small_thread with vstack := [.num (num_of_nat 3), .num (num_of_nat 1)] }) :=
    rfl
  rw [FACT_def_num, hreg]
  simp only [Bool.false_eq_true, if_false]
  have hthis : ({ example_small_thread with
      vstack := [.num (num_of_nat 3), .num (num_of_nat 1)] } : FACT_thread).this
      = example_scope := rfl
  rw [hthis, example_add_eq]
  rfl

/-- C34: a declaration that throws is not atomic. `FACT_def_num` adds the variable to the
scope (`FACT_add_num`) before it pops the dimension sizes. So whenever a non-anonymous
`FACT_def_num`, called in a sorted scope that does not hold `name`, throws, it throws from
the loop over the sizes ("out of bounds error" or "dimension size must be larger than 1"),
and the scope it leaves holds one Number more than before the call, the scalar named `name`:
`num_stack` is not what it was. For `num [3][1] k` in the scope holding `a`, `b`, `x` the
call throws and leaves the scope holding `a`, `b`, `k`, `x`. -/
theorem def_num_throw_keeps_variable (t t1 : FACT_thread) (args0 : Nat) (name : List Char)
    (cnt : FACT_num) (hreg : Furlow_reg_val t args0 = some (cnt, t1))
    (hs : num_stack_sorted t1.this.num_stack)
    (h1 : ∀ x ∈ t1.this.num_stack, x.name ≠ name)
    (h2 : ∀ s ∈ t1.this.scope_stack, s.name ≠ name)
    (t3 : FACT_thread) (e : FACT_error)
    (h : FACT_def_num t args0 name false = (t3, .thrown e)) :
    (e = ⟨"out of bounds error", []⟩ ∨ e = ⟨"dimension size must be larger than 1", []⟩) ∧
    t3.this.num_stack ≠ t1.this.num_stack ∧
    t3.this.num_stack.length = t1.this.num_stack.length + 1 ∧
    (FACT_get_local_num t1.this name = none ∧
      FACT_get_local_num t3.this name = some (FACT_alloc_num.set_name name)) ∧
    (FACT_def_num example_small_thread R_POP "k".toList false).2
      = .thrown ⟨"dimension size must be larger than 1", []⟩ ∧
    (FACT_def_num example_small_thread R_POP "k".toList false).1.this.num_stack.map
        FACT_num.name = ["a".toList, "b".toList, "k".toList, "x".toList] ∧
    example_small_thread.this.num_stack.map FACT_num.name
      = ["a".toList, "b".toList, "x".toList] := by
  have e1 : (FACT_get_local_num t1.this name).isSome = false :=
    (get_local_num_none_iff t1.this name hs).mpr h1
  have e2 : (FACT_get_local_scope t1.this name).isSome = false := by
    cases hh : (FACT_get_local_scope t1.this name).isSome with
    | false => rfl
    | true =>
      obtain ⟨s, hs1, hs2⟩ := (get_local_scope_some_iff t1.this name).mp hh
      exact absurd hs2 (h2 s hs1)
  obtain ⟨pre, post, hl, hpre, hpost, hadd⟩ := add_num_ok t1.this name hs e1 e2
  have hname : (FACT_alloc_num.set_name name).name = name := by
    simp [FACT_alloc_num, FACT_num.set_name, FACT_num.name]
  have hsorted : num_stack_sorted (pre ++ FACT_alloc_num.set_name name :: post) :=
    sorted_insert hname (hl ▸ hs) hpre
      (fun b hb => (strcmp_neg_iff_pos _ _).mp (hpost b hb))
  rw [FACT_def_num, hreg] at h
  simp only [Bool.false_eq_true, if_false, hadd] at h
  have key : (e = ⟨"out of bounds error", []⟩ ∨
      e = ⟨"dimension size must be larger than 1", []⟩) ∧
      t3.this.num_stack = pre ++ FACT_alloc_num.set_name name :: post := by
    split_ifs at h
    · cases h
    · cases hp : FACT_def_num.pop_sizes (mpc_get_ui cnt.value)
          { t1 with this := { t1.this with
            num_stack := pre ++ FACT_alloc_num.set_name name :: post } } [] with
      | mk tp r =>
        have hthis := pop_sizes_this (mpc_get_ui cnt.value)
          { t1 with this := { t1.this with
            num_stack := pre ++ FACT_alloc_num.set_name name :: post } } []
        rw [hp] at h hthis
        cases r with
        | ok ds => cases h
        | undef => cases h
        | thrown e0 =>
          simp only [Prod.mk.injEq, Result.thrown.injEq] at h
          obtain ⟨rfl, rfl⟩ := h
          refine ⟨pop_sizes_thrown _ _ _ _ _ hp, ?_⟩
          simp only at hthis
          rw [hthis]
  refine ⟨key.1, ?_, ?_, ⟨?_, ?_⟩, ?_, ?_, ?_⟩
  · rw [key.2, hl]
    intro hc
    have := congrArg List.length hc
    simp at this
  · rw [key.2, hl]
    simp
    omega
  · cases hh : FACT_get_local_num t1.this name with
    | none => rfl
    | some v => rw [hh] at e1; cases e1
  · rw [get_local_num_eq_find _ _ (key.2 ▸ hsorted), key.2]
    have := find_of_sorted hsorted
      (show FACT_alloc_num.set_name name ∈ pre ++ FACT_alloc_num.set_name name :: post by simp)
    rw [hname] at this
    exact this
  · rw [example_small_throws]
  · rw [example_small_throws]
    decide
  · decide

theorem def_num_throw_keeps_variable_witness :
    ∃ t3, FACT_def_num example_small_thread R_POP "k".toList false
        = (t3, .thrown ⟨"dimension size must be larger than 1", []⟩) ∧
      t3.this.num_stack ≠ example_scope.num_stack ∧
      t3.this.num_stack.length = example_scope.num_stack.length + 1 :=
  have h := def_num_throw_keeps_variable example_small_thread
    { example_small_thread with vstack := [.num (num_of_nat 3), .num (num_of_nat 1)] }
    R_POP "k".toList (num_of_nat 2) rfl (by decide) (by decide) (by decide) _ _
    example_small_throws
  ⟨_, example_small_throws, h.2.1, h.2.2.1⟩

/-! ## Quotient and remainder -/

/-- The truncated quotient and the non-negative remainder, for a positive divisor. -/
theorem tdiv_emod_pos (a b : Int) (hb : 0 < b) :
    (0 ≤ a → Int.tdiv a b * b + a % b = a) ∧
    (a < 0 → b ∣ a → Int.tdiv a b * b + a % b = a) ∧
    (a < 0 → ¬ b ∣ a → Int.tdiv a b * b + a % b = a + b) := by
  have hb0 : b ≠ 0 := ne_of_gt hb
  refine ⟨?_, ?_, ?_⟩
  · intro ha
    rw [Int.tdiv_eq_ediv ha (le_of_lt hb)]
    have := Int.emod_add_ediv a b
    linarith [mul_comm (a / b) b]
  · intro _ hd
    obtain ⟨c, rfl⟩ := hd
    rw [Int.mul_tdiv_cancel_left _ hb0, Int.mul_emod_right]
    ring
  · intro ha hd
    have hq : Int.tdiv a b = -((-a) / b) := by
      have h := Int.neg_tdiv (-a) b
      rw [neg_neg] at h
      rw [h, Int.tdiv_eq_ediv (by omega) (le_of_lt hb)]
    have h1 := Int.emod_add_ediv (-a) b
    have hs0 : 0 ≤ (-a) % b := Int.emod_nonneg _ hb0
    have hsb : (-a) % b < b := Int.emod_lt_of_pos _ hb
    have hsne : (-a) % b ≠ 0 := by
      intro h0
      apply hd
      have : b ∣ -a := Int.dvd_of_emod_eq_zero h0
      exact (Int.dvd_neg).mp this
    have hr : a % b = b - (-a) % b := by
      have e : a = (b - (-a) % b) + b * (-((-a) / b) - 1) := by linarith
      refine (congrArg (fun x => x % b) e).trans ?_
      show (b - -a % b + b * (-(-a / b) - 1)) % b = b - -a % b
      rw [Int.add_mul_emod_self_left]
      exact Int.emod_eq_of_lt (by omega) (by omega)
    rw [hq, hr]
    linarith

/-- The truncated quotient and the non-negative remainder, for every divisor but zero. -/
theorem tdiv_emod (a b : Int) (hb : b ≠ 0) :
    0 ≤ a % b ∧ a % b < |b| ∧
    (Int.tdiv a b * b + a % b = a ↔ (0 ≤ a ∨ b ∣ a)) ∧
    (a < 0 → ¬ b ∣ a → Int.tdiv a b * b + a % b = a + |b|) := by
  have key : (0 ≤ a → Int.tdiv a b * b + a % b = a) ∧
      (a < 0 → b ∣ a → Int.tdiv a b * b + a % b = a) ∧
      (a < 0 → ¬ b ∣ a → Int.tdiv a b * b + a % b = a + |b|) := by
    rcases lt_or_gt_of_ne hb with hneg | hpos
    · have h := tdiv_emod_pos a (-b) (by omega)
      rw [Int.tdiv_neg, Int.emod_neg, Int.neg_dvd] at h
      rw [abs_of_neg hneg]
      refine ⟨fun ha => ?_, fun ha hd => ?_, fun ha hd => ?_⟩
      · have := h.1 ha; linarith
      · have := h.2.1 ha hd; linarith
      · have := h.2.2 ha hd; linarith
    · rw [abs_of_pos hpos]
      exact tdiv_emod_pos a b hpos
  refine ⟨Int.emod_nonneg _ hb, Int.emod_lt _ hb, ⟨fun h => ?_, fun h => ?_⟩, key.2.2⟩
  · by_contra hc
    rw [not_or] at hc
    have := key.2.2 (by omega) hc.2
    have hpos : 0 < |b| := abs_pos.mpr hb
    omega
  · rcases h with h | h
    · exact key.1 h
    · rcases le_or_lt 0 a with ha | ha
      · exact key.1 ha
      · exact key.2.1 ha h

theorem div_mod_consistency_counterexample :
    mpc_div (.intv 0) (.intv (-7)) (.intv 2) = some (.intv (-3)) ∧
    mpc_mod (.intv 0) (.intv (-7)) (.intv 2) = some (.intv 1) ∧
    (-7 : Int) ≠ (-3) * 2 + 1 := by
  decide

/-- C39: quotient and remainder. For integers `a` and `b` with `b ≠ 0`, `mpc_div` gives the
quotient `q` rounded towards zero (`mpz_tdiv_q`) and `mpc_mod` the remainder `r` that is
never negative (`mpz_mod`): `0 ≤ r < |b|` and `r` is congruent to `a` modulo `b`. They
satisfy `a = q * b + r` exactly when `a ≥ 0` or `b` divides `a`; for a negative `a` that `b`
does not divide, `q * b + r = a + |b|`. -/
theorem div_mod_relation (rop1 rop2 : mpc_t) (a b : Int) (hb : b ≠ 0) :
    ∃ q r : Int, mpc_div rop1 (.intv a) (.intv b) = some (.intv q) ∧
      mpc_mod rop2 (.intv a) (.intv b) = some (.intv r) ∧
      0 ≤ r ∧ r < |b| ∧ b ∣ a - r ∧
      (a = q * b + r ↔ (0 ≤ a ∨ b ∣ a)) ∧
      (a < 0 → ¬ b ∣ a → q * b + r = a + |b|) := by
  obtain ⟨h1, h2, h3, h4⟩ := tdiv_emod a b hb
  refine ⟨Int.tdiv a b, a % b, ?_, ?_, h1, h2, Int.dvd_sub_of_emod_eq rfl, ?_, h4⟩
  · simp [mpc_div, mpz_tdiv_q, hb, make_int_on_const]
  · simp [mpc_mod, mpz_mod, hb, mpc_t.get_intv, make_int_on_const]
    rfl
  · rw [← h3]
    exact eq_comm

theorem div_mod_relation_witness :
    (2 : Int) ≠ 0 ∧
    ∃ q r : Int, mpc_div (.fltv (1 / 2)) (.intv (-7)) (.intv 2) = some (.intv q) ∧
      mpc_mod (.fltv (1 / 2)) (.intv (-7)) (.intv 2) = some (.intv r) ∧
      0 ≤ r ∧ r < |(2 : Int)| ∧ (2 : Int) ∣ -7 - r ∧
      ((-7 : Int) = q * 2 + r ↔ (0 ≤ (-7 : Int) ∨ (2 : Int) ∣ -7)) ∧
      ((-7 : Int) < 0 → ¬ (2 : Int) ∣ -7 → q * 2 + r = -7 + |(2 : Int)|) :=
  ⟨by decide, div_mod_relation (.fltv (1 / 2)) (.fltv (1 / 2)) (-7) 2 (by decide)⟩

/-! ## The two checks of a numeric literal -/

theorem validators_examples :
    is_num_valid "42".toList = true ∧ is_num "42".toList = true ∧
    is_num_valid "0x1F".toList = true ∧ is_num "0x1F".toList = true ∧
    is_num_valid ".5".toList = true ∧ is_num ".5".toList = true ∧
    is_num_valid "3.25".toList = true ∧ is_num "3.25".toList = true ∧
    is_num_valid "x".toList = false ∧ is_num "x".toList = false ∧
    is_num_valid "0x".toList = false ∧ is_num "0x".toList = false ∧
    is_num_valid ".".toList = false ∧ is_num ".".toList = false ∧
    is_num_valid "1.2.3".toList = false ∧ is_num "1.2.3".toList = false ∧
    is_num_valid "1.".toList = true ∧ is_num "1.".toList = false ∧
    is_num_valid "0x1.5".toList = false ∧ is_num "0x1.5".toList = true ∧
    is_num_valid [] = false ∧ is_num [] = true := by
  decide

theorem hex_digit_iff (c : Char) :
    is_num_valid.hex_digit c = (isdigit c || is_hex_letter c) := by
  have h := tolower_range c
  have e : ('a'.toNat = 97) ∧ ('f'.toNat = 102) := ⟨rfl, rfl⟩
  unfold is_num_valid.hex_digit
  rw [e.1, e.2]
  cases hd : isdigit c
  · cases hl : is_hex_letter c
    · have : ¬ (97 ≤ (tolower c).toNat ∧ (tolower c).toNat ≤ 102) := by
        rw [h, hl]; decide
      simp only [Bool.not_false, Bool.true_and, Bool.or_self, Bool.not_eq_false',
        Bool.or_eq_true, decide_eq_true_eq]
      omega
    · have : 97 ≤ (tolower c).toNat ∧ (tolower c).toNat ≤ 102 := h.mpr hl
      simp only [Bool.not_false, Bool.true_and, Bool.false_or, Bool.not_eq_true',
        Bool.or_eq_false_iff, decide_eq_false_iff_not]
      omega
  · simp

theorem hex_loop_eq_all (l : List Char) :
    is_num_valid.hex_loop l = l.all (fun c => isdigit c || is_hex_letter c) := by
  induction l with
  | nil => rfl
  | cons c rest ih =>
    rw [is_num_valid.hex_loop, hex_digit_iff, ih, List.all_cons]
    cases (isdigit c || is_hex_letter c) <;> simp

theorem valid_loop_spec : ∀ (l : List Char) (decimal : Bool),
    is_num_valid.loop l decimal
      = decide (l.all (fun c => isdigit c || c = '.') = true ∧
          l.count '.' + (if decimal then 1 else 0) ≤ 1) := by
  intro l
  induction l with
  | nil => intro d; cases d <;> simp [is_num_valid.loop]
  | cons c rest ih =>
    intro d
    rw [is_num_valid.loop]
    by_cases hdot : c = '.'
    · subst hdot
      cases d
      · simp only [if_true, Bool.false_eq_true, if_false, ih, List.all_cons,
          List.count_cons_self]
        simp
      · simp only [if_true, List.count_cons_self]
        simp
    · have hne : ('.' == c) = false := by
        simp only [beq_eq_false_iff_ne, ne_eq]
        exact fun h => hdot h.symm
      simp only [hdot, if_false, List.all_cons, List.count_cons, hne]
      cases hd : isdigit c
      · simp
      · simp [ih, hdot]

theorem dot_not_digit : isdigit '.' = false ∧ is_hex_letter '.' = false := by decide

theorem all_hex_no_dot (l : List Char)
    (h : l.all (fun c => isdigit c || is_hex_letter c) = true) :
    '.' ∉ l := by
  intro hm
  have := List.all_eq_true.mp h '.' hm
  rw [dot_not_digit.1, dot_not_digit.2] at this
  exact absurd this (by decide)

theorem hex_prefixed_iff_cond (s : List Char) :
    (char_at s 0 = '0' ∧ tolower (char_at s 1) = 'x') ↔ is_hex_prefixed s = true := by
  rw [← hex_prefix_iff]
  simp

theorem valid_hex (s : List Char) (hp : is_hex_prefixed s = true) :
    is_num_valid s
      = (!(s.drop 2).isEmpty && (s.drop 2).all (fun c => isdigit c || is_hex_letter c)) := by
  have hc := (hex_prefixed_iff_cond s).mpr hp
  unfold is_num_valid
  rw [if_neg (by rw [hc.1]; decide), if_pos hc]
  match s, hp with
  | c0 :: c1 :: [], _ => rfl
  | c0 :: c1 :: b :: body, _ =>
    simp only [char_at, List.getD_cons_succ, List.getD_cons_zero, List.drop_succ_cons,
      List.drop_zero, List.isEmpty_cons, Bool.not_false, Bool.true_and, List.all_cons]
    rw [hex_digit_iff, hex_loop_eq_all]
    cases (isdigit b || is_hex_letter b) <;> simp

theorem valid_dec (c : Char) (rest : List Char) (hp : is_hex_prefixed (c :: rest) = false) :
    is_num_valid (c :: rest)
      = ((isdigit c || decide (c = '.'))
          && !(decide (c = '.') && !isdigit (char_at rest 0))
          && decide (rest.all (fun c => isdigit c || c = '.') = true ∧
              rest.count '.' + (if c = '.' then 1 else 0) ≤ 1)) := by
  have hc : ¬ (char_at (c :: rest) 0 = '0' ∧ tolower (char_at (c :: rest) 1) = 'x') := by
    rw [hex_prefixed_iff_cond, hp]; decide
  unfold is_num_valid
  rw [if_neg hc]
  have e0 : char_at (c :: rest) 0 = c := rfl
  have e1 : char_at (c :: rest) 1 = char_at rest 0 := rfl
  rw [e0, e1, List.drop_succ_cons, List.drop_zero, valid_loop_spec]
  by_cases hdot : c = '.'
  · subst hdot
    cases hd : isdigit (char_at rest 0) <;> simp [dot_not_digit.1]
  · cases hd : isdigit c <;> simp [hdot]

theorem is_num_dec (s : List Char) (hp : is_hex_prefixed s = false) :
    is_num s = (s.all (fun c => isdigit c || c = '.') && decide (s.count '.' ≤ 1)
      && decide (s.getLast? ≠ some '.')) := by
  rw [is_num_eq_spec, is_num_spec]
  simp [hp]

theorem is_num_hex (s : List Char) (hp : is_hex_prefixed s = true) :
    is_num s = ((s.drop 2).all (fun c => isdigit c || c = '.' || is_hex_letter c)
      && decide ((s.drop 2).count '.' ≤ 1) && decide ((s.drop 2).getLast? ≠ some '.')
      && !(s.drop 2).isEmpty) := by
  rw [is_num_eq_spec, is_num_spec]
  simp [hp]

theorem hex_prefixed_shape (s : List Char) (hp : is_hex_prefixed s = true) :
    ∃ c1 body, s = '0' :: c1 :: body ∧ c1 ≠ '.' := by
  match s, hp with
  | c0 :: c1 :: body, h =>
    simp only [is_hex_prefixed, Bool.and_eq_true, decide_eq_true_eq, Bool.or_eq_true] at h
    refine ⟨c1, body, by rw [h.1], ?_⟩
    rcases h.2 with h2 | h2 <;> rw [h2] <;> decide

theorem count_dot_zero_of_not_mem {l : List Char} (h : '.' ∉ l) : l.count '.' = 0 :=
  List.count_eq_zero.mpr h

theorem getLast?_ne_of_not_mem {l : List Char} (h : '.' ∉ l) : l.getLast? ≠ some '.' := by
  intro hl
  exact h (List.mem_of_getLast?_eq_some hl)

theorem all_digit_of_no_dot {l : List Char}
    (h : l.all (fun c => isdigit c || c = '.') = true) (hd : '.' ∉ l) :
    l.all (fun c => isdigit c) = true := by
  rw [List.all_eq_true] at h ⊢
  intro c hc
  have := h c hc
  have hne : c ≠ '.' := fun e => hd (e ▸ hc)
  simpa [hne] using this

/-- Where the parser's check accepts a lexeme, the compiler's accepts it unless it ends in
`.`; where the compiler's accepts one, the parser's accepts it unless it is empty or it has
the `0x` prefix and a `.`. -/
theorem validators_compared (s : List Char) :
    (is_num_valid s = true → (is_num s = true ↔ s.getLast? ≠ some '.')) ∧
    (is_num s = true →
      (is_num_valid s = true ↔ (s ≠ [] ∧ (is_hex_prefixed s = true → '.' ∉ s)))) := by
  cases hp : is_hex_prefixed s with
  | true =>
    obtain ⟨c1, body, rfl, hc1⟩ := hex_prefixed_shape s hp
    have hv := valid_hex _ hp
    have hn := is_num_hex _ hp
    simp only [List.drop_succ_cons, List.drop_zero] at hv hn
    constructor
    · intro h
      rw [hv, Bool.and_eq_true] at h
      have hnd := all_hex_no_dot body h.2
      have hne : body ≠ [] := by
        intro e; rw [e] at h; simp at h
      have hall : body.all (fun c => isdigit c || c = '.' || is_hex_letter c) = true := by
        rw [List.all_eq_true] at h ⊢
        intro c hc
        have := h.2 c hc
        simp only [Bool.or_eq_true] at this ⊢
        rcases this with h1 | h1
        · exact Or.inl (Or.inl h1)
        · exact Or.inr h1
      have hisnum : is_num ('0' :: c1 :: body) = true := by
        rw [hn, hall]
        have h1 := getLast?_ne_of_not_mem hnd
        have h2 : List.count '.' body ≤ 1 := by
          rw [count_dot_zero_of_not_mem hnd]; omega
        simp [h1, h2, hne]
      refine ⟨fun _ => ?_, fun _ => hisnum⟩
      apply getLast?_ne_of_not_mem
      intro hm
      rcases List.mem_cons.mp hm with e | hm
      · exact absurd e (by decide)
      · rcases List.mem_cons.mp hm with e | hm
        · exact hc1 e.symm
        · exact hnd hm
    · intro h
      rw [hn] at h
      simp only [Bool.and_eq_true, decide_eq_true_eq, Bool.not_eq_true',
        List.isEmpty_eq_false] at h
      obtain ⟨⟨⟨hall, _⟩, _⟩, hne⟩ := h
      have hmem : '.' ∈ ('0' :: c1 :: body) ↔ '.' ∈ body := by
        constructor
        · intro hm
          rcases List.mem_cons.mp hm with e | hm
          · exact absurd e (by decide)
          · rcases List.mem_cons.mp hm with e | hm
            · exact absurd e.symm hc1
            · exact hm
        · intro hm; simp [hm]
      rw [hv]
      constructor
      · intro h
        rw [Bool.and_eq_true] at h
        exact ⟨by simp, fun _ hm => all_hex_no_dot body h.2 (hmem.mp hm)⟩
      · intro h
        have hnd : '.' ∉ body := fun hm => h.2 rfl (hmem.mpr hm)
        rw [Bool.and_eq_true]
        refine ⟨by simpa using hne, ?_⟩
        rw [List.all_eq_true] at hall ⊢
        intro c hc
        have := hall c hc
        have hcd : c ≠ '.' := fun e => hnd (e ▸ hc)
        simpa [hcd] using this
  | false =>
    cases s with
    | nil => decide
    | cons c rest =>
      have hv := valid_dec c rest hp
      have hn := is_num_dec _ hp
      constructor
      · intro h
        rw [hv] at h
        simp only [Bool.and_eq_true, Bool.or_eq_true, decide_eq_true_eq, Bool.not_eq_true',
          Bool.and_eq_false_imp, Bool.not_eq_false'] at h
        obtain ⟨⟨hfirst, hsecond⟩, hall, hcount⟩ := h
        have hall' : (c :: rest).all (fun c => isdigit c || c = '.') = true := by
          rw [List.all_cons, hall]
          simpa using hfirst
        have hcount' : (c :: rest).count '.' ≤ 1 := by
          rw [List.count_cons]
          by_cases hd : c = '.'
          · subst hd; simpa using hcount
          · have : (c == '.') = false := by simpa using hd
            simp only [this, Bool.false_eq_true, if_false]
            simp only [hd, if_false] at hcount
            omega
        rw [hn, hall', decide_eq_true hcount']
        simp
      · intro h
        rw [hn] at h
        simp only [Bool.and_eq_true, decide_eq_true_eq] at h
        obtain ⟨⟨hall, hcount⟩, hlast⟩ := h
        rw [List.all_cons, Bool.and_eq_true] at hall
        have hval : is_num_valid (c :: rest) = true := by
          rw [hv]
          simp only [Bool.and_eq_true, Bool.or_eq_true, decide_eq_true_eq, Bool.not_eq_true',
            Bool.and_eq_false_imp, Bool.not_eq_false']
          refine ⟨⟨by simpa using hall.1, ?_⟩, hall.2, ?_⟩
          · intro hd
            subst hd
            have hc0 : rest.count '.' = 0 := by
              rw [List.count_cons_self] at hcount; omega
            have hnd : '.' ∉ rest := List.count_eq_zero.mp hc0
            have hdig := all_digit_of_no_dot hall.2 hnd
            cases rest with
            | nil => exact absurd rfl hlast
            | cons r rs =>
              rw [List.all_cons, Bool.and_eq_true] at hdig
              exact hdig.1
          · rw [List.count_cons] at hcount
            by_cases hd : c = '.'
            · subst hd; simpa using hcount
            · have : (c == '.') = false := by simpa using hd
              simp only [this, Bool.false_eq_true, if_false] at hcount
              simp only [hd, if_false]
              omega
        simp [hval]

/-- C38: the two checks of a numeric literal do not agree. The parser's `is_num_valid`
accepts `1.` (digits followed by a final `.`), which the compiler's `is_num` rejects, so that
an `E_VAR` node with this lexeme is lowered to `VAR "1."` and not to `CONST`; `is_num`
accepts the empty lexeme and `0x1.5` (a `.` after the `0x` prefix), which `is_num_valid`
rejects. These are the only differences: where `is_num_valid` accepts, `is_num` accepts
unless the lexeme ends in `.`; where `is_num` accepts, `is_num_valid` accepts unless the
lexeme is empty or has the `0x` prefix and a `.`. The node that `accept` makes for a token
of id `E_NUM` is not lowered at all: `compile_tree` has no case for it. -/
theorem validators_disagree (s : List Char) :
    (is_num_valid "1.".toList = true ∧ is_num "1.".toList = false ∧
      FACT_compile (some (tree_var "1.")) [] = some [⟨.VAR, [49, 46, 0]⟩]) ∧
    (is_num "0x1.5".toList = true ∧ is_num_valid "0x1.5".toList = false) ∧
    (is_num [] = true ∧ is_num_valid [] = false) ∧
    (is_num_valid s = true → (is_num s = true ↔ s.getLast? ≠ some '.')) ∧
    (is_num s = true →
      (is_num_valid s = true ↔ (s ≠ [] ∧ (is_hex_prefixed s = true → '.' ∉ s)))) ∧
    compile_tree (accept.node .E_NUM s) = none :=
  ⟨by decide, by decide, by decide, (validators_compared s).1, (validators_compared s).2,
    by simp [accept.node, compile_tree]⟩

theorem validators_disagree_witness :
    is_num_valid "12.".toList = true ∧
    (is_num "12.".toList = true ↔ "12.".toList.getLast? ≠ some '.') ∧
    is_num "12.".toList = false :=
  ⟨by decide, (validators_disagree "12.".toList).2.2.2.1 (by decide), by decide⟩

/-! ## Address operands in the trees that `compile_tree` returns -/

theorem arg_addressed_mono (up : Option (Nat × Nat)) (a : arg_t)
    (h : a.addressed none = true) : a.addressed up = true := by
  cases a with
  | ADDR_VAL addr => simp [arg_t.addressed] at h
  | NO_ARG => rfl
  | REG_VAL r => rfl
  | LABEL l => rfl

theorem addressed_opt_mono {k : Option inter_node} (up : Option (Nat × Nat))
    (h : addressed_opt k none = true) : addressed_opt k up = true := by
  cases k with
  | none => rfl
  | some n =>
    cases n with
    | instruction inst next =>
      rw [addressed_opt, addressed, Bool.and_eq_true] at h ⊢
      refine ⟨?_, h.2⟩
      rw [List.all_eq_true] at h ⊢
      exact fun a ha => arg_addressed_mono up a (h.1 a ha)
    | grouping children next => exact h

theorem addressed_set_next {r : inter_node} {nx : Option inter_node} {up : Option (Nat × Nat)}
    (hr : addressed_opt (some r) up = true) (hn : addressed_opt nx none = true) :
    addressed_opt (some (r.set_next nx)) up = true := by
  cases r with
  | instruction inst next =>
    rw [addressed_opt, addressed, Bool.and_eq_true] at hr
    rw [inter_node.set_next, addressed_opt, addressed, Bool.and_eq_true]
    exact ⟨hr.1, hn⟩
  | grouping children next =>
    rw [addressed_opt, addressed, Bool.and_eq_true] at hr
    rw [inter_node.set_next, addressed_opt, addressed, Bool.and_eq_true]
    exact ⟨hr.1, hn⟩

theorem addressed_grouping {children : List (Option inter_node)} {next : Option inter_node}
    {up : Option (Nat × Nat)}
    (hch : addressed_children children.length children 0 = true)
    (hn : addressed_opt next none = true) :
    addressed_opt (some (.grouping children next)) up = true := by
  rw [addressed_opt, addressed, hch, hn]
  rfl

theorem addressed_grouping_none {children : List (Option inter_node)}
    {up : Option (Nat × Nat)}
    (hch : addressed_children children.length children 0 = true) :
    addressed_opt (some (.grouping children none)) up = true :=
  addressed_grouping hch rfl

theorem addressed_children_cons {n i : Nat} {c : Option inter_node}
    {cs : List (Option inter_node)}
    (hc : addressed_opt c (some (n, i)) = true)
    (hcs : addressed_children n cs (i + 1) = true) :
    addressed_children n (c :: cs) i = true := by
  rw [addressed_children, hc, hcs]
  rfl

theorem addressed_children_nil {n i : Nat} : addressed_children n [] i = true := rfl

theorem addressed_begin_temp_scope (up : Option (Nat × Nat)) :
    addressed_opt begin_temp_scope up = true := by
  cases up <;> rfl

theorem addressed_end_temp_scope (up : Option (Nat × Nat)) :
    addressed_opt end_temp_scope up = true := by
  cases up <;> rfl

theorem compile_args_addressed : ∀ (o : Option FACT_tree) (k : Option inter_node),
    compile_args o = some k → addressed_opt k none = true := by
  have hrec : ∀ t : FACT_tree, ∀ k, compile_args (some t) = some k →
      addressed_opt k none = true := by
    intro t
    refine @FACT_tree.rec
      (fun t => ∀ k, compile_args (some t) = some k → addressed_opt k none = true)
      (fun o => ∀ k, compile_args o = some k → addressed_opt k none = true) ?_ ?_ ?_ t
    · intro id lexem c0 c1 c2 c3 next _ h1 _ _ _ k hk
      cases c0 with
      | none => simp only [compile_args] at hk; cases hk
      | some t0 =>
        cases t0 with
        | mk id0 lexem0 a b c d e =>
          simp only [compile_args] at hk
          cases h : compile_args c1 with
          | none => rw [h] at hk; cases hk
          | some nx =>
            rw [h] at hk
            cases hk
            apply addressed_grouping _ (h1 nx h)
            repeat' apply addressed_children_cons
            all_goals first
              | exact addressed_children_nil
              | rfl
    · intro k hk
      rw [compile_args] at hk
      cases hk
      rfl
    · intro val hv k hk
      exact hv k hk
  intro o k hk
  cases o with
  | none => rw [compile_args] at hk; cases hk; rfl
  | some t => exact hrec t k hk

theorem compile_tree_opt_addressed {o : Option FACT_tree}
    (hq : ∀ t, o = some t → ∀ n, compile_tree t = some n → addressed_opt (some n) none = true)
    {k : Option inter_node} (hk : compile_tree_opt o = some k) :
    addressed_opt k none = true := by
  cases o with
  | none => rw [compile_tree_opt] at hk; cases hk; rfl
  | some t =>
    rw [compile_tree_opt] at hk
    cases hc : compile_tree t with
    | none => rw [hc] at hk; cases hk
    | some n => rw [hc] at hk; cases hk; exact hq t rfl n hc

set_option maxHeartbeats 1000000 in
theorem compile_step_addressed (id : FACT_nterm_t) (lexem : List Char)
    (c0 c1 c2 c3 next : Option FACT_tree)
    (hid : id ≠ .E_FOR)
    (h0 : ∀ k, compile_tree_opt c0 = some k → addressed_opt k none = true)
    (h1 : ∀ k, compile_tree_opt c1 = some k → addressed_opt k none = true)
    (h2 : ∀ k, compile_tree_opt c2 = some k → addressed_opt k none = true)
    (ha : ∀ k, compile_args c1 = some k → addressed_opt k none = true)
    (hn : ∀ k, compile_tree_opt next = some k → addressed_opt k none = true)
    (n : inter_node) (hc : compile_tree (.mk id lexem c0 c1 c2 c3 next) = some n) :
    addressed_opt (some n) none = true := by
  cases id
  case E_FOR => exact absurd rfl hid
  all_goals simp only [compile_tree] at hc
  all_goals first
    | cases hc
    | (split at hc <;> cases hc)
  all_goals rename_i r nx hr hnx
  all_goals apply addressed_set_next _ (hn _ hnx)
  all_goals clear hnx hn
  all_goals try simp only [Option.bind_eq_bind, Option.bind_eq_some, lookup_table,
    Option.some.injEq] at hr
  all_goals try split_ifs at hr
  all_goals try split at hr
  all_goals try simp only [Option.bind_eq_bind, Option.bind_eq_some, lookup_table,
    Option.some.injEq] at hr
  all_goals try casesm* (∃ _, _), (_ ∧ _)
  all_goals try subst_vars
  all_goals try cases hr
  all_goals first
    | apply addressed_grouping_none
    | rfl
  all_goals repeat' apply addressed_children_cons
  all_goals first
    | exact addressed_children_nil
    | rfl
    | exact addressed_begin_temp_scope _
    | exact addressed_end_temp_scope _
    | exact addressed_opt_mono _ (h0 _ (by assumption))
    | exact addressed_opt_mono _ (h1 _ (by assumption))
    | exact addressed_opt_mono _ (h2 _ (by assumption))
    | exact addressed_opt_mono _ (ha _ (by assumption))

theorem compile_for_addressed (lexem : List Char) (c0 c1 c2 c3 next : Option FACT_tree)
    (h0 : ∀ k, compile_tree_opt c0 = some k → addressed_opt k none = true)
    (h1 : ∀ k, compile_tree_opt c1 = some k → addressed_opt k none = true)
    (h2 : ∀ k, compile_tree_opt c2 = some k → addressed_opt k none = true)
    (h3 : ∀ k, compile_tree_opt c3 = some k → addressed_opt k none = true)
    (h30 : ∀ t3, c3 = some t3 → ∀ k, compile_tree_opt t3.children0 = some k →
      addressed_opt k none = true)
    (hn : ∀ k, compile_tree_opt next = some k → addressed_opt k none = true)
    (n : inter_node) (hc : compile_tree (.mk .E_FOR lexem c0 c1 c2 c3 next) = some n) :
    addressed_opt (some n) none = true := by
  rw [compile_tree.eq_def] at hc
  simp only at hc
  split at hc
  case h_2 => cases hc
  rename_i r nx hr hnx
  cases hc
  apply addressed_set_next _ (hn _ hnx)
  simp only [Option.bind_eq_bind, Option.bind_eq_some, Option.some.injEq] at hr
  obtain ⟨k1, e1, k2, e2, k4, e4, k5, e5, rfl⟩ := hr
  have hk4 : addressed_opt k4 none = true := by
    split at e4
    · cases e4
    · rename_i lex3 c30 a b c d
      exact h30 _ rfl k4 e4
    · rename_i t3 hne
      apply h3 k4
      rw [compile_tree_opt]
      cases hct : compile_tree t3 with
      | none => rw [hct] at e4; cases e4
      | some n3 => rw [hct] at e4; exact e4
  apply addressed_grouping_none
  repeat' apply addressed_children_cons
  all_goals first
    | exact addressed_children_nil
    | rfl
    | exact addressed_begin_temp_scope _
    | exact addressed_end_temp_scope _
    | exact addressed_opt_mono _ (h0 _ e1)
    | exact addressed_opt_mono _ (h1 _ e2)
    | exact addressed_opt_mono _ (h2 _ e5)
    | exact addressed_opt_mono _ hk4
    | (split_ifs
       · rfl
       · rfl)

/-- In every intermediate tree that `compile_tree` returns, every address operand is in
order. -/
theorem compile_tree_addressed : ∀ (t : FACT_tree) (n : inter_node),
    compile_tree t = some n → addressed n none = true := by
  have hrec : ∀ t : FACT_tree,
      (∀ n, compile_tree t = some n → addressed_opt (some n) none = true) ∧
      (∀ k, compile_tree_opt t.children0 = some k → addressed_opt k none = true) := by
    intro t
    refine @FACT_tree.rec
      (fun t => (∀ n, compile_tree t = some n → addressed_opt (some n) none = true) ∧
        (∀ k, compile_tree_opt t.children0 = some k → addressed_opt k none = true))
      (fun o => ∀ t, o = some t →
        (∀ n, compile_tree t = some n → addressed_opt (some n) none = true) ∧
        (∀ k, compile_tree_opt t.children0 = some k → addressed_opt k none = true)) ?_ ?_ ?_ t
    · intro id lexem c0 c1 c2 c3 next q0 q1 q2 q3 qn
      have h0 : ∀ k, compile_tree_opt c0 = some k → addressed_opt k none = true :=
        fun k hk => compile_tree_opt_addressed (fun t ht => (q0 t ht).1) hk
      have h1 : ∀ k, compile_tree_opt c1 = some k → addressed_opt k none = true :=
        fun k hk => compile_tree_opt_addressed (fun t ht => (q1 t ht).1) hk
      have h2 : ∀ k, compile_tree_opt c2 = some k → addressed_opt k none = true :=
        fun k hk => compile_tree_opt_addressed (fun t ht => (q2 t ht).1) hk
      have h3 : ∀ k, compile_tree_opt c3 = some k → addressed_opt k none = true :=
        fun k hk => compile_tree_opt_addressed (fun t ht => (q3 t ht).1) hk
      have hn : ∀ k, compile_tree_opt next = some k → addressed_opt k none = true :=
        fun k hk => compile_tree_opt_addressed (fun t ht => (qn t ht).1) hk
      refine ⟨?_, h0⟩
      intro n hc
      by_cases hid : id = .E_FOR
      · subst hid
        exact compile_for_addressed lexem c0 c1 c2 c3 next h0 h1 h2 h3
          (fun t3 ht3 => (q3 t3 ht3).2) hn n hc
      · exact compile_step_addressed id lexem c0 c1 c2 c3 next hid h0 h1 h2
          (compile_args_addressed c1) hn n hc
    · intro t h; cases h
    · intro val hv t h
      cases h
      exact hv
  exact fun t n hc => (hrec t).1 n hc

/-! ## Address operands in order are what `load` needs -/

theorem load_args_addressed (ch : Option (List (Option inter_node) × Nat)) (off : Nat)
    (hj : ∀ c j, ch = some (c, j) → j < c.length) :
    ∀ (l : List arg_t) (fmt : List Nat),
      l.all (arg_t.addressed (ch.map fun p => (p.1.length, p.2))) = true →
      (load.args ch off l fmt).isSome = true := by
  intro l
  induction l with
  | nil => intro fmt _; rfl
  | cons a rest ih =>
    intro fmt h
    rw [List.all_cons, Bool.and_eq_true] at h
    cases a with
    | NO_ARG => rfl
    | REG_VAL reg => rw [load.args]; exact ih _ h.2
    | LABEL label => rfl
    | ADDR_VAL addr =>
      cases ch with
      | none => simp [arg_t.addressed] at h
      | some p =>
        obtain ⟨c, j⟩ := p
        have h1 := h.1
        simp only [Option.map_some', arg_t.addressed, Bool.and_eq_true, decide_eq_true_eq] at h1
        obtain ⟨a, ha⟩ := resolve_isSome off h1.2 (hj c j rfl) h1.1
        rw [load.args]
        simp only [h1.2, if_false, ha]
        exact ih _ h.2

theorem addressed_loads :
    (∀ (n : inter_node) (up : Option (List (Option inter_node) × Nat)) (prog : List fmt_t),
      addressed n (up.map fun p => (p.1.length, p.2)) = true →
      (∀ c j, up = some (c, j) → j < c.length) → (load n up prog).isSome = true) ∧
    (∀ (o : Option inter_node) (up : Option (List (Option inter_node) × Nat))
      (prog : List fmt_t),
      addressed_opt o (up.map fun p => (p.1.length, p.2)) = true →
      (∀ c j, up = some (c, j) → j < c.length) → (load_opt o up prog).isSome = true) ∧
    (∀ (l : List (Option inter_node)) (all : List (Option inter_node)) (i : Nat)
      (prog : List fmt_t),
      addressed_children all.length l i = true → i + l.length ≤ all.length →
      (load_children all l i prog).isSome = true) := by
  apply inter_node_induction
  · intro inst next ih up prog h hj
    rw [addressed, Bool.and_eq_true] at h
    rw [load, load.inst]
    cases hf : load.args up (Furlow_offset prog) inst.args [] with
    | none =>
      have := load_args_addressed up (Furlow_offset prog) hj inst.args [] h.1
      rw [hf] at this
      cases this
    | some bytes => exact ih none _ h.2 (fun c j hc => by cases hc)
  · intro children next ihc ihn up prog h hj
    rw [addressed, Bool.and_eq_true] at h
    rw [load]
    cases hf : load_children children children 0 prog with
    | none =>
      have := ihc children 0 prog h.1 (by omega)
      rw [hf] at this
      cases this
    | some prog1 => exact ihn none _ h.2 (fun c j hc => by cases hc)
  · intro up prog _ _; rfl
  · intro n ih up prog h hj
    exact ih up prog h hj
  · intro all i prog _ _; rfl
  · intro c cs ihc ihcs all i prog h hlen
    rw [addressed_children, Bool.and_eq_true] at h
    rw [load_children]
    simp only [List.length_cons] at hlen
    cases hf : load_opt c (some (all, i)) prog with
    | none =>
      have := ihc (some (all, i)) prog h.1
        (fun c j hc => by cases hc; omega)
      rw [hf] at this
      cases this
    | some prog1 => exact ihcs all (i + 1) prog1 h.2 (by omega)

/-- C32: `load` on the trees of `compile_tree`. For every parse tree on which `compile_tree`
returns, `load` returns, from every program (and under every parent): it reaches neither
`abort ()` nor a failing assertion. In the intermediate tree every instruction with an
address operand is a direct child of a grouping, never the top of the tree nor a node
reached through `next`, and the operand is a valid child index of that grouping, different
from the instruction's own index (`addressed`); and this alone lets `load` return, whatever
the tree. A jump standing outside any grouping makes `load` abort. -/
theorem load_never_aborts (t : FACT_tree) (n : inter_node) (hc : compile_tree t = some n) :
    (∀ up prog, (load n up prog).isSome = true) ∧
    addressed n none = true ∧
    (∀ m : inter_node, addressed m none = true → ∀ prog, (load m none prog).isSome = true) ∧
    (addressed example_stray_jump none = false ∧ load example_stray_jump none [] = none) := by
  refine ⟨fun up prog => compile_tree_loads t n hc up prog, compile_tree_addressed t n hc,
    fun m hm prog => addressed_loads.1 m none prog hm (fun c j h => by cases h), ?_⟩
  decide

theorem load_never_aborts_witness :
    compile_tree example_while
      = some (.grouping
          [inode .VAR [.LABEL "x".toList], inode .JIF [.REG_VAL R_POP, .ADDR_VAL 3],
           inode .VAR [.LABEL "y".toList], inode .JMP [.ADDR_VAL 0]] none) ∧
    addressed (.grouping
          [inode .VAR [.LABEL "x".toList], inode .JIF [.REG_VAL R_POP, .ADDR_VAL 3],
           inode .VAR [.LABEL "y".toList], inode .JMP [.ADDR_VAL 0]] none) none = true ∧
    ∀ up prog, (load (.grouping
          [inode .VAR [.LABEL "x".toList], inode .JIF [.REG_VAL R_POP, .ADDR_VAL 3],
           inode .VAR [.LABEL "y".toList], inode .JMP [.ADDR_VAL 0]] none) up prog).isSome
        = true :=
  have hc : compile_tree example_while
      = some (.grouping
          [inode .VAR [.LABEL "x".toList], inode .JIF [.REG_VAL R_POP, .ADDR_VAL 3],
           inode .VAR [.LABEL "y".toList], inode .JMP [.ADDR_VAL 0]] none) := by
    rfl
  ⟨hc, (load_never_aborts _ _ hc).2.1, (load_never_aborts _ _ hc).1⟩

/-! ## Precedence and associativity -/

/-- An id that `accept` treats without a further check: not `E_STR_CONST`, `E_VAR`, `E_NUM`
or `E_END`. -/
theorem accept_plain (t : FACT_token) (rest : List FACT_token) (id : FACT_nterm_t)
    (h1 : id ≠ .E_STR_CONST) (h2 : id ≠ .E_VAR) (h3 : id ≠ .E_NUM) (h4 : id ≠ .E_END) :
    accept (t :: rest) id
      = if t.id = id then .ok (some (accept.node t.id t.lexem)) rest
        else .ok none (t :: rest) := by
  unfold accept
  by_cases h : t.id = id
  · simp [h, h1, h2, h3, h4]
  · simp [h, h1]

theorem accept_first_plain (t : FACT_token) (rest : List FACT_token) :
    ∀ (ops : List FACT_nterm_t),
      (∀ id ∈ ops, id ≠ .E_STR_CONST ∧ id ≠ .E_VAR ∧ id ≠ .E_NUM ∧ id ≠ .E_END) →
      accept.first (t :: rest) ops
        = if t.id ∈ ops then .ok (some (accept.node t.id t.lexem)) rest
          else .ok none (t :: rest) := by
  intro ops
  induction ops with
  | nil => intro _; simp [accept.first]
  | cons id ids ih =>
    intro h
    have hid := h id (by simp)
    rw [accept.first, accept_plain t rest id hid.1 hid.2.1 hid.2.2.1 hid.2.2.2]
    by_cases he : t.id = id
    · simp [he]
    · simp only [he, if_false]
      rw [ih (fun i hi => h i (by simp [hi]))]
      simp [he]

/-- The loop of a level of binary operators reads a chain left-nested. -/
theorem binary_loop_chain (ops : List FACT_nterm_t)
    (hops : ∀ id ∈ ops, id ≠ .E_STR_CONST ∧ id ≠ .E_VAR ∧ id ≠ .E_NUM ∧ id ≠ .E_END)
    (operand : Nat → List FACT_token → parsed FACT_tree)
    (loop : Nat → FACT_tree → List FACT_token → parsed FACT_tree)
    (hloop : ∀ n ln set, loop (n + 1) ln set = binary_step ops (operand n) (loop n) ln set)
    (F : Nat) (stop : FACT_token) (rest : List FACT_token) (hstop : stop.id ∉ ops) :
    ∀ (steps : List (FACT_token × FACT_tree)) (ln : FACT_tree) (set : List FACT_token),
      operator_chain operand ops F steps set (stop :: rest) →
      ∀ k, loop (k + F + steps.length + 1) ln set
        = .ok (left_nested ln steps) (stop :: rest) := by
  intro steps
  induction steps with
  | nil =>
    intro ln set hch k
    rw [operator_chain] at hch
    subst hch
    rw [hloop, binary_step, accept_first_plain stop rest ops hops]
    simp [hstop, parsed.bind, left_nested]
  | cons s steps ih =>
    intro ln set hch k
    obtain ⟨op, r⟩ := s
    rw [operator_chain] at hch
    obtain ⟨set1, set2, rfl, hop, hr, hrest⟩ := hch
    have e : k + F + ((op, r) :: steps).length + 1 = (k + F + steps.length + 1) + 1 := rfl
    rw [e, hloop, binary_step, accept_first_plain op set1 ops hops]
    have e2 : k + F + steps.length + 1 = (k + steps.length + 1) + F := by omega
    simp only [hop, if_true, parsed.bind]
    rw [e2, hr, ← e2]
    simp only
    rw [ih _ _ hrest k]
    rfl

/-- A level of binary operators reads its chains left-nested. -/
theorem level_left_nested (ops : List FACT_nterm_t)
    (hops : ∀ id ∈ ops, id ≠ .E_STR_CONST ∧ id ≠ .E_VAR ∧ id ≠ .E_NUM ∧ id ≠ .E_END)
    (level operand : Nat → List FACT_token → parsed FACT_tree)
    (loop : Nat → FACT_tree → List FACT_token → parsed FACT_tree)
    (hlevel : ∀ n set, level (n + 1) set = (operand n set).bind fun ln set => loop n ln set)
    (hloop : ∀ n ln set, loop (n + 1) ln set = binary_step ops (operand n) (loop n) ln set) :
    parses_left_nested level operand ops := by
  intro F l0 steps set0 set1 stop rest h0 hch hstop k
  have e : k + F + steps.length + 2 = (k + F + steps.length + 1) + 1 := rfl
  have e2 : k + F + steps.length + 1 = (k + steps.length + 1) + F := by omega
  rw [e, hlevel]
  rw [e2, h0, ← e2]
  simp only [parsed.bind]
  exact binary_loop_chain ops hops operand loop hloop F stop rest hstop steps l0 set1 hch k

/-- The function `assignment` reads a chain of assignments right-nested. -/
theorem assignment_right_nested (F : Nat) (stop : FACT_token) (rest : List FACT_token)
    (hstop : stop.id ∉ assignment_ops) (last : FACT_tree) (set_last : List FACT_token)
    (hlast : ∀ k, lor (k + F) set_last = .ok last (stop :: rest)) :
    ∀ (steps : List (FACT_tree × FACT_token)) (set : List FACT_token),
      assignment_chain F steps set set_last →
      ∀ k, assignment (k + F + steps.length + 1) set
        = .ok (right_nested steps last) (stop :: rest) := by
  have hplain : ∀ id ∈ assignment_ops,
      id ≠ .E_STR_CONST ∧ id ≠ .E_VAR ∧ id ≠ .E_NUM ∧ id ≠ .E_END := by decide
  intro steps
  induction steps with
  | nil =>
    intro set hch k
    rw [assignment_chain] at hch
    subst hch
    have e : k + F + ([] : List (FACT_tree × FACT_token)).length + 1 = (k + F) + 1 := rfl
    rw [e, assignment, hlast]
    simp only [parsed.bind]
    have := accept_first_plain stop rest assignment_ops hplain
    rw [assignment_ops] at this
    rw [this]
    have hs : stop.id ∉ [FACT_nterm_t.E_SET, .E_MOD_AS, .E_BIT_AND_AS, .E_MUL_AS, .E_ADD_AS,
        .E_SUB_AS, .E_DIV_AS, .E_BIT_XOR_AS, .E_BIT_IOR_AS] := hstop
    simp only [hs, if_false]
    rfl
  | cons s steps ih =>
    intro set hch k
    obtain ⟨l, op⟩ := s
    rw [assignment_chain] at hch
    obtain ⟨set1, hl, hop, hrest⟩ := hch
    have e : k + F + ((l, op) :: steps).length + 1 = (k + F + steps.length + 1) + 1 := rfl
    have e2 : k + F + steps.length + 1 = (k + steps.length + 1) + F := by omega
    rw [e, assignment, e2, hl, ← e2]
    simp only [parsed.bind]
    have := accept_first_plain op set1 assignment_ops hplain
    rw [assignment_ops] at this
    rw [this]
    have ho : op.id ∈ [FACT_nterm_t.E_SET, .E_MOD_AS, .E_BIT_AND_AS, .E_MUL_AS, .E_ADD_AS,
        .E_SUB_AS, .E_DIV_AS, .E_BIT_XOR_AS, .E_BIT_IOR_AS] := hop
    simp only [ho, if_true]
    rw [ih _ hrest k]
    rfl

/-- C36: precedence and associativity. Each of `term` (`*`, `/`, `%`), `expression` (`+`,
`-`), `comparison` (`<`, `<=`, `>`, `>=`), `equality` (`==`, `!=`), `land` (`and`) and `lor`
(`or`) reads a chain of its operators left-nested, with `children[0]` the left and
`children[1]` the right operand, and takes as operands what the next tighter function
parses (`opt_pb` for `term`), so that a tighter level binds first; `assignment` reads a
chain of assignment operators right-nested, its left operands being what `lor` parses.
`a - b - c` gives SUB (SUB (a, b), c), `a + b * c` gives ADD (a, MUL (b, c)) and `a = b = c`
gives SET (a, SET (b, c)). -/
theorem parser_precedence :
    parses_left_nested term opt_pb [.E_MUL, .E_DIV, .E_MOD] ∧
    parses_left_nested expression term [.E_ADD, .E_SUB] ∧
    parses_left_nested comparison expression [.E_LT, .E_LE, .E_MT, .E_ME] ∧
    parses_left_nested equality comparison [.E_EQ, .E_NE] ∧
    parses_left_nested land equality [.E_AND] ∧
    parses_left_nested lor land [.E_OR] ∧
    (∀ (F : Nat) (stop : FACT_token) (rest : List FACT_token) (last : FACT_tree)
      (set_last : List FACT_token) (steps : List (FACT_tree × FACT_token))
      (set : List FACT_token),
      stop.id ∉ assignment_ops →
      (∀ k, lor (k + F) set_last = .ok last (stop :: rest)) →
      assignment_chain F steps set set_last →
      ∀ k, assignment (k + F + steps.length + 1) set
        = .ok (right_nested steps last) (stop :: rest)) ∧
    (∀ k, assignment (k + 14)
        [var_tok "a", tok .E_SUB "-", var_tok "b", tok .E_SUB "-", var_tok "c", end_tok]
      = .ok (.mk .E_SUB "-".toList
          (some (.mk .E_SUB "-".toList (some (tree_var "a")) (some (tree_var "b"))
            none none none))
          (some (tree_var "c")) none none none) [end_tok]) ∧
    (∀ k, assignment (k + 14)
        [var_tok "a", tok .E_ADD "+", var_tok "b", tok .E_MUL "*", var_tok "c", end_tok]
      = .ok (.mk .E_ADD "+".toList (some (tree_var "a"))
          (some (.mk .E_MUL "*".toList (some (tree_var "b")) (some (tree_var "c"))
            none none none))
          none none none) [end_tok]) ∧
    (∀ k, assignment (k + 14)
        [var_tok "a", tok .E_SET "=", var_tok "b", tok .E_SET "=", var_tok "c", end_tok]
      = .ok (.mk .E_SET "=".toList (some (tree_var "a"))
          (some (.mk .E_SET "=".toList (some (tree_var "b")) (some (tree_var "c"))
            none none none))
          none none none) [end_tok]) := by
  refine ⟨?_, ?_, ?_, ?_, ?_, ?_, ?_, fun k => rfl, fun k => rfl, fun k => rfl⟩
  · exact level_left_nested _ (by decide) term opt_pb term.loop (fun n set => by rw [term])
      (fun n ln set => by rw [term.loop])
  · exact level_left_nested _ (by decide) expression term expression.loop
      (fun n set => by rw [expression]) (fun n ln set => by rw [expression.loop])
  · exact level_left_nested _ (by decide) comparison expression comparison.loop
      (fun n set => by rw [comparison]) (fun n ln set => by rw [comparison.loop])
  · exact level_left_nested _ (by decide) equality comparison equality.loop
      (fun n set => by rw [equality]) (fun n ln set => by rw [equality.loop])
  · exact level_left_nested _ (by decide) land equality land.loop
      (fun n set => by rw [land]) (fun n ln set => by rw [land.loop])
  · exact level_left_nested _ (by decide) lor land lor.loop
      (fun n set => by rw [lor]) (fun n ln set => by rw [lor.loop])
  · intro F stop rest last set_last steps set hstop hlast hch
    exact assignment_right_nested F stop rest hstop last set_last hlast steps set hch

theorem parser_precedence_witness :
    ∀ k, expression (k + 4 + 2 + 2)
        [var_tok "a", tok .E_SUB "-", var_tok "b", tok .E_SUB "-", var_tok "c", end_tok]
      = .ok (left_nested (tree_var "a")
          [(tok .E_SUB "-", tree_var "b"), (tok .E_SUB "-", tree_var "c")]) [end_tok] :=
  parser_precedence.2.1 4 (tree_var "a")
    [(tok .E_SUB "-", tree_var "b"), (tok .E_SUB "-", tree_var "c")]
    [var_tok "a", tok .E_SUB "-", var_tok "b", tok .E_SUB "-", var_tok "c", end_tok]
    [tok .E_SUB "-", var_tok "b", tok .E_SUB "-", var_tok "c", end_tok] end_tok []
    (fun _ => rfl)
    ⟨_, _, rfl, by decide, fun _ => rfl, ⟨_, _, rfl, by decide, fun _ => rfl, rfl⟩⟩
    (by decide)

/-! ## Unary minus before a postfix expression -/

theorem opt_pb_loop_stop (n : Nat) (ln : FACT_tree) (stop : FACT_token)
    (rest : List FACT_token)
    (hstop : stop.id ∉ [FACT_nterm_t.E_OP_PAREN, .E_OP_BRACK, .E_IN]) :
    opt_pb.loop (n + 1) ln (stop :: rest) = .ok ln (stop :: rest) := by
  rw [opt_pb.loop, accept_first_plain stop rest _ (by decide)]
  simp [hstop, parsed.bind]

theorem unary_minus (n : Nat) (minus : FACT_token) (hminus : minus.id = .E_SUB)
    (set : List FACT_token) :
    unary (n + 1) (minus :: set)
      = (unary n set).bind fun e set1 =>
          .ok (.mk .E_NEG minus.lexem (some e) none none none none) set1 := by
  rw [unary, accept_plain minus set .E_ADD (by decide) (by decide) (by decide) (by decide)]
  simp only [hminus, parsed.bind, show ¬ FACT_nterm_t.E_SUB = FACT_nterm_t.E_ADD by decide,
    if_false]
  rw [accept_plain minus set .E_SUB (by decide) (by decide) (by decide) (by decide)]
  simp only [hminus, if_true]
  cases unary n set <;> rfl

theorem postfix_after_minus_counterexample :
    (∀ k, opt_pb (k + 16)
        [tok .E_SUB "-", var_tok "a", tok .E_OP_BRACK "[", var_tok "i", tok .E_CL_BRACK "]",
          end_tok]
      = .ok (.mk .E_ARRAY_ELEM "[".toList (some (tree_var "i"))
          (some (.mk .E_NEG "-".toList (some (tree_var "a")) none none none none))
          none none none) [end_tok]) ∧
    FACT_tree.mk .E_ARRAY_ELEM "[".toList (some (tree_var "i"))
        (some (.mk .E_NEG "-".toList (some (tree_var "a")) none none none none))
        none none none
      ≠ .mk .E_NEG "-".toList
        (some (.mk .E_ARRAY_ELEM "[".toList (some (tree_var "i")) (some (tree_var "a"))
          none none none)) none none none none := by
  refine ⟨fun k => rfl, ?_⟩
  intro h
  have := congrArg FACT_tree.id h
  exact absurd this (by decide)

theorem expect_plain (t : FACT_token) (rest : List FACT_token) (id : FACT_nterm_t)
    (h1 : id ≠ .E_STR_CONST) (h2 : id ≠ .E_VAR) (h3 : id ≠ .E_NUM) (h4 : id ≠ .E_END)
    (h : t.id = id) :
    expect (t :: rest) id = .ok (accept.node t.id t.lexem) rest := by
  rw [expect, accept_plain t rest id h1 h2 h3 h4]
  simp [h, parsed.bind]

/-- C37: unary minus and the postfix operators. `opt_pb` parses its operand with `unary`
first and applies the postfix operators to the result. So when a `-` is followed by tokens
from which `unary` parses `x` and then by `[ e ]`, the parser returns the ARRAY_ELEM node
whose `children[1]`, the base, is the NEG node of `x` and whose `children[0]` is the index
`e`; followed by `( args )`, it returns the FUNC_CALL node whose `children[1]`, the function,
is the NEG node of `x`. The minus applies to what `unary` parses after it, not to the postfix
expression. -/
theorem postfix_after_minus (F : Nat) (minus opening closing stop : FACT_token)
    (x e : FACT_tree) (args : Option FACT_tree) (set0 set1 rest : List FACT_token)
    (hminus : minus.id = .E_SUB)
    (hstop : stop.id ∉ [FACT_nterm_t.E_OP_PAREN, .E_OP_BRACK, .E_IN])
    (hx : ∀ k, unary (k + F) set0 = .ok x (opening :: set1)) :
    (opening.id = .E_OP_BRACK → closing.id = .E_CL_BRACK →
      (∀ k, assignment (k + F) set1 = .ok e (closing :: stop :: rest)) →
      ∀ k, opt_pb (k + F + 3) (minus :: set0)
        = .ok (.mk .E_ARRAY_ELEM opening.lexem (some e)
            (some (.mk .E_NEG minus.lexem (some x) none none none none))
            none none none) (stop :: rest)) ∧
    (opening.id = .E_OP_PAREN →
      (∀ k, arg_list (k + F) set1 = .ok args (stop :: rest)) →
      ∀ k, opt_pb (k + F + 3) (minus :: set0)
        = .ok (.mk .E_FUNC_CALL opening.lexem args
            (some (.mk .E_NEG minus.lexem (some x) none none none none))
            none none none) (stop :: rest)) := by
  have hfirst : ∀ k, opt_pb (k + F + 3) (minus :: set0)
      = opt_pb.loop (k + F + 1 + 1) (.mk .E_NEG minus.lexem (some x) none none none none)
          (opening :: set1) := by
    intro k
    have e1 : k + F + 3 = (k + F + 1 + 1) + 1 := rfl
    have e2 : k + F + 1 = (k + 1) + F := by omega
    rw [e1, opt_pb, unary_minus _ minus hminus, e2, hx, ← e2]
    rfl
  constructor
  · intro hopen hclose he k
    have e2 : k + F + 1 = (k + 1) + F := by omega
    rw [hfirst, opt_pb.loop, accept_first_plain opening set1 _ (by decide)]
    simp only [hopen, List.mem_cons, true_or, or_true, if_true, parsed.bind, accept.node,
      FACT_tree.id]
    rw [e2, he, ← e2]
    simp only
    rw [expect_plain closing (stop :: rest) .E_CL_BRACK (by decide) (by decide) (by decide)
      (by decide) hclose]
    simp only
    rw [show k + F + 1 = (k + F) + 1 from rfl, opt_pb_loop_stop _ _ stop rest hstop]
    rfl
  · intro hopen ha k
    have e2 : k + F + 1 = (k + 1) + F := by omega
    rw [hfirst, opt_pb.loop, accept_first_plain opening set1 _ (by decide)]
    simp only [hopen, List.mem_cons, true_or, or_true, if_true, parsed.bind, accept.node,
      FACT_tree.id]
    rw [e2, ha, ← e2]
    simp only
    rw [show k + F + 1 = (k + F) + 1 from rfl, opt_pb_loop_stop _ _ stop rest hstop]
    rfl

theorem postfix_after_minus_witness :
    (∀ k, opt_pb (k + 13 + 3)
        [tok .E_SUB "-", var_tok "a", tok .E_OP_BRACK "[", var_tok "i", tok .E_CL_BRACK "]",
          end_tok]
      = .ok (.mk .E_ARRAY_ELEM "[".toList (some (tree_var "i"))
          (some (.mk .E_NEG "-".toList (some (tree_var "a")) none none none none))
          none none none) [end_tok]) ∧
    (∀ k, opt_pb (k + 15 + 3)
        [tok .E_SUB "-", var_tok "f", tok .E_OP_PAREN "(", var_tok "x", tok .E_CL_PAREN ")",
          end_tok]
      = .ok (.mk .E_FUNC_CALL "(".toList (some (tree_var "x"))
          (some (.mk .E_NEG "-".toList (some (tree_var "f")) none none none none))
          none none none) [end_tok]) :=
  ⟨(postfix_after_minus 13 (tok .E_SUB "-") (tok .E_OP_BRACK "[") (tok .E_CL_BRACK "]")
      end_tok (tree_var "a") (tree_var "i") none [var_tok "a", tok .E_OP_BRACK "[",
        var_tok "i", tok .E_CL_BRACK "]", end_tok] [var_tok "i", tok .E_CL_BRACK "]", end_tok]
      [] rfl (by decide) (fun _ => rfl)).1 rfl rfl (fun _ => rfl),
   (postfix_after_minus 15 (tok .E_SUB "-") (tok .E_OP_PAREN "(") (tok .E_CL_PAREN ")")
      end_tok (tree_var "f") (tree_var "x") (some (tree_var "x")) [var_tok "f",
        tok .E_OP_PAREN "(", var_tok "x", tok .E_CL_PAREN ")", end_tok]
      [var_tok "x", tok .E_CL_PAREN ")", end_tok]
      [] rfl (by decide) (fun _ => rfl)).2 rfl (fun _ => rfl)⟩

/-! ## A `for` loop without body -/

/-- C40: a `for` loop without body. For `for (i = a; i < n; i = i + d) ;` the parser returns
a tree whose `children[3]` is NULL, and on that tree `compile_tree` reads
`curr->children[3]->id.id`, the id of an absent node: it is not defined, and neither is it
on any other `E_FOR` tree without `children[3]`. With a body the tree is compiled; and
so is the tree of `while (x) ;`, whose `children[1]` is NULL. -/
theorem for_without_body :
    (∀ k, FACT_parse (k + 17) example_for_tokens = .ok example_for_no_body [end_tok]) ∧
    example_for_no_body.id = .E_FOR ∧
    compile_tree example_for_no_body = none ∧
    (∀ (lexem : List Char) (c0 c1 c2 next : Option FACT_tree),
      compile_tree (.mk .E_FOR lexem c0 c1 c2 none next) = none) ∧
    (compile_tree example_for).isSome = true ∧
    (∀ k, FACT_parse (k + 17) example_while_tokens = .ok example_while_no_body [end_tok]) ∧
    (compile_tree example_while_no_body).isSome = true := by
  refine ⟨fun k => rfl, rfl, rfl, ?_, rfl, fun k => rfl, rfl⟩
  intro lexem c0 c1 c2 next
  simp only [compile_tree]
  cases compile_tree_opt c0 <;> cases compile_tree_opt c1 <;> rfl

/-! ## The order of the dimensions -/

theorem link_eq_foldr (l : List FACT_tree) :
    link l = l.foldr (fun e acc => some (e.set_next acc)) none := by
  induction l with
  | nil => rfl
  | cons e rest ih => rw [link, ih]; rfl

theorem set_next_self (e : FACT_tree) (h : e.next = none) : e.set_next none = e := by
  obtain ⟨id, lexem, c0, c1, c2, c3, next⟩ := e
  simp only [FACT_tree.next] at h
  subst h
  rfl

theorem def_scalar_loop_chain (F : Nat) (stop : FACT_token) (rest : List FACT_token)
    (hstop : stop.id ≠ .E_OP_BRACK) :
    ∀ (es : List FACT_tree) (an : FACT_tree) (set : List FACT_token),
      bracket_chain F es set (stop :: rest) →
      ∀ k, ∃ t, def_scalar.loop (k + F + es.length + 1) an set = .ok t (stop :: rest) ∧
        some t = es.reverse.foldr (fun e acc => some (e.set_next acc)) (some an) := by
  intro es
  induction es with
  | nil =>
    intro an set hch k
    rw [bracket_chain] at hch
    subst hch
    refine ⟨an, ?_, rfl⟩
    rw [def_scalar.loop,
      accept_plain stop rest .E_OP_BRACK (by decide) (by decide) (by decide) (by decide)]
    simp [hstop, parsed.bind]
  | cons e es ih =>
    intro an set hch k
    rw [bracket_chain] at hch
    obtain ⟨opening, closing, set1, set2, rfl, hopen, he, hclose, hrest⟩ := hch
    obtain ⟨t, ht, hlink⟩ := ih (e.set_next (some an)) set2 hrest k
    refine ⟨t, ?_, ?_⟩
    · have e1 : k + F + (e :: es).length + 1 = (k + F + es.length + 1) + 1 := rfl
      have e2 : k + F + es.length + 1 = (k + es.length + 1) + F := by omega
      rw [e1, def_scalar.loop,
        accept_plain opening set1 .E_OP_BRACK (by decide) (by decide) (by decide) (by decide)]
      simp only [hopen, if_true, parsed.bind]
      rw [e2, he, ← e2]
      simp only
      rw [expect_plain closing set2 .E_CL_BRACK (by decide) (by decide) (by decide)
        (by decide) hclose]
      simp only
      exact ht
    · rw [hlink, List.reverse_cons, List.foldr_append]
      rfl

/-- The function `def_scalar` chains the dimensions through `next`, the last one first. -/
theorem def_scalar_chain (F : Nat) (stop : FACT_token) (rest : List FACT_token)
    (hstop : stop.id ≠ .E_OP_BRACK) (dims : List FACT_tree)
    (hnext : ∀ e ∈ dims, e.next = none) (set : List FACT_token)
    (hch : bracket_chain F dims set (stop :: rest)) :
    ∀ k, def_scalar (k + F + dims.length + 1) set = .ok (link dims.reverse) (stop :: rest) := by
  intro k
  cases dims with
  | nil =>
    rw [bracket_chain] at hch
    subst hch
    rw [show k + F + ([] : List FACT_tree).length + 1 = (k + F) + 1 from rfl, def_scalar,
      accept_plain stop rest .E_OP_BRACK (by decide) (by decide) (by decide) (by decide)]
    simp [hstop, parsed.bind, link]
  | cons e es =>
    rw [bracket_chain] at hch
    obtain ⟨opening, closing, set1, set2, rfl, hopen, he, hclose, hrest⟩ := hch
    obtain ⟨t, ht, hlink⟩ := def_scalar_loop_chain F stop rest hstop es e set2 hrest k
    have e1 : k + F + (e :: es).length + 1 = (k + F + es.length + 1) + 1 := rfl
    have e2 : k + F + es.length + 1 = (k + es.length + 1) + F := by omega
    rw [e1, def_scalar,
      accept_plain opening set1 .E_OP_BRACK (by decide) (by decide) (by decide) (by decide)]
    simp only [hopen, if_true, parsed.bind]
    rw [e2, he, ← e2]
    simp only
    rw [expect_plain closing set2 .E_CL_BRACK (by decide) (by decide) (by decide)
      (by decide) hclose]
    simp only
    rw [ht]
    simp only
    rw [hlink, link_eq_foldr, List.reverse_cons, List.foldr_append]
    simp only [List.foldr_cons, List.foldr_nil]
    rw [set_next_self e (hnext e (by simp))]

theorem accept_var (name : FACT_token) (rest : List FACT_token) (hid : name.id = .E_VAR)
    (hvalid : is_ident_valid name.lexem = true) :
    expect (name :: rest) .E_VAR = .ok (accept.node .E_VAR name.lexem) rest := by
  simp [expect, accept, hid, hvalid, parsed.bind]

/-- The function `factor` on a declaration: the node of `num` or `scope` with the chain of
the dimensions, the last one first, as `children[0]` and the name as `children[1]`. -/
theorem factor_declaration (F : Nat) (decl name : FACT_token) (rest : List FACT_token)
    (hdecl : decl.id = .E_NUM_DEF ∨ decl.id = .E_SCOPE_DEF)
    (hid : name.id = .E_VAR) (hvalid : is_ident_valid name.lexem = true)
    (dims : List FACT_tree) (hnext : ∀ e ∈ dims, e.next = none) (set : List FACT_token)
    (hch : bracket_chain F dims set (name :: rest)) :
    ∀ k, factor (k + F + dims.length + 2) (decl :: set)
      = .ok (factor.node (accept.node decl.id decl.lexem) (link dims.reverse)
          (accept.node .E_VAR name.lexem)) rest := by
  intro k
  have hfirst : accept.first (decl :: set) [.E_OP_PAREN, .E_THREAD, .E_DQ, .E_SQ, .E_OP_BRACK,
      .E_VAR, .E_NUM, .E_NUM_DEF, .E_SCOPE_DEF]
      = .ok (some (accept.node decl.id decl.lexem)) set := by
    rcases hdecl with h | h <;> simp [accept.first, accept, h]
  have hds := def_scalar_chain F name rest (by rw [hid]; decide) dims hnext set hch k
  rw [show k + F + dims.length + 2 = (k + F + dims.length + 1) + 1 from rfl, factor, hfirst]
  simp only [parsed.bind]
  rcases hdecl with h | h
  all_goals
    simp only [accept.node, FACT_tree.id, h]
    rw [hds]
    simp only
    rw [accept_var name rest hid hvalid]
    simp only [accept.node, h]

/-- The code of a declaration whose `children[0]` is the chain of the trees `es`: the code of
the trees in the order of the chain, `CONST` with their number, `DEF_N` or `DEF_S`. -/
theorem decl_dims_code (id : FACT_nterm_t) (op : Furlow_opcode)
    (hid : (id, op) ∈ [(FACT_nterm_t.E_NUM_DEF, Furlow_opcode.DEF_N), (.E_SCOPE_DEF, .DEF_S)])
    (lexem : List Char) (es : List FACT_tree) (hes : ∀ e ∈ es, e.next = none)
    (hcomp : ∀ e ∈ es, (compile_tree e).isSome = true) (name : FACT_tree)
    (prog : List fmt_t) :
    (compile_tree (.mk id lexem (link es) (some name) none none none)).isSome = true ∧
    code (some (.mk id lexem (link es) (some name) none none none)) prog
      = codes es prog
        ++ [⟨.CONST, (Nat.toDigits 10 es.length).map Char.toNat ++ [0]⟩,
            ⟨op, R_POP :: (name.lexem.map Char.toNat ++ [0])⟩] := by
  have hlink : (compile_tree_opt (link es)).isSome = true :=
    (compile_link_isSome es hes).2 hcomp
  have hs : (compile_tree (.mk id lexem (link es) (some name) none none none)).isSome
      = true := by
    obtain ⟨k0, hk0⟩ := Option.isSome_iff_exists.1 hlink
    obtain ⟨vid, vname, v0, v1, v2, v3, vn⟩ := name
    simp only [List.mem_cons, Prod.mk.injEq, List.mem_singleton, List.not_mem_nil,
      or_false] at hid
    rcases hid with h | h
    all_goals obtain ⟨rfl, rfl⟩ := h
    all_goals simp only [compile_tree, Option.bind_eq_bind]
    all_goals by_cases hz : count_dims (link es) = 0
    all_goals simp only [hz, if_true, if_false]
    all_goals simp [hk0, compile_tree_opt]
  refine ⟨hs, ?_⟩
  obtain ⟨n, hn⟩ := Option.isSome_iff_exists.1 hs
  obtain ⟨code_0, code_next, h0, hnx, hl⟩ :=
    decl_layout id op hid lexem (link es) none none none name n hn prog
  rw [code_none] at hnx
  rw [count_dims_link, dims_str_eq_toDigits] at hl
  rw [code_link es hes hlink] at h0
  apply code_of_load hn
  rw [hl, hnx, h0]
  simp

theorem push_all_reverse (values : List FACT_t) (c : FACT_t) (below : List FACT_t) :
    push_all (values.reverse ++ [c]) below = c :: (values ++ below) := by
  have h : ∀ (l st : List FACT_t), push_all l st = l.reverse ++ st := by
    intro l
    induction l with
    | nil => intro st; rfl
    | cons v vs ih =>
      intro st
      rw [push_all, List.foldl_cons]
      have := ih (v :: st)
      rw [push_all] at this
      rw [this]
      simp
  rw [h]
  simp

/-- The array that a named `FACT_def_num` makes of the sizes it pops: the size popped first
is that of the outermost dimension. -/
theorem def_num_named (t t1 : FACT_thread) (args0 : Nat) (name : List Char)
    (cnt : FACT_num) (sizes : List FACT_num) (rest : List FACT_t)
    (hreg : Furlow_reg_val t args0 = some (cnt, t1))
    (hcnt : mpc_get_ui cnt.value = sizes.length) (hne : sizes ≠ [])
    (hst : t1.vstack = sizes.map .num ++ rest)
    (hin : ∀ s ∈ sizes, ¬ (mpc_cmp_ui s.value ULONG_MAX > 0 ∨ mpc_sgn s.value < 0) ∧
      2 ≤ mpc_get_ui s.value)
    (hadd : ∃ sc num, FACT_add_num t1.this name = (sc, .ok num)) :
    ∃ x t3, FACT_def_num t args0 name false = (t3, .ok ()) ∧
      t3.vstack = .num x :: rest ∧
      is_rect (sizes.map (fun s => mpc_get_ui s.value)) x ∧
      x.array_size = (sizes.map (fun s => mpc_get_ui s.value)).getD 0 0 := by
  have hlen : sizes.length ≠ 0 := by
    intro h0
    exact hne (List.length_eq_zero.mp h0)
  have hds : sizes.map (fun s => mpc_get_ui s.value) ≠ [] := by
    intro h0
    exact hne (List.map_eq_nil_iff.mp h0)
  obtain ⟨sc, num, hok⟩ := hadd
  have hpop := pop_sizes_ok rest sizes { t1 with this := sc } [] hst hin
  refine ⟨(num.set_array_up
      (make_num_array num.name (sizes.map (fun s => mpc_get_ui s.value)) 0)).set_array_size
      ((sizes.map (fun s => mpc_get_ui s.value)).getD 0 0), ?_⟩
  have hev : ∃ t3, FACT_def_num t args0 name false = (t3, .ok ()) ∧
      t3.vstack = .num ((num.set_array_up
        (make_num_array num.name (sizes.map (fun s => mpc_get_ui s.value)) 0)).set_array_size
        ((sizes.map (fun s => mpc_get_ui s.value)).getD 0 0)) :: rest := by
    rw [FACT_def_num, hreg]
    simp only [Bool.false_eq_true, if_false, hok, hcnt, hlen]
    rw [hpop]
    exact ⟨_, rfl, rfl⟩
  obtain ⟨t3, h1, h2⟩ := hev
  exact ⟨t3, h1, h2, def_num_array_rect _ _ hds num, set_array_size_array_size _ _⟩

/-- C35: the order of the dimensions. A declaration is written `num [e1][e2]...[en] a` (or
`scope ...`), the brackets between `num` and the name: `factor` calls `def_scalar` before it
reads the name. For these tokens `def_scalar` chains the trees of the
dimensions through `next` with the last one first, so `factor` returns the declaration node
with the chain `en, ..., e1` as `children[0]`; `compile_tree` and `load` emit the code of
`en`, ..., the code of `e1`, then `CONST` with the count `n`, then `DEF_N` (`DEF_S`) on
`R_POP` with the name. When the values of `en`, ..., `e1` and then the count have been pushed
in that order, `FACT_def_num` pops the count and then the values of `e1`, ..., `en`:
`dim_sizes[k]` is the value of `e(k+1)`, the array is rectangular with these sizes and the
first written dimension is the outermost one. For `num [p][q] k` with `p = 3` and `q = 2` the
root has `array_size` 3 and its children have `array_size` 2. -/
theorem dimension_order (F : Nat) (decl name : FACT_token) (rest : List FACT_token)
    (op : Furlow_opcode)
    (hdecl : (decl.id, op) ∈ [(FACT_nterm_t.E_NUM_DEF, Furlow_opcode.DEF_N),
      (.E_SCOPE_DEF, .DEF_S)])
    (hid : name.id = .E_VAR) (hvalid : is_ident_valid name.lexem = true)
    (dims : List FACT_tree) (hnext : ∀ e ∈ dims, e.next = none)
    (hcomp : ∀ e ∈ dims, (compile_tree e).isSome = true)
    (set : List FACT_token) (hch : bracket_chain F dims set (name :: rest))
    (prog : List fmt_t) :
    (∀ k, factor (k + F + dims.length + 2) (decl :: set)
      = .ok (.mk decl.id decl.lexem (link dims.reverse) (some (tree_var (String.mk name.lexem)))
          none none none) rest) ∧
    (compile_tree (.mk decl.id decl.lexem (link dims.reverse)
      (some (tree_var (String.mk name.lexem))) none none none)).isSome = true ∧
    code (some (.mk decl.id decl.lexem (link dims.reverse)
        (some (tree_var (String.mk name.lexem))) none none none)) prog
      = codes dims.reverse prog
        ++ [⟨.CONST, (Nat.toDigits 10 dims.length).map Char.toNat ++ [0]⟩,
            ⟨op, R_POP :: (name.lexem.map Char.toNat ++ [0])⟩] ∧
    (∀ (t : FACT_thread) (cnt : FACT_num) (values : List FACT_num) (below : List FACT_t),
      t.vstack = push_all ((values.map FACT_t.num).reverse ++ [.num cnt]) below →
      mpc_get_ui cnt.value = values.length → values ≠ [] →
      (∀ s ∈ values, ¬ (mpc_cmp_ui s.value ULONG_MAX > 0 ∨ mpc_sgn s.value < 0) ∧
        2 ≤ mpc_get_ui s.value) →
      (∃ sc num, FACT_add_num t.this name.lexem = (sc, .ok num)) →
      ∃ x t3, FACT_def_num t R_POP name.lexem false = (t3, .ok ()) ∧
        t3.vstack = .num x :: below ∧
        is_rect (values.map (fun s => mpc_get_ui s.value)) x ∧
        x.array_size = (values.map (fun s => mpc_get_ui s.value)).getD 0 0) := by
  have hd : decl.id = .E_NUM_DEF ∨ decl.id = .E_SCOPE_DEF := by
    simp only [List.mem_cons, Prod.mk.injEq, List.mem_singleton, List.not_mem_nil,
      or_false] at hdecl
    rcases hdecl with h | h
    · exact Or.inl h.1
    · exact Or.inr h.1
  have hrev : ∀ e ∈ dims.reverse, e.next = none := fun e he =>
    hnext e (List.mem_reverse.mp he)
  have hcrev : ∀ e ∈ dims.reverse, (compile_tree e).isSome = true := fun e he =>
    hcomp e (List.mem_reverse.mp he)
  have hcode := decl_dims_code decl.id op hdecl decl.lexem dims.reverse hrev hcrev
    (tree_var (String.mk name.lexem)) prog
  rw [List.length_reverse] at hcode
  refine ⟨?_, hcode.1, hcode.2, ?_⟩
  · intro k
    rw [factor_declaration F decl name rest hd hid hvalid dims hnext set hch k]
    rfl
  · intro t cnt values below hst hcnt hne hin hadd
    rw [push_all_reverse] at hst
    have hreg : Furlow_reg_val t R_POP
        = some (cnt, { t with vstack := values.map .num ++ below }) := by
      simp [Furlow_reg_val, hst]
    exact def_num_named t _ R_POP name.lexem cnt values below hreg hcnt hne rfl hin hadd

theorem dimension_order_witness :
    (∀ k, factor (k + 13 + 2 + 2) example_decl_tokens
      = .ok (.mk .E_NUM_DEF "num".toList (link [tree_var "q", tree_var "p"])
          (some (tree_var "k")) none none none) [end_tok]) ∧
    FACT_compile (some (.mk .E_NUM_DEF "num".toList (link [tree_var "q", tree_var "p"])
          (some (tree_var "k")) none none none)) []
      = some [⟨.VAR, [113, 0]⟩, ⟨.VAR, [112, 0]⟩, ⟨.CONST, [50, 0]⟩, ⟨.DEF_N, [0, 107, 0]⟩] ∧
    example_thread.vstack
      = push_all [.num (num_of_nat 2), .num (num_of_nat 3), .num (num_of_nat 2)] [] ∧
    ∃ x t3, FACT_def_num example_thread R_POP "k".toList false = (t3, .ok ()) ∧
      t3.vstack = .num x :: [] ∧ is_rect [3, 2] x ∧ x.array_size = 3 := by
  have hn : ∀ e ∈ [tree_var "p", tree_var "q"], e.next = none := by
    intro e he
    simp only [List.mem_cons, List.mem_singleton, List.not_mem_nil, or_false] at he
    rcases he with rfl | rfl <;> rfl
  have hc : ∀ e ∈ [tree_var "p", tree_var "q"], (compile_tree e).isSome = true := by
    intro e he
    simp only [List.mem_cons, List.mem_singleton, List.not_mem_nil, or_false] at he
    rcases he with rfl | rfl <;> rfl
  have h := dimension_order 13 (tok .E_NUM_DEF "num") (var_tok "k") [end_tok] .DEF_N
    (by decide) rfl (by decide) [tree_var "p", tree_var "q"] hn hc
    [tok .E_OP_BRACK "[", var_tok "p", tok .E_CL_BRACK "]",
     tok .E_OP_BRACK "[", var_tok "q", tok .E_CL_BRACK "]", var_tok "k", end_tok]
    ⟨_, _, _, _, rfl, rfl, fun _ => rfl, rfl, ⟨_, _, _, _, rfl, rfl, fun _ => rfl, rfl, rfl⟩⟩
    []
  refine ⟨h.1, ?_, rfl, ?_⟩
  · obtain ⟨n, hn⟩ := Option.isSome_iff_exists.1 h.2.1
    have hk : compile_tree_opt (some (.mk .E_NUM_DEF "num".toList
        (link [tree_var "q", tree_var "p"]) (some (tree_var "k")) none none none))
        = some (some n) := by
      have hn2 : compile_tree (.mk .E_NUM_DEF "num".toList
          (link [tree_var "q", tree_var "p"]) (some (tree_var "k")) none none none)
          = some n := hn
      rw [compile_tree_opt, hn2]
    have hcode := h.2.2.1
    have e1 : code (some (tree_var "q")) [] = [⟨.VAR, [113, 0]⟩] := by decide
    have e2 : code (some (tree_var "p")) [⟨.VAR, [113, 0]⟩] = [⟨.VAR, [112, 0]⟩] := by decide
    have e3 : Nat.toDigits 10 2 = ['2'] := by decide
    have e : code (some (.mk .E_NUM_DEF "num".toList
        (link [tree_var "q", tree_var "p"]) (some (tree_var "k")) none none none)) []
        = [⟨.VAR, [113, 0]⟩, ⟨.VAR, [112, 0]⟩, ⟨.CONST, [50, 0]⟩, ⟨.DEF_N, [0, 107, 0]⟩] := by
      refine hcode.trans ?_
      simp [codes, e1, e2, e3, R_POP, var_tok, tok]
    rw [FACT_compile, hk]
    simp only []
    rw [(load_code hk none []).1, e]
    rfl
  exact h.2.2.2 example_thread (num_of_nat 2) [num_of_nat 3, num_of_nat 2] [] rfl
    (by decide) (List.cons_ne_nil _ _) (by decide) example_add_ok

/-! ## The label is the last operand of every compiled instruction -/

theorem labels_set_next {r : inter_node} {nx : Option inter_node}
    (hr : labels_last_opt (some r) = true) (hn : labels_last_opt nx = true) :
    labels_last_opt (some (r.set_next nx)) = true := by
  cases r with
  | instruction inst next =>
    rw [labels_last_opt, labels_last, Bool.and_eq_true] at hr
    rw [inter_node.set_next, labels_last_opt, labels_last, Bool.and_eq_true]
    exact ⟨hr.1, hn⟩
  | grouping children next =>
    rw [labels_last_opt, labels_last, Bool.and_eq_true] at hr
    rw [inter_node.set_next, labels_last_opt, labels_last, Bool.and_eq_true]
    exact ⟨hr.1, hn⟩

theorem labels_grouping {children : List (Option inter_node)} {next : Option inter_node}
    (hch : labels_last_children children = true) (hn : labels_last_opt next = true) :
    labels_last_opt (some (.grouping children next)) = true := by
  rw [labels_last_opt, labels_last, hch, hn]
  rfl

theorem labels_grouping_none {children : List (Option inter_node)}
    (hch : labels_last_children children = true) :
    labels_last_opt (some (.grouping children none)) = true :=
  labels_grouping hch rfl

theorem labels_children_cons {c : Option inter_node} {cs : List (Option inter_node)}
    (hc : labels_last_opt c = true) (hcs : labels_last_children cs = true) :
    labels_last_children (c :: cs) = true := by
  rw [labels_last_children, hc, hcs]
  rfl

theorem labels_children_nil : labels_last_children [] = true := rfl

theorem compile_args_labels : ∀ (o : Option FACT_tree) (k : Option inter_node),
    compile_args o = some k → labels_last_opt k = true := by
  have hrec : ∀ t : FACT_tree, ∀ k, compile_args (some t) = some k →
      labels_last_opt k = true := by
    intro t
    refine @FACT_tree.rec
      (fun t => ∀ k, compile_args (some t) = some k → labels_last_opt k = true)
      (fun o => ∀ k, compile_args o = some k → labels_last_opt k = true) ?_ ?_ ?_ t
    · intro id lexem c0 c1 c2 c3 next _ h1 _ _ _ k hk
      cases c0 with
      | none => simp only [compile_args] at hk; cases hk
      | some t0 =>
        cases t0 with
        | mk id0 lexem0 a b c d e =>
          simp only [compile_args] at hk
          cases h : compile_args c1 with
          | none => rw [h] at hk; cases hk
          | some nx =>
            rw [h] at hk
            cases hk
            apply labels_grouping _ (h1 nx h)
            repeat' apply labels_children_cons
            all_goals rfl
    · intro k hk
      rw [compile_args] at hk
      cases hk
      rfl
    · intro val hv k hk
      exact hv k hk
  intro o k hk
  cases o with
  | none => rw [compile_args] at hk; cases hk; rfl
  | some t => exact hrec t k hk

theorem compile_tree_opt_labels {o : Option FACT_tree}
    (hq : ∀ t, o = some t → ∀ n, compile_tree t = some n → labels_last_opt (some n) = true)
    {k : Option inter_node} (hk : compile_tree_opt o = some k) :
    labels_last_opt k = true := by
  cases o with
  | none => rw [compile_tree_opt] at hk; cases hk; rfl
  | some t =>
    rw [compile_tree_opt] at hk
    cases hc : compile_tree t with
    | none => rw [hc] at hk; cases hk
    | some n => rw [hc] at hk; cases hk; exact hq t rfl n hc

set_option maxHeartbeats 1000000 in
theorem compile_step_labels (id : FACT_nterm_t) (lexem : List Char)
    (c0 c1 c2 c3 next : Option FACT_tree)
    (hid : id ≠ .E_FOR)
    (h0 : ∀ k, compile_tree_opt c0 = some k → labels_last_opt k = true)
    (h1 : ∀ k, compile_tree_opt c1 = some k → labels_last_opt k = true)
    (h2 : ∀ k, compile_tree_opt c2 = some k → labels_last_opt k = true)
    (ha : ∀ k, compile_args c1 = some k → labels_last_opt k = true)
    (hn : ∀ k, compile_tree_opt next = some k → labels_last_opt k = true)
    (n : inter_node) (hc : compile_tree (.mk id lexem c0 c1 c2 c3 next) = some n) :
    labels_last_opt (some n) = true := by
  cases id
  case E_FOR => exact absurd rfl hid
  all_goals simp only [compile_tree] at hc
  all_goals first
    | cases hc
    | (split at hc <;> cases hc)
  all_goals rename_i r nx hr hnx
  all_goals apply labels_set_next _ (hn _ hnx)
  all_goals clear hnx hn
  all_goals try simp only [Option.bind_eq_bind, Option.bind_eq_some, lookup_table,
    Option.some.injEq] at hr
  all_goals try split_ifs at hr
  all_goals try split at hr
  all_goals try simp only [Option.bind_eq_bind, Option.bind_eq_some, lookup_table,
    Option.some.injEq] at hr
  all_goals try casesm* (∃ _, _), (_ ∧ _)
  all_goals try subst_vars
  all_goals try cases hr
  all_goals first
    | apply labels_grouping_none
    | rfl
  all_goals repeat' apply labels_children_cons
  all_goals first
    | exact labels_children_nil
    | rfl
    | rfl
    | rfl
    | exact h0 _ (by assumption)
    | exact h1 _ (by assumption)
    | exact h2 _ (by assumption)
    | exact ha _ (by assumption)

theorem compile_for_labels (lexem : List Char) (c0 c1 c2 c3 next : Option FACT_tree)
    (h0 : ∀ k, compile_tree_opt c0 = some k → labels_last_opt k = true)
    (h1 : ∀ k, compile_tree_opt c1 = some k → labels_last_opt k = true)
    (h2 : ∀ k, compile_tree_opt c2 = some k → labels_last_opt k = true)
    (h3 : ∀ k, compile_tree_opt c3 = some k → labels_last_opt k = true)
    (h30 : ∀ t3, c3 = some t3 → ∀ k, compile_tree_opt t3.children0 = some k →
      labels_last_opt k = true)
    (hn : ∀ k, compile_tree_opt next = some k → labels_last_opt k = true)
    (n : inter_node) (hc : compile_tree (.mk .E_FOR lexem c0 c1 c2 c3 next) = some n) :
    labels_last_opt (some n) = true := by
  rw [compile_tree.eq_def] at hc
  simp only at hc
  split at hc
  case h_2 => cases hc
  rename_i r nx hr hnx
  cases hc
  apply labels_set_next _ (hn _ hnx)
  simp only [Option.bind_eq_bind, Option.bind_eq_some, Option.some.injEq] at hr
  obtain ⟨k1, e1, k2, e2, k4, e4, k5, e5, rfl⟩ := hr
  have hk4 : labels_last_opt k4 = true := by
    split at e4
    · cases e4
    · rename_i lex3 c30 a b c d
      exact h30 _ rfl k4 e4
    · rename_i t3 hne
      apply h3 k4
      rw [compile_tree_opt]
      cases hct : compile_tree t3 with
      | none => rw [hct] at e4; cases e4
      | some n3 => rw [hct] at e4; exact e4
  apply labels_grouping_none
  repeat' apply labels_children_cons
  all_goals first
    | exact labels_children_nil
    | rfl
    | rfl
    | rfl
    | exact h0 _ e1
    | exact h1 _ e2
    | exact h2 _ e5
    | exact hk4
    | (split_ifs
       · rfl
       · rfl)

/-- In every intermediate tree that `compile_tree` returns, no instruction has an operand
after its label. -/
theorem compile_tree_labels : ∀ (t : FACT_tree) (n : inter_node),
    compile_tree t = some n → labels_last n = true := by
  have hrec : ∀ t : FACT_tree,
      (∀ n, compile_tree t = some n → labels_last_opt (some n) = true) ∧
      (∀ k, compile_tree_opt t.children0 = some k → labels_last_opt k = true) := by
    intro t
    refine @FACT_tree.rec
      (fun t => (∀ n, compile_tree t = some n → labels_last_opt (some n) = true) ∧
        (∀ k, compile_tree_opt t.children0 = some k → labels_last_opt k = true))
      (fun o => ∀ t, o = some t →
        (∀ n, compile_tree t = some n → labels_last_opt (some n) = true) ∧
        (∀ k, compile_tree_opt t.children0 = some k → labels_last_opt k = true)) ?_ ?_ ?_ t
    · intro id lexem c0 c1 c2 c3 next q0 q1 q2 q3 qn
      have h0 : ∀ k, compile_tree_opt c0 = some k → labels_last_opt k = true :=
        fun k hk => compile_tree_opt_labels (fun t ht => (q0 t ht).1) hk
      have h1 : ∀ k, compile_tree_opt c1 = some k → labels_last_opt k = true :=
        fun k hk => compile_tree_opt_labels (fun t ht => (q1 t ht).1) hk
      have h2 : ∀ k, compile_tree_opt c2 = some k → labels_last_opt k = true :=
        fun k hk => compile_tree_opt_labels (fun t ht => (q2 t ht).1) hk
      have h3 : ∀ k, compile_tree_opt c3 = some k → labels_last_opt k = true :=
        fun k hk => compile_tree_opt_labels (fun t ht => (q3 t ht).1) hk
      have hn : ∀ k, compile_tree_opt next = some k → labels_last_opt k = true :=
        fun k hk => compile_tree_opt_labels (fun t ht => (qn t ht).1) hk
      refine ⟨?_, h0⟩
      intro n hc
      by_cases hid : id = .E_FOR
      · subst hid
        exact compile_for_labels lexem c0 c1 c2 c3 next h0 h1 h2 h3
          (fun t3 ht3 => (q3 t3 ht3).2) hn n hc
      · exact compile_step_labels id lexem c0 c1 c2 c3 next hid h0 h1 h2
          (compile_args_labels c1) hn n hc
    · intro t h; cases h
    · intro val hv t h
      cases h
      exact hv
  exact fun t n hc => (hrec t).1 n hc

/-- In a tree without operand after a label, every instruction node is so. -/
theorem labels_last_insts :
    (∀ n : inter_node, labels_last n = true →
      ∀ inst ∈ n.insts, label_last inst.args = true) ∧
    (∀ o : Option inter_node, labels_last_opt o = true →
      ∀ inst ∈ inter_node.insts_opt o, label_last inst.args = true) ∧
    (∀ l : List (Option inter_node), labels_last_children l = true →
      ∀ inst ∈ inter_node.insts_children l, label_last inst.args = true) := by
  apply inter_node_induction
  · intro inst next ih h i hi
    rw [labels_last, Bool.and_eq_true] at h
    rw [inter_node.insts, List.mem_cons] at hi
    rcases hi with rfl | hi
    · exact h.1
    · exact ih h.2 i hi
  · intro children next ihc ihn h i hi
    rw [labels_last, Bool.and_eq_true] at h
    rw [inter_node.insts, List.mem_append] at hi
    rcases hi with hi | hi
    · exact ihc h.1 i hi
    · exact ihn h.2 i hi
  · intro _ i hi
    rw [inter_node.insts_opt] at hi
    cases hi
  · intro n ih h i hi
    exact ih h i hi
  · intro _ i hi
    rw [inter_node.insts_children] at hi
    cases hi
  · intro c cs ihc ihcs h i hi
    rw [labels_last_children, Bool.and_eq_true] at h
    rw [inter_node.insts_children, List.mem_append] at hi
    rcases hi with hi | hi
    · exact ihc h.1 i hi
    · exact ihcs h.2 i hi

/-- What `load` appends is, instruction by instruction and in order, the encoding of the
instruction nodes of the tree. -/
theorem load_insts :
    (∀ (n : inter_node) up prog prog1, load n up prog = some prog1 →
      ∃ code, prog1 = prog ++ code ∧
        List.Forall₂ (fun fmt inst => ∃ up1 off, load.inst inst up1 off = some fmt)
          code n.insts) ∧
    (∀ (o : Option inter_node) up prog prog1, load_opt o up prog = some prog1 →
      ∃ code, prog1 = prog ++ code ∧
        List.Forall₂ (fun fmt inst => ∃ up1 off, load.inst inst up1 off = some fmt)
          code (inter_node.insts_opt o)) ∧
    (∀ (l : List (Option inter_node)) all i prog prog1,
      load_children all l i prog = some prog1 →
      ∃ code, prog1 = prog ++ code ∧
        List.Forall₂ (fun fmt inst => ∃ up1 off, load.inst inst up1 off = some fmt)
          code (inter_node.insts_children l)) := by
  apply inter_node_induction
  · intro inst next ih up prog prog1 h
    rw [load] at h
    cases hf : load.inst inst up (Furlow_offset prog) with
    | none => rw [hf] at h; cases h
    | some fmt =>
      rw [hf] at h
      obtain ⟨code, hc, hl⟩ := ih none _ _ h
      refine ⟨fmt :: code, ?_, ?_⟩
      · rw [hc, Furlow_add_instruction]; simp
      · rw [inter_node.insts]
        exact List.Forall₂.cons ⟨up, _, hf⟩ hl
  · intro children next ihc ihn up prog prog1 h
    rw [load] at h
    cases hf : load_children children children 0 prog with
    | none => rw [hf] at h; cases h
    | some p =>
      rw [hf] at h
      obtain ⟨code1, hc1, hl1⟩ := ihc children 0 prog p hf
      obtain ⟨code2, hc2, hl2⟩ := ihn none _ _ h
      refine ⟨code1 ++ code2, ?_, ?_⟩
      · rw [hc2, hc1]; simp
      · rw [inter_node.insts]
        exact List.rel_append hl1 hl2
  · intro up prog prog1 h
    rw [load_opt] at h
    exact ⟨[], by simpa using (Option.some.inj h).symm, List.Forall₂.nil⟩
  · intro n ih up prog prog1 h
    rw [load_opt] at h
    exact ih up prog prog1 h
  · intro all i prog prog1 h
    rw [load_children] at h
    exact ⟨[], by simpa using (Option.some.inj h).symm, List.Forall₂.nil⟩
  · intro c cs ihc ihcs all i prog prog1 h
    rw [load_children] at h
    cases hf : load_opt c (some (all, i)) prog with
    | none => rw [hf] at h; cases h
    | some p =>
      rw [hf] at h
      obtain ⟨code1, hc1, hl1⟩ := ihc _ _ _ hf
      obtain ⟨code2, hc2, hl2⟩ := ihcs _ _ _ _ h
      refine ⟨code1 ++ code2, ?_, ?_⟩
      · rw [hc2, hc1]; simp
      · rw [inter_node.insts_children]
        exact List.rel_append hl1 hl2

/-- C13: instruction encoding. The instruction nodes that `load` encodes are those of the
trees that `compile_tree` returns (the parameter bindings of `compile_args` among them). For
every instruction node of such a tree, `load` emits the opcode followed, for each argument
in order up to the first empty argument slot, by exactly one byte for a register operand,
the four bytes (most significant first) of the resolved address for an address operand, and
the label's bytes and one terminating NUL for a label operand; the encoded length is 1 + the
number of register operands + 4 times the number of address operands + the label length + 1
if there is a label. `load` ends the encoding at a label, and in these trees the label is
always the last argument, so no argument is left out. The whole tree is loaded so: what
`load` appends is, in order, the encoding of each of its instruction nodes. -/
theorem instruction_encoding (t : FACT_tree) (n : inter_node)
    (hc : compile_tree t = some n) :
    (∀ inst ∈ n.insts, label_last inst.args = true) ∧
    (∀ inst ∈ n.insts, ∀ (up : Option (List (Option inter_node) × Nat)) (off : Nat),
      load.inst inst up off
        = (encode_operands up off (upto_empty inst.args)).map
            (fun b => ⟨inst.inst_val, b⟩) ∧
      ∀ fmt, load.inst inst up off = some fmt →
        fmt.inst_val = inst.inst_val ∧
        encode_operands up off (upto_empty inst.args) = some fmt.operands ∧
        fmt.operands.length + 1 = encoded_length (upto_empty inst.args)) ∧
    (∀ (up : Option (List (Option inter_node) × Nat)) (prog : List fmt_t),
      ∃ code, load n up prog = some (prog ++ code) ∧
        List.Forall₂ (fun fmt inst => fmt.inst_val = inst.inst_val ∧
            (∃ up1 off, encode_operands up1 off (upto_empty inst.args) = some fmt.operands) ∧
            fmt.operands.length + 1 = encoded_length (upto_empty inst.args))
          code n.insts) ∧
    (∀ (o : Option FACT_tree) (k : Option inter_node), compile_args o = some k →
      ∀ inst ∈ inter_node.insts_opt k, label_last inst.args = true) := by
  have hlast : ∀ inst ∈ n.insts, label_last inst.args = true :=
    labels_last_insts.1 n (compile_tree_labels t n hc)
  have henc : ∀ inst ∈ n.insts, ∀ (up : Option (List (Option inter_node) × Nat)) (off : Nat),
      load.inst inst up off
        = (encode_operands up off (upto_empty inst.args)).map
            (fun b => ⟨inst.inst_val, b⟩) ∧
      ∀ fmt, load.inst inst up off = some fmt →
        fmt.inst_val = inst.inst_val ∧
        encode_operands up off (upto_empty inst.args) = some fmt.operands ∧
        fmt.operands.length + 1 = encoded_length (upto_empty inst.args) := by
    intro inst hi up off
    have h := load_inst_encoding inst up off
    have hl := hlast inst hi
    refine ⟨?_, fun fmt hf => ⟨(h.2.1 fmt hf).1, h.2.2 hl fmt hf⟩⟩
    rw [← upto_label_eq_of_last inst.args hl]
    exact h.1
  refine ⟨hlast, henc, ?_, ?_⟩
  · intro up prog
    obtain ⟨prog1, h1⟩ := Option.isSome_iff_exists.1 (compile_tree_loads t n hc up prog)
    obtain ⟨code, hcode, hrel⟩ := load_insts.1 n up prog prog1 h1
    refine ⟨code, (show load n up prog = some prog1 from h1).trans (by rw [hcode]), ?_⟩
    have hmem : ∀ (l : List inst_t) (c : List fmt_t),
        (∀ inst ∈ l, inst ∈ n.insts) →
        List.Forall₂ (fun fmt inst => ∃ up1 off, load.inst inst up1 off = some fmt) c l →
        List.Forall₂ (fun fmt inst => fmt.inst_val = inst.inst_val ∧
            (∃ up1 off, encode_operands up1 off (upto_empty inst.args) = some fmt.operands) ∧
            fmt.operands.length + 1 = encoded_length (upto_empty inst.args)) c l := by
      intro l c hsub hr
      induction hr with
      | nil => exact List.Forall₂.nil
      | @cons fmt inst c1 l1 hd _ ih =>
        obtain ⟨up1, off, hf⟩ := hd
        have he := (henc inst (hsub inst (List.mem_cons_self _ _)) up1 off).2 fmt hf
        exact List.Forall₂.cons ⟨he.1, ⟨up1, off, he.2.1⟩, he.2.2⟩
          (ih (fun i hi => hsub i (List.mem_cons_of_mem _ hi)))
    exact hmem n.insts code (fun _ h => h) hrel
  · intro o k hk
    exact labels_last_insts.2.1 k (compile_args_labels o k hk)

theorem instruction_encoding_witness :
    compile_tree example_while
      = some (.grouping
          [inode .VAR [.LABEL "x".toList], inode .JIF [.REG_VAL R_POP, .ADDR_VAL 3],
           inode .VAR [.LABEL "y".toList], inode .JMP [.ADDR_VAL 0]] none) ∧
    load.inst (mk_inst .JIF [.REG_VAL R_POP, .ADDR_VAL 3])
        (some ([inode .VAR [.LABEL "x".toList], inode .JIF [.REG_VAL R_POP, .ADDR_VAL 3],
           inode .VAR [.LABEL "y".toList], inode .JMP [.ADDR_VAL 0]], 1)) 1
      = some ⟨.JIF, [0, 0, 0, 0, 4]⟩ ∧
    encode_operands
        (some ([inode .VAR [.LABEL "x".toList], inode .JIF [.REG_VAL R_POP, .ADDR_VAL 3],
           inode .VAR [.LABEL "y".toList], inode .JMP [.ADDR_VAL 0]], 1)) 1
        (upto_empty (mk_inst .JIF [.REG_VAL R_POP, .ADDR_VAL 3]).args)
      = some [0, 0, 0, 0, 4] ∧
    [0, 0, 0, 0, 4].length + 1
      = encoded_length (upto_empty (mk_inst .JIF [.REG_VAL R_POP, .ADDR_VAL 3]).args) :=
  have hc : compile_tree example_while
      = some (.grouping
          [inode .VAR [.LABEL "x".toList], inode .JIF [.REG_VAL R_POP, .ADDR_VAL 3],
           inode .VAR [.LABEL "y".toList], inode .JMP [.ADDR_VAL 0]] none) := by
    rfl
  have hf : load.inst (mk_inst .JIF [.REG_VAL R_POP, .ADDR_VAL 3])
        (some ([inode .VAR [.LABEL "x".toList], inode .JIF [.REG_VAL R_POP, .ADDR_VAL 3],
           inode .VAR [.LABEL "y".toList], inode .JMP [.ADDR_VAL 0]], 1)) 1
      = some ⟨.JIF, [0, 0, 0, 0, 4]⟩ := by
    decide
  ⟨hc, hf,
    (((instruction_encoding _ _ hc).2.1 (mk_inst .JIF [.REG_VAL R_POP, .ADDR_VAL 3])
      (by simp [inter_node.insts, inter_node.insts_children, inter_node.insts_opt, inode])
      _ 1).2 _ hf).2⟩

/-! ## The parameter list, from the tokens to the chain -/

theorem accept_param (decl : FACT_token) (rest : List FACT_token)
    (hdecl : decl.id ∈ [FACT_nterm_t.E_NUM_DEF, .E_SCOPE_DEF, .E_LOCAL_CHECK]) :
    accept.first (decl :: rest) [.E_NUM_DEF, .E_SCOPE_DEF, .E_LOCAL_CHECK]
      = .ok (some (accept.node decl.id decl.lexem)) rest := by
  rw [accept_first_plain decl rest _ (by decide)]
  simp only [hdecl, if_true]

/-- The loop of `func_dec` over the parameters after the first builds the chain that
`func_dec.args` describes: each parameter is linked in front of those read before. -/
theorem func_dec_loop_chain (comma stop : FACT_token) (rest : List FACT_token)
    (hcomma : comma.id = .E_COMMA) (hstop : stop.id ≠ .E_COMMA) :
    ∀ (ps : List (FACT_token × FACT_token)) (hold : FACT_tree),
      (∀ p ∈ ps, p.1.id ∈ [FACT_nterm_t.E_NUM_DEF, .E_SCOPE_DEF, .E_LOCAL_CHECK] ∧
        p.2.id = .E_VAR ∧ is_ident_valid p.2.lexem = true) →
      ∀ k, ∃ t, func_dec.loop (k + ps.length + 1) hold
            (more_param_tokens comma ps ++ stop :: rest) = .ok t (stop :: rest) ∧
        func_dec.args (param_nodes ps) (some hold) = some t := by
  intro ps
  induction ps with
  | nil =>
    intro hold _ k
    refine ⟨hold, ?_, rfl⟩
    rw [more_param_tokens, List.nil_append, func_dec.loop,
      accept_plain stop rest .E_COMMA (by decide) (by decide) (by decide) (by decide)]
    simp [hstop, parsed.bind]
  | cons p ps ih =>
    intro hold hps k
    obtain ⟨hd, hv, hvalid⟩ := hps p (List.mem_cons_self _ _)
    obtain ⟨t, ht, hargs⟩ := ih
      (((accept.node p.1.id p.1.lexem).set_children0
        (some (accept.node .E_VAR p.2.lexem))).set_children1 (some hold))
      (fun q hq => hps q (List.mem_cons_of_mem _ hq)) k
    refine ⟨t, ?_, ?_⟩
    · have e1 : k + (p :: ps).length + 1 = (k + ps.length + 1) + 1 := rfl
      rw [e1, more_param_tokens, List.cons_append, func_dec.loop,
        accept_plain comma _ .E_COMMA (by decide) (by decide) (by decide) (by decide)]
      simp only [hcomma, if_true, parsed.bind, List.cons_append]
      rw [accept_param p.1 _ hd]
      simp only
      rw [accept_var p.2 _ hv hvalid]
      simp only
      exact ht
    · rw [← hargs]
      rfl

/-- The parameter list of `func_dec`: the chain of the parameters, the last one first. -/
theorem func_dec_params_chain (comma stop : FACT_token) (rest : List FACT_token)
    (hcomma : comma.id = .E_COMMA)
    (hstop : stop.id ∉ [FACT_nterm_t.E_COMMA, .E_NUM_DEF, .E_SCOPE_DEF, .E_LOCAL_CHECK])
    (ps : List (FACT_token × FACT_token))
    (hps : ∀ p ∈ ps, p.1.id ∈ [FACT_nterm_t.E_NUM_DEF, .E_SCOPE_DEF, .E_LOCAL_CHECK] ∧
      p.2.id = .E_VAR ∧ is_ident_valid p.2.lexem = true) :
    ∀ k, func_dec.params (k + ps.length + 1) (param_tokens comma ps ++ stop :: rest)
      = .ok (func_dec.args (param_nodes ps) none) (stop :: rest) := by
  intro k
  have hs1 : stop.id ≠ .E_COMMA := fun h => hstop (by simp [h])
  have hs2 : stop.id ∉ [FACT_nterm_t.E_NUM_DEF, .E_SCOPE_DEF, .E_LOCAL_CHECK] := by
    intro h
    apply hstop
    exact List.mem_cons_of_mem _ h
  cases ps with
  | nil =>
    rw [param_tokens, List.nil_append, func_dec.params, accept_first_plain stop rest _ (by decide)]
    simp only [hs2, if_false, parsed.bind]
    rfl
  | cons p ps =>
    obtain ⟨hd, hv, hvalid⟩ := hps p (List.mem_cons_self _ _)
    obtain ⟨t, ht, hargs⟩ := func_dec_loop_chain comma stop rest hcomma hs1 ps
      ((accept.node p.1.id p.1.lexem).set_children0 (some (accept.node .E_VAR p.2.lexem)))
      (fun q hq => hps q (List.mem_cons_of_mem _ hq)) (k + 1)
    have e1 : k + (p :: ps).length + 1 = k + 1 + ps.length + 1 := by
      simp only [List.length_cons]
      omega
    rw [e1, param_tokens, List.cons_append, func_dec.params, accept_param p.1 _ hd]
    simp only [parsed.bind, List.cons_append]
    rw [accept_var p.2 _ hv hvalid]
    simp only
    rw [ht]
    simp only
    rw [← hargs]
    rfl

/-- The function `func_dec` on the tokens of a function definition: `children[1]` of the
node it returns is the chain of the parameters, the last one first. -/
theorem func_dec_chain (F : Nat) (head opening comma closing ocurl ccurl : FACT_token)
    (rest : List FACT_token)
    (hhead : head.id = .E_FUNC_DEF) (hopen : opening.id = .E_OP_PAREN)
    (hcomma : comma.id = .E_COMMA) (hclose : closing.id = .E_CL_PAREN)
    (hocurl : ocurl.id = .E_OP_CURL) (hccurl : ccurl.id = .E_CL_CURL)
    (ps : List (FACT_token × FACT_token))
    (hps : ∀ p ∈ ps, p.1.id ∈ [FACT_nterm_t.E_NUM_DEF, .E_SCOPE_DEF, .E_LOCAL_CHECK] ∧
      p.2.id = .E_VAR ∧ is_ident_valid p.2.lexem = true)
    (body : Option FACT_tree) (set_b : List FACT_token)
    (hbody : match body with
      | none => set_b = ccurl :: rest
      | some b => (∃ t0 tl, set_b = t0 :: tl ∧ t0.id ≠ .E_CL_CURL) ∧
          ∀ k, stmt_list (k + F) set_b = .ok b (ccurl :: rest)) :
    ∀ k, func_dec (k + F + ps.length + 2)
        (head :: opening :: (param_tokens comma ps ++ closing :: ocurl :: set_b)) false
      = .ok (.mk .E_FUNC_DEF head.lexem none (func_dec.args (param_nodes ps) none) body
          none none) rest := by
  intro k
  have e1 : k + F + ps.length + 2 = (k + F + ps.length + 1) + 1 := rfl
  have e2 : k + F + ps.length + 1 = (k + F) + ps.length + 1 := rfl
  rw [e1, func_dec]
  simp only [Bool.false_eq_true, if_false]
  rw [expect_plain head _ .E_FUNC_DEF (by decide) (by decide) (by decide) (by decide) hhead]
  simp only [parsed.bind]
  rw [expect_plain opening _ .E_OP_PAREN (by decide) (by decide) (by decide) (by decide) hopen]
  simp only
  rw [e2, func_dec_params_chain comma closing (ocurl :: set_b) hcomma
    (by rw [hclose]; decide) ps hps (k + F), ← e2]
  simp only
  rw [expect_plain closing _ .E_CL_PAREN (by decide) (by decide) (by decide) (by decide)
    hclose]
  simp only
  rw [expect_plain ocurl _ .E_OP_CURL (by decide) (by decide) (by decide) (by decide) hocurl]
  simp only
  cases body with
  | none =>
    simp only at hbody
    subst hbody
    simp only [check, hccurl, decide_True, Bool.not_true, Bool.false_eq_true, if_false]
    rw [expect_plain ccurl _ .E_CL_CURL (by decide) (by decide) (by decide) (by decide) hccurl]
    simp only [accept.node, FACT_tree.set_children1, FACT_tree.set_children2, hhead]
  | some b =>
    simp only at hbody
    obtain ⟨⟨t0, tl, rfl, hne⟩, hb⟩ := hbody
    have e3 : k + F + ps.length + 1 = (k + ps.length + 1) + F := by omega
    simp only [check, hne, decide_False, Bool.not_false, if_true]
    rw [e3, hb]
    simp only
    rw [expect_plain ccurl _ .E_CL_CURL (by decide) (by decide) (by decide) (by decide) hccurl]
    simp only [accept.node, FACT_tree.set_children1, FACT_tree.set_children2, hhead]

/-- C30: parameter bindings. For a function definition with the parameters `p1, ..., pn`
(in declaration order, each the token `num`, `scope` or `?` and a name), `func_dec` returns
the definition node whose `children[1]` is the chain of the parameters with the last
declared first (`func_dec.args`), and `compile_args` emits for that chain the binding blocks
of the parameters in the order `pn, ..., p1`, each block being exactly `CONST "0"`, `DEF_N`
or `DEF_S` on `R_POP` with the parameter's name, `SWAP`, `STO R_POP R_POP`, with `DEF_N`
exactly when the parameter is declared `num`; these are the instructions that the function
definition node puts after its `JMP`. Reading the instructions as the instruction table
does, with the arguments pushed left to right (the last argument on top of the stack), the
blocks bind each parameter to the argument of the same position, and take the arguments off
the stack. -/
theorem parameter_binding_order (F : Nat)
    (head opening comma closing ocurl ccurl : FACT_token) (rest : List FACT_token)
    (hhead : head.id = .E_FUNC_DEF) (hopen : opening.id = .E_OP_PAREN)
    (hcomma : comma.id = .E_COMMA) (hclose : closing.id = .E_CL_PAREN)
    (hocurl : ocurl.id = .E_OP_CURL) (hccurl : ccurl.id = .E_CL_CURL)
    (ps : List (FACT_token × FACT_token))
    (hps : ∀ p ∈ ps, p.1.id ∈ [FACT_nterm_t.E_NUM_DEF, .E_SCOPE_DEF, .E_LOCAL_CHECK] ∧
      p.2.id = .E_VAR ∧ is_ident_valid p.2.lexem = true)
    (body : Option FACT_tree) (set_b : List FACT_token)
    (hbody : match body with
      | none => set_b = ccurl :: rest
      | some b => (∃ t0 tl, set_b = t0 :: tl ∧ t0.id ≠ .E_CL_CURL) ∧
          ∀ k, stmt_list (k + F) set_b = .ok b (ccurl :: rest))
    (prog : List fmt_t) :
    (∀ k, func_dec (k + F + ps.length + 2)
        (head :: opening :: (param_tokens comma ps ++ closing :: ocurl :: set_b)) false
      = .ok (.mk .E_FUNC_DEF head.lexem none (func_dec.args (param_nodes ps) none) body
          none none) rest) ∧
    args_code (func_dec.args (param_nodes ps) none) prog
      = (binding_blocks (param_nodes ps).reverse).map plain_code ∧
    (∀ p ∈ ps,
      (binding_block (accept.node p.1.id p.1.lexem, accept.node .E_VAR p.2.lexem)).map
          plain_code
        = [⟨.CONST, [48, 0]⟩,
           ⟨if p.1.id = .E_NUM_DEF then .DEF_N else .DEF_S,
             R_POP :: (p.2.lexem.map Char.toNat ++ [0])⟩,
           ⟨.SWAP, []⟩, ⟨.STO, [R_POP, R_POP]⟩]) ∧
    (∀ (target next : Option FACT_tree) (n : inter_node),
      compile_tree (.mk .E_FUNC_DEF head.lexem target (func_dec.args (param_nodes ps) none)
          body none next) = some n →
      ∃ k1 k2 k5 knext,
        n = .grouping
          [inode .JMP [.ADDR_VAL 4], k1, k2, inode .CONST [.LABEL "0".toList], inode .RET [],
            k5, inode .SET_C [.REG_VAL R_TOP, .ADDR_VAL 1]] knext ∧
        ∀ (up : Option (List (Option inter_node) × Nat)) (p : List fmt_t),
          load_opt k1 up p
            = some (p ++ (binding_blocks (param_nodes ps).reverse).map plain_code)) ∧
    ∀ (args : List sym_val) (s : sym_arith) (this : sym_val) (below frames : List sym_val),
      args.length = ps.length → s.state.vstack = args.reverse ++ below →
      s.state.cstack = this :: frames →
      sym_exec_run (binding_blocks (param_nodes ps).reverse) s
        = some { s with state := { s.state with
            vstack := below,
            stored := List.zip (ps.map (fun p => sym_val.variable this p.2.lexem)) args
              ++ s.state.stored } } := by
  have h := chain_binding_order (param_nodes ps) prog
  refine ⟨func_dec_chain F head opening comma closing ocurl ccurl rest hhead hopen hcomma
    hclose hocurl hccurl ps hps body set_b hbody, h.1, ?_, ?_, ?_⟩
  · intro p _
    exact h.2.1 _
  · intro target next n hc
    exact h.2.2.1 head.lexem target body none next n hc
  · intro args s this below frames hlen hs hc
    have hr := h.2.2.2 args s this below frames (by simpa [param_nodes] using hlen) hs hc
    rw [hr]
    simp [param_nodes, List.map_map, Function.comp_def, accept.node, FACT_tree.lexem]

theorem parameter_binding_order_witness :
    (∀ k, func_dec (k + 0 + 2 + 2) example_func_tokens false
      = .ok (.mk .E_FUNC_DEF "@".toList none
          (some (.mk .E_SCOPE_DEF "scope".toList (some (tree_var "b"))
            (some (.mk .E_NUM_DEF "num".toList (some (tree_var "a")) none none none none))
            none none none))
          none none none) [end_tok]) ∧
    args_code
        (some (.mk .E_SCOPE_DEF "scope".toList (some (tree_var "b"))
          (some (.mk .E_NUM_DEF "num".toList (some (tree_var "a")) none none none none))
          none none none)) []
      = [⟨.CONST, [48, 0]⟩, ⟨.DEF_S, [0, 98, 0]⟩, ⟨.SWAP, []⟩, ⟨.STO, [0, 0]⟩,
         ⟨.CONST, [48, 0]⟩, ⟨.DEF_N, [0, 97, 0]⟩, ⟨.SWAP, []⟩, ⟨.STO, [0, 0]⟩] ∧
    sym_exec_run
        (binding_blocks (param_nodes [(tok .E_NUM_DEF "num", var_tok "a"),
          (tok .E_SCOPE_DEF "scope", var_tok "b")]).reverse)
        ⟨⟨[.given 2, .given 1, .given 9], fun _ => none, [.given 0], 0, []⟩, []⟩
      = some ⟨⟨[.given 9], fun _ => none, [.given 0], 0,
          [(.variable (.given 0) "a".toList, .given 1),
           (.variable (.given 0) "b".toList, .given 2)]⟩, []⟩ := by
  have hps : ∀ p ∈ [(tok .E_NUM_DEF "num", var_tok "a"), (tok .E_SCOPE_DEF "scope", var_tok "b")],
      p.1.id ∈ [FACT_nterm_t.E_NUM_DEF, .E_SCOPE_DEF, .E_LOCAL_CHECK] ∧
      p.2.id = .E_VAR ∧ is_ident_valid p.2.lexem = true := by
    intro p hp
    simp only [List.mem_cons, List.mem_singleton, List.not_mem_nil, or_false] at hp
    rcases hp with rfl | rfl <;> decide
  have h := parameter_binding_order 0 (tok .E_FUNC_DEF "@") (tok .E_OP_PAREN "(")
    (tok .E_COMMA ",") (tok .E_CL_PAREN ")") (tok .E_OP_CURL "\x7b") (tok .E_CL_CURL "\x7d")
    [end_tok] rfl rfl rfl rfl rfl rfl
    [(tok .E_NUM_DEF "num", var_tok "a"), (tok .E_SCOPE_DEF "scope", var_tok "b")] hps
    none [tok .E_CL_CURL "\x7d", end_tok] rfl []
  refine ⟨h.1, ?_, ?_⟩
  · refine h.2.1.trans ?_
    decide
  · exact h.2.2.2.2 [.given 1, .given 2]
      ⟨⟨[.given 2, .given 1, .given 9], fun _ => none, [.given 0], 0, []⟩, []⟩
      (.given 0) [.given 9] [] rfl rfl rfl

/-- C35 (counterexample): with the name before the brackets, `num k [p][q]`, `def_scalar`
finds no bracket after `num`: the declaration has no dimension, and `opt_pb` reads the
brackets as two element accesses on it. The code is that of `q`, `CONST "1"`, that of `p`,
`CONST "1"`, `CONST "0"`, `DEF_N k`, `ELEM`, `ELEM`: `k` is declared a scalar, and the code
is not that of `q`, that of `p`, `CONST "2"`, `DEF_N k`. -/
theorem dimension_order_counterexample :
    (∀ k, opt_pb (k + 16) example_name_first_tokens = .ok example_name_first [end_tok]) ∧
    FACT_compile (some example_name_first) []
      = some [⟨.VAR, [113, 0]⟩, ⟨.CONST, [49, 0]⟩, ⟨.VAR, [112, 0]⟩, ⟨.CONST, [49, 0]⟩,
          ⟨.CONST, [48, 0]⟩, ⟨.DEF_N, [0, 107, 0]⟩, ⟨.ELEM, [0, 0]⟩, ⟨.ELEM, [0, 0]⟩] ∧
    FACT_compile (some example_name_first) []
      ≠ some [⟨.VAR, [113, 0]⟩, ⟨.VAR, [112, 0]⟩, ⟨.CONST, [50, 0]⟩, ⟨.DEF_N, [0, 107, 0]⟩] := by
  have h : FACT_compile (some example_name_first) []
      = some [⟨.VAR, [113, 0]⟩, ⟨.CONST, [49, 0]⟩, ⟨.VAR, [112, 0]⟩, ⟨.CONST, [49, 0]⟩,
          ⟨.CONST, [48, 0]⟩, ⟨.DEF_N, [0, 107, 0]⟩, ⟨.ELEM, [0, 0]⟩, ⟨.ELEM, [0, 0]⟩] := by
    have hc : compile_tree example_name_first
        = some (.grouping
          [inode .VAR [.LABEL "q".toList], inode .CONST [.LABEL "1".toList],
           some (.grouping
            [inode .VAR [.LABEL "p".toList], inode .CONST [.LABEL "1".toList],
             some (.grouping
              [inode .CONST [.LABEL "0".toList],
               inode .DEF_N [.REG_VAL R_POP, .LABEL "k".toList]] none),
             inode .ELEM [.REG_VAL R_POP, .REG_VAL R_POP]] none),
           inode .ELEM [.REG_VAL R_POP, .REG_VAL R_POP]] none) := by
      have hd : compile_tree (.mk .E_NUM_DEF "num".toList none (some (tree_var "k")) none
          none none)
          = some (.grouping
            [inode .CONST [.LABEL "0".toList],
             inode .DEF_N [.REG_VAL R_POP, .LABEL "k".toList]] none) := by
        simp [compile_tree, count_dims, tree_var, compile_tree_opt, inter_node.set_next]
      have hq : compile_tree (tree_var "q") = inode .VAR [.LABEL "q".toList] := rfl
      have hp : compile_tree (tree_var "p") = inode .VAR [.LABEL "p".toList] := rfl
      have he : ∀ (c0 c1 : FACT_tree) (k0 k1 : inter_node), compile_tree c0 = some k0 →
          compile_tree c1 = some k1 →
          compile_tree (.mk .E_ARRAY_ELEM "[".toList (some c0) (some c1) none none none)
            = some (.grouping [some k0, inode .CONST [.LABEL "1".toList], some k1,
                inode .ELEM [.REG_VAL R_POP, .REG_VAL R_POP]] none) := by
        intro c0 c1 k0 k1 h0 h1
        simp [compile_tree, compile_tree_opt, h0, h1, inter_node.set_next]
      exact he _ _ _ _ hq (he _ _ _ _ hp hd)
    rw [FACT_compile, compile_tree_opt, hc]
    decide
  refine ⟨fun _ => rfl, h, ?_⟩
  rw [h]
  decide

end FACT
